import Mathlib

/-!
Verification of the `treewise` forest library.

The library manipulates a mutable object graph of tree nodes
(`TTreeNode<T>`: a `value` with an integer `id`, an optional `children`
array and an optional `parent` back-reference), owned by a `Treewise`
class holding `roots` (an array of root nodes) and `nodeIndex`
(a JavaScript `Map` from id to node).

Shallow embedding used throughout this file:

* a JS object reference to a node is a natural number (`NodeId`) indexing
  into an explicit store (`Forest.store : List NodeRec`); mutation of a
  node object is functional update of its record in the store.  Objects
  are never freed: removal operations only unlink nodes, exactly as in a
  garbage-collected runtime where the caller may retain references;
* the optional `children` array is modelled as a plain list, with the
  absent (`undefined`) array identified with the empty list.  Every
  operation of the library treats the two identically (`if (node.children)`
  guards followed by iteration/`indexOf`), except for the wording of the
  error thrown by `removeNode` on a malformed node, which the spec's
  taxonomy classifies as the same `NotFound` condition either way;
* node values (`T extends Identifiable`) are modelled by a concrete record
  `Value` with the mandatory `id` field plus one extra payload field
  (`data`), standing for the remaining application fields;
* the JS `Map` used for the index is modelled as an association list with
  `Map.set` / `Map.delete` / `Map.get` semantics (`mapSet` overwrites in
  place, `mapDelete` removes the key, keys stay unique because the library
  only touches the index through these two operations);
* loops that walk the object graph (`parent` chains, recursive descents
  over `children`) take a fuel argument: on the acyclic graphs the
  library's invariants describe, a fuel of `store.length + 1` is always
  sufficient, and the theorems below only use the functions in such
  states.  Fuel exhaustion models the nontermination a cyclic graph would
  cause in JS.
-/

namespace Treewise

/-- Node identity: a JS object reference, i.e. a position in the store. -/
abbrev NodeId := Nat

/-- Model of a `T extends Identifiable` value: the mandatory `id` plus one
opaque payload field standing for the rest of the application data. -/
structure Value where
  id : Int
  data : Int
deriving DecidableEq

/-- Model of a `TTreeNode<T>` object: `value`, `children` (absent array
identified with `[]`) and `parent` (`undefined` modelled as `none`). -/
structure NodeRec where
  value : Value
  children : List NodeId
  parent : Option NodeId
deriving DecidableEq

/-- Lookup in the JS `Map` model (`Map.get`). -/
def mapGet (m : List (Int × NodeId)) (k : Int) : Option NodeId :=
  match m with
  | [] => none
  | (k', v) :: rest => if k' = k then some v else mapGet rest k

/-- Insertion in the JS `Map` model (`Map.set`): overwrites an existing key
in place, otherwise appends. -/
def mapSet (m : List (Int × NodeId)) (k : Int) (v : NodeId) : List (Int × NodeId) :=
  match m with
  | [] => [(k, v)]
  | (k', v') :: rest => if k' = k then (k, v) :: rest else (k', v') :: mapSet rest k v

/-- Deletion in the JS `Map` model (`Map.delete`). -/
def mapDelete (m : List (Int × NodeId)) (k : Int) : List (Int × NodeId) :=
  match m with
  | [] => []
  | (k', v') :: rest => if k' = k then rest else (k', v') :: mapDelete rest k

/-- Model of a `Treewise` instance: the node store (the reachable portion of
the JS heap), the `roots` array and the `nodeIndex` map.  The version tag
`treeVersion` is the constant `1` in the source and is modelled by the
constant `treeVersion` below. -/
structure Forest where
  store : List NodeRec
  roots : List NodeId
  index : List (Int × NodeId)
deriving DecidableEq

/-- Model of `private treeVersion = 1`. -/
def treeVersion : Int := 1

/-- Model of `new Treewise()` (no initial root). -/
def emptyForest : Forest := ⟨[], [], []⟩

/-- Reading a node record through a reference. -/
def getNode (f : Forest) (n : NodeId) : Option NodeRec :=
  f.store[n]?

/-- Reading `node.children` (absent array read as `[]`). -/
def childrenOf (f : Forest) (n : NodeId) : List NodeId :=
  match getNode f n with
  | some r => r.children
  | none => []

/-- Reading `node.parent`. -/
def parentOf (f : Forest) (n : NodeId) : Option NodeId :=
  match getNode f n with
  | some r => r.parent
  | none => none

/-- Reading `node.value.id` (the default `0` is never reached on valid
references; it stands for the undefined access JS would perform). -/
def valueIdOf (f : Forest) (n : NodeId) : Int :=
  match getNode f n with
  | some r => r.value.id
  | none => 0

/-- Reading `node.value`. -/
def valueOf (f : Forest) (n : NodeId) : Value :=
  match getNode f n with
  | some r => r.value
  | none => ⟨0, 0⟩

/-- Writing one node record (mutation of a JS node object). -/
def setNode (f : Forest) (n : NodeId) (r : NodeRec) : Forest :=
  { f with store := f.store.set n r }

/-- Mutation `node.parent = p`. -/
def setParent (f : Forest) (n : NodeId) (p : Option NodeId) : Forest :=
  match getNode f n with
  | some r => setNode f n { r with parent := p }
  | none => f

/-- Mutation `node.children = cs`. -/
def setChildren (f : Forest) (n : NodeId) (cs : List NodeId) : Forest :=
  match getNode f n with
  | some r => setNode f n { r with children := cs }
  | none => f

/-- Model of `private indexNodeAndChildren(node)`: insert `(id, node)` for
the whole subtree, node first, children in order. -/
def indexNodeAndChildren (f : Forest) : Nat → NodeId → Forest
  | 0, _ => f
  | fuel + 1, n =>
    let f1 := { f with index := mapSet f.index (valueIdOf f n) n }
    (childrenOf f n).foldl (fun acc c => indexNodeAndChildren acc fuel c) f1

/-- Model of `private unindexNodeAndChildren(node)`: delete the ids of the
whole subtree from the index. -/
def unindexNodeAndChildren (f : Forest) : Nat → NodeId → Forest
  | 0, _ => f
  | fuel + 1, n =>
    let f1 := { f with index := mapDelete f.index (valueIdOf f n) }
    (childrenOf f n).foldl (fun acc c => unindexNodeAndChildren acc fuel c) f1

/-- Standard fuel for graph walks: one more than the store size, enough for
any acyclic walk. -/
def walkFuel (f : Forest) : Nat :=
  f.store.length + 1

/-- Model of `addRoot(node)`: clear the node's parent link, push it onto
`roots`, index its subtree. -/
def addRoot (f : Forest) (n : NodeId) : Forest :=
  let f1 := setParent f n none
  let f2 := { f1 with roots := f1.roots ++ [n] }
  indexNodeAndChildren f2 (walkFuel f2) n

/-- Errors of the library, following the spec's taxonomy.  `versionMismatch`
carries the version found in the payload (the raw `parsed.version`
value, absent field modelled as `none`) and the expected version. -/
inductive TreeErr where
  | invalidArgument
  | notFound
  | circularReference
  | versionMismatch (found : Option Int) (expected : Int)
  | malformedData
deriving DecidableEq

/-- Model of `removeAllRoots()`. -/
def removeAllRoots (f : Forest) : Forest :=
  let f1 := f.roots.foldl (fun acc r => unindexNodeAndChildren acc (walkFuel acc) r) f
  { f1 with roots := [] }

/-- Allocation of a fresh `{ value: v, parent: p }` object (no children
array), returning its reference.  Used by `addNodeAsChild` and by the
operation layer for caller-built `{ value: v }` literals. -/
def allocNode (f : Forest) (v : Value) (p : Option NodeId) : Forest × NodeId :=
  ({ f with store := f.store ++ [⟨v, [], p⟩] }, f.store.length)

/-- Model of `addNodeAsChild(parentNode, childValue)`.  `none` arguments
model `null`/`undefined` (the `!parentNode || !childValue` guard). -/
def addNodeAsChild (f : Forest) (p : Option NodeId) (v : Option Value) :
    Option TreeErr × Forest :=
  match p, v with
  | some p, some v =>
    let (f1, c) := allocNode f v (some p)
    let f2 := setChildren f1 p (childrenOf f1 p ++ [c])
    (none, indexNodeAndChildren f2 (walkFuel f2) c)
  | _, _ => (some .invalidArgument, f)

/-- Model of `addChildren(parentNode, childValues)` (the `childValues`
array is always an array here, so the `!Array.isArray` branch needs no
separate argument encoding). -/
def addChildren (f : Forest) (p : Option NodeId) (vs : List Value) :
    Option TreeErr × Forest :=
  match p with
  | some p =>
    vs.foldl
      (fun acc v =>
        match acc with
        | (some e, g) => (some e, g)
        | (none, g) => addNodeAsChild g (some p) (some v))
      ((none : Option TreeErr), f)
  | none => (some .invalidArgument, f)

/-- Model of `removeNode(targetNode)`. -/
def removeNode (f : Forest) (n : Option NodeId) : Option TreeErr × Forest :=
  match n with
  | none => (some .invalidArgument, f)
  | some n =>
    if n ∈ f.roots then
      let f1 := { f with roots := f.roots.erase n }
      (none, unindexNodeAndChildren f1 (walkFuel f1) n)
    else
      match parentOf f n with
      | none => (some .notFound, f)
      | some q =>
        if n ∈ childrenOf f q then
          let f1 := setChildren f q ((childrenOf f q).erase n)
          (none, unindexNodeAndChildren f1 (walkFuel f1) n)
        else (some .notFound, f)

/-- Model of `removeChildren(parentNode, childNodes)`: each node must have
`parent === parentNode`, then is removed via `removeNode`; a failure
propagates immediately, leaving earlier removals in place. -/
def removeChildren (f : Forest) (p : Option NodeId) (ns : List NodeId) :
    Option TreeErr × Forest :=
  match p with
  | some p =>
    ns.foldl
      (fun acc n =>
        match acc with
        | (some e, g) => (some e, g)
        | (none, g) =>
          if parentOf g n = some p then removeNode g (some n)
          else (some .invalidArgument, g))
      ((none : Option TreeErr), f)
  | none => (some .invalidArgument, f)

/-- Model of the ancestor-chain walk in `isAncestorOf(ancestor, descendant)`:
walk `current = descendant.parent` upward looking for `ancestor`. -/
def ancestorChainHas (f : Forest) : Nat → Option NodeId → NodeId → Bool
  | 0, _, _ => false
  | _, none, _ => false
  | fuel + 1, some cur, a => if cur = a then true else ancestorChainHas f fuel (parentOf f cur) a

/-- Model of `isAncestorOf(ancestor, descendant)`. -/
def isAncestorOf (f : Forest) (a d : NodeId) : Bool :=
  ancestorChainHas f (walkFuel f) (parentOf f d) a

/-- Model of `moveNode(node, newParent)` (the full implementation at lines
910-937, not the earlier stub): circular check, detach from roots or from
the recorded parent's children, reattach under the new parent. -/
def moveNode (f : Forest) (node newParent : Option NodeId) : Option TreeErr × Forest :=
  match node, newParent with
  | some n, some p =>
    if isAncestorOf f n p then (some .circularReference, f)
    else
      let f1 :=
        if n ∈ f.roots then { f with roots := f.roots.erase n }
        else
          match parentOf f n with
          | some q => setChildren f q ((childrenOf f q).erase n)
          | none => f
      let f2 := setParent f1 n (some p)
      let f3 := setChildren f2 p (childrenOf f2 p ++ [n])
      (none, f3)
  | _, _ => (some .invalidArgument, f)

/-- Model of the iterative pre-order loop in `traverseSubtree` (strategy
`pre-order`): pop an entry, visit it, and unless the depth bound is
reached push its children so that the leftmost is processed next.  The
visit callback is modelled by collecting the `(node, depth)` pairs in
visit order. -/
def preAux (f : Forest) : Nat → List (NodeId × Nat) → Option Nat → List (NodeId × Nat)
  | 0, _, _ => []
  | _, [], _ => []
  | fuel + 1, (n, d) :: stack, maxDepth =>
    let expand :=
      match maxDepth with
      | some md => if md ≤ d then [] else (childrenOf f n).map (fun c => (c, d + 1))
      | none => (childrenOf f n).map (fun c => (c, d + 1))
    (n, d) :: preAux f fuel (expand ++ stack) maxDepth

/-- Fuel for a full traversal: enough to visit every stored node once per
root (the traversals below are only used on represented forests, where
each root's subtree has at most `store.length` nodes). -/
def traverseFuel (f : Forest) : Nat :=
  f.store.length + 1

/-- Model of `traverse(callback, 'pre-order', maxDepth)` across all roots,
collecting the visited `(node, depth)` pairs. -/
def traverseList (f : Forest) (maxDepth : Option Nat) : List (NodeId × Nat) :=
  (f.roots.map (fun r => preAux f (traverseFuel f) [(r, 0)] maxDepth)).flatten

/-- Model of the BFS loop body of `traverseBreadthFirst`: a FIFO queue,
visiting the head and enqueueing its children at the back unless the
depth bound is reached. -/
def bfsAux (f : Forest) : Nat → List (NodeId × Nat) → Option Nat → List (NodeId × Nat)
  | 0, _, _ => []
  | _, [], _ => []
  | fuel + 1, (n, d) :: queue, maxDepth =>
    let expand :=
      match maxDepth with
      | some md => if md ≤ d then [] else (childrenOf f n).map (fun c => (c, d + 1))
      | none => (childrenOf f n).map (fun c => (c, d + 1))
    (n, d) :: bfsAux f fuel (queue ++ expand) maxDepth

/-- Model of `traverseBreadthFirst(callback, maxDepth)`: one fresh queue
per root, seeded with that root alone, processed to exhaustion before the
next root starts (this is the structure of the source loop). -/
def traverseBreadthFirstList (f : Forest) (maxDepth : Option Nat) : List (NodeId × Nat) :=
  (f.roots.map (fun r => bfsAux f (traverseFuel f) [(r, 0)] maxDepth)).flatten

/-- Model of `countNodes()` (`nodeIndex.size`). -/
def countNodes (f : Forest) : Nat :=
  f.index.length

/-- Model of the `while (current) - path.unshift(current) - current =
current.parent` loop of `getPath`, accumulating into the already-built
suffix. -/
def getPathAux (f : Forest) : Nat → Option NodeId → List NodeId → List NodeId
  | 0, _, acc => acc
  | _, none, acc => acc
  | fuel + 1, some n, acc => getPathAux f fuel (parentOf f n) (n :: acc)

/-- Model of `getPath(node)`: root-to-node order. -/
def getPath (f : Forest) (n : NodeId) : List NodeId :=
  getPathAux f (walkFuel f) (some n) []

/-- Length of the longest common prefix of two lists; mirrors the
`commonAncestorIndex` scan of `findPath`. -/
def commonPrefLen : List NodeId → List NodeId → Nat
  | x :: xs, y :: ys => if x = y then commonPrefLen xs ys + 1 else 0
  | _, _ => 0

/-- Model of `findPath(from, to)`: `null` when the two root-to-node paths
share no first element, otherwise the reversed path suffix from `from`
down to the last common element concatenated with the rest of the path to
`to`. -/
def findPath (f : Forest) (a b : NodeId) : Option (List NodeId) :=
  let fromPath := getPath f a
  let toPath := getPath f b
  let k := commonPrefLen fromPath toPath
  if k = 0 then none
  else some ((fromPath.drop (k - 1)).reverse ++ toPath.drop k)

/-- Model of `getAncestors(node)`: the parent chain, nearest first. -/
def getAncestorsAux (f : Forest) : Nat → Option NodeId → List NodeId
  | 0, _ => []
  | _, none => []
  | fuel + 1, some n => n :: getAncestorsAux f fuel (parentOf f n)

/-- Model of `getAncestors(node)`. -/
def getAncestors (f : Forest) (n : NodeId) : List NodeId :=
  getAncestorsAux f (walkFuel f) (parentOf f n)

/-- Flat record produced by `serializeFlat`: the spread of the node's value
plus the `parentId` field. -/
structure FlatRec where
  id : Int
  data : Int
  parentId : Option Int
deriving DecidableEq

/-- Model of `serializeFlat()`: one record per node in `traverse` order
(pre-order across all roots); `parentId` is the parent's `value.id`, or
`null` for a parentless node. -/
def serializeFlat (f : Forest) : List FlatRec :=
  (traverseList f none).map fun (n, _) =>
    { id := (valueOf f n).id
      data := (valueOf f n).data
      parentId := (parentOf f n).map fun q => (valueOf f q).id }

/-- First pass of `deserializeFlat`: create one fresh `{ value }` node per
record (in record order) and record it in `nodeMap` (a JS `Map`, so a
duplicate id overwrites). -/
def flatPassOne (f : Forest) (records : List FlatRec) : Forest × List (Int × NodeId) :=
  records.foldl
    (fun (acc : Forest × List (Int × NodeId)) r =>
      let (f1, n) := allocNode acc.1 ⟨r.id, r.data⟩ none
      (f1, mapSet acc.2 r.id n))
    (f, [])

/-- Second pass of `deserializeFlat` for one record: a `null` parent id
makes the node a root (via `addRoot`); otherwise the parent is resolved in
`nodeMap`, and when found the node is linked under it and indexed -- an
unresolved parent id is silently skipped. -/
def flatPassTwoStep (nodeMap : List (Int × NodeId)) (f : Forest) (r : FlatRec) : Forest :=
  match mapGet nodeMap r.id with
  | none => f
  | some n =>
    match r.parentId with
    | none => addRoot f n
    | some pid =>
      match mapGet nodeMap pid with
      | none => f
      | some p =>
        let f1 := setParent f n (some p)
        let f2 := setChildren f1 p (childrenOf f1 p ++ [n])
        indexNodeAndChildren f2 (walkFuel f2) n

/-- Model of `deserializeFlat(flatData)`: clear the forest, materialize all
nodes, then link each record to its resolved parent.  The source never
throws here (`nodeMap.get(item.id)!` always succeeds because every
record's own id was inserted in the first pass), so the model is total. -/
def deserializeFlat (f : Forest) (records : List FlatRec) : Forest :=
  let f0 := removeAllRoots f
  let (f1, nodeMap) := flatPassOne f0 records
  records.foldl (flatPassTwoStep nodeMap) f1

/-- Parse tree of a JSON text.  Serialized text is modelled by the tree the
JS `JSON.parse` of it would produce; `JSON.stringify` and `JSON.parse`
are mutually inverse on the values the library writes, so the textual
step is the identity on this representation.  Numbers are integers here
(ids and the version tag are integral in every observable of the
claims). -/
inductive Json where
  | null : Json
  | bool (b : Bool) : Json
  | num (n : Int) : Json
  | str (s : String) : Json
  | arr (elements : List Json) : Json
  | obj (fields : List (String × Json)) : Json

/-- Property access `j.name` on a parsed value: `none` models the JS
`undefined` result (missing field or non-object receiver). -/
def jsonGet (j : Json) (name : String) : Option Json :=
  match j with
  | .obj fields =>
    match fields.find? (fun kv => kv.1 = name) with
    | some kv => some kv.2
    | none => none
  | _ => none

/-- Shape of one serialized node in the versioned format: its `value` and
its `children`, with the `parent` key stripped by the replacer. -/
inductive STree where
  | mk (value : Value) (children : List STree) : STree

/-- Value carried by a serialized node. -/
def STree.value : STree → Value
  | .mk v _ => v

/-- Children of a serialized node. -/
def STree.children : STree → List STree
  | .mk _ cs => cs

mutual

/-- Number of nodes of a serialized subtree. -/
def sizeS : STree → Nat
  | .mk _ cs => 1 + sizeSL cs

/-- Number of nodes of a serialized subtree list. -/
def sizeSL : List STree → Nat
  | [] => 0
  | t :: ts => sizeS t + sizeSL ts

end

/-- Encoding of a value into its JSON object (field order as written by
`JSON.stringify` on the model's `Value`). -/
def valueToJson (v : Value) : Json :=
  .obj [("id", .num v.id), ("data", .num v.data)]

mutual

/-- Encoding of a serialized node into JSON, mirroring `JSON.stringify`
with the `parent`-dropping replacer: only `value` and `children` keys. -/
def sTreeToJson : STree → Json
  | .mk v cs => .obj [("value", valueToJson v), ("children", .arr (sTreeListToJson cs))]

/-- Encoding of a list of serialized nodes. -/
def sTreeListToJson : List STree → List Json
  | [] => []
  | t :: ts => sTreeToJson t :: sTreeListToJson ts

end

/-- Reading an integer out of a parsed field; a missing or non-numeric
field is read as `0`, standing for the `undefined` JS would propagate (no
claim exercises this default). -/
def jsonToInt (j : Option Json) : Int :=
  match j with
  | some (.num n) => n
  | _ => 0

/-- Reading a parsed node's `value` permissively, as JS property access
does. -/
def jsonToValue (j : Option Json) : Value :=
  match j with
  | some jv => ⟨jsonToInt (jsonGet jv "id"), jsonToInt (jsonGet jv "data")⟩
  | none => ⟨0, 0⟩

mutual

/-- Structural size of a parsed value, used to bound decoding recursion. -/
def jsonSize : Json → Nat
  | .arr l => 1 + jsonListSize l
  | .obj fs => 1 + jsonFieldsSize fs
  | _ => 1

/-- Structural size of a list of parsed values. -/
def jsonListSize : List Json → Nat
  | [] => 0
  | j :: js => jsonSize j + jsonListSize js

/-- Structural size of the fields of a parsed object. -/
def jsonFieldsSize : List (String × Json) → Nat
  | [] => 0
  | (_, j) :: fs => jsonSize j + jsonFieldsSize fs

end

/-- Reading a parsed node object permissively: its `value` and `children`
fields, a missing or non-array `children` read as no children.  The fuel
only bounds the recursion depth; `jsonSize` fuel always suffices. -/
def jsonToSTreeF : Nat → Json → STree
  | 0, _ => .mk ⟨0, 0⟩ []
  | fuel + 1, j =>
    .mk (jsonToValue (jsonGet j "value"))
      (match jsonGet j "children" with
       | some (.arr l) => l.map (jsonToSTreeF fuel)
       | _ => [])

/-- Reading a list of parsed node objects. -/
def jsonListToSTrees (js : List Json) : List STree :=
  js.map (jsonToSTreeF (jsonListSize js))

mutual

/-- Materialization of the parsed node objects into the store (the heap
cells `JSON.parse` creates): children are allocated first, then the node
itself, with `parent` initially absent.  Returns the extended store and
the reference of the allocated node. -/
def allocT (st : List NodeRec) : STree → List NodeRec × NodeId
  | .mk v cs =>
    let (st1, as1) := allocTL st cs
    (st1 ++ [⟨v, as1, none⟩], st1.length)

/-- Materialization of a list of parsed node objects, returning their
references in order. -/
def allocTL (st : List NodeRec) : List STree → List NodeRec × List NodeId
  | [] => (st, [])
  | t :: ts =>
    let (st1, a) := allocT st t
    let (st2, as2) := allocTL st1 ts
    (st2, a :: as2)

end

/-- Model of `private reconstructParentReferences(node, parent)`: set
`node.parent` (with `null` coerced to absent) and recurse into the
children. -/
def reconstructParentReferences (f : Forest) : Nat → NodeId → Option NodeId → Forest
  | 0, _, _ => f
  | fuel + 1, n, p =>
    let f1 := setParent f n p
    (childrenOf f1 n).foldl (fun acc c => reconstructParentReferences acc fuel c (some n)) f1

mutual

/-- Reading one node of the live forest back as its serialized shape; this
is what `JSON.stringify` with the `parent`-dropping replacer observes.
`none` models the exception a cyclic graph would cause. -/
def readSTree (f : Forest) : Nat → NodeId → Option STree
  | 0, _ => none
  | fuel + 1, n =>
    match readSTreeList f fuel (childrenOf f n) with
    | some cs => some (.mk (valueOf f n) cs)
    | none => none

/-- Reading a list of nodes back as serialized shapes. -/
def readSTreeList (f : Forest) : Nat → List NodeId → Option (List STree)
  | _, [] => some []
  | fuel, n :: ns =>
    match readSTree f fuel n, readSTreeList f fuel ns with
    | some t, some ts => some (t :: ts)
    | _, _ => none

end

/-- Model of `serialize()`: the parse tree of the JSON text
`{"version": treeVersion, "roots": [...]}` with `parent` keys dropped.
`none` models the `JSON.stringify` failure on a cyclic graph. -/
def serializeJson (f : Forest) : Option Json :=
  match readSTreeList f (walkFuel f) f.roots with
  | some ts => some (.obj [("version", .num treeVersion), ("roots", .arr (sTreeListToJson ts))])
  | none => none

/-- Commit phase of `deserialize` once the checks passed: the parsed root
objects become the forest's roots wholesale, the index is cleared, and
each root's subtree gets its parent links rebuilt and is re-indexed. -/
def commitRoots (f : Forest) (ss : List STree) : Forest :=
  let (st1, rootIds) := allocTL f.store ss
  let f1 : Forest := { store := st1, roots := rootIds, index := [] }
  f1.roots.foldl
    (fun acc r =>
      let acc1 := reconstructParentReferences acc (walkFuel acc) r none
      indexNodeAndChildren acc1 (walkFuel acc1) r)
    f1

/-- Model of `deserialize(dataPromise)` applied to the resolved and parsed
input (the method suspends only to await its input, so the forest passed
here is the forest as of resolution time; no mutation precedes this
point).  Checks `parsed.version !== treeVersion` first, then that
`parsed.roots` is an array, and only then rebuilds the forest. -/
def deserialize (f : Forest) (j : Json) : Option TreeErr × Forest :=
  match jsonGet j "version" with
  | some (.num v) =>
    if v = treeVersion then
      match jsonGet j "roots" with
      | some (.arr rootsJ) => (none, commitRoots f (jsonListToSTrees rootsJ))
      | _ => (some .malformedData, f)
    else (some (.versionMismatch (some v) treeVersion), f)
  | _ => (some (.versionMismatch none treeVersion), f)

/-! ## Pure view of a forest

A well-formed forest state is described by a list of decorated rose trees:
each tree node carries the store reference (`adr`) of the node object it
stands for, its value, and its children.  `Represents f ts` states that
`f`'s object graph is exactly the forest `ts`: roots match, every node
record holds the value, children references and parent reference the tree
prescribes, references and ids are globally distinct, and the index holds
exactly the `(id, reference)` pairs of the trees. -/

/-- Decorated rose tree: one node of the pure view. -/
inductive PTree where
  | mk (adr : NodeId) (value : Value) (children : List PTree) : PTree

/-- Store reference of a pure node. -/
def PTree.adr : PTree → NodeId
  | .mk a _ _ => a

/-- Value of a pure node. -/
def PTree.value : PTree → Value
  | .mk _ v _ => v

/-- Children of a pure node. -/
def PTree.children : PTree → List PTree
  | .mk _ _ cs => cs

/-- Everything `Represents` needs to know about one node: its reference,
value, children references and parent reference. -/
structure FEntry where
  adr : NodeId
  value : Value
  children : List NodeId
  parent : Option NodeId
deriving DecidableEq

/-- Node record an entry prescribes. -/
def FEntry.toRec (e : FEntry) : NodeRec :=
  ⟨e.value, e.children, e.parent⟩

mutual

/-- Pre-order flattening of one pure tree into its entries, given the
parent reference of its root. -/
def flatsP (par : Option NodeId) : PTree → List FEntry
  | .mk a v cs => ⟨a, v, cs.map PTree.adr, par⟩ :: flatsPL (some a) cs

/-- Pre-order flattening of a list of pure trees. -/
def flatsPL (par : Option NodeId) : List PTree → List FEntry
  | [] => []
  | t :: ts => flatsP par t ++ flatsPL par ts

end

/-- Entries of a whole pure forest (roots are parentless). -/
def flatsF (ts : List PTree) : List FEntry :=
  flatsPL none ts

/-- References of all nodes of a pure forest, in pre-order. -/
def adrList (ts : List PTree) : List NodeId :=
  (flatsF ts).map FEntry.adr

/-- Ids of all nodes of a pure forest, in pre-order. -/
def idList (ts : List PTree) : List Int :=
  (flatsF ts).map fun e => e.value.id

/-- Index pairs a pure forest prescribes. -/
def pairList (ts : List PTree) : List (Int × NodeId) :=
  (flatsF ts).map fun e => (e.value.id, e.adr)

/-- Store correctness: every node record is exactly what the pure view
prescribes. -/
def StoreOK (store : List NodeRec) (ts : List PTree) : Prop :=
  ∀ e ∈ flatsF ts, store[e.adr]? = some e.toRec

/-- Well-formed forest state with pure view `ts`. -/
def Represents (f : Forest) (ts : List PTree) : Prop :=
  f.roots = ts.map PTree.adr ∧ StoreOK f.store ts ∧ (adrList ts).Nodup ∧
    (idList ts).Nodup ∧ f.index.Perm (pairList ts)

/-- Decidability of `Represents` at concrete inputs. -/
instance (f : Forest) (ts : List PTree) : Decidable (Represents f ts) := by
  unfold Represents StoreOK
  infer_instance

/-! ## Public mutation operations as a step language

One constructor per public mutation method.  Node arguments are store
references; `addRoot v` stands for the caller invoking
`tree.addRoot({ value: v })` on a freshly built node literal, which is how
the constructor and the test-suite use it. -/

/-- One public mutation call. -/
inductive Op where
  | addRoot (v : Value)
  | addNodeAsChild (p : NodeId) (v : Value)
  | addChildren (p : NodeId) (vs : List Value)
  | removeNode (n : NodeId)
  | removeChildren (p : NodeId) (ns : List NodeId)
  | removeAllRoots
  | moveNode (n p : NodeId)
deriving DecidableEq

/-- State after one public mutation call returns (normally or by
throwing; a throwing call leaves the state its partial mutations, if any,
produced). -/
def applyOp (f : Forest) : Op → Forest
  | .addRoot v =>
    let (f1, n) := allocNode f v none
    Treewise.addRoot f1 n
  | .addNodeAsChild p v => (Treewise.addNodeAsChild f (some p) (some v)).2
  | .addChildren p vs => (Treewise.addChildren f (some p) vs).2
  | .removeNode n => (Treewise.removeNode f (some n)).2
  | .removeChildren p ns => (Treewise.removeChildren f (some p) ns).2
  | .removeAllRoots => Treewise.removeAllRoots f
  | .moveNode n p => (Treewise.moveNode f (some n) (some p)).2

/-- State after a sequence of public mutation calls. -/
def applyOps (f : Forest) (ops : List Op) : Forest :=
  ops.foldl applyOp f

/-! ## Read-over-write lemmas for the store -/

theorem store_length_setNode (f : Forest) (n : NodeId) (r : NodeRec) :
    (setNode f n r).store.length = f.store.length :=
  List.length_set ..

theorem roots_setNode (f : Forest) (n : NodeId) (r : NodeRec) :
    (setNode f n r).roots = f.roots := rfl

theorem index_setNode (f : Forest) (n : NodeId) (r : NodeRec) :
    (setNode f n r).index = f.index := rfl

theorem getNode_setNode_self (f : Forest) {n : NodeId} (r : NodeRec)
    (h : n < f.store.length) : getNode (setNode f n r) n = some r := by
  simp [getNode, setNode, List.getElem?_set_eq_of_lt, h]

theorem getNode_setNode_ne (f : Forest) {n m : NodeId} (r : NodeRec)
    (h : n ≠ m) : getNode (setNode f n r) m = getNode f m := by
  simp [getNode, setNode, List.getElem?_set_ne h]

theorem list_set_same {α : Type} : ∀ {l : List α} {i : Nat} {a : α},
    l[i]? = some a → l.set i a = l
  | [], i, a, h => by simp at h
  | x :: xs, 0, a, h => by
    simp only [List.getElem?_cons_zero, Option.some.injEq] at h
    simp [List.set, h]
  | x :: xs, i + 1, a, h => by
    simp only [List.getElem?_cons_succ] at h
    simp [List.set, list_set_same h]

theorem setNode_same (f : Forest) {n : NodeId} {r : NodeRec}
    (h : getNode f n = some r) : setNode f n r = f := by
  unfold getNode at h
  unfold setNode
  rw [list_set_same h]

theorem setParent_same (f : Forest) {n : NodeId} {r : NodeRec}
    (h : getNode f n = some r) : setParent f n r.parent = f := by
  unfold setParent
  rw [h]
  exact setNode_same f h

theorem setChildren_same (f : Forest) {n : NodeId} {r : NodeRec}
    (h : getNode f n = some r) : setChildren f n r.children = f := by
  unfold setChildren
  rw [h]
  exact setNode_same f h

theorem getNode_isSome_of_lt (f : Forest) {n : NodeId} (h : n < f.store.length) :
    ∃ r, getNode f n = some r := by
  simp [getNode, List.getElem?_eq_getElem h]

theorem lt_of_getNode_isSome (f : Forest) {n : NodeId} {r : NodeRec}
    (h : getNode f n = some r) : n < f.store.length := by
  unfold getNode at h
  exact (List.getElem?_eq_some.mp h).1


/-! ## Field-level read-over-write lemmas -/

theorem store_length_setParent (f : Forest) (n : NodeId) (p : Option NodeId) :
    (setParent f n p).store.length = f.store.length := by
  unfold setParent
  cases getNode f n <;> simp [store_length_setNode]

theorem store_length_setChildren (f : Forest) (n : NodeId) (cs : List NodeId) :
    (setChildren f n cs).store.length = f.store.length := by
  unfold setChildren
  cases getNode f n <;> simp [store_length_setNode]

theorem parentOf_setChildren (f : Forest) (m n : NodeId) (cs : List NodeId) :
    parentOf (setChildren f m cs) n = parentOf f n := by
  unfold setChildren
  cases hm : getNode f m with
  | none => rfl
  | some r =>
    by_cases hmn : m = n
    · subst hmn
      unfold parentOf
      rw [getNode_setNode_self _ _ (lt_of_getNode_isSome f hm), hm]
    · unfold parentOf
      rw [getNode_setNode_ne _ _ hmn]

theorem childrenOf_setParent (f : Forest) (m n : NodeId) (p : Option NodeId) :
    childrenOf (setParent f m p) n = childrenOf f n := by
  unfold setParent
  cases hm : getNode f m with
  | none => rfl
  | some r =>
    by_cases hmn : m = n
    · subst hmn
      unfold childrenOf
      rw [getNode_setNode_self _ _ (lt_of_getNode_isSome f hm), hm]
    · unfold childrenOf
      rw [getNode_setNode_ne _ _ hmn]

theorem valueOf_setParent (f : Forest) (m n : NodeId) (p : Option NodeId) :
    valueOf (setParent f m p) n = valueOf f n := by
  unfold setParent
  cases hm : getNode f m with
  | none => rfl
  | some r =>
    by_cases hmn : m = n
    · subst hmn
      unfold valueOf
      rw [getNode_setNode_self _ _ (lt_of_getNode_isSome f hm), hm]
    · unfold valueOf
      rw [getNode_setNode_ne _ _ hmn]

theorem valueOf_setChildren (f : Forest) (m n : NodeId) (cs : List NodeId) :
    valueOf (setChildren f m cs) n = valueOf f n := by
  unfold setChildren
  cases hm : getNode f m with
  | none => rfl
  | some r =>
    by_cases hmn : m = n
    · subst hmn
      unfold valueOf
      rw [getNode_setNode_self _ _ (lt_of_getNode_isSome f hm), hm]
    · unfold valueOf
      rw [getNode_setNode_ne _ _ hmn]

theorem parentOf_setParent_self (f : Forest) {n : NodeId} (p : Option NodeId)
    (h : n < f.store.length) : parentOf (setParent f n p) n = p := by
  obtain ⟨r, hr⟩ := getNode_isSome_of_lt f h
  unfold setParent
  rw [hr]
  unfold parentOf
  rw [getNode_setNode_self _ _ (by simpa using h)]

theorem parentOf_setParent_ne (f : Forest) {m n : NodeId} (p : Option NodeId)
    (h : m ≠ n) : parentOf (setParent f m p) n = parentOf f n := by
  unfold setParent
  cases hm : getNode f m with
  | none => rfl
  | some r =>
    unfold parentOf
    rw [getNode_setNode_ne _ _ h]

theorem childrenOf_setChildren_self (f : Forest) {n : NodeId} (cs : List NodeId)
    (h : n < f.store.length) : childrenOf (setChildren f n cs) n = cs := by
  obtain ⟨r, hr⟩ := getNode_isSome_of_lt f h
  unfold setChildren
  rw [hr]
  unfold childrenOf
  rw [getNode_setNode_self _ _ (by simpa using h)]

theorem childrenOf_setChildren_ne (f : Forest) {m n : NodeId} (cs : List NodeId)
    (h : m ≠ n) : childrenOf (setChildren f m cs) n = childrenOf f n := by
  unfold setChildren
  cases hm : getNode f m with
  | none => rfl
  | some r =>
    unfold childrenOf
    rw [getNode_setNode_ne _ _ h]

theorem roots_setParent (f : Forest) (n : NodeId) (p : Option NodeId) :
    (setParent f n p).roots = f.roots := by
  unfold setParent
  cases getNode f n <;> rfl

theorem roots_setChildren (f : Forest) (n : NodeId) (cs : List NodeId) :
    (setChildren f n cs).roots = f.roots := by
  unfold setChildren
  cases getNode f n <;> rfl

theorem index_setParent (f : Forest) (n : NodeId) (p : Option NodeId) :
    (setParent f n p).index = f.index := by
  unfold setParent
  cases getNode f n <;> rfl

theorem index_setChildren (f : Forest) (n : NodeId) (cs : List NodeId) :
    (setChildren f n cs).index = f.index := by
  unfold setChildren
  cases getNode f n <;> rfl

/-! ## Claim C1 -/

/-- C1: the claim requires `moveNode(a, b)` to fail with `CircularReference`
and leave the forest unmodified whenever `b` is a descendant of `a` or
`b === a`.  This theorem evaluates the code at the failing input of the
degenerate case `b === a`: in the one-root forest built by
`addRoot({value: {id: 1}})`, `moveNode(root, root)` returns without error
and rewires the store so that the root is its own parent and its own
child, with `roots` emptied and the index still holding the now-unreachable
node — the move is neither rejected nor harmless, contradicting the claim
and the method's own documentation ("Throws if the move would create a
circular reference"). -/
theorem moveNode_self_move_succeeds_and_corrupts :
    moveNode (applyOps emptyForest [.addRoot ⟨1, 10⟩]) (some 0) (some 0) =
      (none, ⟨[⟨⟨1, 10⟩, [0], some 0⟩], [], [(1, 0)]⟩) := by
  decide

/-! ## Claim C10 -/

/-- Forest used to refute C10 as stated: `addRoot` a node (reference 0,
id 1), give it a child (reference 1, id 2), then `removeNode` the root.
Node 0 is now fully detached — not a root, no parent link — while its
former child 1 still records node 0 as parent. -/
def detachedForest : Forest :=
  applyOps emptyForest [.addRoot ⟨1, 10⟩, .addNodeAsChild 0 ⟨2, 20⟩, .removeNode 0]

/-- C10 (counterexample): the claim asserts that `moveNode(node, newParent)`
always succeeds for a detached `node` (here node 0: not in `roots`, no
parent link at all).  But with `newParent` = node 1, whose recorded parent
is node 0, the ancestor-chain walk finds node 0 and the call fails with
`CircularReference`, leaving the forest unchanged — it does not succeed and
nothing is appended. -/
theorem moveNode_detached_node_can_still_fail :
    0 ∉ detachedForest.roots ∧ parentOf detachedForest 0 = none ∧
      moveNode detachedForest (some 0) (some 1) =
        (some .circularReference, detachedForest) := by
  decide

/-- C10 (amended): `moveNode` can never fail with a `NotFound` condition,
and a non-null node that is neither in `roots` nor present in its recorded
parent's children (including a fully detached node) is still moved without
any membership check — provided the circular-reference walk does not find
the node on the new parent's ancestor chain: the call then succeeds,
appends the node to the new parent's children and sets the node's parent
link to the new parent. -/
theorem moveNode_never_notFound_and_moves_detached :
    (∀ (g : Forest) (a b : Option NodeId), (moveNode g a b).1 ≠ some TreeErr.notFound) ∧
    (∀ (f : Forest) (n p : NodeId),
      n < f.store.length → p < f.store.length →
      isAncestorOf f n p = false →
      n ∉ f.roots →
      (∀ q, parentOf f n = some q → n ∉ childrenOf f q) →
      (moveNode f (some n) (some p)).1 = none ∧
        parentOf (moveNode f (some n) (some p)).2 n = some p ∧
        childrenOf (moveNode f (some n) (some p)).2 p = childrenOf f p ++ [n]) := by
  constructor
  · intro g a b
    cases a with
    | none => simp [moveNode]
    | some n =>
      cases b with
      | none => simp [moveNode]
      | some p =>
        by_cases h : isAncestorOf g n p <;> simp [moveNode, h]
  · intro f n p hn hp hanc hroot hdet
    have hdetach :
        (if n ∈ f.roots then { f with roots := f.roots.erase n }
         else
           match parentOf f n with
           | some q => setChildren f q ((childrenOf f q).erase n)
           | none => f) = f := by
      rw [if_neg hroot]
      cases hq : parentOf f n with
      | none => rfl
      | some q =>
        show setChildren f q ((childrenOf f q).erase n) = f
        rw [List.erase_of_not_mem (hdet q hq)]
        cases hgq : getNode f q with
        | none =>
          show setChildren f q _ = f
          unfold setChildren
          rw [hgq]
        | some rq =>
          have : childrenOf f q = rq.children := by
            unfold childrenOf
            rw [hgq]
          rw [this]
          exact setChildren_same f hgq
    have hres : moveNode f (some n) (some p) =
        (none,
          setChildren (setParent f n (some p)) p
            (childrenOf (setParent f n (some p)) p ++ [n])) := by
      unfold moveNode
      dsimp only
      rw [if_neg (by simp [hanc]), hdetach]
    refine ⟨by rw [hres], ?_, ?_⟩
    · rw [hres]
      rw [parentOf_setChildren]
      exact parentOf_setParent_self f (some p) hn
    · rw [hres]
      rw [childrenOf_setChildren_self _ _
        (by rw [store_length_setParent]; exact hp)]
      rw [childrenOf_setParent]

/-- Forest for the C10 witness: two roots, the first then removed, so that
node 0 is detached with no parent link and node 1 is a root with an empty
ancestor chain. -/
def witnessDetached : Forest :=
  applyOps emptyForest [.addRoot ⟨1, 10⟩, .addRoot ⟨2, 20⟩, .removeNode 0]

/-- C10 (witness for the amended theorem): in the forest where node 0 is
detached (built by adding two roots and removing the first), moving node 0
under root 1 satisfies every hypothesis and indeed succeeds, appending
node 0 to node 1's children and setting its parent. -/
theorem moveNode_moves_detached_witness :
    (moveNode witnessDetached (some 0) (some 1)).1 = none ∧
      parentOf (moveNode witnessDetached (some 0) (some 1)).2 0 = some 1 ∧
      childrenOf (moveNode witnessDetached (some 0) (some 1)).2 1 =
        childrenOf witnessDetached 1 ++ [0] :=
  moveNode_never_notFound_and_moves_detached.2 witnessDetached 0 1
    (by decide) (by decide) (by decide) (by decide)
    (by
      intro q h
      rw [(by decide : parentOf witnessDetached 0 = none)] at h
      exact Option.noConfusion h)


/-! ## Claim C4 -/

/-- Numeric view of `parsed.version`: `some v` when the field is the number
`v`, `none` when it is missing or not a number (both compare `!==` to the
numeric `treeVersion`). -/
def versionNum (j : Json) : Option Int :=
  match jsonGet j "version" with
  | some (.num v) => some v
  | _ => none

/-- Array view of `parsed.roots`: the element list when the field is an
array (`Array.isArray`), `none` otherwise. -/
def rootsArr (j : Json) : Option (List Json) :=
  match jsonGet j "roots" with
  | some (.arr l) => some l
  | _ => none

/-- C4: `deserialize` is a function of its resolved input (the suspension
point is solely the `await`, so the forest is untouched until the input
resolves, which the model captures by taking the resolved, parsed text as
an argument).  It then fails with `VersionMismatch` — carrying the found
and the expected version — exactly when the parsed version differs from
`treeVersion`; otherwise it fails with `MalformedData` exactly when the
payload has no roots array; and on either failure the forest it returns is
exactly the forest it was given. -/
theorem deserialize_error_conditions (f : Forest) (j : Json) :
    (versionNum j ≠ some treeVersion →
      deserialize f j = (some (.versionMismatch (versionNum j) treeVersion), f)) ∧
    (versionNum j = some treeVersion → rootsArr j = none →
      deserialize f j = (some .malformedData, f)) ∧
    (versionNum j = some treeVersion → ∀ l, rootsArr j = some l →
      (deserialize f j).1 = none) := by
  refine ⟨?_, ?_, ?_⟩
  · intro hv
    unfold deserialize
    unfold versionNum at hv ⊢
    cases hj : jsonGet j "version" with
    | none => rfl
    | some x =>
      cases x with
      | num v =>
        rw [hj] at hv
        dsimp only at hv ⊢
        rw [if_neg (by simpa using hv)]
      | null => rfl
      | bool b => rfl
      | str st => rfl
      | arr l => rfl
      | obj fs => rfl
  · intro hv hr
    unfold versionNum at hv
    unfold rootsArr at hr
    unfold deserialize
    cases hj : jsonGet j "version" with
    | none => rw [hj] at hv; exact absurd hv (by simp)
    | some x =>
      cases x with
      | num v =>
        rw [hj] at hv
        dsimp only at hv ⊢
        simp only [Option.some.injEq] at hv
        rw [if_pos hv]
        cases hjr : jsonGet j "roots" with
        | none => rfl
        | some y =>
          cases y with
          | arr l => rw [hjr] at hr; exact absurd hr (by simp)
          | null => rfl
          | bool b => rfl
          | num m => rfl
          | str st => rfl
          | obj fs => rfl
      | null => rw [hj] at hv; exact absurd hv (by simp)
      | bool b => rw [hj] at hv; exact absurd hv (by simp)
      | str st => rw [hj] at hv; exact absurd hv (by simp)
      | arr l => rw [hj] at hv; exact absurd hv (by simp)
      | obj fs => rw [hj] at hv; exact absurd hv (by simp)
  · intro hv l hr
    unfold versionNum at hv
    unfold rootsArr at hr
    unfold deserialize
    cases hj : jsonGet j "version" with
    | none => rw [hj] at hv; exact absurd hv (by simp)
    | some x =>
      cases x with
      | num v =>
        rw [hj] at hv
        dsimp only at hv ⊢
        simp only [Option.some.injEq] at hv
        rw [if_pos hv]
        cases hjr : jsonGet j "roots" with
        | none => rw [hjr] at hr; exact absurd hr (by simp)
        | some y =>
          cases y with
          | arr l2 => rfl
          | null => rw [hjr] at hr; exact absurd hr (by simp)
          | bool b => rw [hjr] at hr; exact absurd hr (by simp)
          | num m => rw [hjr] at hr; exact absurd hr (by simp)
          | str st => rw [hjr] at hr; exact absurd hr (by simp)
          | obj fs => rw [hjr] at hr; exact absurd hr (by simp)
      | null => rw [hj] at hv; exact absurd hv (by simp)
      | bool b => rw [hj] at hv; exact absurd hv (by simp)
      | str st => rw [hj] at hv; exact absurd hv (by simp)
      | arr l => rw [hj] at hv; exact absurd hv (by simp)
      | obj fs => rw [hj] at hv; exact absurd hv (by simp)

/-- Payload of the spec's own example: `{"version": 9999, "roots": []}`. -/
def badVersionJson : Json :=
  .obj [("version", .num 9999), ("roots", .arr [])]

/-- C4 (witness): deserializing `{"version":9999,"roots":[]}` against a
fresh forest (format version 1) fails with `VersionMismatch` carrying
9999 and 1, and returns the forest unchanged. -/
theorem deserialize_error_conditions_witness :
    versionNum badVersionJson ≠ some treeVersion ∧
      deserialize emptyForest badVersionJson =
        (some (.versionMismatch (some 9999) treeVersion), emptyForest) :=
  ⟨by decide,
    by
      have h := (deserialize_error_conditions emptyForest badVersionJson).1 (by decide)
      rwa [(by decide : versionNum badVersionJson = some 9999)] at h⟩


/-! ## Sizes and child-shape of the pure view -/

mutual

/-- Number of nodes of a pure tree. -/
def sizeP : PTree → Nat
  | .mk _ _ cs => 1 + sizePL cs

/-- Number of nodes of a pure tree list. -/
def sizePL : List PTree → Nat
  | [] => 0
  | t :: ts => sizeP t + sizePL ts

end

mutual

/-- Reference and children references of every node of a pure tree
(pre-order); the part of the pure view the traversals read. -/
def shapeP : PTree → List (NodeId × List NodeId)
  | .mk a _ cs => (a, cs.map PTree.adr) :: shapePL cs

/-- Shapes of all nodes of a pure tree list. -/
def shapePL : List PTree → List (NodeId × List NodeId)
  | [] => []
  | t :: ts => shapeP t ++ shapePL ts

end

theorem sizeP_eq (t : PTree) : sizeP t = 1 + sizePL t.children := by
  cases t
  rfl

theorem sizeP_pos (t : PTree) : 0 < sizeP t := by
  rw [sizeP_eq]
  omega

mutual

theorem sizeP_eq_length_shapeP (t : PTree) : sizeP t = (shapeP t).length := by
  cases t with
  | mk a v cs =>
    show 1 + sizePL cs = ((a, cs.map PTree.adr) :: shapePL cs).length
    rw [sizePL_eq_length_shapePL cs]
    simp [Nat.add_comm]

theorem sizePL_eq_length_shapePL (ts : List PTree) : sizePL ts = (shapePL ts).length := by
  cases ts with
  | nil => rfl
  | cons t ts =>
    show sizeP t + sizePL ts = (shapeP t ++ shapePL ts).length
    rw [sizeP_eq_length_shapeP t, sizePL_eq_length_shapePL ts]
    simp

end

mutual

theorem shapeP_eq_map_flatsP (t : PTree) (par : Option NodeId) :
    shapeP t = (flatsP par t).map (fun e => (e.adr, e.children)) := by
  cases t with
  | mk a v cs =>
    show (a, cs.map PTree.adr) :: shapePL cs = _
    rw [shapePL_eq_map_flatsPL cs (some a)]
    rfl

theorem shapePL_eq_map_flatsPL (ts : List PTree) (par : Option NodeId) :
    shapePL ts = (flatsPL par ts).map (fun e => (e.adr, e.children)) := by
  cases ts with
  | nil => rfl
  | cons t ts =>
    show shapeP t ++ shapePL ts = _
    show _ = (flatsP par t ++ flatsPL par ts).map _
    rw [List.map_append, shapeP_eq_map_flatsP t par, shapePL_eq_map_flatsPL ts par]

end

/-- Traversal-relevant agreement between a forest and one pure tree: each
node's stored children are the tree's children, in order. -/
def TreeAgree (f : Forest) (t : PTree) : Prop :=
  ∀ pr ∈ shapeP t, childrenOf f pr.1 = pr.2

theorem treeAgree_children (f : Forest) {a : NodeId} {v : Value} {cs : List PTree}
    (h : TreeAgree f (.mk a v cs)) : childrenOf f a = cs.map PTree.adr :=
  h (a, cs.map PTree.adr) (List.mem_cons_self _ _)

theorem mem_shapePL_of_mem {pr : NodeId × List NodeId} :
    ∀ {cs : List PTree} {c : PTree}, c ∈ cs → pr ∈ shapeP c → pr ∈ shapePL cs
  | c' :: cs, c, hc, hpr => by
    show pr ∈ shapeP c' ++ shapePL cs
    rcases List.mem_cons.mp hc with h | h
    · subst h
      exact List.mem_append_left _ hpr
    · exact List.mem_append_right _ (mem_shapePL_of_mem h hpr)

theorem treeAgree_of_mem (f : Forest) {cs : List PTree} {a : NodeId} {v : Value}
    (h : TreeAgree f (.mk a v cs)) {c : PTree} (hc : c ∈ cs) : TreeAgree f c := by
  intro pr hpr
  exact h pr (List.mem_cons_of_mem _ (mem_shapePL_of_mem hc hpr))

theorem treeAgree_of_represents {f : Forest} {ts : List PTree}
    (h : Represents f ts) {t : PTree} (ht : t ∈ ts) : TreeAgree f t := by
  intro pr hpr
  have hmem : pr ∈ shapePL ts := mem_shapePL_of_mem ht hpr
  rw [shapePL_eq_map_flatsPL ts none] at hmem
  obtain ⟨e, hef, hee⟩ := List.mem_map.mp hmem
  have hrec := h.2.1 e hef
  have : childrenOf f e.adr = e.children := by
    unfold childrenOf
    unfold getNode at hrec ⊢
    rw [hrec]
    rfl
  rw [← hee] at *
  exact this


/-! ## Pure breadth-first traversal and level order -/

/-- Truthiness of the BFS/DFS depth bound check `depth >= maxDepth`. -/
def levelStop (maxDepth : Option Nat) (d : Nat) : Bool :=
  match maxDepth with
  | some md => decide (md ≤ d)
  | none => false

/-- Pure counterpart of the queue expansion step. -/
def expandQ (maxDepth : Option Nat) (d : Nat) (t : PTree) : List (PTree × Nat) :=
  if levelStop maxDepth d then [] else t.children.map (fun c => (c, d + 1))

/-- Total size of a queue of pure trees. -/
def sumQ (q : List (PTree × Nat)) : Nat :=
  (q.map (fun td => sizeP td.1)).sum

theorem sumQ_nil : sumQ [] = 0 := rfl

theorem sumQ_cons (td : PTree × Nat) (q : List (PTree × Nat)) :
    sumQ (td :: q) = sizeP td.1 + sumQ q := by
  simp [sumQ]

theorem sumQ_append (a b : List (PTree × Nat)) : sumQ (a ++ b) = sumQ a + sumQ b := by
  simp [sumQ]

theorem sumQ_map_level (cs : List PTree) (d : Nat) :
    sumQ (cs.map (fun c => (c, d))) = sizePL cs := by
  induction cs with
  | nil => rfl
  | cons c cs ih =>
    show sumQ ((c, d) :: cs.map (fun c => (c, d))) = sizeP c + sizePL cs
    rw [sumQ_cons, ih]

theorem sumQ_expandQ (maxDepth : Option Nat) (d : Nat) (t : PTree) :
    sumQ (expandQ maxDepth d t) ≤ sizePL t.children := by
  unfold expandQ
  by_cases h : levelStop maxDepth d
  · simp [h, sumQ]
  · simp only [h, if_false, Bool.false_eq_true]
    rw [sumQ_map_level]

/-- Pure BFS over a queue of pure trees, mirroring the loop of
`traverseBreadthFirst` on the pure view. -/
def bfsPure (maxDepth : Option Nat) : List (PTree × Nat) → List (NodeId × Nat)
  | [] => []
  | (t, d) :: q => (t.adr, d) :: bfsPure maxDepth (q ++ expandQ maxDepth d t)
termination_by q => sumQ q
decreasing_by
  rw [sumQ_append, sumQ_cons]
  dsimp only
  have h1 := sumQ_expandQ maxDepth d t
  have h2 := sizeP_eq t
  omega

theorem bfsPure_nil (maxDepth : Option Nat) : bfsPure maxDepth [] = [] := by
  simp only [bfsPure]

theorem bfsPure_cons (maxDepth : Option Nat) (t : PTree) (d : Nat) (q : List (PTree × Nat)) :
    bfsPure maxDepth ((t, d) :: q) =
      (t.adr, d) :: bfsPure maxDepth (q ++ expandQ maxDepth d t) := by
  simp only [bfsPure]

/-- Concatenated expansions of a whole queue. -/
def expandAll (maxDepth : Option Nat) (q : List (PTree × Nat)) : List (PTree × Nat) :=
  (q.map (fun td => expandQ maxDepth td.2 td.1)).flatten

theorem expandAll_nil (maxDepth : Option Nat) : expandAll maxDepth [] = [] := rfl

theorem expandAll_cons (maxDepth : Option Nat) (td : PTree × Nat) (q : List (PTree × Nat)) :
    expandAll maxDepth (td :: q) =
      expandQ maxDepth td.2 td.1 ++ expandAll maxDepth q := by
  simp [expandAll]

/-- BFS dequeues a block of entries before reaching their expansions: the
visit list of `q1 ++ q2` is the heads of `q1` followed by the BFS of `q2`
with `q1`'s expansions appended. -/
theorem bfsPure_append (maxDepth : Option Nat) :
    ∀ (q1 q2 : List (PTree × Nat)),
      bfsPure maxDepth (q1 ++ q2) =
        q1.map (fun td => (td.1.adr, td.2)) ++
          bfsPure maxDepth (q2 ++ expandAll maxDepth q1)
  | [], q2 => by
    simp [expandAll_nil]
  | (t, d) :: q1, q2 => by
    rw [List.cons_append, bfsPure_cons]
    rw [List.append_assoc]
    rw [bfsPure_append maxDepth q1 (q2 ++ expandQ maxDepth d t)]
    rw [expandAll_cons]
    simp
termination_by q1 => q1.length

/-- Next BFS level: all children of a level, left to right. -/
def nextLevel (ws : List PTree) : List PTree :=
  (ws.map PTree.children).flatten

theorem sizePL_append (a b : List PTree) : sizePL (a ++ b) = sizePL a + sizePL b := by
  induction a with
  | nil =>
    show sizePL b = 0 + sizePL b
    omega
  | cons t ts ih =>
    show sizeP t + sizePL (ts ++ b) = sizeP t + sizePL ts + sizePL b
    rw [ih]
    omega

theorem sizePL_nextLevel (ws : List PTree) :
    sizePL (nextLevel ws) + ws.length = sizePL ws := by
  induction ws with
  | nil => rfl
  | cons t ts ih =>
    show sizePL (t.children ++ nextLevel ts) + (ts.length + 1) = sizeP t + sizePL ts
    rw [sizePL_append, sizeP_eq t]
    omega

theorem sizePL_nextLevel_lt (ws : List PTree) (h : ws ≠ []) :
    sizePL (nextLevel ws) < sizePL ws := by
  have h1 := sizePL_nextLevel ws
  have h2 : 0 < ws.length := List.length_pos.mpr h
  omega

/-- Level-by-level visit sequence of a tree list starting at depth `d`:
the whole level in order, then (unless the depth bound stops here) the
sequence of the next level. -/
def levelSeq (maxDepth : Option Nat) (d : Nat) : List PTree → List (NodeId × Nat)
  | [] => []
  | w :: ws =>
    ((w :: ws).map (fun t => (t.adr, d))) ++
      (if levelStop maxDepth d then []
       else levelSeq maxDepth (d + 1) (nextLevel (w :: ws)))
termination_by ws => sizePL ws
decreasing_by
  exact sizePL_nextLevel_lt _ (List.cons_ne_nil _ _)

theorem levelSeq_nil (maxDepth : Option Nat) (d : Nat) : levelSeq maxDepth d [] = [] := by
  simp only [levelSeq]

theorem levelSeq_cons (maxDepth : Option Nat) (d : Nat) (w : PTree) (ws : List PTree) :
    levelSeq maxDepth d (w :: ws) =
      ((w :: ws).map (fun t => (t.adr, d))) ++
        (if levelStop maxDepth d then []
         else levelSeq maxDepth (d + 1) (nextLevel (w :: ws))) := by
  simp only [levelSeq]

theorem expandAll_level (maxDepth : Option Nat) (d : Nat) (ws : List PTree) :
    expandAll maxDepth (ws.map (fun t => (t, d))) =
      if levelStop maxDepth d then []
      else (nextLevel ws).map (fun c => (c, d + 1)) := by
  induction ws with
  | nil =>
    by_cases h : levelStop maxDepth d <;> simp [expandAll_nil, nextLevel, h]
  | cons t ts ih =>
    show expandAll maxDepth ((t, d) :: ts.map (fun t => (t, d))) = _
    rw [expandAll_cons, ih]
    unfold expandQ
    by_cases h : levelStop maxDepth d
    · simp [h]
    · simp only [h, if_false, Bool.false_eq_true]
      show _ = (nextLevel (t :: ts)).map _
      unfold nextLevel
      simp

/-- BFS from a single level queue is the level sequence. -/
theorem bfsPure_eq_levelSeq (maxDepth : Option Nat) :
    ∀ (n : Nat) (ws : List PTree) (d : Nat), sizePL ws ≤ n →
      bfsPure maxDepth (ws.map (fun t => (t, d))) = levelSeq maxDepth d ws := by
  intro n
  induction n with
  | zero =>
    intro ws d h
    cases ws with
    | nil => simp [bfsPure_nil, levelSeq_nil]
    | cons w ws =>
      exfalso
      have := sizeP_pos w
      have : 0 < sizePL (w :: ws) := by
        show 0 < sizeP w + sizePL ws
        omega
      omega
  | succ n ih =>
    intro ws d h
    cases ws with
    | nil => simp [bfsPure_nil, levelSeq_nil]
    | cons w ws =>
      have hsplit := bfsPure_append maxDepth ((w :: ws).map (fun t => (t, d))) []
      rw [List.append_nil] at hsplit
      rw [hsplit, levelSeq_cons]
      rw [List.nil_append, expandAll_level]
      congr 1
      · simp
      · by_cases hstop : levelStop maxDepth d
        · simp [hstop, bfsPure_nil]
        · simp only [hstop, if_false, Bool.false_eq_true]
          apply ih
          have := sizePL_nextLevel (w :: ws)
          simp only [List.length_cons] at this
          have hle : sizePL (w :: ws) ≤ n + 1 := h
          omega


/-! ## Correspondence of the heap BFS with the pure level order -/

theorem bfsAux_zero (f : Forest) (q : List (NodeId × Nat)) (maxDepth : Option Nat) :
    bfsAux f 0 q maxDepth = [] := by
  cases q with
  | nil => rfl
  | cons td q => rfl

theorem bfsAux_nil (f : Forest) (fuel : Nat) (maxDepth : Option Nat) :
    bfsAux f fuel [] maxDepth = [] := by
  cases fuel <;> rfl

theorem bfsAux_cons (f : Forest) (fuel : Nat) (n : NodeId) (d : Nat)
    (queue : List (NodeId × Nat)) (maxDepth : Option Nat) :
    bfsAux f (fuel + 1) ((n, d) :: queue) maxDepth =
      (n, d) :: bfsAux f fuel
        (queue ++
          (if levelStop maxDepth d then []
           else (childrenOf f n).map (fun c => (c, d + 1)))) maxDepth := by
  cases maxDepth with
  | none => simp [bfsAux, levelStop]
  | some md =>
    by_cases h : md ≤ d <;> simp [bfsAux, levelStop, h]

theorem bfsPure_length_le (maxDepth : Option Nat) :
    ∀ (n : Nat) (q : List (PTree × Nat)), sumQ q ≤ n →
      (bfsPure maxDepth q).length ≤ sumQ q := by
  intro n
  induction n with
  | zero =>
    intro q h
    cases q with
    | nil => simp [bfsPure_nil]
    | cons td q =>
      exfalso
      have := sizeP_pos td.1
      rw [sumQ_cons] at h
      omega
  | succ n ih =>
    intro q h
    cases q with
    | nil => simp [bfsPure_nil]
    | cons td q =>
      obtain ⟨t, d⟩ := td
      rw [bfsPure_cons, sumQ_cons]
      have hrest : sumQ (q ++ expandQ maxDepth d t) ≤ n := by
        rw [sumQ_append]
        have h1 := sumQ_expandQ maxDepth d t
        have h2 := sizeP_eq t
        rw [sumQ_cons] at h
        dsimp only at h
        omega
      have := ih (q ++ expandQ maxDepth d t) hrest
      have h2 := sizeP_eq t
      have h1 := sumQ_expandQ maxDepth d t
      rw [sumQ_append] at this
      simp only [List.length_cons]
      omega

theorem bfsAux_eq_bfsPure (f : Forest) (maxDepth : Option Nat) :
    ∀ (fuel : Nat) (q : List (PTree × Nat)),
      (∀ td ∈ q, TreeAgree f td.1) →
      (bfsPure maxDepth q).length ≤ fuel →
      bfsAux f fuel (q.map (fun td => (td.1.adr, td.2))) maxDepth =
        bfsPure maxDepth q := by
  intro fuel
  induction fuel with
  | zero =>
    intro q hag hlen
    cases q with
    | nil => simp [bfsPure_nil, bfsAux_zero]
    | cons td q =>
      exfalso
      obtain ⟨t, d⟩ := td
      rw [bfsPure_cons] at hlen
      simp at hlen
  | succ fuel ih =>
    intro q hag hlen
    cases q with
    | nil => simp [bfsPure_nil, bfsAux_nil]
    | cons td q =>
      obtain ⟨t, d⟩ := td
      obtain ⟨a, v, cs⟩ := t
      have hhead : childrenOf f a = cs.map PTree.adr :=
        treeAgree_children f (hag (.mk a v cs, d) (List.mem_cons_self _ _))
      show bfsAux f (fuel + 1) ((a, d) :: q.map (fun td => (td.1.adr, td.2))) maxDepth = _
      rw [bfsAux_cons, bfsPure_cons]
      congr 1
      have hexp :
          (if levelStop maxDepth d then []
           else (childrenOf f a).map (fun c => (c, d + 1))) =
            (expandQ maxDepth d (.mk a v cs)).map (fun td => (td.1.adr, td.2)) := by
        unfold expandQ
        by_cases hstop : levelStop maxDepth d
        · simp [hstop]
        · simp only [hstop, if_false, Bool.false_eq_true, hhead]
          show (cs.map PTree.adr).map (fun c => (c, d + 1)) = _
          simp [List.map_map]
          rfl
      rw [hexp, ← List.map_append]
      apply ih
      · intro td2 htd2
        rcases List.mem_append.mp htd2 with hh | hh
        · exact hag td2 (List.mem_cons_of_mem _ hh)
        · unfold expandQ at hh
          by_cases hstop : levelStop maxDepth d
          · simp [hstop] at hh
          · simp only [hstop, if_false, Bool.false_eq_true] at hh
            obtain ⟨c, hc, hce⟩ := List.mem_map.mp hh
            have := treeAgree_of_mem f (hag (.mk a v cs, d) (List.mem_cons_self _ _)) hc
            rw [← hce]
            exact this
      · rw [bfsPure_cons] at hlen
        simp only [List.length_cons] at hlen
        omega


/-! ## Size bounds from representation -/

theorem flatsP_length_le_of_mem {t : PTree} :
    ∀ {ts : List PTree}, t ∈ ts → (flatsP none t).length ≤ (flatsF ts).length := by
  intro ts
  induction ts with
  | nil => intro h; cases h
  | cons t' ts ih =>
    intro h
    have : flatsF (t' :: ts) = flatsP none t' ++ flatsPL none ts := rfl
    rw [this, List.length_append]
    rcases List.mem_cons.mp h with he | he
    · subst he
      omega
    · have := ih he
      have h2 : flatsF ts = flatsPL none ts := rfl
      rw [h2] at this
      omega

theorem adr_lt_of_represents {f : Forest} {ts : List PTree} (h : Represents f ts) :
    ∀ e ∈ flatsF ts, e.adr < f.store.length := by
  intro e he
  have := h.2.1 e he
  exact (List.getElem?_eq_some.mp this).1

theorem flatsF_length_le {f : Forest} {ts : List PTree} (h : Represents f ts) :
    (flatsF ts).length ≤ f.store.length := by
  have hsub : adrList ts ⊆ List.range f.store.length := by
    intro a ha
    obtain ⟨e, he, hee⟩ := List.mem_map.mp ha
    rw [← hee]
    exact List.mem_range.mpr (adr_lt_of_represents h e he)
  have hsp := List.subperm_of_subset h.2.2.1 hsub
  have := hsp.length_le
  rw [List.length_range] at this
  calc (flatsF ts).length = (adrList ts).length := by simp [adrList]
  _ ≤ f.store.length := this

theorem sizeP_le_store {f : Forest} {ts : List PTree} (h : Represents f ts)
    {t : PTree} (ht : t ∈ ts) : sizeP t ≤ f.store.length := by
  have h1 : sizeP t = (flatsP none t).length := by
    rw [sizeP_eq_length_shapeP, shapeP_eq_map_flatsP t none]
    simp
  rw [h1]
  exact le_trans (flatsP_length_le_of_mem ht) (flatsF_length_le h)

/-! ## Depth monotonicity of the level sequence -/

theorem sorted_const_level {ws : List PTree} {d : Nat} :
    ∀ x ∈ (ws.map (fun t => ((t : PTree).adr, d))).map Prod.snd, x = d := by
  intro x hx
  simp at hx
  obtain ⟨t, _, he⟩ := hx
  omega

theorem pairwise_le_const_map {β : Type} (l : List β) (d : Nat) :
    List.Sorted (· ≤ ·) (l.map (fun _ => d)) := by
  induction l with
  | nil => simp [List.Sorted]
  | cons x xs ih =>
    simp only [List.map_cons, List.Sorted, List.pairwise_cons]
    refine ⟨?_, ih⟩
    intro y hy
    simp only [List.mem_map] at hy
    obtain ⟨a, _, he⟩ := hy
    omega

theorem levelSeq_snd_sorted (maxDepth : Option Nat) :
    ∀ (n : Nat) (ws : List PTree) (d : Nat), sizePL ws ≤ n →
      List.Sorted (· ≤ ·) ((levelSeq maxDepth d ws).map Prod.snd) ∧
      ∀ x ∈ (levelSeq maxDepth d ws).map Prod.snd, d ≤ x := by
  intro n
  induction n with
  | zero =>
    intro ws d h
    cases ws with
    | nil => simp [levelSeq_nil, List.Sorted]
    | cons w ws =>
      exfalso
      have h1 := sizeP_pos w
      have h2 : sizePL (w :: ws) = sizeP w + sizePL ws := rfl
      omega
  | succ n ih =>
    intro ws d h
    cases ws with
    | nil => simp [levelSeq_nil, List.Sorted]
    | cons w ws =>
      rw [levelSeq_cons]
      have hrec : List.Sorted (· ≤ ·) ((if levelStop maxDepth d then []
            else levelSeq maxDepth (d + 1) (nextLevel (w :: ws))).map Prod.snd) ∧
          ∀ x ∈ ((if levelStop maxDepth d then []
            else levelSeq maxDepth (d + 1) (nextLevel (w :: ws))).map Prod.snd), d + 1 ≤ x := by
        by_cases hstop : levelStop maxDepth d
        · simp [hstop, List.Sorted]
        · simp only [hstop, if_false, Bool.false_eq_true]
          apply ih
          have h1 := sizePL_nextLevel_lt (w :: ws) (List.cons_ne_nil _ _)
          omega
      rw [List.map_append]
      constructor
      · rw [List.Sorted, List.pairwise_append]
        refine ⟨?_, hrec.1, ?_⟩
        · have hconst : ((w :: ws).map (fun t => ((t : PTree).adr, d))).map Prod.snd =
              (w :: ws).map (fun _ => d) := by
            rw [List.map_map]
            rfl
          rw [hconst]
          exact pairwise_le_const_map _ d
        · intro a ha b hb
          have h1 := sorted_const_level a ha
          have h2 := hrec.2 b hb
          omega
      · intro x hx
        rcases List.mem_append.mp hx with hh | hh
        · have := sorted_const_level x hh
          omega
        · have := hrec.2 x hh
          omega


/-! ## Claim C8 -/

/-- Forest with two roots, the first of which has one child: built by
`addRoot {id:1}`, `addNodeAsChild(root1, {id:2})`, `addRoot {id:3}`. -/
def twoRootForest : Forest :=
  applyOps emptyForest [.addRoot ⟨1, 10⟩, .addNodeAsChild 0 ⟨2, 20⟩, .addRoot ⟨3, 30⟩]

/-- Pure view of `twoRootForest`. -/
def twoRootTrees : List PTree :=
  [.mk 0 ⟨1, 10⟩ [.mk 1 ⟨2, 20⟩ []], .mk 2 ⟨3, 30⟩ []]

/-- C8 (counterexample): `traverseBreadthFirst` creates a fresh queue per
root and drains it completely before the next root starts, so on a
well-formed two-root forest it visits root 1's depth-1 child before the
second root: the visit sequence is node 0, node 1 (depth 1), node 2
(depth 0), not the claimed all-roots-first sequence 0, 2, 1, and the visit
depths 0, 1, 0 are not in non-decreasing order. -/
theorem bfs_visits_whole_first_root_before_second :
    Represents twoRootForest twoRootTrees ∧
      traverseBreadthFirstList twoRootForest none = [(0, 0), (1, 1), (2, 0)] ∧
      (traverseBreadthFirstList twoRootForest none).map Prod.fst ≠ [0, 2, 1] ∧
      ¬ List.Sorted (· ≤ ·)
          ((traverseBreadthFirstList twoRootForest none).map Prod.snd) := by
  decide

/-- C8 (amended): `traverseBreadthFirst` runs one FIFO queue per root, in
roots order, draining each queue completely before seeding the next: each
root's subtree is visited level by level (all its depth-0 node, then all
its depth-1 nodes left to right, and so on — children expanded in order;
with a maximum depth d, its nodes at depth d are visited but not
expanded), and the sequences of the successive roots are concatenated.
Within one root's traversal the visit depths are non-decreasing, but not
across roots. -/
theorem traverseBreadthFirst_per_root_level_order (f : Forest) (ts : List PTree)
    (maxDepth : Option Nat) (h : Represents f ts) :
    traverseBreadthFirstList f maxDepth =
      (ts.map (fun t => levelSeq maxDepth 0 [t])).flatten ∧
    ∀ t ∈ ts, List.Sorted (· ≤ ·) ((levelSeq maxDepth 0 [t]).map Prod.snd) := by
  constructor
  · unfold traverseBreadthFirstList
    rw [h.1, List.map_map]
    congr 1
    apply List.map_congr_left
    intro t ht
    show bfsAux f (traverseFuel f) [(t.adr, 0)] maxDepth = _
    have hq : [(t.adr, 0)] = ([(t, 0)] : List (PTree × Nat)).map
        (fun td => (td.1.adr, td.2)) := rfl
    rw [hq]
    rw [bfsAux_eq_bfsPure f maxDepth (traverseFuel f) [(t, 0)] ?_ ?_]
    · have hone : ([(t, 0)] : List (PTree × Nat)) = [t].map (fun t => (t, 0)) := rfl
      rw [hone, bfsPure_eq_levelSeq maxDepth (sizePL [t]) [t] 0 (Nat.le_refl _)]
    · intro td htd
      rcases List.mem_singleton.mp htd with he
      rw [he]
      exact treeAgree_of_represents h ht
    · have h1 := bfsPure_length_le maxDepth (sumQ [(t, 0)]) [(t, 0)] (Nat.le_refl _)
      have h2 : sumQ [(t, 0)] = sizeP t := by
        rw [sumQ_cons, sumQ_nil]
        rfl
      have h3 := sizeP_le_store h ht
      unfold traverseFuel
      omega
  · intro t ht
    exact (levelSeq_snd_sorted maxDepth (sizePL [t]) [t] 0 (Nat.le_refl _)).1

/-- C8 (witness for the amended theorem): on the two-root forest, the BFS
visit list is the concatenation of the two per-root level sequences, and
each root's depth column is non-decreasing. -/
theorem traverseBreadthFirst_per_root_level_order_witness :
    traverseBreadthFirstList twoRootForest none =
      (twoRootTrees.map (fun t => levelSeq none 0 [t])).flatten ∧
    ∀ t ∈ twoRootTrees, List.Sorted (· ≤ ·) ((levelSeq none 0 [t]).map Prod.snd) :=
  traverseBreadthFirst_per_root_level_order twoRootForest twoRootTrees none (by decide)


/-! ## JS Map lemmas -/

theorem mapGet_mapSet_self (m : List (Int × NodeId)) (k : Int) (v : NodeId) :
    mapGet (mapSet m k v) k = some v := by
  induction m with
  | nil => simp [mapSet, mapGet]
  | cons kv m ih =>
    obtain ⟨k1, v1⟩ := kv
    by_cases h : k1 = k
    · simp [mapSet, mapGet, h]
    · simp only [mapSet, mapGet, h, if_false]
      exact ih

theorem mapGet_mapSet_ne (m : List (Int × NodeId)) {k k2 : Int} (v : NodeId)
    (h : k ≠ k2) : mapGet (mapSet m k v) k2 = mapGet m k2 := by
  induction m with
  | nil => simp [mapSet, mapGet, h]
  | cons kv m ih =>
    obtain ⟨k1, v1⟩ := kv
    by_cases h1 : k1 = k
    · subst h1
      simp [mapSet, mapGet, h]
    · simp only [mapSet, h1, if_false]
      show mapGet ((k1, v1) :: mapSet m k v) k2 = mapGet ((k1, v1) :: m) k2
      by_cases h2 : k1 = k2 <;> simp [mapGet, h2, ih]

theorem mapGet_mapSet_cases (m : List (Int × NodeId)) (k k2 : Int) (v a : NodeId)
    (h : mapGet (mapSet m k v) k2 = some a) : a = v ∨ mapGet m k2 = some a := by
  by_cases hk : k = k2
  · subst hk
    rw [mapGet_mapSet_self] at h
    exact Or.inl (Option.some.inj h).symm
  · rw [mapGet_mapSet_ne m v hk] at h
    exact Or.inr h

theorem mapGet_mapSet_isSome (m : List (Int × NodeId)) (k k2 : Int) (v : NodeId)
    (h : (mapGet m k2).isSome) : (mapGet (mapSet m k v) k2).isSome := by
  by_cases hk : k = k2
  · subst hk
    rw [mapGet_mapSet_self]
    rfl
  · rw [mapGet_mapSet_ne m v hk]
    exact h

/-! ## First pass of deserializeFlat -/

/-- Node record created for one flat record in the first pass. -/
def initRec (r : FlatRec) : NodeRec :=
  ⟨⟨r.id, r.data⟩, [], none⟩

/-- Pure computation of `nodeMap`: positions are assigned in record order
starting at `base`, later duplicates overwriting earlier ones. -/
def flatMapAux (base : Nat) (m : List (Int × NodeId)) : List FlatRec → List (Int × NodeId)
  | [] => m
  | r :: rs => flatMapAux (base + 1) (mapSet m r.id base) rs

theorem flatPassOne_spec :
    ∀ (records : List FlatRec) (f : Forest) (m : List (Int × NodeId)),
      records.foldl
          (fun (acc : Forest × List (Int × NodeId)) r =>
            let (f1, n) := allocNode acc.1 ⟨r.id, r.data⟩ none
            (f1, mapSet acc.2 r.id n))
          (f, m) =
        ({ f with store := f.store ++ records.map initRec },
          flatMapAux f.store.length m records) := by
  intro records
  induction records with
  | nil =>
    intro f m
    simp [flatMapAux]
  | cons r rs ih =>
    intro f m
    rw [List.foldl_cons]
    refine Eq.trans
      (ih { f with store := f.store ++ [initRec r] } (mapSet m r.id f.store.length)) ?_
    simp [flatMapAux, initRec]

theorem mapGet_flatMapAux_of_not_mem (k : Int) :
    ∀ (L : List FlatRec) (base : Nat) (m : List (Int × NodeId)),
      (∀ q ∈ L, q.id ≠ k) → mapGet (flatMapAux base m L) k = mapGet m k := by
  intro L
  induction L with
  | nil => intro base m h; rfl
  | cons r rs ih =>
    intro base m h
    show mapGet (flatMapAux (base + 1) (mapSet m r.id base) rs) k = _
    rw [ih (base + 1) _ (fun q hq => h q (List.mem_cons_of_mem _ hq))]
    exact mapGet_mapSet_ne m base (h r (List.mem_cons_self _ _))

theorem mapGet_flatMapAux_isSome (k : Int) :
    ∀ (L : List FlatRec) (base : Nat) (m : List (Int × NodeId)),
      ((∃ q ∈ L, q.id = k) ∨ (mapGet m k).isSome) →
      (mapGet (flatMapAux base m L) k).isSome := by
  intro L
  induction L with
  | nil =>
    intro base m h
    rcases h with ⟨q, hq, _⟩ | h
    · cases hq
    · exact h
  | cons r rs ih =>
    intro base m h
    show (mapGet (flatMapAux (base + 1) (mapSet m r.id base) rs) k).isSome
    apply ih
    rcases h with ⟨q, hq, hqe⟩ | h
    · rcases List.mem_cons.mp hq with he | he
      · subst he
        right
        rw [hqe, mapGet_mapSet_self]
        rfl
      · exact Or.inl ⟨q, he, hqe⟩
    · exact Or.inr (mapGet_mapSet_isSome m r.id k base h)

theorem mapGet_flatMapAux_unique (k : Int) :
    ∀ (L : List FlatRec) (i : Nat) (base : Nat) (m : List (Int × NodeId)),
      L[i]? = some r → r.id = k → (∀ j, ∀ (hj : j < L.length), L[j].id = k → j = i) →
      mapGet (flatMapAux base m L) k = some (base + i) := by
  intro L
  induction L with
  | nil => intro i base m h; simp at h
  | cons q rs ih =>
    intro i base m hget hk huniq
    cases i with
    | zero =>
      simp only [List.getElem?_cons_zero, Option.some.injEq] at hget
      subst hget
      show mapGet (flatMapAux (base + 1) (mapSet m q.id base) rs) k = some base
      have hnone : ∀ p ∈ rs, p.id ≠ k := by
        intro p hp hpk
        obtain ⟨j, hj, hj2⟩ := List.mem_iff_getElem.mp hp
        have hlt : j + 1 < (q :: rs).length := by simpa using hj
        have : j + 1 = 0 := huniq (j + 1) hlt (by simp [hj2, hpk])
        omega
      rw [mapGet_flatMapAux_of_not_mem k rs (base + 1) _ hnone, hk, mapGet_mapSet_self]
    | succ i =>
      simp only [List.getElem?_cons_succ] at hget
      show mapGet (flatMapAux (base + 1) (mapSet m q.id base) rs) k = some (base + (i + 1))
      have huniq2 : ∀ j, ∀ (hj : j < rs.length), rs[j].id = k → j = i := by
        intro j hj hjk
        have hlt : j + 1 < (q :: rs).length := by simpa using hj
        have : j + 1 = i + 1 := huniq (j + 1) hlt (by simpa using hjk)
        omega
      rw [ih i (base + 1) (mapSet m q.id base) hget hk huniq2]
      congr 1
      omega


/-! ## Stability of projections under folds -/

theorem foldl_stable {β γ : Type} (proj : Forest → γ) (step : Forest → β → Forest)
    (h : ∀ g b, proj (step g b) = proj g) :
    ∀ (l : List β) (g : Forest), proj (l.foldl step g) = proj g := by
  intro l
  induction l with
  | nil => intro g; rfl
  | cons b l ih =>
    intro g
    rw [List.foldl_cons, ih, h]

theorem indexNodeAndChildren_store :
    ∀ (fuel : Nat) (f : Forest) (n : NodeId),
      (indexNodeAndChildren f fuel n).store = f.store := by
  intro fuel
  induction fuel with
  | zero => intro f n; rfl
  | succ fuel ih =>
    intro f n
    show ((childrenOf f n).foldl (fun acc c => indexNodeAndChildren acc fuel c)
      { f with index := mapSet f.index (valueIdOf f n) n }).store = f.store
    rw [foldl_stable Forest.store _ (fun g b => ih g b)]

theorem indexNodeAndChildren_roots :
    ∀ (fuel : Nat) (f : Forest) (n : NodeId),
      (indexNodeAndChildren f fuel n).roots = f.roots := by
  intro fuel
  induction fuel with
  | zero => intro f n; rfl
  | succ fuel ih =>
    intro f n
    show ((childrenOf f n).foldl (fun acc c => indexNodeAndChildren acc fuel c)
      { f with index := mapSet f.index (valueIdOf f n) n }).roots = f.roots
    rw [foldl_stable Forest.roots _ (fun g b => ih g b)]

theorem childrenOf_eq_of_store {f g : Forest} (h : g.store = f.store) (n : NodeId) :
    childrenOf g n = childrenOf f n := by
  unfold childrenOf getNode
  rw [h]

theorem valueIdOf_eq_of_store {f g : Forest} (h : g.store = f.store) (n : NodeId) :
    valueIdOf g n = valueIdOf f n := by
  unfold valueIdOf getNode
  rw [h]

/-! ## Index targets of a subtree walk -/

theorem foldl_index_avoid (i : NodeId) (fuel : Nat)
    (hstep : ∀ (f : Forest) (n : NodeId), (∀ a, i ∉ childrenOf f a) → n ≠ i →
      (∀ k a, mapGet f.index k = some a → a ≠ i) →
      ∀ k a, mapGet (indexNodeAndChildren f fuel n).index k = some a → a ≠ i) :
    ∀ (l : List NodeId) (g : Forest),
      (∀ a, i ∉ childrenOf g a) → (∀ c ∈ l, c ≠ i) →
      (∀ k a, mapGet g.index k = some a → a ≠ i) →
      ∀ k a, mapGet (l.foldl (fun acc c => indexNodeAndChildren acc fuel c) g).index k =
        some a → a ≠ i := by
  intro l
  induction l with
  | nil => intro g _ _ hidx; exact hidx
  | cons c cs ihl =>
    intro g hch hcs hidx
    rw [List.foldl_cons]
    apply ihl
    · intro a
      rw [childrenOf_eq_of_store (indexNodeAndChildren_store fuel g c) a]
      exact hch a
    · exact fun x hx => hcs x (List.mem_cons_of_mem _ hx)
    · exact hstep g c hch (hcs c (List.mem_cons_self _ _)) hidx

theorem indexNodeAndChildren_avoid (i : NodeId) :
    ∀ (fuel : Nat) (f : Forest) (n : NodeId),
      (∀ a, i ∉ childrenOf f a) → n ≠ i →
      (∀ k a, mapGet f.index k = some a → a ≠ i) →
      (∀ k a, mapGet (indexNodeAndChildren f fuel n).index k = some a → a ≠ i) := by
  intro fuel
  induction fuel with
  | zero => intro f n _ _ hidx; exact hidx
  | succ fuel ih =>
    intro f n hch hn hidx
    show ∀ k a, mapGet ((childrenOf f n).foldl (fun acc c => indexNodeAndChildren acc fuel c)
      { f with index := mapSet f.index (valueIdOf f n) n }).index k = some a → a ≠ i
    apply foldl_index_avoid i fuel ih
    · intro a
      exact hch a
    · intro c hc he
      subst he
      exact hch n hc
    · intro k a ha
      rcases mapGet_mapSet_cases _ _ _ _ _ ha with he | he
      · rw [he]; exact hn
      · exact hidx k a he


/-! ## The second pass of deserializeFlat never touches an unlinked node -/

theorem addRoot_roots (f : Forest) (n : NodeId) :
    (addRoot f n).roots = f.roots ++ [n] := by
  unfold addRoot
  rw [indexNodeAndChildren_roots]
  show ({ setParent f n none with
    roots := (setParent f n none).roots ++ [n] } : Forest).roots = f.roots ++ [n]
  rw [roots_setParent f n none]

theorem addRoot_store (f : Forest) (n : NodeId) :
    (addRoot f n).store = (setParent f n none).store := by
  unfold addRoot
  rw [indexNodeAndChildren_store]

theorem childrenOf_addRoot (f : Forest) (n a : NodeId) :
    childrenOf (addRoot f n) a = childrenOf f a := by
  rw [childrenOf_eq_of_store (addRoot_store f n) a, childrenOf_setParent]

theorem childrenOf_setChildren_cases (f : Forest) (m n : NodeId) (cs : List NodeId) :
    childrenOf (setChildren f m cs) n = childrenOf f n ∨
      (n = m ∧ childrenOf (setChildren f m cs) n = cs) := by
  cases hm : getNode f m with
  | none =>
    left
    unfold setChildren
    rw [hm]
  | some r =>
    by_cases hmn : m = n
    · subst hmn
      right
      exact ⟨rfl, childrenOf_setChildren_self f cs (lt_of_getNode_isSome f hm)⟩
    · left
      exact childrenOf_setChildren_ne f cs hmn

/-- Avoidance invariant for a node reference `i`: it appears in no
children array, is not a root, and is the target of no index entry. -/
def AvoidsNode (g : Forest) (i : NodeId) : Prop :=
  (∀ a, i ∉ childrenOf g a) ∧ i ∉ g.roots ∧
    (∀ k a, mapGet g.index k = some a → a ≠ i)

theorem childrenOf_withRoots (f : Forest) (rs : List NodeId) (a : NodeId) :
    childrenOf { f with roots := rs } a = childrenOf f a := rfl

theorem index_withRoots (f : Forest) (rs : List NodeId) :
    ({ f with roots := rs } : Forest).index = f.index := rfl

theorem addRoot_avoids {g : Forest} {i : NodeId} (h : AvoidsNode g i)
    {n : NodeId} (hn : n ≠ i) : AvoidsNode (addRoot g n) i := by
  refine ⟨?_, ?_, ?_⟩
  · intro a
    rw [childrenOf_addRoot]
    exact h.1 a
  · rw [addRoot_roots]
    simp only [List.mem_append, List.mem_singleton]
    rintro (hh | hh)
    · exact h.2.1 hh
    · exact hn hh.symm
  · unfold addRoot
    apply indexNodeAndChildren_avoid
    · intro a
      rw [childrenOf_withRoots, childrenOf_setParent]
      exact h.1 a
    · exact hn
    · rw [index_withRoots, index_setParent]
      exact h.2.2

theorem flatPassTwoStep_avoids (nodeMap : List (Int × NodeId)) (i : NodeId)
    (g : Forest) (q : FlatRec) (h : AvoidsNode g i)
    (hq : (∀ j, mapGet nodeMap q.id = some j → j ≠ i) ∨
      (∃ p, q.parentId = some p ∧ mapGet nodeMap p = none)) :
    AvoidsNode (flatPassTwoStep nodeMap g q) i := by
  cases hn : mapGet nodeMap q.id with
  | none =>
    have hstep : flatPassTwoStep nodeMap g q = g := by
      simp only [flatPassTwoStep, hn]
    rw [hstep]
    exact h
  | some n =>
    cases hpid : q.parentId with
    | none =>
      have hstep : flatPassTwoStep nodeMap g q = addRoot g n := by
        simp only [flatPassTwoStep, hn, hpid]
      rw [hstep]
      have hni : n ≠ i := by
        rcases hq with hq | ⟨p, hp, _⟩
        · exact hq n hn
        · rw [hpid] at hp
          exact Option.noConfusion hp
      exact addRoot_avoids h hni
    | some pid =>
      cases hpar : mapGet nodeMap pid with
      | none =>
        have hstep : flatPassTwoStep nodeMap g q = g := by
          simp only [flatPassTwoStep, hn, hpid, hpar]
        rw [hstep]
        exact h
      | some par =>
        have hstep : flatPassTwoStep nodeMap g q =
            indexNodeAndChildren
              (setChildren (setParent g n (some par)) par
                (childrenOf (setParent g n (some par)) par ++ [n]))
              (walkFuel (setChildren (setParent g n (some par)) par
                (childrenOf (setParent g n (some par)) par ++ [n]))) n := by
          simp only [flatPassTwoStep, hn, hpid, hpar]
        rw [hstep]
        have hni : n ≠ i := by
          rcases hq with hq | ⟨p, hp, hpn⟩
          · exact hq n hn
          · rw [hpid] at hp
            rw [Option.some.inj hp] at hpar
            rw [hpar] at hpn
            exact Option.noConfusion hpn
        have hch2 : ∀ a, i ∉ childrenOf (setChildren (setParent g n (some par)) par
            (childrenOf (setParent g n (some par)) par ++ [n])) a := by
          intro a
          rcases childrenOf_setChildren_cases (setParent g n (some par)) par a
              (childrenOf (setParent g n (some par)) par ++ [n]) with hc | ⟨_, hc⟩
          · rw [hc, childrenOf_setParent]
            exact h.1 a
          · rw [hc]
            simp only [List.mem_append, List.mem_singleton]
            rintro (hh | hh)
            · rw [childrenOf_setParent] at hh
              exact h.1 par hh
            · exact hni hh.symm
        refine ⟨?_, ?_, ?_⟩
        · intro a
          rw [childrenOf_eq_of_store (indexNodeAndChildren_store _ _ _) a]
          exact hch2 a
        · rw [indexNodeAndChildren_roots, roots_setChildren, roots_setParent]
          exact h.2.1
        · apply indexNodeAndChildren_avoid
          · exact hch2
          · exact hni
          · rw [index_setChildren, index_setParent]
            exact h.2.2

theorem pass2_fold_avoids (nodeMap : List (Int × NodeId)) (i : NodeId) :
    ∀ (L : List FlatRec) (g : Forest), AvoidsNode g i →
      (∀ q ∈ L, (∀ j, mapGet nodeMap q.id = some j → j ≠ i) ∨
        (∃ p, q.parentId = some p ∧ mapGet nodeMap p = none)) →
      AvoidsNode (L.foldl (flatPassTwoStep nodeMap) g) i := by
  intro L
  induction L with
  | nil => intro g h _; exact h
  | cons q L ih =>
    intro g h hcond
    rw [List.foldl_cons]
    exact ih _ (flatPassTwoStep_avoids nodeMap i g q h (hcond q (List.mem_cons_self _ _)))
      (fun q2 hq2 => hcond q2 (List.mem_cons_of_mem _ hq2))

/-! ## Avoided nodes are not traversed -/

theorem preAux_zero (f : Forest) (stack : List (NodeId × Nat)) (maxDepth : Option Nat) :
    preAux f 0 stack maxDepth = [] := by
  cases stack with
  | nil => rfl
  | cons nd rest => rfl

theorem preAux_nil (f : Forest) (fuel : Nat) (maxDepth : Option Nat) :
    preAux f fuel [] maxDepth = [] := by
  cases fuel <;> rfl

theorem preAux_cons (f : Forest) (fuel : Nat) (n : NodeId) (d : Nat)
    (stack : List (NodeId × Nat)) (maxDepth : Option Nat) :
    preAux f (fuel + 1) ((n, d) :: stack) maxDepth =
      (n, d) :: preAux f fuel
        ((if levelStop maxDepth d then []
          else (childrenOf f n).map (fun c => (c, d + 1))) ++ stack) maxDepth := by
  cases maxDepth with
  | none => simp [preAux, levelStop]
  | some md =>
    by_cases h : md ≤ d <;> simp [preAux, levelStop, h]

theorem preAux_avoid (g : Forest) (i : NodeId) (hch : ∀ a, i ∉ childrenOf g a) :
    ∀ (fuel : Nat) (stack : List (NodeId × Nat)) (maxDepth : Option Nat),
      (∀ e ∈ stack, e.1 ≠ i) → ∀ e ∈ preAux g fuel stack maxDepth, e.1 ≠ i := by
  intro fuel
  induction fuel with
  | zero =>
    intro stack maxDepth hst e he
    rw [preAux_zero] at he
    cases he
  | succ fuel ih =>
    intro stack maxDepth hst e he
    cases stack with
    | nil =>
      rw [preAux_nil] at he
      cases he
    | cons nd rest =>
      obtain ⟨n, d⟩ := nd
      rw [preAux_cons] at he
      rcases List.mem_cons.mp he with he | he
      · rw [he]
        exact hst (n, d) (List.mem_cons_self _ _)
      · refine ih _ maxDepth ?_ e he
        intro e2 he2
        rcases List.mem_append.mp he2 with hh | hh
        · by_cases hstop : levelStop maxDepth d
          · rw [if_pos hstop] at hh
            cases hh
          · rw [if_neg hstop] at hh
            obtain ⟨c, hc, hce⟩ := List.mem_map.mp hh
            rw [← hce]
            intro he3
            have hci : c = i := he3
            rw [hci] at hc
            exact hch n hc
        · exact hst e2 (List.mem_cons_of_mem _ hh)

theorem traverseList_avoid {g : Forest} {i : NodeId} (h : AvoidsNode g i)
    (maxDepth : Option Nat) : ∀ e ∈ traverseList g maxDepth, e.1 ≠ i := by
  intro e he
  unfold traverseList at he
  rw [List.mem_flatten] at he
  obtain ⟨l, hl, hel⟩ := he
  obtain ⟨rt, hrt, hle⟩ := List.mem_map.mp hl
  rw [← hle] at hel
  refine preAux_avoid g i h.1 _ _ _ ?_ e hel
  intro e2 he2
  rcases List.mem_singleton.mp he2 with he2
  rw [he2]
  intro hcon
  have hri : rt = i := hcon
  rw [hri] at hrt
  exact h.2.1 hrt


/-! ## Position analysis of nodeMap and root counting -/

theorem mapGet_flatMapAux_inv (k : Int) :
    ∀ (L : List FlatRec) (base : Nat) (m : List (Int × NodeId)) (v : NodeId),
      mapGet (flatMapAux base m L) k = some v →
      mapGet m k = some v ∨ ∃ j, ∃ (hj : j < L.length), v = base + j ∧ L[j].id = k := by
  intro L
  induction L with
  | nil =>
    intro base m v h
    exact Or.inl h
  | cons q rs ih =>
    intro base m v h
    rcases ih (base + 1) (mapSet m q.id base) v h with hm | ⟨j, hj, he, hid⟩
    · by_cases hk : q.id = k
      · subst hk
        rw [mapGet_mapSet_self] at hm
        have hbv : base = v := Option.some.inj hm
        right
        refine ⟨0, by simp, ?_, by simp⟩
        show v = base + 0
        rw [Nat.add_zero]
        exact hbv.symm
      · rw [mapGet_mapSet_ne m base hk] at hm
        exact Or.inl hm
    · right
      have hb : j + 1 < (q :: rs).length := by
        simp only [List.length_cons]
        omega
      refine ⟨j + 1, hb, ?_, ?_⟩
      · show v = base + (j + 1)
        rw [he, Nat.add_assoc, Nat.add_comm 1 j]
      · simpa using hid

theorem flatPassTwoStep_roots_length (nodeMap : List (Int × NodeId)) (g : Forest)
    (q : FlatRec) (hsome : (mapGet nodeMap q.id).isSome) :
    (flatPassTwoStep nodeMap g q).roots.length =
      g.roots.length + (if q.parentId.isNone then 1 else 0) := by
  cases hn : mapGet nodeMap q.id with
  | none => rw [hn] at hsome; cases hsome
  | some n =>
    cases hpid : q.parentId with
    | none =>
      have hstep : flatPassTwoStep nodeMap g q = addRoot g n := by
        simp only [flatPassTwoStep, hn, hpid]
      rw [hstep, addRoot_roots]
      simp
    | some pid =>
      cases hpar : mapGet nodeMap pid with
      | none =>
        have hstep : flatPassTwoStep nodeMap g q = g := by
          simp only [flatPassTwoStep, hn, hpid, hpar]
        rw [hstep]
        simp
      | some par =>
        have hstep : flatPassTwoStep nodeMap g q =
            indexNodeAndChildren
              (setChildren (setParent g n (some par)) par
                (childrenOf (setParent g n (some par)) par ++ [n]))
              (walkFuel (setChildren (setParent g n (some par)) par
                (childrenOf (setParent g n (some par)) par ++ [n]))) n := by
          simp only [flatPassTwoStep, hn, hpid, hpar]
        rw [hstep]
        rw [indexNodeAndChildren_roots, roots_setChildren, roots_setParent]
        simp

theorem pass2_fold_roots_length (nodeMap : List (Int × NodeId)) :
    ∀ (L : List FlatRec) (g : Forest), (∀ q ∈ L, (mapGet nodeMap q.id).isSome) →
      (L.foldl (flatPassTwoStep nodeMap) g).roots.length =
        g.roots.length + (L.filter (fun q => q.parentId.isNone)).length := by
  intro L
  induction L with
  | nil => intro g _; simp
  | cons q L ih =>
    intro g hsome
    rw [List.foldl_cons]
    rw [ih _ (fun q2 hq2 => hsome q2 (List.mem_cons_of_mem _ hq2))]
    rw [flatPassTwoStep_roots_length nodeMap g q (hsome q (List.mem_cons_self _ _))]
    rw [List.filter_cons]
    by_cases hq : q.parentId.isNone
    · simp only [hq, if_true, List.length_cons]
      omega
    · simp only [hq, Bool.false_eq_true, if_false]
      omega

/-! ## Claim C6 -/

theorem flatPassOne_eq (f : Forest) (records : List FlatRec) :
    flatPassOne f records =
      ({ f with store := f.store ++ records.map initRec },
        flatMapAux f.store.length [] records) :=
  flatPassOne_spec records f []

theorem deserializeFlat_emptyForest (L : List FlatRec) :
    deserializeFlat emptyForest L =
      L.foldl (flatPassTwoStep (flatMapAux 0 [] L)) ⟨L.map initRec, [], []⟩ := by
  have h := flatPassOne_eq emptyForest L
  calc deserializeFlat emptyForest L
      = L.foldl (flatPassTwoStep (flatPassOne emptyForest L).2)
        (flatPassOne emptyForest L).1 := rfl
    _ = _ := by
      rw [h]
      rfl

theorem initial_avoids (L : List FlatRec) (i : NodeId) :
    AvoidsNode ⟨L.map initRec, [], []⟩ i := by
  refine ⟨?_, by simp, fun k a h => Option.noConfusion h⟩
  intro a
  show i ∉ childrenOf ⟨L.map initRec, [], []⟩ a
  unfold childrenOf getNode
  cases h : (L.map initRec)[a]? with
  | none => simp
  | some r =>
    rw [List.getElem?_map] at h
    cases h2 : L[a]? with
    | none => rw [h2] at h; cases h
    | some x =>
      rw [h2] at h
      have : initRec x = r := Option.some.inj h
      rw [← this]
      simp [initRec]

/-- Flat input whose second record (position 1, id 7) has an unresolvable
parent id 99 while sharing its id with the first record. -/
def dupIdFlat : List FlatRec :=
  [⟨7, 70, none⟩, ⟨7, 71, some 99⟩]

/-- C6 (counterexample): in `dupIdFlat` the record at position 1 has a
non-null `parentId` 99 that matches no record id, so the claim says its
node must end up neither reachable nor indexed.  But `nodeMap` maps id 7
to the node of the *later* record (position 1), so the first record's
root-linking step adds that node — the orphan record's node — as a root:
it ends up reachable and in the index. -/
theorem deserializeFlat_orphan_node_can_be_reached :
    dupIdFlat[1]? = some ⟨7, 71, some 99⟩ ∧
      (∀ q ∈ dupIdFlat, q.id ≠ 99) ∧
      (deserializeFlat emptyForest dupIdFlat).roots = [1] ∧
      mapGet (deserializeFlat emptyForest dupIdFlat).index 7 = some 1 ∧
      (traverseList (deserializeFlat emptyForest dupIdFlat) none).map Prod.fst = [1] := by
  decide

/-- C6 (amended): for a flat input record (at position `i`) whose
`parentId` is non-null and matches no record id, provided no other record
shares the record's own id, the record's node is silently omitted: it is
not reachable from the resulting roots and is the target of no index
entry, no error is raised (`deserializeFlat` is total by construction),
and all other records are still processed — in particular every record
with a null `parentId` still contributes exactly one root. -/
theorem deserializeFlat_unresolved_parent_dropped
    (L : List FlatRec) (i : Nat) (r : FlatRec) (p : Int)
    (hget : L[i]? = some r) (hpid : r.parentId = some p)
    (hp : ∀ q ∈ L, q.id ≠ p)
    (huniq : ∀ j, ∀ (hj : j < L.length), L[j].id = r.id → j = i) :
    (∀ e ∈ traverseList (deserializeFlat emptyForest L) none, e.1 ≠ i) ∧
      (∀ k a, mapGet (deserializeFlat emptyForest L).index k = some a → a ≠ i) ∧
      (deserializeFlat emptyForest L).roots.length =
        (L.filter (fun q => q.parentId.isNone)).length := by
  obtain ⟨hlen, hLi⟩ := List.getElem?_eq_some.mp hget
  rw [deserializeFlat_emptyForest]
  have hnone : mapGet (flatMapAux 0 [] L) p = none :=
    mapGet_flatMapAux_of_not_mem p L 0 [] hp
  have hcond : ∀ q ∈ L, (∀ j, mapGet (flatMapAux 0 [] L) q.id = some j → j ≠ i) ∨
      (∃ p2, q.parentId = some p2 ∧ mapGet (flatMapAux 0 [] L) p2 = none) := by
    intro q hq
    by_cases hid : q.id = r.id
    · right
      obtain ⟨j, hj, hjq⟩ := List.mem_iff_getElem.mp hq
      have hji : j = i := huniq j hj (by rw [hjq, hid])
      have hqr : q = r := by
        subst hji
        exact hjq.symm.trans hLi
      rw [hqr]
      exact ⟨p, hpid, hnone⟩
    · left
      intro j hj hji
      subst hji
      rcases mapGet_flatMapAux_inv q.id L 0 [] j hj with hm | ⟨j2, hj2, hje, hid2⟩
      · exact Option.noConfusion hm
      · have hj2j : j2 = j := by
          rw [Nat.zero_add] at hje
          exact hje.symm
        subst hj2j
        rw [hLi] at hid2
        exact hid hid2.symm
  have hmain : AvoidsNode
      (L.foldl (flatPassTwoStep (flatMapAux 0 [] L)) ⟨L.map initRec, [], []⟩) i :=
    pass2_fold_avoids (flatMapAux 0 [] L) i L _ (initial_avoids L i) hcond
  refine ⟨traverseList_avoid hmain none, hmain.2.2, ?_⟩
  have hsome : ∀ q ∈ L, (mapGet (flatMapAux 0 [] L) q.id).isSome := by
    intro q hq
    exact mapGet_flatMapAux_isSome q.id L 0 [] (Or.inl ⟨q, hq, rfl⟩)
  rw [pass2_fold_roots_length (flatMapAux 0 [] L) L _ hsome]
  simp

/-- Flat input for the C6 witness: a root record, an orphan record
(position 1, unresolvable parent 99) and a record parented to the orphan. -/
def orphanFlat : List FlatRec :=
  [⟨1, 10, none⟩, ⟨2, 20, some 99⟩, ⟨3, 30, some 2⟩]

/-- C6 (witness): on `orphanFlat`, whose record 1 has the unresolvable
parent id 99 and a unique own id, the orphan's node 1 is unreachable and
unindexed while the single null-parent record still yields one root. -/
theorem deserializeFlat_unresolved_parent_dropped_witness :
    (∀ e ∈ traverseList (deserializeFlat emptyForest orphanFlat) none, e.1 ≠ 1) ∧
      (∀ k a, mapGet (deserializeFlat emptyForest orphanFlat).index k = some a → a ≠ 1) ∧
      (deserializeFlat emptyForest orphanFlat).roots.length =
        (orphanFlat.filter (fun q => q.parentId.isNone)).length :=
  deserializeFlat_unresolved_parent_dropped orphanFlat 1 ⟨2, 20, some 99⟩ 99
    (by decide) (by decide) (by decide) (by decide)


/-! ## Pure root-to-node paths -/

mutual

/-- Root-to-node path (by reference) inside one pure tree, if the node is
there. -/
def pathToP (n : NodeId) : PTree → Option (List NodeId)
  | .mk a _ cs => if a = n then some [a] else (pathToPL n cs).map (fun p => a :: p)

/-- Root-to-node path across a list of pure trees: first tree containing
the node wins. -/
def pathToPL (n : NodeId) : List PTree → Option (List NodeId)
  | [] => none
  | t :: ts =>
    match pathToP n t with
    | some p => some p
    | none => pathToPL n ts

end

theorem pathToPL_elim (n : NodeId) :
    ∀ (ts : List PTree) (p : List NodeId), pathToPL n ts = some p →
      ∃ t ∈ ts, pathToP n t = some p := by
  intro ts
  induction ts with
  | nil => intro p h; cases h
  | cons t ts ih =>
    intro p h
    unfold pathToPL at h
    cases ht : pathToP n t with
    | some p2 =>
      rw [ht] at h
      exact ⟨t, List.mem_cons_self _ _, by rw [ht, Option.some.inj h]⟩
    | none =>
      rw [ht] at h
      obtain ⟨t2, ht2, hp2⟩ := ih p h
      exact ⟨t2, List.mem_cons_of_mem _ ht2, hp2⟩

theorem mem_flatsPL_of_mem {e : FEntry} {par : Option NodeId} :
    ∀ {cs : List PTree} {c : PTree}, c ∈ cs → e ∈ flatsP par c → e ∈ flatsPL par cs
  | c2 :: cs, c, hc, he => by
    show e ∈ flatsP par c2 ++ flatsPL par cs
    rcases List.mem_cons.mp hc with h | h
    · subst h
      exact List.mem_append_left _ he
    · exact List.mem_append_right _ (mem_flatsPL_of_mem h he)

theorem flatsP_sublist (par : Option NodeId) :
    ∀ {cs : List PTree} {c : PTree}, c ∈ cs →
      List.Sublist (flatsP par c) (flatsPL par cs) := by
  intro cs
  induction cs with
  | nil => intro c hc; cases hc
  | cons c2 cs ih =>
    intro c hc
    show List.Sublist (flatsP par c) (flatsP par c2 ++ flatsPL par cs)
    rcases List.mem_cons.mp hc with h | h
    · subst h
      exact List.sublist_append_left _ _
    · exact (ih h).trans (List.sublist_append_right _ _)

theorem flatsP_head (par : Option NodeId) (t : PTree) :
    ∃ rest, flatsP par t = ⟨t.adr, t.value, t.children.map PTree.adr, par⟩ :: rest := by
  cases t with
  | mk a v cs => exact ⟨flatsPL (some a) cs, rfl⟩

theorem parentOf_of_flats {f : Forest} {par : Option NodeId} {t : PTree}
    (hOK : ∀ e ∈ flatsP par t, f.store[e.adr]? = some e.toRec) :
    parentOf f t.adr = par := by
  obtain ⟨rest, hflat⟩ := flatsP_head par t
  have hmem : (⟨t.adr, t.value, t.children.map PTree.adr, par⟩ : FEntry) ∈ flatsP par t := by
    rw [hflat]
    exact List.mem_cons_self _ _
  have := hOK _ hmem
  unfold parentOf getNode
  rw [this]
  rfl

theorem sizeP_le_of_mem : ∀ {cs : List PTree} {c : PTree}, c ∈ cs → sizeP c ≤ sizePL cs := by
  intro cs
  induction cs with
  | nil => intro c hc; cases hc
  | cons c2 cs ih =>
    intro c hc
    show sizeP c ≤ sizeP c2 + sizePL cs
    rcases List.mem_cons.mp hc with h | h
    · subst h
      omega
    · have := ih h
      omega

theorem pathToP_spec (f : Forest) (n : NodeId) :
    ∀ (N : Nat) (t : PTree), sizeP t ≤ N →
      ∀ (par : Option NodeId) (p : List NodeId),
        (∀ e ∈ flatsP par t, f.store[e.adr]? = some e.toRec) →
        ((flatsP par t).map FEntry.adr).Nodup →
        pathToP n t = some p →
        p ≠ [] ∧ p.head? = some t.adr ∧ p.getLast? = some n ∧
          List.Chain' (fun x y => parentOf f y = some x) p ∧
          p.Nodup ∧ ∀ x ∈ p, x ∈ (flatsP par t).map FEntry.adr := by
  intro N
  induction N with
  | zero =>
    intro t ht
    exfalso
    have := sizeP_pos t
    omega
  | succ N ih =>
    intro t ht par p hOK hnd hp
    obtain ⟨a, v, cs⟩ := t
    unfold pathToP at hp
    by_cases han : a = n
    · rw [if_pos han] at hp
      have hpe : p = [a] := (Option.some.inj hp).symm
      subst hpe
      subst han
      refine ⟨by simp, rfl, by simp, List.chain'_singleton _, by simp, ?_⟩
      intro x hx
      rcases List.mem_singleton.mp hx with hx
      subst hx
      show x ∈ (flatsP par (.mk x v cs)).map FEntry.adr
      obtain ⟨rest, hflat⟩ := flatsP_head par (.mk x v cs)
      rw [hflat]
      exact List.mem_cons_self _ _
    · rw [if_neg han] at hp
      obtain ⟨p2, hp2, hpe⟩ := Option.map_eq_some'.mp hp
      subst hpe
      obtain ⟨c, hc, hpc⟩ := pathToPL_elim n cs p2 hp2
      have hOKc : ∀ e ∈ flatsP (some a) c, f.store[e.adr]? = some e.toRec := by
        intro e he
        exact hOK e (List.mem_cons_of_mem _ (mem_flatsPL_of_mem hc he))
      have htail : ((flatsPL (some a) cs).map FEntry.adr).Nodup ∧
          a ∉ (flatsPL (some a) cs).map FEntry.adr := by
        have h2 := hnd
        rw [show flatsP par (.mk a v cs) =
          (⟨a, v, cs.map PTree.adr, par⟩ : FEntry) :: flatsPL (some a) cs from rfl] at h2
        rw [List.map_cons] at h2
        have h3 := List.nodup_cons.mp h2
        exact ⟨h3.2, h3.1⟩
      have hndc : ((flatsP (some a) c).map FEntry.adr).Nodup :=
        htail.1.sublist (List.Sublist.map _ (flatsP_sublist (some a) hc))
      have hsz : sizeP c ≤ N := by
        have h1 := sizeP_le_of_mem hc
        have h2 : sizeP (PTree.mk a v cs) = 1 + sizePL cs := rfl
        omega
      obtain ⟨hne, hhead, hlast, hchain, hnd2, hsub⟩ :=
        ih c hsz (some a) p2 hOKc hndc hpc
      have hsub2 : ∀ x ∈ p2, x ∈ (flatsPL (some a) cs).map FEntry.adr := by
        intro x hx
        exact (List.Sublist.map _ (flatsP_sublist (some a) hc)).subset (hsub x hx)
      refine ⟨by simp, rfl, ?_, ?_, ?_, ?_⟩
      · show ([a] ++ p2).getLast? = some n
        rw [List.getLast?_append_of_ne_nil]
        · exact hlast
        · exact hne
      · rw [List.chain'_cons']
        refine ⟨?_, hchain⟩
        intro y hy
        rw [hhead] at hy
        have hyc : c.adr = y := Option.some.inj (Option.mem_def.mp hy)
        rw [← hyc]
        exact parentOf_of_flats hOKc
      · rw [List.nodup_cons]
        refine ⟨?_, hnd2⟩
        intro hin
        exact htail.2 (hsub2 a hin)
      · intro x hx
        rcases List.mem_cons.mp hx with he | he
        · subst he
          show x ∈ (flatsP par (.mk x v cs)).map FEntry.adr
          obtain ⟨rest, hflat⟩ := flatsP_head par (.mk x v cs)
          rw [hflat]
          exact List.mem_cons_self _ _
        · show x ∈ (flatsP par (.mk a v cs)).map FEntry.adr
          rw [show flatsP par (.mk a v cs) =
            (⟨a, v, cs.map PTree.adr, par⟩ : FEntry) :: flatsPL (some a) cs from rfl]
          rw [List.map_cons]
          exact List.mem_cons_of_mem _ (hsub2 x he)


/-! ## The parent-chain walk follows the pure path -/

theorem getPathAux_none (f : Forest) (fuel : Nat) (acc : List NodeId) :
    getPathAux f fuel none acc = acc := by
  cases fuel <;> rfl

theorem getPathAux_zero (f : Forest) (o : Option NodeId) (acc : List NodeId) :
    getPathAux f 0 o acc = acc := by
  cases o <;> rfl

theorem getPathAux_succ (f : Forest) (fuel : Nat) (n : NodeId) (acc : List NodeId) :
    getPathAux f (fuel + 1) (some n) acc = getPathAux f fuel (parentOf f n) (n :: acc) := rfl

theorem getPath_of_chain (f : Forest) :
    ∀ (p : List NodeId), p ≠ [] →
      List.Chain' (fun x y => parentOf f y = some x) p →
      (∀ h0, p.head? = some h0 → parentOf f h0 = none) →
      ∀ (n : NodeId), p.getLast? = some n →
        ∀ (fuel : Nat), p.length ≤ fuel →
          ∀ acc, getPathAux f fuel (some n) acc = p ++ acc := by
  intro p
  induction p using List.reverseRecOn with
  | nil => intro h; exact absurd rfl h
  | append_singleton init last ih =>
    intro hne hchain hhead n hlast fuel hfuel acc
    have hn : last = n := by
      rw [List.getLast?_append_cons init last []] at hlast
      exact Option.some.inj (by simpa using hlast)
    subst hn
    cases fuel with
    | zero =>
      exfalso
      rw [List.length_append] at hfuel
      simp at hfuel
    | succ fuel =>
      rw [getPathAux_succ]
      cases init with
      | nil =>
        have hplast : parentOf f last = none := by
          apply hhead
          simp
        rw [hplast, getPathAux_none]
        simp
      | cons i0 init2 =>
        obtain ⟨h1, h2, hrel⟩ := List.chain'_append.mp hchain
        cases hil : (i0 :: init2).getLast? with
        | none => simp at hil
        | some m =>
          have hplast : parentOf f last = some m := by
            apply hrel m
            · rw [hil]; rfl
            · rfl
          rw [hplast]
          have hih := ih (List.cons_ne_nil i0 init2) h1 ?_ m hil fuel ?_ (last :: acc)
          · rw [hih]
            simp
          · intro h0 hh0
            apply hhead h0
            rw [List.head?_append_of_ne_nil _ (List.cons_ne_nil i0 init2)]
            exact hh0
          · rw [List.length_append] at hfuel
            simp only [List.length_cons, List.length_singleton] at hfuel ⊢
            omega

theorem getPath_eq_of_pathToPL {f : Forest} {ts : List PTree} (h : Represents f ts)
    {n : NodeId} {p : List NodeId} (hp : pathToPL n ts = some p) :
    getPath f n = p ∧ p ≠ [] ∧ p.getLast? = some n ∧ p.Nodup := by
  obtain ⟨t, ht, hpt⟩ := pathToPL_elim n ts p hp
  have hOKt : ∀ e ∈ flatsP none t, f.store[e.adr]? = some e.toRec := by
    intro e he
    exact h.2.1 e (mem_flatsPL_of_mem ht he)
  have hndt : ((flatsP none t).map FEntry.adr).Nodup :=
    h.2.2.1.sublist (List.Sublist.map _ (flatsP_sublist none ht))
  obtain ⟨hne, hhead, hlast, hchain, hnd, hsub⟩ :=
    pathToP_spec f n (sizeP t) t (Nat.le_refl _) none p hOKt hndt hpt
  refine ⟨?_, hne, hlast, hnd⟩
  have hmemF : ∀ x ∈ p, x < f.store.length := by
    intro x hx
    obtain ⟨e, he, hee⟩ := List.mem_map.mp (hsub x hx)
    rw [← hee]
    exact adr_lt_of_represents h e (mem_flatsPL_of_mem ht he)
  have hlen : p.length ≤ f.store.length := by
    have hsubr : p ⊆ List.range f.store.length := by
      intro x hx
      exact List.mem_range.mpr (hmemF x hx)
    have := (List.subperm_of_subset hnd hsubr).length_le
    rwa [List.length_range] at this
  have hzero : ∀ h0, p.head? = some h0 → parentOf f h0 = none := by
    intro h0 hh0
    rw [hhead] at hh0
    rw [← Option.some.inj hh0]
    exact parentOf_of_flats hOKt
  have := getPath_of_chain f p hne hchain hzero n hlast (walkFuel f)
    (by unfold walkFuel; omega) []
  unfold getPath
  rw [this]
  simp

/-! ## Common-prefix facts -/

theorem commonPrefLen_le_left : ∀ (l1 l2 : List NodeId), commonPrefLen l1 l2 ≤ l1.length := by
  intro l1
  induction l1 with
  | nil => intro l2; cases l2 <;> simp [commonPrefLen]
  | cons x xs ih =>
    intro l2
    cases l2 with
    | nil => simp [commonPrefLen]
    | cons y ys =>
      unfold commonPrefLen
      by_cases hxy : x = y
      · rw [if_pos hxy]
        have := ih ys
        simp only [List.length_cons]
        omega
      · rw [if_neg hxy]
        omega

theorem commonPrefLen_le_right : ∀ (l1 l2 : List NodeId), commonPrefLen l1 l2 ≤ l2.length := by
  intro l1
  induction l1 with
  | nil => intro l2; cases l2 <;> simp [commonPrefLen]
  | cons x xs ih =>
    intro l2
    cases l2 with
    | nil => simp [commonPrefLen]
    | cons y ys =>
      unfold commonPrefLen
      by_cases hxy : x = y
      · rw [if_pos hxy]
        have := ih ys
        simp only [List.length_cons]
        omega
      · rw [if_neg hxy]
        omega

theorem commonPrefLen_getElem :
    ∀ (l1 l2 : List NodeId) (i : Nat), i < commonPrefLen l1 l2 → l1[i]? = l2[i]? := by
  intro l1
  induction l1 with
  | nil => intro l2 i h; simp [commonPrefLen] at h
  | cons x xs ih =>
    intro l2 i h
    cases l2 with
    | nil => simp [commonPrefLen] at h
    | cons y ys =>
      unfold commonPrefLen at h
      by_cases hxy : x = y
      · rw [if_pos hxy] at h
        cases i with
        | zero => simp [hxy]
        | succ i =>
          simp only [List.getElem?_cons_succ]
          exact ih ys i (by omega)
      · rw [if_neg hxy] at h
        omega

theorem getLast?_drop_of_lt (l : List NodeId) (k : Nat) (h : k < l.length) :
    (l.drop k).getLast? = l.getLast? := by
  rw [List.getLast?_eq_getElem?, List.getLast?_eq_getElem?, List.getElem?_drop,
    List.length_drop]
  congr 1
  omega


theorem commonPrefLen_cons (x y : NodeId) (xs ys : List NodeId) :
    commonPrefLen (x :: xs) (y :: ys) =
      if x = y then commonPrefLen xs ys + 1 else 0 := rfl

theorem commonPrefLen_zero_cons (x y : NodeId) (xs ys : List NodeId) :
    commonPrefLen (x :: xs) (y :: ys) = 0 ↔ x ≠ y := by
  unfold commonPrefLen
  by_cases hxy : x = y
  · rw [if_pos hxy]
    simp [hxy]
  · rw [if_neg hxy]
    simp [hxy]

theorem commonPrefLen_max :
    ∀ (l1 l2 : List NodeId),
      commonPrefLen l1 l2 = l1.length ∨ commonPrefLen l1 l2 = l2.length ∨
        l1[commonPrefLen l1 l2]? ≠ l2[commonPrefLen l1 l2]? := by
  intro l1
  induction l1 with
  | nil => intro l2; left; simp [commonPrefLen]
  | cons x xs ih =>
    intro l2
    cases l2 with
    | nil => right; left; simp [commonPrefLen]
    | cons y ys =>
      by_cases hxy : x = y
      · have hk : commonPrefLen (x :: xs) (y :: ys) = commonPrefLen xs ys + 1 := by
          rw [commonPrefLen_cons, if_pos hxy]
        rcases ih ys with h | h | h
        · left
          rw [hk, List.length_cons, h]
        · right; left
          rw [hk, List.length_cons, h]
        · right; right
          rw [hk]
          simpa using h
      · have hk : commonPrefLen (x :: xs) (y :: ys) = 0 := by
          rw [commonPrefLen_cons, if_neg hxy]
        right; right
        rw [hk]
        simp only [List.getElem?_cons_zero, ne_eq, Option.some.injEq]
        exact hxy

theorem findPath_spec_eq (f : Forest) (a b : NodeId) :
    findPath f a b = (if commonPrefLen (getPath f a) (getPath f b) = 0 then none
      else some (((getPath f a).drop (commonPrefLen (getPath f a) (getPath f b) - 1)).reverse
        ++ (getPath f b).drop (commonPrefLen (getPath f a) (getPath f b)))) := rfl

/-- **C9.** `findPath(a, b)` computes the root-to-node paths of `a` and `b`
(each the pure ancestor path of the represented forest), returns `null`
exactly when the two paths have different first elements, and otherwise
returns the reversed suffix of `a`'s path from the position just before the
end of the longest common prefix, concatenated with the remainder of `b`'s
path: a sequence running from `a` through the deepest common ancestor
(included exactly once) to `b`. -/
theorem findPath_common_ancestor (f : Forest) (ts : List PTree)
    (h : Represents f ts) (a b : NodeId) (Pa Pb : List NodeId)
    (ha : pathToPL a ts = some Pa) (hb : pathToPL b ts = some Pb) :
    getPath f a = Pa ∧ getPath f b = Pb ∧
      (findPath f a b = none ↔ Pa.head? ≠ Pb.head?) ∧
      (Pa.head? = Pb.head? →
        0 < commonPrefLen Pa Pb ∧
        (commonPrefLen Pa Pb = Pa.length ∨ commonPrefLen Pa Pb = Pb.length ∨
          Pa[commonPrefLen Pa Pb]? ≠ Pb[commonPrefLen Pa Pb]?) ∧
        findPath f a b =
          some ((Pa.drop (commonPrefLen Pa Pb - 1)).reverse ++
            Pb.drop (commonPrefLen Pa Pb)) ∧
        ∃ c, Pa[commonPrefLen Pa Pb - 1]? = some c ∧
          Pb[commonPrefLen Pa Pb - 1]? = some c ∧
          ((Pa.drop (commonPrefLen Pa Pb - 1)).reverse ++
            Pb.drop (commonPrefLen Pa Pb)).head? = some a ∧
          ((Pa.drop (commonPrefLen Pa Pb - 1)).reverse ++
            Pb.drop (commonPrefLen Pa Pb)).getLast? = some b ∧
          ((Pa.drop (commonPrefLen Pa Pb - 1)).reverse ++
            Pb.drop (commonPrefLen Pa Pb)).count c = 1) := by
  obtain ⟨hga, hane, halast, hand⟩ := getPath_eq_of_pathToPL h ha
  obtain ⟨hgb, hbne, hblast, hbnd⟩ := getPath_eq_of_pathToPL h hb
  obtain ⟨x, xs, hPa⟩ := List.exists_cons_of_ne_nil hane
  obtain ⟨y, ys, hPb⟩ := List.exists_cons_of_ne_nil hbne
  have hPalen : 0 < Pa.length := List.length_pos.mpr hane
  have hPblen : 0 < Pb.length := List.length_pos.mpr hbne
  have hkle1 := commonPrefLen_le_left Pa Pb
  have hkle2 := commonPrefLen_le_right Pa Pb
  refine ⟨hga, hgb, ?_, ?_⟩
  · rw [findPath_spec_eq, hga, hgb, hPa, hPb]
    by_cases hk : commonPrefLen (x :: xs) (y :: ys) = 0
    · rw [if_pos hk]
      have hxy := (commonPrefLen_zero_cons x y xs ys).mp hk
      simp [hxy]
    · rw [if_neg hk]
      have hxy : x = y := by
        by_contra hne2
        exact hk ((commonPrefLen_zero_cons x y xs ys).mpr hne2)
      simp [hxy]
  · intro hheads
    have hkpos : 0 < commonPrefLen Pa Pb := by
      rw [hPa, hPb] at hheads ⊢
      simp only [List.head?_cons, Option.some.injEq] at hheads
      unfold commonPrefLen
      rw [if_pos hheads]
      omega
    have hk1a : commonPrefLen Pa Pb - 1 < Pa.length := by omega
    have hk1b : commonPrefLen Pa Pb - 1 < Pb.length := by omega
    have hcc : Pa[commonPrefLen Pa Pb - 1]? = Pb[commonPrefLen Pa Pb - 1]? :=
      commonPrefLen_getElem Pa Pb (commonPrefLen Pa Pb - 1) (by omega)
    have hca : Pa[commonPrefLen Pa Pb - 1]? = some (Pa[commonPrefLen Pa Pb - 1]) :=
      List.getElem?_eq_getElem hk1a
    have hdane : Pa.drop (commonPrefLen Pa Pb - 1) ≠ [] := by
      rw [ne_eq, List.drop_eq_nil_iff]
      omega
    have hrevne : (Pa.drop (commonPrefLen Pa Pb - 1)).reverse ≠ [] := by
      rw [ne_eq, List.reverse_eq_nil_iff]
      exact hdane
    refine ⟨hkpos, commonPrefLen_max Pa Pb, ?_,
      Pa[commonPrefLen Pa Pb - 1], hca, by rw [← hcc]; exact hca, ?_, ?_, ?_⟩
    · rw [findPath_spec_eq, hga, hgb, if_neg (by omega)]
    · rw [List.head?_append_of_ne_nil _ hrevne, List.head?_reverse,
        getLast?_drop_of_lt Pa (commonPrefLen Pa Pb - 1) hk1a, halast]
    · by_cases hdb : Pb.drop (commonPrefLen Pa Pb) = []
      · have hkeq : commonPrefLen Pa Pb = Pb.length := by
          rw [List.drop_eq_nil_iff] at hdb
          omega
        rw [hdb, List.append_nil, List.getLast?_reverse, List.head?_drop]
        rw [hcc]
        rw [List.getLast?_eq_getElem?] at hblast
        rw [show commonPrefLen Pa Pb - 1 = Pb.length - 1 from by omega]
        exact hblast
      · rw [List.getLast?_append_of_ne_nil _ hdb]
        have hklt : commonPrefLen Pa Pb < Pb.length := by
          rw [List.drop_eq_nil_iff] at hdb
          omega
        rw [getLast?_drop_of_lt Pb (commonPrefLen Pa Pb) hklt]
        exact hblast
    · rw [List.count_append, List.count_reverse]
      have h1 : (Pa.drop (commonPrefLen Pa Pb - 1)).count (Pa[commonPrefLen Pa Pb - 1]) = 1 := by
        refine List.count_eq_one_of_mem (hand.sublist (List.drop_sublist _ _)) ?_
        apply List.mem_of_mem_head?
        rw [List.head?_drop, hca]
        rfl
      have hct : (Pb.take (commonPrefLen Pa Pb))[commonPrefLen Pa Pb - 1]? =
          some (Pa[commonPrefLen Pa Pb - 1]) := by
        rw [List.getElem?_take, if_pos (by omega), ← hcc]
        exact hca
      have hmem : Pa[commonPrefLen Pa Pb - 1] ∈ Pb.take (commonPrefLen Pa Pb) := by
        obtain ⟨hlt2, hEq2⟩ := List.getElem?_eq_some.mp hct
        exact hEq2 ▸ List.getElem_mem hlt2
      have hle1 : Pb.count (Pa[commonPrefLen Pa Pb - 1]) ≤ 1 :=
        List.nodup_iff_count_le_one.mp hbnd _
      have hsplitc : (Pb.take (commonPrefLen Pa Pb)).count (Pa[commonPrefLen Pa Pb - 1]) +
          (Pb.drop (commonPrefLen Pa Pb)).count (Pa[commonPrefLen Pa Pb - 1]) =
          Pb.count (Pa[commonPrefLen Pa Pb - 1]) := by
        rw [← List.count_append, List.take_append_drop]
      have htkpos : 0 < (Pb.take (commonPrefLen Pa Pb)).count (Pa[commonPrefLen Pa Pb - 1]) :=
        List.count_pos_iff.mpr hmem
      have h2 : (Pb.drop (commonPrefLen Pa Pb)).count (Pa[commonPrefLen Pa Pb - 1]) = 0 := by
        omega
      rw [h1, h2]

/-- Concrete forest for the path witness: a root with a two-node chain and
a second child. -/
def pathWitnessF : Forest :=
  applyOps emptyForest [.addRoot ⟨1, 10⟩, .addNodeAsChild 0 ⟨2, 20⟩,
    .addNodeAsChild 1 ⟨3, 30⟩, .addNodeAsChild 0 ⟨4, 40⟩]

/-- Pure view of `pathWitnessF`. -/
def pathWitnessT : List PTree :=
  [⟨0, ⟨1, 10⟩, [⟨1, ⟨2, 20⟩, [⟨2, ⟨3, 30⟩, []⟩]⟩, ⟨3, ⟨4, 40⟩, []⟩]⟩]

theorem findPath_common_ancestor_witness :
    getPath pathWitnessF 2 = [0, 1, 2] ∧ getPath pathWitnessF 3 = [0, 3] ∧
      findPath pathWitnessF 2 3 = some [2, 1, 0, 3] :=
  ⟨(findPath_common_ancestor pathWitnessF pathWitnessT (by decide) 2 3 [0, 1, 2] [0, 3]
      (by decide) (by decide)).1,
   (findPath_common_ancestor pathWitnessF pathWitnessT (by decide) 2 3 [0, 1, 2] [0, 3]
      (by decide) (by decide)).2.1,
   by decide⟩


/-! ## Pure tree surgery mirroring the mutation operations -/

/-- References of all nodes of one pure tree, in pre-order. -/
def adrsP (t : PTree) : List NodeId :=
  (shapeP t).map Prod.fst

/-- References of all nodes of a pure tree list, in pre-order. -/
def adrsPL (ts : List PTree) : List NodeId :=
  (shapePL ts).map Prod.fst

theorem adrsP_eq_map_flatsP (t : PTree) (par : Option NodeId) :
    adrsP t = (flatsP par t).map FEntry.adr := by
  unfold adrsP
  rw [shapeP_eq_map_flatsP t par, List.map_map]
  rfl

theorem adrsPL_eq_map_flatsPL (ts : List PTree) (par : Option NodeId) :
    adrsPL ts = (flatsPL par ts).map FEntry.adr := by
  unfold adrsPL
  rw [shapePL_eq_map_flatsPL ts par, List.map_map]
  rfl

theorem adrsPL_eq_adrList (ts : List PTree) : adrsPL ts = adrList ts :=
  adrsPL_eq_map_flatsPL ts none

theorem adrsP_cons (a : NodeId) (v : Value) (cs : List PTree) :
    adrsP (.mk a v cs) = a :: adrsPL cs := rfl

theorem adrsPL_cons (t : PTree) (ts : List PTree) :
    adrsPL (t :: ts) = adrsP t ++ adrsPL ts := by
  unfold adrsPL adrsP
  show ((shapeP t ++ shapePL ts).map Prod.fst) = _
  rw [List.map_append]

theorem flatsPL_cons (par : Option NodeId) (t : PTree) (ts : List PTree) :
    flatsPL par (t :: ts) = flatsP par t ++ flatsPL par ts := rfl

theorem flatsPL_append (par : Option NodeId) :
    ∀ (a b : List PTree), flatsPL par (a ++ b) = flatsPL par a ++ flatsPL par b
  | [], b => rfl
  | t :: a, b => by
    rw [List.cons_append, flatsPL_cons, flatsPL_cons, flatsPL_append par a b,
      List.append_assoc]

theorem flatsP_def (par : Option NodeId) (t : PTree) :
    flatsP par t =
      ⟨t.adr, t.value, t.children.map PTree.adr, par⟩ :: flatsPL (some t.adr) t.children := by
  cases t
  rfl

theorem adr_mem_adrsP (t : PTree) : t.adr ∈ adrsP t := by
  cases t with
  | mk a v cs =>
    rw [adrsP_cons]
    exact List.mem_cons_self _ _

theorem root_adrs_subset_adrsPL :
    ∀ (ts : List PTree) (n : NodeId), n ∈ ts.map PTree.adr → n ∈ adrsPL ts
  | t :: ts, n, h => by
    rw [adrsPL_cons]
    rw [List.map_cons] at h
    rcases List.mem_cons.mp h with h | h
    · exact List.mem_append_left _ (h ▸ adr_mem_adrsP t)
    · exact List.mem_append_right _ (root_adrs_subset_adrsPL ts n h)

mutual

/-- Insert `c` as the new last child of the node with reference `p`. -/
def insP (p : NodeId) (c : PTree) : PTree → PTree
  | .mk a v cs => if a = p then .mk a v (cs ++ [c]) else .mk a v (insPL p c cs)

/-- `insP` over a list of trees. -/
def insPL (p : NodeId) (c : PTree) : List PTree → List PTree
  | [] => []
  | t :: ts => insP p c t :: insPL p c ts

end

/-- Remove the first tree whose root has reference `n`. -/
def pEraseRoot (n : NodeId) : List PTree → List PTree
  | [] => []
  | t :: ts => if t.adr = n then ts else t :: pEraseRoot n ts

/-- The first tree whose root has reference `n`. -/
def pFindRoot (n : NodeId) : List PTree → Option PTree
  | [] => none
  | t :: ts => if t.adr = n then some t else pFindRoot n ts

mutual

/-- Detach the subtree whose root has reference `n` from the children list
holding it, returning the modified tree and the detached subtree. -/
def detachP (n : NodeId) : PTree → PTree × Option PTree
  | .mk a v cs =>
    match pFindRoot n cs with
    | some s => (.mk a v (pEraseRoot n cs), some s)
    | none =>
      let r := detachPL n cs
      (.mk a v r.1, r.2)

/-- `detachP` over a list of trees (first hit wins). -/
def detachPL (n : NodeId) : List PTree → List PTree × Option PTree
  | [] => ([], none)
  | t :: ts =>
    let r := detachP n t
    match r.2 with
    | some s => (r.1 :: ts, some s)
    | none =>
      let r2 := detachPL n ts
      (t :: r2.1, r2.2)

end

mutual

/-- Ids of all nodes of one pure tree, in pre-order. -/
def preIds : PTree → List Int
  | .mk _ v cs => v.id :: preIdsL cs

/-- Ids of all nodes of a pure tree list, in pre-order. -/
def preIdsL : List PTree → List Int
  | [] => []
  | t :: ts => preIds t ++ preIdsL ts

end

mutual

theorem preIds_eq_map_flatsP (t : PTree) (par : Option NodeId) :
    preIds t = (flatsP par t).map (fun e => e.value.id) := by
  cases t with
  | mk a v cs =>
    show v.id :: preIdsL cs = _
    rw [preIdsL_eq_map_flatsPL cs (some a)]
    rfl

theorem preIdsL_eq_map_flatsPL (ts : List PTree) (par : Option NodeId) :
    preIdsL ts = (flatsPL par ts).map (fun e => e.value.id) := by
  cases ts with
  | nil => rfl
  | cons t ts =>
    show preIds t ++ preIdsL ts = (flatsP par t ++ flatsPL par ts).map _
    rw [List.map_append, preIds_eq_map_flatsP t par, preIdsL_eq_map_flatsPL ts par]

end

/-- Entry adjustment: node `p` gains `ca` as last child reference. -/
def adjIns (p ca : NodeId) (e : FEntry) : FEntry :=
  if e.adr = p then { e with children := e.children ++ [ca] } else e

/-- Entry adjustment: node `q` loses child reference `n`. -/
def adjDel (q n : NodeId) (e : FEntry) : FEntry :=
  if e.adr = q then { e with children := e.children.erase n } else e

theorem adjIns_adr (p ca : NodeId) (e : FEntry) : (adjIns p ca e).adr = e.adr := by
  unfold adjIns
  split <;> rfl

theorem adjDel_adr (q n : NodeId) (e : FEntry) : (adjDel q n e).adr = e.adr := by
  unfold adjDel
  split <;> rfl

theorem adjIns_value (p ca : NodeId) (e : FEntry) : (adjIns p ca e).value = e.value := by
  unfold adjIns
  split <;> rfl

theorem adjDel_value (q n : NodeId) (e : FEntry) : (adjDel q n e).value = e.value := by
  unfold adjDel
  split <;> rfl

theorem adjIns_parent (p ca : NodeId) (e : FEntry) : (adjIns p ca e).parent = e.parent := by
  unfold adjIns
  split <;> rfl

theorem adjDel_parent (q n : NodeId) (e : FEntry) : (adjDel q n e).parent = e.parent := by
  unfold adjDel
  split <;> rfl

theorem adjIns_of_ne (p ca : NodeId) {e : FEntry} (h : e.adr ≠ p) : adjIns p ca e = e := by
  unfold adjIns
  rw [if_neg h]

theorem adjDel_of_ne (q n : NodeId) {e : FEntry} (h : e.adr ≠ q) : adjDel q n e = e := by
  unfold adjDel
  rw [if_neg h]

theorem map_eq_self_of_eq {l : List FEntry} {g : FEntry → FEntry}
    (h : ∀ e ∈ l, g e = e) : l.map g = l := by
  induction l with
  | nil => rfl
  | cons x xs ih =>
    rw [List.map_cons, h x (List.mem_cons_self _ _),
      ih (fun e he => h e (List.mem_cons_of_mem _ he))]

theorem insP_adr (p : NodeId) (c : PTree) (t : PTree) : (insP p c t).adr = t.adr := by
  cases t with
  | mk a v cs =>
    show (if a = p then PTree.mk a v (cs ++ [c]) else .mk a v (insPL p c cs)).adr = a
    split <;> rfl

theorem insPL_map_adr (p : NodeId) (c : PTree) :
    ∀ (ts : List PTree), (insPL p c ts).map PTree.adr = ts.map PTree.adr
  | [] => rfl
  | t :: ts => by
    show (insP p c t).adr :: (insPL p c ts).map PTree.adr = _
    rw [insP_adr, insPL_map_adr p c ts]
    rfl


theorem perm_swap3 {α : Type} (a b c : List α) :
    (a ++ (b ++ c)).Perm (b ++ (a ++ c)) := by
  rw [← List.append_assoc, ← List.append_assoc]
  exact List.Perm.append_right c List.perm_append_comm

mutual

theorem insP_of_not_mem (p : NodeId) (c : PTree) (t : PTree) (h : p ∉ adrsP t) :
    insP p c t = t := by
  cases t with
  | mk a v cs =>
    rw [adrsP_cons] at h
    show (if a = p then PTree.mk a v (cs ++ [c]) else .mk a v (insPL p c cs)) = _
    rw [if_neg (fun (he : a = p) => h (he ▸ List.mem_cons_self _ _)),
      insPL_of_not_mem p c cs (fun hm => h (List.mem_cons_of_mem _ hm))]

theorem insPL_of_not_mem (p : NodeId) (c : PTree) :
    ∀ (ts : List PTree), p ∉ adrsPL ts → insPL p c ts = ts
  | [], _ => rfl
  | t :: ts, h => by
    rw [adrsPL_cons] at h
    show insP p c t :: insPL p c ts = _
    rw [insP_of_not_mem p c t (fun hm => h (List.mem_append_left _ hm)),
      insPL_of_not_mem p c ts (fun hm => h (List.mem_append_right _ hm))]

end

theorem pFindRoot_eq_none (n : NodeId) :
    ∀ (ts : List PTree), n ∉ ts.map PTree.adr → pFindRoot n ts = none
  | [], _ => rfl
  | t :: ts, h => by
    rw [List.map_cons] at h
    show (if t.adr = n then some t else pFindRoot n ts) = none
    rw [if_neg (fun (he : t.adr = n) => h (he ▸ List.mem_cons_self _ _)),
      pFindRoot_eq_none n ts (fun hm => h (List.mem_cons_of_mem _ hm))]

theorem pFindRoot_some (n : NodeId) :
    ∀ (ts : List PTree) (s : PTree), pFindRoot n ts = some s → s.adr = n ∧ s ∈ ts
  | [], s, h => by cases h
  | t :: ts, s, h => by
    by_cases ht : t.adr = n
    · have hs : some t = some s := by
        rw [← h]
        show _ = (if t.adr = n then some t else pFindRoot n ts)
        rw [if_pos ht]
      rw [← Option.some.inj hs]
      exact ⟨ht, List.mem_cons_self _ _⟩
    · have h2 : pFindRoot n ts = some s := by
        rw [← h]
        show _ = (if t.adr = n then some t else pFindRoot n ts)
        rw [if_neg ht]
      obtain ⟨ha, hb⟩ := pFindRoot_some n ts s h2
      exact ⟨ha, List.mem_cons_of_mem _ hb⟩

theorem pFindRoot_isSome (n : NodeId) :
    ∀ (ts : List PTree), n ∈ ts.map PTree.adr → (pFindRoot n ts).isSome
  | t :: ts, h => by
    rw [List.map_cons] at h
    show (if t.adr = n then some t else pFindRoot n ts).isSome
    by_cases ht : t.adr = n
    · rw [if_pos ht]
      rfl
    · rw [if_neg ht]
      rcases List.mem_cons.mp h with he | hm
      · exact absurd he.symm ht
      · exact pFindRoot_isSome n ts hm

theorem pEraseRoot_map_adr (n : NodeId) :
    ∀ (ts : List PTree), (pEraseRoot n ts).map PTree.adr = (ts.map PTree.adr).erase n
  | [] => rfl
  | t :: ts => by
    show (if t.adr = n then ts else t :: pEraseRoot n ts).map PTree.adr = _
    by_cases ht : t.adr = n
    · rw [if_pos ht, List.map_cons]
      simp [List.erase_cons, ht]
    · rw [if_neg ht, List.map_cons, List.map_cons]
      simp only [List.erase_cons, beq_iff_eq, if_neg ht]
      rw [pEraseRoot_map_adr n ts]

theorem flatsPL_pEraseRoot_perm (n : NodeId) :
    ∀ (ts : List PTree) (par : Option NodeId) (s : PTree), pFindRoot n ts = some s →
      (flatsPL par ts).Perm (flatsP par s ++ flatsPL par (pEraseRoot n ts))
  | [], _, s, h => by cases h
  | t :: ts, par, s, h => by
    by_cases ht : t.adr = n
    · have hs : some t = some s := by
        rw [← h]
        show _ = (if t.adr = n then some t else pFindRoot n ts)
        rw [if_pos ht]
      have he : pEraseRoot n (t :: ts) = ts := by
        show (if t.adr = n then ts else t :: pEraseRoot n ts) = ts
        rw [if_pos ht]
      rw [he, ← Option.some.inj hs, flatsPL_cons]
    · have h2 : pFindRoot n ts = some s := by
        rw [← h]
        show _ = (if t.adr = n then some t else pFindRoot n ts)
        rw [if_neg ht]
      have he : pEraseRoot n (t :: ts) = t :: pEraseRoot n ts := by
        show (if t.adr = n then ts else t :: pEraseRoot n ts) = _
        rw [if_neg ht]
      rw [he, flatsPL_cons, flatsPL_cons]
      exact (List.Perm.append_left _ (flatsPL_pEraseRoot_perm n ts par s h2)).trans
        (perm_swap3 _ _ _)

theorem pEraseRoot_subset :
    ∀ (n : NodeId) (ts : List PTree) (t : PTree), t ∈ pEraseRoot n ts → t ∈ ts
  | n, t0 :: ts, t, h => by
    by_cases ht : t0.adr = n
    · have he : pEraseRoot n (t0 :: ts) = ts := by
        show (if t0.adr = n then ts else t0 :: pEraseRoot n ts) = ts
        rw [if_pos ht]
      rw [he] at h
      exact List.mem_cons_of_mem _ h
    · have he : pEraseRoot n (t0 :: ts) = t0 :: pEraseRoot n ts := by
        show (if t0.adr = n then ts else t0 :: pEraseRoot n ts) = _
        rw [if_neg ht]
      rw [he] at h
      rcases List.mem_cons.mp h with hx | hm
      · exact hx ▸ List.mem_cons_self _ _
      · exact List.mem_cons_of_mem _ (pEraseRoot_subset n ts t hm)


mutual

theorem flatsP_insP (c : PTree) (p : NodeId) (t : PTree) :
    ∀ (par : Option NodeId), (adrsP t).Nodup → p ∈ adrsP t →
      (flatsP par (insP p c t)).Perm
        ((flatsP par t).map (adjIns p c.adr) ++ flatsP (some p) c) := by
  cases t with
  | mk a v cs =>
    intro par hnd hp
    rw [adrsP_cons] at hnd hp
    by_cases hap : a = p
    · have hred : insP p c (.mk a v cs) = .mk a v (cs ++ [c]) := by
        show (if a = p then PTree.mk a v (cs ++ [c]) else .mk a v (insPL p c cs)) = _
        rw [if_pos hap]
      have hanotin : a ∉ adrsPL cs := (List.nodup_cons.mp hnd).1
      have htail : (flatsPL (some a) cs).map (adjIns p c.adr) = flatsPL (some a) cs := by
        apply map_eq_self_of_eq
        intro e he
        apply adjIns_of_ne
        intro hee
        apply hanotin
        have hmem : e.adr ∈ adrsPL cs := by
          rw [adrsPL_eq_map_flatsPL cs (some a)]
          exact List.mem_map_of_mem _ he
        rw [hap, ← hee]
        exact hmem
      have hL : flatsP par (insP p c (.mk a v cs)) =
          ⟨a, v, cs.map PTree.adr ++ [c.adr], par⟩ ::
            (flatsPL (some a) cs ++ flatsP (some a) c) := by
        rw [hred]
        show ⟨a, v, (cs ++ [c]).map PTree.adr, par⟩ :: flatsPL (some a) (cs ++ [c]) = _
        rw [List.map_append, flatsPL_append, flatsPL_cons,
          show flatsPL (some a) ([] : List PTree) = [] from rfl, List.append_nil]
        rfl
      have hroot : adjIns p c.adr ⟨a, v, cs.map PTree.adr, par⟩ =
          ⟨a, v, cs.map PTree.adr ++ [c.adr], par⟩ := by
        unfold adjIns
        rw [if_pos hap]
      have hR : (flatsP par (.mk a v cs)).map (adjIns p c.adr) ++ flatsP (some p) c =
          ⟨a, v, cs.map PTree.adr ++ [c.adr], par⟩ ::
            (flatsPL (some a) cs ++ flatsP (some a) c) := by
        show (⟨a, v, cs.map PTree.adr, par⟩ :: flatsPL (some a) cs).map (adjIns p c.adr) ++
            flatsP (some p) c = _
        rw [List.map_cons, hroot, htail, ← hap]
        rfl
      rw [hL, hR]
    · have hp2 : p ∈ adrsPL cs := by
        rcases List.mem_cons.mp hp with h | h
        · exact absurd h.symm hap
        · exact h
      have hred : insP p c (.mk a v cs) = .mk a v (insPL p c cs) := by
        show (if a = p then PTree.mk a v (cs ++ [c]) else .mk a v (insPL p c cs)) = _
        rw [if_neg hap]
      rw [hred]
      have hIH := flatsPL_insPL c p cs (some a) (List.nodup_cons.mp hnd).2 hp2
      have hroot : adjIns p c.adr ⟨a, v, cs.map PTree.adr, par⟩ =
          ⟨a, v, cs.map PTree.adr, par⟩ := adjIns_of_ne p c.adr hap
      have hR : (flatsP par (.mk a v cs)).map (adjIns p c.adr) ++ flatsP (some p) c =
          ⟨a, v, cs.map PTree.adr, par⟩ ::
            ((flatsPL (some a) cs).map (adjIns p c.adr) ++ flatsP (some p) c) := by
        show (⟨a, v, cs.map PTree.adr, par⟩ :: flatsPL (some a) cs).map (adjIns p c.adr) ++
            flatsP (some p) c = _
        rw [List.map_cons, hroot]
        rfl
      rw [hR]
      show (⟨a, v, (insPL p c cs).map PTree.adr, par⟩ ::
          flatsPL (some a) (insPL p c cs) : List FEntry).Perm _
      rw [insPL_map_adr]
      exact List.Perm.cons _ hIH

theorem flatsPL_insPL (c : PTree) (p : NodeId) (ts : List PTree) :
    ∀ (par : Option NodeId), (adrsPL ts).Nodup → p ∈ adrsPL ts →
      (flatsPL par (insPL p c ts)).Perm
        ((flatsPL par ts).map (adjIns p c.adr) ++ flatsP (some p) c) := by
  cases ts with
  | nil =>
    intro par hnd hp
    exact absurd hp (by
      show p ∉ ([] : List (NodeId × List NodeId)).map Prod.fst
      simp)
  | cons t ts =>
    intro par hnd hp
    rw [adrsPL_cons] at hnd hp
    obtain ⟨hnd1, hnd2, hdisj⟩ := List.nodup_append.mp hnd
    show (flatsP par (insP p c t) ++ flatsPL par (insPL p c ts)).Perm _
    rcases List.mem_append.mp hp with hpt | hpts
    · have hnts : p ∉ adrsPL ts := fun hm => hdisj hpt hm
      rw [insPL_of_not_mem p c ts hnts]
      have hIH := flatsP_insP c p t par hnd1 hpt
      have hts : (flatsPL par ts).map (adjIns p c.adr) = flatsPL par ts := by
        apply map_eq_self_of_eq
        intro e he
        apply adjIns_of_ne
        intro hee
        apply hnts
        rw [adrsPL_eq_map_flatsPL ts par, ← hee]
        exact List.mem_map_of_mem _ he
      rw [flatsPL_cons, List.map_append, hts]
      apply (List.Perm.append_right (flatsPL par ts) hIH).trans
      rw [List.append_assoc, List.append_assoc]
      exact List.Perm.append_left _ List.perm_append_comm
    · have hnt : p ∉ adrsP t := fun hm => hdisj hm hpts
      rw [insP_of_not_mem p c t hnt]
      have hIH := flatsPL_insPL c p ts par hnd2 hpts
      have htm : (flatsP par t).map (adjIns p c.adr) = flatsP par t := by
        apply map_eq_self_of_eq
        intro e he
        apply adjIns_of_ne
        intro hee
        apply hnt
        rw [adrsP_eq_map_flatsP t par, ← hee]
        exact List.mem_map_of_mem _ he
      rw [flatsPL_cons, List.map_append, htm, List.append_assoc]
      exact List.Perm.append_left _ hIH

end


theorem adr_mem_adrsP_of_mem_flats {e : FEntry} {t : PTree} {par : Option NodeId}
    (h : e ∈ flatsP par t) : e.adr ∈ adrsP t := by
  rw [adrsP_eq_map_flatsP t par]
  exact List.mem_map_of_mem _ h

theorem adr_mem_adrsPL_of_mem_flats {e : FEntry} {ts : List PTree} {par : Option NodeId}
    (h : e ∈ flatsPL par ts) : e.adr ∈ adrsPL ts := by
  rw [adrsPL_eq_map_flatsPL ts par]
  exact List.mem_map_of_mem _ h

mutual

theorem detachP_of_not_mem (n : NodeId) (t : PTree) (h : n ∉ adrsP t) :
    detachP n t = (t, none) := by
  cases t with
  | mk a v cs =>
    rw [adrsP_cons] at h
    have hcs : n ∉ adrsPL cs := fun hm => h (List.mem_cons_of_mem _ hm)
    have hfr : pFindRoot n cs = none :=
      pFindRoot_eq_none n cs (fun hm => hcs (root_adrs_subset_adrsPL cs n hm))
    have hred : detachP n (.mk a v cs) = (.mk a v (detachPL n cs).1, (detachPL n cs).2) := by
      simp only [detachP, hfr]
    rw [hred, detachPL_of_not_mem n cs hcs]

theorem detachPL_of_not_mem (n : NodeId) :
    ∀ (ts : List PTree), n ∉ adrsPL ts → detachPL n ts = (ts, none)
  | [], _ => rfl
  | t :: ts, h => by
    rw [adrsPL_cons] at h
    have ht : n ∉ adrsP t := fun hm => h (List.mem_append_left _ hm)
    have hts : n ∉ adrsPL ts := fun hm => h (List.mem_append_right _ hm)
    have hred : detachPL n (t :: ts) =
        (t :: (detachPL n ts).1, (detachPL n ts).2) := by
      simp only [detachPL, detachP_of_not_mem n t ht]
    rw [hred, detachPL_of_not_mem n ts hts]

end

mutual

theorem flatsP_detachP (n : NodeId) (t : PTree) :
    ∀ (par : Option NodeId), (adrsP t).Nodup → n ∈ adrsP t → t.adr ≠ n →
      ∃ q t1 s, detachP n t = (t1, some s) ∧ s.adr = n ∧ t1.adr = t.adr ∧
        (∃ e ∈ flatsP par t, e.adr = n ∧ e.parent = some q) ∧
        (∃ eq ∈ flatsP par t, eq.adr = q ∧ n ∈ eq.children) ∧
        (∃ eq1 ∈ flatsP par t1, eq1.adr = q) ∧
        (flatsP par t1 ++ flatsP (some q) s).Perm
          ((flatsP par t).map (adjDel q n)) := by
  cases t with
  | mk a v cs =>
    intro par hnd hp hne
    rw [adrsP_cons] at hnd hp
    have hanotin : a ∉ adrsPL cs := (List.nodup_cons.mp hnd).1
    have hps : n ∈ adrsPL cs := by
      rcases List.mem_cons.mp hp with h | h
      · exact absurd h.symm hne
      · exact h
    cases hfr : pFindRoot n cs with
    | some s =>
      obtain ⟨hsadr, hsmem⟩ := pFindRoot_some n cs s hfr
      refine ⟨a, .mk a v (pEraseRoot n cs), s, ?_, hsadr, rfl, ?_, ?_, ?_, ?_⟩
      · simp only [detachP, hfr]
      · refine ⟨⟨s.adr, s.value, s.children.map PTree.adr, some a⟩, ?_, hsadr, rfl⟩
        show _ ∈ ⟨a, v, cs.map PTree.adr, par⟩ :: flatsPL (some a) cs
        apply List.mem_cons_of_mem
        apply mem_flatsPL_of_mem hsmem
        rw [flatsP_def]
        exact List.mem_cons_self _ _
      · refine ⟨⟨a, v, cs.map PTree.adr, par⟩, ?_, rfl, ?_⟩
        · exact List.mem_cons_self _ _
        · show n ∈ cs.map PTree.adr
          rw [← hsadr]
          exact List.mem_map_of_mem _ hsmem
      · refine ⟨⟨a, v, (pEraseRoot n cs).map PTree.adr, par⟩, ?_, rfl⟩
        show _ ∈ ⟨a, v, (pEraseRoot n cs).map PTree.adr, par⟩ ::
          flatsPL (some a) (pEraseRoot n cs)
        exact List.mem_cons_self _ _
      · have hroot : adjDel a n ⟨a, v, cs.map PTree.adr, par⟩ =
            ⟨a, v, (cs.map PTree.adr).erase n, par⟩ := by
          unfold adjDel
          rw [if_pos rfl]
        have htail : (flatsPL (some a) cs).map (adjDel a n) = flatsPL (some a) cs := by
          apply map_eq_self_of_eq
          intro e he
          apply adjDel_of_ne
          intro hee
          exact hanotin (hee ▸ adr_mem_adrsPL_of_mem_flats he)
        have hR : (flatsP par (.mk a v cs)).map (adjDel a n) =
            ⟨a, v, (cs.map PTree.adr).erase n, par⟩ :: flatsPL (some a) cs := by
          show (⟨a, v, cs.map PTree.adr, par⟩ :: flatsPL (some a) cs).map (adjDel a n) = _
          rw [List.map_cons, hroot, htail]
        rw [hR]
        have hL : flatsP par (.mk a v (pEraseRoot n cs)) ++ flatsP (some a) s =
            ⟨a, v, (cs.map PTree.adr).erase n, par⟩ ::
              (flatsPL (some a) (pEraseRoot n cs) ++ flatsP (some a) s) := by
          show (⟨a, v, (pEraseRoot n cs).map PTree.adr, par⟩ ::
              flatsPL (some a) (pEraseRoot n cs)) ++ flatsP (some a) s = _
          rw [pEraseRoot_map_adr]
          rfl
        rw [hL]
        refine List.Perm.cons _ ?_
        exact (List.perm_append_comm.trans
          (flatsPL_pEraseRoot_perm n cs (some a) s hfr).symm)
    | none =>
      have hnroot : n ∉ cs.map PTree.adr := by
        intro hm
        have := pFindRoot_isSome n cs hm
        rw [hfr] at this
        cases this
      obtain ⟨q, cs1, s, hdet, hsadr, hmap, ⟨e, he, hea, hep⟩, ⟨eq, heq, heqa, heqc⟩,
          ⟨eq1, heq1, heq1a⟩, hperm⟩ :=
        flatsPL_detachPL n cs (some a) (List.nodup_cons.mp hnd).2 hps hnroot
      have hqa : q ≠ a := by
        intro hqa
        apply hanotin
        rw [← hqa, ← heqa]
        exact adr_mem_adrsPL_of_mem_flats heq
      refine ⟨q, .mk a v cs1, s, ?_, hsadr, rfl, ?_, ?_, ?_, ?_⟩
      · simp only [detachP, hfr, hdet]
      · exact ⟨e, by
          show _ ∈ ⟨a, v, cs.map PTree.adr, par⟩ :: flatsPL (some a) cs
          exact List.mem_cons_of_mem _ he, hea, hep⟩
      · exact ⟨eq, by
          show _ ∈ ⟨a, v, cs.map PTree.adr, par⟩ :: flatsPL (some a) cs
          exact List.mem_cons_of_mem _ heq, heqa, heqc⟩
      · exact ⟨eq1, by
          show _ ∈ ⟨a, v, cs1.map PTree.adr, par⟩ :: flatsPL (some a) cs1
          exact List.mem_cons_of_mem _ heq1, heq1a⟩
      · have hroot : adjDel q n ⟨a, v, cs.map PTree.adr, par⟩ =
            ⟨a, v, cs.map PTree.adr, par⟩ := adjDel_of_ne q n (fun h => hqa h.symm)
        have hR : (flatsP par (.mk a v cs)).map (adjDel q n) =
            ⟨a, v, cs.map PTree.adr, par⟩ :: (flatsPL (some a) cs).map (adjDel q n) := by
          show (⟨a, v, cs.map PTree.adr, par⟩ :: flatsPL (some a) cs).map (adjDel q n) = _
          rw [List.map_cons, hroot]
        rw [hR]
        have hL : flatsP par (.mk a v cs1) ++ flatsP (some q) s =
            ⟨a, v, cs.map PTree.adr, par⟩ ::
              (flatsPL (some a) cs1 ++ flatsP (some q) s) := by
          show (⟨a, v, cs1.map PTree.adr, par⟩ :: flatsPL (some a) cs1) ++
              flatsP (some q) s = _
          rw [hmap]
          rfl
        rw [hL]
        exact List.Perm.cons _ hperm

theorem flatsPL_detachPL (n : NodeId) :
    ∀ (ts : List PTree) (par : Option NodeId), (adrsPL ts).Nodup → n ∈ adrsPL ts →
      n ∉ ts.map PTree.adr →
      ∃ q ts1 s, detachPL n ts = (ts1, some s) ∧ s.adr = n ∧
        ts1.map PTree.adr = ts.map PTree.adr ∧
        (∃ e ∈ flatsPL par ts, e.adr = n ∧ e.parent = some q) ∧
        (∃ eq ∈ flatsPL par ts, eq.adr = q ∧ n ∈ eq.children) ∧
        (∃ eq1 ∈ flatsPL par ts1, eq1.adr = q) ∧
        (flatsPL par ts1 ++ flatsP (some q) s).Perm
          ((flatsPL par ts).map (adjDel q n))
  | [], par, hnd, hp, hr => by
    exact absurd hp (by
      show n ∉ ([] : List (NodeId × List NodeId)).map Prod.fst
      simp)
  | t :: ts, par, hnd, hp, hr => by
    rw [adrsPL_cons] at hnd hp
    obtain ⟨hnd1, hnd2, hdisj⟩ := List.nodup_append.mp hnd
    rw [List.map_cons] at hr
    have hrt : t.adr ≠ n := fun h => hr (h ▸ List.mem_cons_self _ _)
    have hrts : n ∉ ts.map PTree.adr := fun hm => hr (List.mem_cons_of_mem _ hm)
    rcases List.mem_append.mp hp with hpt | hpts
    · obtain ⟨q, t1, s, hdet, hsadr, hadr, ⟨e, he, hea, hep⟩, ⟨eq, heq, heqa, heqc⟩,
          ⟨eq1, heq1, heq1a⟩, hperm⟩ :=
        flatsP_detachP n t par hnd1 hpt hrt
      have hqt : q ∉ adrsPL ts := by
        intro hm
        exact hdisj (heqa ▸ adr_mem_adrsP_of_mem_flats heq) hm
      refine ⟨q, t1 :: ts, s, ?_, hsadr, ?_, ?_, ?_, ?_, ?_⟩
      · simp only [detachPL, hdet]
      · rw [List.map_cons, List.map_cons, hadr]
      · exact ⟨e, List.mem_append_left _ he, hea, hep⟩
      · exact ⟨eq, List.mem_append_left _ heq, heqa, heqc⟩
      · exact ⟨eq1, List.mem_append_left _ heq1, heq1a⟩
      · have hts : (flatsPL par ts).map (adjDel q n) = flatsPL par ts := by
          apply map_eq_self_of_eq
          intro e2 he2
          apply adjDel_of_ne
          intro hee
          exact hqt (hee ▸ adr_mem_adrsPL_of_mem_flats he2)
        rw [flatsPL_cons, flatsPL_cons, List.map_append, hts, List.append_assoc]
        apply (List.Perm.append_left _ List.perm_append_comm).trans
        rw [← List.append_assoc]
        exact List.Perm.append_right _ hperm
    · have hnt : n ∉ adrsP t := fun hm => hdisj hm hpts
      obtain ⟨q, ts1, s, hdet, hsadr, hmap, ⟨e, he, hea, hep⟩, ⟨eq, heq, heqa, heqc⟩,
          ⟨eq1, heq1, heq1a⟩, hperm⟩ :=
        flatsPL_detachPL n ts par hnd2 hpts hrts
      have hqt : q ∉ adrsP t := by
        intro hm
        exact hdisj hm (heqa ▸ adr_mem_adrsPL_of_mem_flats heq)
      refine ⟨q, t :: ts1, s, ?_, hsadr, ?_, ?_, ?_, ?_, ?_⟩
      · simp only [detachPL, detachP_of_not_mem n t hnt, hdet]
      · rw [List.map_cons, List.map_cons, hmap]
      · exact ⟨e, List.mem_append_right _ he, hea, hep⟩
      · exact ⟨eq, List.mem_append_right _ heq, heqa, heqc⟩
      · exact ⟨eq1, List.mem_append_right _ heq1, heq1a⟩
      · have htm : (flatsP par t).map (adjDel q n) = flatsP par t := by
          apply map_eq_self_of_eq
          intro e2 he2
          apply adjDel_of_ne
          intro hee
          exact hqt (hee ▸ adr_mem_adrsP_of_mem_flats he2)
        rw [flatsPL_cons, flatsPL_cons, List.map_append, htm, List.append_assoc]
        exact List.Perm.append_left _ hperm

end


/-! ## Map algebra for the index -/

theorem mapGet_eq_none_of_not_mem_keys :
    ∀ (m : List (Int × NodeId)) (k : Int), k ∉ m.map Prod.fst → mapGet m k = none
  | [], _, _ => rfl
  | (k1, v1) :: rest, k, h => by
    rw [List.map_cons] at h
    show (if k1 = k then some v1 else mapGet rest k) = none
    rw [if_neg (fun (he : k1 = k) => h (List.mem_cons.mpr (Or.inl he.symm))),
      mapGet_eq_none_of_not_mem_keys rest k (fun hm => h (List.mem_cons_of_mem _ hm))]

theorem mapSet_append_of_get_none :
    ∀ (m : List (Int × NodeId)) (k : Int) (v : NodeId), mapGet m k = none →
      mapSet m k v = m ++ [(k, v)]
  | [], _, _, _ => rfl
  | (k1, v1) :: rest, k, v, h => by
    have hget : mapGet ((k1, v1) :: rest) k =
        (if k1 = k then some v1 else mapGet rest k) := rfl
    have hk : ¬ k1 = k := by
      intro he
      rw [hget, if_pos he] at h
      cases h
    show (if k1 = k then (k, v) :: rest else (k1, v1) :: mapSet rest k v) = _
    rw [if_neg hk, mapSet_append_of_get_none rest k v (by
      rw [hget, if_neg hk] at h
      exact h)]
    rfl

theorem filter_keys_of_not_mem {l : List (Int × NodeId)} {k : Int}
    (h : k ∉ l.map Prod.fst) : l.filter (fun pr => pr.1 != k) = l := by
  rw [List.filter_eq_self]
  intro pr hpr
  rw [bne_iff_ne]
  intro he
  exact h (he ▸ List.mem_map_of_mem _ hpr)

theorem mapDelete_eq_filter :
    ∀ (m : List (Int × NodeId)) (k : Int), (m.map Prod.fst).Nodup →
      mapDelete m k = m.filter (fun pr => pr.1 != k)
  | [], _, _ => rfl
  | (k1, v1) :: rest, k, hnd => by
    rw [List.map_cons] at hnd
    show (if k1 = k then rest else (k1, v1) :: mapDelete rest k) = _
    rw [List.filter_cons]
    by_cases hk : k1 = k
    · rw [if_pos hk]
      have hb : (((k1, v1) : Int × NodeId).1 != k) = false := by simp [hk]
      rw [hb, if_neg (by simp),
        filter_keys_of_not_mem (by rw [← hk]; exact (List.nodup_cons.mp hnd).1)]
    · rw [if_neg hk]
      have hb : (((k1, v1) : Int × NodeId).1 != k) = true := by simp [hk]
      rw [hb, if_pos rfl, mapDelete_eq_filter rest k (List.nodup_cons.mp hnd).2]

theorem foldl_mapDelete_perm :
    ∀ (Q : List (Int × NodeId)) (m P : List (Int × NodeId)),
      m.Perm (P ++ Q) → ((P ++ Q).map Prod.fst).Nodup →
      ((Q.map Prod.fst).foldl mapDelete m).Perm P
  | [], m, P, hperm, _ => by
    rw [List.append_nil] at hperm
    exact hperm
  | (k, v) :: Q, m, P, hperm, hnd => by
    show ((Q.map Prod.fst).foldl mapDelete (mapDelete m k)).Perm P
    have hndm : (m.map Prod.fst).Nodup := by
      rw [(hperm.map Prod.fst).nodup_iff]
      exact hnd
    have hkeys : ((P ++ (k, v) :: Q).map Prod.fst) =
        P.map Prod.fst ++ k :: Q.map Prod.fst := by
      rw [List.map_append]
      rfl
    rw [hkeys] at hnd
    obtain ⟨hndP, hndQ, hdisj⟩ := List.nodup_append.mp hnd
    have hkP : k ∉ P.map Prod.fst := fun hm => hdisj hm (List.mem_cons_self _ _)
    have hkQ : k ∉ Q.map Prod.fst := (List.nodup_cons.mp hndQ).1
    have hstep : (mapDelete m k).Perm (P ++ Q) := by
      rw [mapDelete_eq_filter m k hndm]
      have hf := List.Perm.filter (fun pr => pr.1 != k) hperm
      rw [List.filter_append, List.filter_cons] at hf
      have hb : (((k, v) : Int × NodeId).1 != k) = false := by simp
      rw [hb, if_neg (by simp), filter_keys_of_not_mem hkP,
        filter_keys_of_not_mem hkQ] at hf
      exact hf
    refine foldl_mapDelete_perm Q (mapDelete m k) P hstep ?_
    rw [List.map_append]
    exact List.nodup_append.mpr ⟨hndP, (List.nodup_cons.mp hndQ).2,
      fun a ha hq => hdisj ha (List.mem_cons_of_mem _ hq)⟩

theorem pairList_keys (ts : List PTree) : (pairList ts).map Prod.fst = idList ts := by
  unfold pairList idList
  rw [List.map_map]
  rfl

theorem pairList_values (ts : List PTree) : (pairList ts).map Prod.snd = adrList ts := by
  unfold pairList adrList
  rw [List.map_map]
  rfl


/-! ## What a subtree unindex does to the index -/

theorem unindexNodeAndChildren_store :
    ∀ (fuel : Nat) (f : Forest) (n : NodeId),
      (unindexNodeAndChildren f fuel n).store = f.store := by
  intro fuel
  induction fuel with
  | zero => intro f n; rfl
  | succ fuel ih =>
    intro f n
    show ((childrenOf f n).foldl (fun acc c => unindexNodeAndChildren acc fuel c)
      { f with index := mapDelete f.index (valueIdOf f n) }).store = f.store
    rw [foldl_stable Forest.store _ (fun g b => ih g b)]

theorem unindexNodeAndChildren_roots :
    ∀ (fuel : Nat) (f : Forest) (n : NodeId),
      (unindexNodeAndChildren f fuel n).roots = f.roots := by
  intro fuel
  induction fuel with
  | zero => intro f n; rfl
  | succ fuel ih =>
    intro f n
    show ((childrenOf f n).foldl (fun acc c => unindexNodeAndChildren acc fuel c)
      { f with index := mapDelete f.index (valueIdOf f n) }).roots = f.roots
    rw [foldl_stable Forest.roots _ (fun g b => ih g b)]

/-- The store facts a subtree unindex reads: each node's children references
and value id, as the pure subtree prescribes. -/
def IdAgree (g : Forest) (t : PTree) : Prop :=
  ∀ e ∈ flatsP none t, childrenOf g e.adr = e.children ∧ valueIdOf g e.adr = e.value.id

theorem flatsP_par_entry {par1 par2 : Option NodeId} {t : PTree} {e : FEntry}
    (h : e ∈ flatsP par1 t) :
    ∃ e2 ∈ flatsP par2 t, e2.adr = e.adr ∧ e2.children = e.children ∧ e2.value = e.value := by
  rw [flatsP_def] at h
  rcases List.mem_cons.mp h with he | he
  · refine ⟨⟨t.adr, t.value, t.children.map PTree.adr, par2⟩, ?_, ?_, ?_, ?_⟩
    · rw [flatsP_def]
      exact List.mem_cons_self _ _
    · rw [he]
    · rw [he]
    · rw [he]
  · exact ⟨e, by rw [flatsP_def]; exact List.mem_cons_of_mem _ he, rfl, rfl, rfl⟩

theorem idAgree_root {g : Forest} {t : PTree} (h : IdAgree g t) :
    childrenOf g t.adr = t.children.map PTree.adr ∧ valueIdOf g t.adr = t.value.id := by
  exact h ⟨t.adr, t.value, t.children.map PTree.adr, none⟩
    (by rw [flatsP_def]; exact List.mem_cons_self _ _)

theorem idAgree_child {g : Forest} {t : PTree} (h : IdAgree g t) {c : PTree}
    (hc : c ∈ t.children) : IdAgree g c := by
  intro e he
  obtain ⟨e2, he2, ha, hch, hv⟩ := @flatsP_par_entry _ (some t.adr) _ _ he
  have hmem : e2 ∈ flatsP none t := by
    rw [flatsP_def]
    exact List.mem_cons_of_mem _ (mem_flatsPL_of_mem hc he2)
  obtain ⟨h1, h2⟩ := h e2 hmem
  rw [← ha, ← hch, ← hv]
  exact ⟨h1, h2⟩

theorem idAgree_of_store {g g2 : Forest} (h : g2.store = g.store) {t : PTree}
    (ha : IdAgree g t) : IdAgree g2 t := by
  intro e he
  rw [childrenOf_eq_of_store h, valueIdOf_eq_of_store h]
  exact ha e he

theorem idAgree_of_represents {f : Forest} {ts : List PTree} (h : Represents f ts)
    {t : PTree} (ht : t ∈ ts) : IdAgree f t := by
  intro e he
  have hrec := h.2.1 e (mem_flatsPL_of_mem ht he)
  unfold childrenOf valueIdOf getNode
  rw [hrec]
  exact ⟨rfl, rfl⟩

theorem unindex_index_eq :
    ∀ (fuel : Nat) (t : PTree) (g : Forest), sizeP t ≤ fuel → IdAgree g t →
      (unindexNodeAndChildren g fuel t.adr).index = (preIds t).foldl mapDelete g.index := by
  intro fuel
  induction fuel with
  | zero =>
    intro t g hsz
    exact absurd hsz (by have := sizeP_pos t; omega)
  | succ fuel ih =>
    intro t g hsz hagree
    cases t with
    | mk a v cs =>
      obtain ⟨hch, hid⟩ := idAgree_root hagree
      have hfold : ∀ (cs2 : List PTree) (g2 : Forest), sizePL cs2 ≤ fuel →
          (∀ c ∈ cs2, IdAgree g2 c) →
          ((cs2.map PTree.adr).foldl (fun acc c => unindexNodeAndChildren acc fuel c)
            g2).index = (preIdsL cs2).foldl mapDelete g2.index := by
        intro cs2
        induction cs2 with
        | nil => intro g2 _ _; rfl
        | cons c cs2 ihl =>
          intro g2 hsz2 hag2
          have h1 : sizeP c + sizePL cs2 ≤ fuel := hsz2
          show ((cs2.map PTree.adr).foldl (fun acc c => unindexNodeAndChildren acc fuel c)
            (unindexNodeAndChildren g2 fuel c.adr)).index = _
          have hstore2 : (unindexNodeAndChildren g2 fuel c.adr).store = g2.store :=
            unindexNodeAndChildren_store fuel g2 c.adr
          rw [ihl (unindexNodeAndChildren g2 fuel c.adr) (by omega)
            (fun c2 hc2 => idAgree_of_store hstore2 (hag2 c2 (List.mem_cons_of_mem _ hc2)))]
          rw [ih c g2 (by omega) (hag2 c (List.mem_cons_self _ _))]
          rw [show preIdsL (c :: cs2) = preIds c ++ preIdsL cs2 from rfl, List.foldl_append]
      have h2 : 1 + sizePL cs ≤ fuel + 1 := hsz
      simp only [PTree.adr, PTree.children, PTree.value] at hch hid
      show ((childrenOf g a).foldl (fun acc c => unindexNodeAndChildren acc fuel c)
        { g with index := mapDelete g.index (valueIdOf g a) }).index = _
      rw [hch, hid]
      rw [hfold cs { g with index := mapDelete g.index v.id } (by omega)
        (fun c hc => idAgree_of_store rfl (idAgree_child hagree hc))]
      rfl


/-! ## Represents is preserved by the public mutations (scoped) -/

theorem getNode_setChildren_self {f : Forest} {q : NodeId} {r : NodeRec}
    (h : getNode f q = some r) (cs : List NodeId) :
    getNode (setChildren f q cs) q = some { r with children := cs } := by
  unfold setChildren
  rw [h]
  exact getNode_setNode_self f _ (lt_of_getNode_isSome f h)

theorem getNode_setChildren_ne (f : Forest) {q n : NodeId} (cs : List NodeId)
    (h : q ≠ n) : getNode (setChildren f q cs) n = getNode f n := by
  unfold setChildren
  cases hq : getNode f q with
  | none => rfl
  | some r => exact getNode_setNode_ne f _ h

theorem getNode_setParent_self {f : Forest} {q : NodeId} {r : NodeRec}
    (h : getNode f q = some r) (p : Option NodeId) :
    getNode (setParent f q p) q = some { r with parent := p } := by
  unfold setParent
  rw [h]
  exact getNode_setNode_self f _ (lt_of_getNode_isSome f h)

theorem getNode_setParent_ne (f : Forest) {q n : NodeId} (p : Option NodeId)
    (h : q ≠ n) : getNode (setParent f q p) n = getNode f n := by
  unfold setParent
  cases hq : getNode f q with
  | none => rfl
  | some r => exact getNode_setNode_ne f _ h

theorem indexNodeAndChildren_leaf (f : Forest) (n : NodeId) (fuel : Nat)
    (h : childrenOf f n = []) :
    indexNodeAndChildren f (fuel + 1) n =
      { f with index := mapSet f.index (valueIdOf f n) n } := by
  show ((childrenOf f n).foldl (fun acc c => indexNodeAndChildren acc fuel c)
    { f with index := mapSet f.index (valueIdOf f n) n }) =
    { f with index := mapSet f.index (valueIdOf f n) n }
  rw [h]
  rfl

theorem applyOp_addRoot_eq (f : Forest) (v : Value) :
    applyOp f (.addRoot v) =
      ⟨f.store ++ [⟨v, [], none⟩], f.roots ++ [f.store.length],
        mapSet f.index v.id f.store.length⟩ := by
  show Treewise.addRoot { f with store := f.store ++ [⟨v, [], none⟩] } f.store.length = _
  unfold Treewise.addRoot
  have hget : getNode { f with store := f.store ++ [⟨v, [], none⟩] } f.store.length =
      some ⟨v, [], none⟩ := by
    unfold getNode
    exact List.getElem?_concat_length _ _
  rw [setParent_same _ hget]
  have hfuel : walkFuel ⟨f.store ++ [⟨v, [], none⟩], f.roots ++ [f.store.length], f.index⟩ =
      (f.store.length + 1) + 1 := by
    unfold walkFuel
    show (f.store ++ ([⟨v, [], none⟩] : List NodeRec)).length + 1 = _
    rw [List.length_append]
    rfl
  have hch : childrenOf ⟨f.store ++ [⟨v, [], none⟩], f.roots ++ [f.store.length], f.index⟩
      f.store.length = [] := by
    unfold childrenOf getNode
    show (match (f.store ++ [⟨v, [], none⟩])[f.store.length]? with
      | some r => r.children
      | none => []) = []
    rw [List.getElem?_concat_length]
  have hval : valueIdOf ⟨f.store ++ [⟨v, [], none⟩], f.roots ++ [f.store.length], f.index⟩
      f.store.length = v.id := by
    unfold valueIdOf getNode
    show (match (f.store ++ [⟨v, [], none⟩])[f.store.length]? with
      | some r => r.value.id
      | none => 0) = v.id
    rw [List.getElem?_concat_length]
  show indexNodeAndChildren
    ⟨f.store ++ [⟨v, [], none⟩], f.roots ++ [f.store.length], f.index⟩
    (walkFuel ⟨f.store ++ [⟨v, [], none⟩], f.roots ++ [f.store.length], f.index⟩)
    f.store.length = _
  rw [hfuel, indexNodeAndChildren_leaf _ _ _ hch, hval]

theorem addRoot_op_represents {f : Forest} {ts : List PTree} (h : Represents f ts)
    {v : Value} (hid : v.id ∉ idList ts) :
    Represents (applyOp f (.addRoot v)) (ts ++ [.mk f.store.length v []]) := by
  rw [applyOp_addRoot_eq]
  have hflats : flatsF (ts ++ [.mk f.store.length v []]) =
      flatsF ts ++ [⟨f.store.length, v, [], none⟩] := by
    unfold flatsF
    rw [flatsPL_append]
    rfl
  refine ⟨?_, ?_, ?_, ?_, ?_⟩
  · show f.roots ++ [f.store.length] = (ts ++ [PTree.mk f.store.length v []]).map PTree.adr
    rw [List.map_append, h.1]
    rfl
  · intro e he
    rw [hflats] at he
    rcases List.mem_append.mp he with he | he
    · show (f.store ++ [⟨v, [], none⟩])[e.adr]? = some e.toRec
      rw [List.getElem?_append_left (adr_lt_of_represents h e he)]
      exact h.2.1 e he
    · rw [List.mem_singleton] at he
      subst he
      show (f.store ++ [⟨v, [], none⟩])[f.store.length]? = some _
      rw [List.getElem?_concat_length]
      rfl
  · show (adrList (ts ++ [PTree.mk f.store.length v []])).Nodup
    unfold adrList
    rw [hflats, List.map_append]
    refine List.nodup_append.mpr ⟨h.2.2.1, List.nodup_singleton _, ?_⟩
    intro a ha hb
    obtain ⟨e, he, hee⟩ := List.mem_map.mp ha
    have hlt := adr_lt_of_represents h e he
    rw [hee] at hlt
    rw [show (([⟨f.store.length, v, [], none⟩] : List FEntry).map FEntry.adr) =
      [f.store.length] from rfl, List.mem_singleton] at hb
    exact Nat.ne_of_lt hlt hb
  · show (idList (ts ++ [PTree.mk f.store.length v []])).Nodup
    unfold idList
    rw [hflats, List.map_append]
    refine List.nodup_append.mpr ⟨h.2.2.2.1, List.nodup_singleton _, ?_⟩
    intro a ha hb
    rw [show (([⟨f.store.length, v, [], none⟩] : List FEntry).map
      (fun e => e.value.id)) = [v.id] from rfl, List.mem_singleton] at hb
    subst hb
    exact hid ha
  · show (mapSet f.index v.id f.store.length).Perm
      (pairList (ts ++ [PTree.mk f.store.length v []]))
    have hkey : mapGet f.index v.id = none := by
      apply mapGet_eq_none_of_not_mem_keys
      intro hk
      apply hid
      have := (h.2.2.2.2.map Prod.fst).mem_iff.mp hk
      rw [pairList_keys] at this
      exact this
    rw [mapSet_append_of_get_none _ _ _ hkey]
    have hpl : pairList (ts ++ [PTree.mk f.store.length v []]) =
        pairList ts ++ [(v.id, f.store.length)] := by
      unfold pairList
      rw [hflats, List.map_append]
      rfl
    rw [hpl]
    exact h.2.2.2.2.append (List.Perm.refl _)


theorem getNode_append_lt (f : Forest) (l : List NodeRec) {p : NodeId}
    (h : p < f.store.length) : getNode { f with store := f.store ++ l } p = getNode f p := by
  unfold getNode
  show (f.store ++ l)[p]? = _
  rw [List.getElem?_append_left h]

theorem map_adr_map {g : FEntry → FEntry} (hg : ∀ e, (g e).adr = e.adr) (l : List FEntry) :
    (l.map g).map FEntry.adr = l.map FEntry.adr := by
  rw [List.map_map]
  apply List.map_congr_left
  intro e _
  exact hg e

theorem map_vid_map {g : FEntry → FEntry} (hg : ∀ e, (g e).value = e.value)
    (l : List FEntry) :
    (l.map g).map (fun e => e.value.id) = l.map (fun e => e.value.id) := by
  rw [List.map_map]
  apply List.map_congr_left
  intro e _
  show (g e).value.id = e.value.id
  rw [hg e]

theorem map_pair_map {g : FEntry → FEntry} (hga : ∀ e, (g e).adr = e.adr)
    (hgv : ∀ e, (g e).value = e.value) (l : List FEntry) :
    (l.map g).map (fun e => (e.value.id, e.adr)) = l.map (fun e => (e.value.id, e.adr)) := by
  rw [List.map_map]
  apply List.map_congr_left
  intro e _
  show ((g e).value.id, (g e).adr) = (e.value.id, e.adr)
  rw [hga e, hgv e]

theorem applyOp_addChild_eq {f : Forest} {p : NodeId} {rp : NodeRec}
    (hget : getNode f p = some rp) (v : Value) :
    applyOp f (.addNodeAsChild p v) =
      ⟨(f.store ++ ([⟨v, [], some p⟩] : List NodeRec)).set p
          { rp with children := rp.children ++ [f.store.length] },
        f.roots, mapSet f.index v.id f.store.length⟩ := by
  have hp_lt : p < f.store.length := lt_of_getNode_isSome f hget
  have hpc : p ≠ f.store.length := Nat.ne_of_lt hp_lt
  have hget1 : getNode { f with store := f.store ++ ([⟨v, [], some p⟩] : List NodeRec) } p =
      some rp := by
    rw [getNode_append_lt f _ hp_lt]
    exact hget
  have hch1 : childrenOf { f with store := f.store ++ ([⟨v, [], some p⟩] : List NodeRec) } p =
      rp.children := by
    unfold childrenOf
    rw [hget1]
  have hf2 : setChildren { f with store := f.store ++ ([⟨v, [], some p⟩] : List NodeRec) } p
      (childrenOf { f with store := f.store ++ ([⟨v, [], some p⟩] : List NodeRec) } p ++
        [f.store.length]) =
      ⟨(f.store ++ ([⟨v, [], some p⟩] : List NodeRec)).set p
        { rp with children := rp.children ++ [f.store.length] }, f.roots, f.index⟩ := by
    rw [hch1]
    unfold setChildren
    rw [hget1]
    rfl
  have hgetc : getNode (⟨(f.store ++ ([⟨v, [], some p⟩] : List NodeRec)).set p
      { rp with children := rp.children ++ [f.store.length] }, f.roots, f.index⟩ : Forest)
      f.store.length = some ⟨v, [], some p⟩ := by
    unfold getNode
    show ((f.store ++ ([⟨v, [], some p⟩] : List NodeRec)).set p
      { rp with children := rp.children ++ [f.store.length] })[f.store.length]? = _
    rw [List.getElem?_set_ne hpc, List.getElem?_concat_length]
  have hchc : childrenOf (⟨(f.store ++ ([⟨v, [], some p⟩] : List NodeRec)).set p
      { rp with children := rp.children ++ [f.store.length] }, f.roots, f.index⟩ : Forest)
      f.store.length = [] := by
    unfold childrenOf
    rw [hgetc]
  have hvalc : valueIdOf (⟨(f.store ++ ([⟨v, [], some p⟩] : List NodeRec)).set p
      { rp with children := rp.children ++ [f.store.length] }, f.roots, f.index⟩ : Forest)
      f.store.length = v.id := by
    unfold valueIdOf
    rw [hgetc]
  have hfuel : walkFuel (⟨(f.store ++ ([⟨v, [], some p⟩] : List NodeRec)).set p
      { rp with children := rp.children ++ [f.store.length] }, f.roots, f.index⟩ : Forest) =
      (f.store.length + 1) + 1 := by
    unfold walkFuel
    show ((f.store ++ ([⟨v, [], some p⟩] : List NodeRec)).set p
      { rp with children := rp.children ++ [f.store.length] }).length + 1 = _
    rw [List.length_set, List.length_append]
    rfl
  show (fun f2 => indexNodeAndChildren f2 (walkFuel f2) f.store.length)
    (setChildren { f with store := f.store ++ ([⟨v, [], some p⟩] : List NodeRec) } p
      (childrenOf { f with store := f.store ++ ([⟨v, [], some p⟩] : List NodeRec) } p ++
        [f.store.length])) = _
  rw [hf2]
  show indexNodeAndChildren _ (walkFuel _) f.store.length = _
  rw [hfuel, indexNodeAndChildren_leaf _ _ _ hchc, hvalc]

theorem addChild_op_represents {f : Forest} {ts : List PTree} (h : Represents f ts)
    {p : NodeId} {v : Value} (hp : p ∈ adrList ts) (hid : v.id ∉ idList ts) :
    Represents (applyOp f (.addNodeAsChild p v))
      (insPL p (.mk f.store.length v []) ts) := by
  have hp2 : p ∈ adrList ts := hp
  unfold adrList at hp2
  obtain ⟨ep, hep, hepa⟩ := List.mem_map.mp hp2
  have hget : getNode f p = some ep.toRec := by
    unfold getNode
    rw [← hepa]
    exact h.2.1 ep hep
  rw [applyOp_addChild_eq hget v]
  have hPerm : (flatsPL none (insPL p (.mk f.store.length v []) ts)).Perm
      ((flatsPL none ts).map (adjIns p f.store.length) ++
        ([⟨f.store.length, v, [], some p⟩] : List FEntry)) := by
    have := flatsPL_insPL (.mk f.store.length v []) p ts none
      (by rw [adrsPL_eq_adrList]; exact h.2.2.1)
      (by rw [adrsPL_eq_adrList]; exact hp)
    simpa using this
  have hp_lt : p < f.store.length := lt_of_getNode_isSome f hget
  have hpc : p ≠ f.store.length := Nat.ne_of_lt hp_lt
  refine ⟨?_, ?_, ?_, ?_, ?_⟩
  · show f.roots = (insPL p (.mk f.store.length v []) ts).map PTree.adr
    rw [insPL_map_adr]
    exact h.1
  · intro e he
    have hmem := hPerm.mem_iff.mp he
    rcases List.mem_append.mp hmem with hmem | hmem
    · obtain ⟨e0, he0, hee⟩ := List.mem_map.mp hmem
      subst hee
      by_cases hadr : e0.adr = p
      · have he0rec := h.2.1 e0 he0
        rw [hadr] at he0rec
        have heq : e0.toRec = ep.toRec := by
          have hp0 := h.2.1 ep hep
          rw [hepa] at hp0
          exact Option.some.inj (he0rec.symm.trans hp0)
        have hadj : adjIns p f.store.length e0 =
            { e0 with children := e0.children ++ [f.store.length] } := by
          unfold adjIns
          rw [if_pos hadr]
        rw [hadj]
        show ((f.store ++ ([⟨v, [], some p⟩] : List NodeRec)).set p
          { ep.toRec with children := ep.toRec.children ++ [f.store.length] })[e0.adr]? = _
        rw [hadr, List.getElem?_set_eq_of_lt _
          (by rw [List.length_append, List.length_singleton]
              exact Nat.lt_succ_of_lt hp_lt)]
        show some _ = some _
        rw [← heq]
        rfl
      · rw [adjIns_of_ne _ _ hadr]
        show ((f.store ++ ([⟨v, [], some p⟩] : List NodeRec)).set p
          { ep.toRec with children := ep.toRec.children ++ [f.store.length] })[e0.adr]? =
          some e0.toRec
        rw [List.getElem?_set_ne (fun hh => hadr hh.symm),
          List.getElem?_append_left (adr_lt_of_represents h e0 he0)]
        exact h.2.1 e0 he0
    · rw [List.mem_singleton] at hmem
      subst hmem
      show ((f.store ++ ([⟨v, [], some p⟩] : List NodeRec)).set p
        { ep.toRec with children := ep.toRec.children ++
          [f.store.length] })[f.store.length]? = some _
      rw [List.getElem?_set_ne hpc, List.getElem?_concat_length]
      rfl
  · show ((flatsPL none (insPL p (.mk f.store.length v []) ts)).map FEntry.adr).Nodup
    rw [(hPerm.map FEntry.adr).nodup_iff]
    rw [List.map_append, map_adr_map (adjIns_adr p f.store.length)]
    refine List.nodup_append.mpr ⟨h.2.2.1, List.nodup_singleton _, ?_⟩
    intro a ha hb
    obtain ⟨e, he, hee⟩ := List.mem_map.mp ha
    have hlt := adr_lt_of_represents h e he
    rw [hee] at hlt
    rw [show (([⟨f.store.length, v, [], some p⟩] : List FEntry).map FEntry.adr) =
      [f.store.length] from rfl, List.mem_singleton] at hb
    exact Nat.ne_of_lt hlt hb
  · show ((flatsPL none (insPL p (.mk f.store.length v []) ts)).map
      (fun e => e.value.id)).Nodup
    rw [(hPerm.map (fun e => e.value.id)).nodup_iff]
    rw [List.map_append, map_vid_map (adjIns_value p f.store.length)]
    refine List.nodup_append.mpr ⟨h.2.2.2.1, List.nodup_singleton _, ?_⟩
    intro a ha hb
    rw [show (([⟨f.store.length, v, [], some p⟩] : List FEntry).map
      (fun e => e.value.id)) = [v.id] from rfl, List.mem_singleton] at hb
    subst hb
    exact hid ha
  · show (mapSet f.index v.id f.store.length).Perm
      ((flatsPL none (insPL p (.mk f.store.length v []) ts)).map
        (fun e => (e.value.id, e.adr)))
    have hkey : mapGet f.index v.id = none := by
      apply mapGet_eq_none_of_not_mem_keys
      intro hk
      apply hid
      have := (h.2.2.2.2.map Prod.fst).mem_iff.mp hk
      rw [pairList_keys] at this
      exact this
    rw [mapSet_append_of_get_none _ _ _ hkey]
    have hpl : ((flatsPL none (insPL p (.mk f.store.length v []) ts)).map
        (fun e => (e.value.id, e.adr))).Perm
        (pairList ts ++ [(v.id, f.store.length)]) := by
      have := hPerm.map (fun e => (e.value.id, e.adr))
      rw [List.map_append,
        map_pair_map (adjIns_adr p f.store.length) (adjIns_value p f.store.length)] at this
      exact this
    exact (h.2.2.2.2.append (List.Perm.refl [(v.id, f.store.length)])).trans hpl.symm


theorem forest_eq {g : Forest} {st : List NodeRec} {rs : List NodeId}
    {ix : List (Int × NodeId)} (h1 : g.store = st) (h2 : g.roots = rs)
    (h3 : g.index = ix) : g = ⟨st, rs, ix⟩ := by
  cases g
  subst h1 h2 h3
  rfl

theorem sizeP_eq_flats_length (t : PTree) (par : Option NodeId) :
    sizeP t = (flatsP par t).length := by
  rw [sizeP_eq_length_shapeP, shapeP_eq_map_flatsP t par, List.length_map]

theorem pair_fst_map (l : List FEntry) :
    (l.map (fun e => (e.value.id, e.adr))).map Prod.fst =
      l.map (fun e => e.value.id) := by
  rw [List.map_map]
  apply List.map_congr_left
  intro e _
  rfl

/-- Pure counterpart of `removeNode` on a represented forest. -/
def pRemove (n : NodeId) (ts : List PTree) : List PTree :=
  if n ∈ ts.map PTree.adr then pEraseRoot n ts else (detachPL n ts).1

theorem removeNode_op_represents {f : Forest} {ts : List PTree} (h : Represents f ts)
    {n : NodeId} (hn : n ∈ adrList ts) :
    Represents (applyOp f (.removeNode n)) (pRemove n ts) := by
  by_cases hmem : n ∈ f.roots
  · have hmem2 : n ∈ ts.map PTree.adr := by rw [← h.1]; exact hmem
    have hts2 : pRemove n ts = pEraseRoot n ts := by
      unfold pRemove
      rw [if_pos hmem2]
    have hfs := pFindRoot_isSome n ts hmem2
    cases hfr : pFindRoot n ts with
    | none => rw [hfr] at hfs; cases hfs
    | some s =>
    obtain ⟨hsadr, _⟩ := pFindRoot_some n ts s hfr
    have hP := flatsPL_pEraseRoot_perm n ts none s hfr
    have hstep : applyOp f (.removeNode n) =
        unindexNodeAndChildren { f with roots := f.roots.erase n }
          (walkFuel { f with roots := f.roots.erase n }) n := by
      show ((if n ∈ f.roots then
          ((none : Option TreeErr), unindexNodeAndChildren
            { f with roots := f.roots.erase n }
            (walkFuel { f with roots := f.roots.erase n }) n)
        else
          match parentOf f n with
          | none => (some TreeErr.notFound, f)
          | some q =>
            if n ∈ childrenOf f q then
              ((none : Option TreeErr), unindexNodeAndChildren
                (setChildren f q ((childrenOf f q).erase n))
                (walkFuel (setChildren f q ((childrenOf f q).erase n))) n)
            else (some TreeErr.notFound, f))).2 = _
      rw [if_pos hmem]
    have hagree : IdAgree { f with roots := f.roots.erase n } s := by
      intro e he
      have hee : e ∈ flatsF ts := hP.mem_iff.mpr (List.mem_append_left _ he)
      have hrec := h.2.1 e hee
      unfold childrenOf valueIdOf getNode
      show (match f.store[e.adr]? with | some r => r.children | none => []) = e.children ∧
        (match f.store[e.adr]? with | some r => r.value.id | none => 0) = e.value.id
      rw [hrec]
      exact ⟨rfl, rfl⟩
    have hsz : sizeP s ≤ f.store.length := by
      have h1 : sizeP s = (flatsP none s).length := sizeP_eq_flats_length s none
      have h2 : (flatsP none s).length ≤ (flatsPL none ts).length := by
        have h3 := hP.length_eq
        rw [List.length_append] at h3
        omega
      have h3 : (flatsPL none ts).length ≤ f.store.length := flatsF_length_le h
      omega
    have hidx : (unindexNodeAndChildren { f with roots := f.roots.erase n }
        (walkFuel { f with roots := f.roots.erase n }) n).index =
        (preIds s).foldl mapDelete f.index := by
      rw [← hsadr]
      exact unindex_index_eq _ s _
        (by unfold walkFuel; show sizeP s ≤ f.store.length + 1; omega) hagree
    have hfinal : applyOp f (.removeNode n) =
        ⟨f.store, f.roots.erase n, (preIds s).foldl mapDelete f.index⟩ := by
      rw [hstep]
      exact forest_eq (unindexNodeAndChildren_store _ _ _)
        (unindexNodeAndChildren_roots _ _ _) hidx
    rw [hfinal, hts2]
    refine ⟨?_, ?_, ?_, ?_, ?_⟩
    · show f.roots.erase n = (pEraseRoot n ts).map PTree.adr
      rw [pEraseRoot_map_adr, ← h.1]
    · intro e he
      exact h.2.1 e (hP.mem_iff.mpr (List.mem_append_right _ he))
    · show ((flatsPL none (pEraseRoot n ts)).map FEntry.adr).Nodup
      have hadrn : ((flatsPL none ts).map FEntry.adr).Nodup := h.2.2.1
      have h2 := (hP.map FEntry.adr).nodup_iff.mp hadrn
      rw [List.map_append] at h2
      exact (List.nodup_append.mp h2).2.1
    · show ((flatsPL none (pEraseRoot n ts)).map (fun e => e.value.id)).Nodup
      have hidn : ((flatsPL none ts).map (fun e => e.value.id)).Nodup := h.2.2.2.1
      have h2 := (hP.map (fun e => e.value.id)).nodup_iff.mp hidn
      rw [List.map_append] at h2
      exact (List.nodup_append.mp h2).2.1
    · show ((preIds s).foldl mapDelete f.index).Perm
        ((flatsPL none (pEraseRoot n ts)).map (fun e => (e.value.id, e.adr)))
      have hQfst : ((flatsP none s).map (fun e => (e.value.id, e.adr))).map Prod.fst =
          preIds s := by
        rw [pair_fst_map, preIds_eq_map_flatsP s none]
      rw [← hQfst]
      have hPpair := hP.map (fun e => (e.value.id, e.adr))
      rw [List.map_append] at hPpair
      apply foldl_mapDelete_perm
      · have hpairp : f.index.Perm
            ((flatsPL none ts).map (fun e => (e.value.id, e.adr))) := h.2.2.2.2
        exact (hpairp.trans hPpair).trans List.perm_append_comm
      · rw [List.map_append, pair_fst_map, pair_fst_map]
        have h2 := hP.map (fun e => e.value.id)
        rw [List.map_append] at h2
        have hidn : ((flatsPL none ts).map (fun e => e.value.id)).Nodup := h.2.2.2.1
        exact (List.perm_append_comm.trans h2.symm).nodup_iff.mpr hidn
  · -- the node hangs under a recorded parent
    have hm2 : n ∉ ts.map PTree.adr := by rw [← h.1]; exact hmem
    have hnadrs : n ∈ adrsPL ts := by rw [adrsPL_eq_adrList]; exact hn
    obtain ⟨q, ts1, s, hdet, hsadr, hmap, ⟨e, he, hea, hep⟩, ⟨eq, heq, heqa, heqc⟩,
        ⟨eq1, heq1, heq1a⟩, hperm⟩ :=
      flatsPL_detachPL n ts none (by rw [adrsPL_eq_adrList]; exact h.2.2.1) hnadrs hm2
    have hts2 : pRemove n ts = ts1 := by
      unfold pRemove
      rw [if_neg hm2, hdet]
    have hgn : getNode f n = some e.toRec := by
      unfold getNode
      rw [← hea]
      exact h.2.1 e he
    have hpar : parentOf f n = some q := by
      unfold parentOf
      rw [hgn]
      exact hep
    have hgq : getNode f q = some eq.toRec := by
      unfold getNode
      rw [← heqa]
      exact h.2.1 eq heq
    have hq_lt : q < f.store.length := lt_of_getNode_isSome f hgq
    have hcq : childrenOf f q = eq.children := by
      unfold childrenOf
      rw [hgq]
      rfl
    have hchld : n ∈ childrenOf f q := by
      rw [hcq]
      exact heqc
    have hstep : applyOp f (.removeNode n) =
        unindexNodeAndChildren (setChildren f q ((childrenOf f q).erase n))
          (walkFuel (setChildren f q ((childrenOf f q).erase n))) n := by
      show ((if n ∈ f.roots then
          ((none : Option TreeErr), unindexNodeAndChildren
            { f with roots := f.roots.erase n }
            (walkFuel { f with roots := f.roots.erase n }) n)
        else
          match parentOf f n with
          | none => (some TreeErr.notFound, f)
          | some q =>
            if n ∈ childrenOf f q then
              ((none : Option TreeErr), unindexNodeAndChildren
                (setChildren f q ((childrenOf f q).erase n))
                (walkFuel (setChildren f q ((childrenOf f q).erase n))) n)
            else (some TreeErr.notFound, f))).2 = _
      rw [if_neg hmem, hpar]
      show ((if n ∈ childrenOf f q then
        ((none : Option TreeErr), unindexNodeAndChildren
          (setChildren f q ((childrenOf f q).erase n))
          (walkFuel (setChildren f q ((childrenOf f q).erase n))) n)
        else (some .notFound, f))).2 = _
      rw [if_pos hchld]
    have hf1 : setChildren f q ((childrenOf f q).erase n) =
        ⟨f.store.set q { eq.toRec with children := eq.children.erase n },
          f.roots, f.index⟩ := by
      rw [hcq]
      unfold setChildren
      rw [hgq]
      rfl
    -- address disjointness from the permutation
    have hndLR : ((flatsPL none ts1).map FEntry.adr ++
        (flatsP (some q) s).map FEntry.adr).Nodup := by
      have hadrn : ((flatsPL none ts).map FEntry.adr).Nodup := h.2.2.1
      have h2 := (hperm.map FEntry.adr).nodup_iff.mpr
        (by rw [map_adr_map (adjDel_adr q n)]; exact hadrn)
      rw [List.map_append] at h2
      exact h2
    obtain ⟨hnd1, hnds, hdisj⟩ := List.nodup_append.mp hndLR
    have hqs : q ∉ (flatsP (some q) s).map FEntry.adr := by
      intro hm3
      exact hdisj (by rw [← heq1a]; exact List.mem_map_of_mem _ heq1) hm3
    have hagree : IdAgree (setChildren f q ((childrenOf f q).erase n)) s := by
      rw [hf1]
      intro e2 he2
      obtain ⟨e2b, he2b, ha2, hch2, hv2⟩ := @flatsP_par_entry _ (some q) _ _ he2
      have hmem2 : e2b ∈ (flatsPL none ts).map (adjDel q n) :=
        hperm.mem_iff.mp (List.mem_append_right _ he2b)
      obtain ⟨e0, he0, hee0⟩ := List.mem_map.mp hmem2
      have hne0 : e0.adr ≠ q := by
        intro hq0
        apply hqs
        have h3 : e2b.adr ∈ (flatsP (some q) s).map FEntry.adr :=
          List.mem_map_of_mem _ he2b
        rw [← hee0, adjDel_adr, hq0] at h3
        exact h3
      rw [adjDel_of_ne _ _ hne0] at hee0
      subst hee0
      have hrec := h.2.1 e0 he0
      unfold childrenOf valueIdOf getNode
      show (match (f.store.set q
          { eq.toRec with children := eq.children.erase n })[e2.adr]? with
        | some r => r.children | none => []) = e2.children ∧
        (match (f.store.set q
          { eq.toRec with children := eq.children.erase n })[e2.adr]? with
        | some r => r.value.id | none => 0) = e2.value.id
      rw [← ha2, List.getElem?_set_ne (fun hh => hne0 hh.symm), hrec]
      rw [← hch2, ← hv2]
      exact ⟨rfl, rfl⟩
    have hsz : sizeP s ≤ f.store.length := by
      have h1 : sizeP s = (flatsP (some q) s).length := sizeP_eq_flats_length s (some q)
      have h2 := hperm.length_eq
      rw [List.length_append, List.length_map] at h2
      have h3 : (flatsPL none ts).length ≤ f.store.length := flatsF_length_le h
      omega
    have hfidx : (setChildren f q ((childrenOf f q).erase n)).index = f.index :=
      index_setChildren f q _
    have hfst : (setChildren f q ((childrenOf f q).erase n)).store.length =
        f.store.length := store_length_setChildren f q _
    have hidx : (unindexNodeAndChildren (setChildren f q ((childrenOf f q).erase n))
        (walkFuel (setChildren f q ((childrenOf f q).erase n))) n).index =
        (preIds s).foldl mapDelete f.index := by
      have hwf : walkFuel (setChildren f q ((childrenOf f q).erase n)) =
          f.store.length + 1 := by
        unfold walkFuel
        rw [hfst]
      have h5 := unindex_index_eq (walkFuel (setChildren f q ((childrenOf f q).erase n)))
        s (setChildren f q ((childrenOf f q).erase n)) (by rw [hwf]; omega) hagree
      rw [hsadr] at h5
      rw [h5, hfidx]
    have hfinal : applyOp f (.removeNode n) =
        ⟨f.store.set q { eq.toRec with children := eq.children.erase n },
          f.roots, (preIds s).foldl mapDelete f.index⟩ := by
      rw [hstep]
      refine forest_eq ?_ ?_ hidx
      · rw [unindexNodeAndChildren_store, hf1]
      · rw [unindexNodeAndChildren_roots, hf1]
    rw [hfinal, hts2]
    refine ⟨?_, ?_, ?_, ?_, ?_⟩
    · show f.roots = ts1.map PTree.adr
      rw [hmap]
      exact h.1
    · intro e3 he3
      have hmem3 : e3 ∈ (flatsPL none ts).map (adjDel q n) :=
        hperm.mem_iff.mp (List.mem_append_left _ he3)
      obtain ⟨e0, he0, hee0⟩ := List.mem_map.mp hmem3
      by_cases hq0 : e0.adr = q
      · have he0rec := h.2.1 e0 he0
        rw [hq0] at he0rec
        have heqr : e0.toRec = eq.toRec := by
          have hp0 := h.2.1 eq heq
          rw [heqa] at hp0
          exact Option.some.inj (he0rec.symm.trans hp0)
        have hadj : adjDel q n e0 = { e0 with children := e0.children.erase n } := by
          unfold adjDel
          rw [if_pos hq0]
        rw [hadj] at hee0
        subst hee0
        show (f.store.set q
          { eq.toRec with children := eq.children.erase n })[e0.adr]? = some _
        rw [hq0, List.getElem?_set_eq_of_lt _ hq_lt]
        have hcv : e0.children = eq.children := congrArg NodeRec.children heqr
        have hvv : e0.value = eq.value := congrArg NodeRec.value heqr
        have hpv : e0.parent = eq.parent := congrArg NodeRec.parent heqr
        show some (⟨eq.value, eq.children.erase n, eq.parent⟩ : NodeRec) =
          some (⟨e0.value, e0.children.erase n, e0.parent⟩ : NodeRec)
        rw [hcv, hvv, hpv]
      · rw [adjDel_of_ne _ _ hq0] at hee0
        subst hee0
        show (f.store.set q
          { eq.toRec with children := eq.children.erase n })[e0.adr]? = some e0.toRec
        rw [List.getElem?_set_ne (fun hh => hq0 hh.symm)]
        exact h.2.1 e0 he0
    · show ((flatsPL none ts1).map FEntry.adr).Nodup
      exact hnd1
    · show ((flatsPL none ts1).map (fun e => e.value.id)).Nodup
      have hidn : ((flatsPL none ts).map (fun e => e.value.id)).Nodup := h.2.2.2.1
      have h2 := (hperm.map (fun e => e.value.id)).nodup_iff.mpr
        (by rw [map_vid_map (adjDel_value q n)]; exact hidn)
      rw [List.map_append] at h2
      exact (List.nodup_append.mp h2).1
    · show ((preIds s).foldl mapDelete f.index).Perm
        ((flatsPL none ts1).map (fun e => (e.value.id, e.adr)))
      have hQfst : ((flatsP (some q) s).map (fun e => (e.value.id, e.adr))).map Prod.fst =
          preIds s := by
        rw [pair_fst_map, preIds_eq_map_flatsP s (some q)]
      rw [← hQfst]
      have hppair := hperm.map (fun e => (e.value.id, e.adr))
      rw [List.map_append,
        map_pair_map (adjDel_adr q n) (adjDel_value q n)] at hppair
      apply foldl_mapDelete_perm
      · have hpairp : f.index.Perm
            ((flatsPL none ts).map (fun e => (e.value.id, e.adr))) := h.2.2.2.2
        exact hpairp.trans hppair.symm
      · rw [List.map_append, pair_fst_map, pair_fst_map]
        have h2 := hperm.map (fun e => e.value.id)
        rw [List.map_append, map_vid_map (adjDel_value q n)] at h2
        have hidn : ((flatsPL none ts).map (fun e => e.value.id)).Nodup := h.2.2.2.1
        exact h2.nodup_iff.mpr hidn


theorem removeAllRoots_fold :
    ∀ (ts2 : List PTree) (g : Forest), (∀ t ∈ ts2, IdAgree g t) →
      (∀ t ∈ ts2, sizeP t ≤ g.store.length) →
      ((ts2.map PTree.adr).foldl
        (fun acc r => unindexNodeAndChildren acc (walkFuel acc) r) g) =
        ⟨g.store, g.roots, (preIdsL ts2).foldl mapDelete g.index⟩
  | [], g, _, _ => rfl
  | t :: ts2, g, hag, hsz => by
    show ((ts2.map PTree.adr).foldl
      (fun acc r => unindexNodeAndChildren acc (walkFuel acc) r)
      (unindexNodeAndChildren g (walkFuel g) t.adr)) = _
    have hone : unindexNodeAndChildren g (walkFuel g) t.adr =
        ⟨g.store, g.roots, (preIds t).foldl mapDelete g.index⟩ := by
      refine forest_eq (unindexNodeAndChildren_store _ _ _)
        (unindexNodeAndChildren_roots _ _ _) ?_
      exact unindex_index_eq _ t g
        (by unfold walkFuel; have := hsz t (List.mem_cons_self _ _); omega)
        (hag t (List.mem_cons_self _ _))
    rw [hone]
    rw [removeAllRoots_fold ts2 ⟨g.store, g.roots, (preIds t).foldl mapDelete g.index⟩
      (fun c hc => idAgree_of_store rfl (hag c (List.mem_cons_of_mem _ hc)))
      (fun c hc => hsz c (List.mem_cons_of_mem _ hc))]
    rw [show preIdsL (t :: ts2) = preIds t ++ preIdsL ts2 from rfl, List.foldl_append]

theorem removeAllRoots_op_represents {f : Forest} {ts : List PTree}
    (h : Represents f ts) :
    Represents (applyOp f .removeAllRoots) [] := by
  have hstep : applyOp f .removeAllRoots =
      ⟨f.store, [], (preIdsL ts).foldl mapDelete f.index⟩ := by
    show Treewise.removeAllRoots f = _
    unfold Treewise.removeAllRoots
    rw [h.1]
    rw [removeAllRoots_fold ts f (fun t ht => idAgree_of_represents h ht)
      (fun t ht => sizeP_le_store h ht)]
  rw [hstep]
  refine ⟨rfl, ?_, ?_, ?_, ?_⟩
  · intro e he
    exact absurd he (List.not_mem_nil e)
  · exact List.nodup_nil
  · exact List.nodup_nil
  · show ((preIdsL ts).foldl mapDelete f.index).Perm (pairList [])
    have hQfst : ((flatsPL none ts).map (fun e => (e.value.id, e.adr))).map Prod.fst =
        preIdsL ts := by
      rw [pair_fst_map, preIdsL_eq_map_flatsPL ts none]
    rw [← hQfst]
    apply foldl_mapDelete_perm
    · have hpairp : f.index.Perm
          ((flatsPL none ts).map (fun e => (e.value.id, e.adr))) := h.2.2.2.2
      exact hpairp
    · show (((flatsPL none ts).map (fun e => (e.value.id, e.adr))).map Prod.fst).Nodup
      rw [pair_fst_map]
      exact h.2.2.2.1

theorem adrList_insPL_perm {ts : List PTree} {p : NodeId} (c : PTree)
    (hnd : (adrList ts).Nodup) (hp : p ∈ adrList ts) :
    (adrList (insPL p c ts)).Perm (adrList ts ++ adrsP c) := by
  have hPerm := flatsPL_insPL c p ts none
    (by rw [adrsPL_eq_adrList]; exact hnd) (by rw [adrsPL_eq_adrList]; exact hp)
  have h2 := hPerm.map FEntry.adr
  rw [List.map_append, map_adr_map (adjIns_adr p c.adr)] at h2
  rw [← adrsP_eq_map_flatsP c (some p)] at h2
  exact h2

theorem idList_insPL_perm {ts : List PTree} {p : NodeId} (c : PTree)
    (hnd : (adrList ts).Nodup) (hp : p ∈ adrList ts) :
    (idList (insPL p c ts)).Perm (idList ts ++ preIds c) := by
  have hPerm := flatsPL_insPL c p ts none
    (by rw [adrsPL_eq_adrList]; exact hnd) (by rw [adrsPL_eq_adrList]; exact hp)
  have h2 := hPerm.map (fun e => e.value.id)
  rw [List.map_append, map_vid_map (adjIns_value p c.adr)] at h2
  rw [← preIds_eq_map_flatsP c (some p)] at h2
  exact h2

theorem store_length_addChild {f : Forest} {ts : List PTree} (h : Represents f ts)
    {p : NodeId} (hp : p ∈ adrList ts) (v : Value) :
    (applyOp f (.addNodeAsChild p v)).store.length = f.store.length + 1 := by
  have hp2 : p ∈ adrList ts := hp
  unfold adrList at hp2
  obtain ⟨ep, hep, hepa⟩ := List.mem_map.mp hp2
  have hget : getNode f p = some ep.toRec := by
    unfold getNode
    rw [← hepa]
    exact h.2.1 ep hep
  rw [applyOp_addChild_eq hget v]
  show ((f.store ++ ([⟨v, [], some p⟩] : List NodeRec)).set p _).length = _
  rw [List.length_set, List.length_append]
  rfl

theorem addChildren_fold_represents :
    ∀ (vs : List Value) (g : Forest) (tsg : List PTree) (p : NodeId),
      Represents g tsg → p ∈ adrList tsg → (vs.map Value.id).Nodup →
      (∀ v ∈ vs, v.id ∉ idList tsg) →
      Represents
        (vs.foldl
          (fun acc v =>
            match acc with
            | (some e, g2) => (some e, g2)
            | (none, g2) => Treewise.addNodeAsChild g2 (some p) (some v))
          ((none : Option TreeErr), g)).2
        (vs.foldl (fun acc v => (insPL p (.mk acc.2 v []) acc.1, acc.2 + 1))
          (tsg, g.store.length)).1 ∧
      (vs.foldl
          (fun acc v =>
            match acc with
            | (some e, g2) => (some e, g2)
            | (none, g2) => Treewise.addNodeAsChild g2 (some p) (some v))
          ((none : Option TreeErr), g)).2.store.length =
        (vs.foldl (fun acc v => (insPL p (.mk acc.2 v []) acc.1, acc.2 + 1))
          (tsg, g.store.length)).2
  | [], g, tsg, p, hrep, _, _, _ => ⟨hrep, rfl⟩
  | v :: vs, g, tsg, p, hrep, hp, hnd, hfresh => by
    show Represents
      (vs.foldl _ ((none : Option TreeErr),
        (Treewise.addNodeAsChild g (some p) (some v)).2)).2
      (vs.foldl _ (insPL p (.mk g.store.length v []) tsg, g.store.length + 1)).1 ∧
      (vs.foldl _ ((none : Option TreeErr),
        (Treewise.addNodeAsChild g (some p) (some v)).2)).2.store.length =
      (vs.foldl _ (insPL p (.mk g.store.length v []) tsg, g.store.length + 1)).2
    have hrep2 : Represents (Treewise.addNodeAsChild g (some p) (some v)).2
        (insPL p (.mk g.store.length v []) tsg) :=
      addChild_op_represents hrep hp (hfresh v (List.mem_cons_self _ _))
    have hlen2 : (Treewise.addNodeAsChild g (some p) (some v)).2.store.length =
        g.store.length + 1 :=
      store_length_addChild hrep hp v
    have hids := idList_insPL_perm (.mk g.store.length v []) hrep.2.2.1 hp
    have hadrs := adrList_insPL_perm (.mk g.store.length v []) hrep.2.2.1 hp
    have h2 := addChildren_fold_represents vs (Treewise.addNodeAsChild g (some p) (some v)).2
      (insPL p (.mk g.store.length v []) tsg) p hrep2
      (hadrs.mem_iff.mpr (List.mem_append_left _ hp))
      ((List.nodup_cons.mp hnd).2)
      (by
        intro v2 hv2 hmem2
        rcases List.mem_append.mp (hids.mem_iff.mp hmem2) with hm3 | hm3
        · exact hfresh v2 (List.mem_cons_of_mem _ hv2) hm3
        · rw [show preIds (PTree.mk g.store.length v []) = [v.id] from rfl,
            List.mem_singleton] at hm3
          exact (List.nodup_cons.mp hnd).1 (hm3 ▸ List.mem_map_of_mem Value.id hv2))
    rw [hlen2] at h2
    exact h2

theorem addChildren_op_represents {f : Forest} {ts : List PTree} (h : Represents f ts)
    {p : NodeId} {vs : List Value} (hp : p ∈ adrList ts)
    (hnd : (vs.map Value.id).Nodup) (hfresh : ∀ v ∈ vs, v.id ∉ idList ts) :
    Represents (applyOp f (.addChildren p vs))
      (vs.foldl (fun acc v => (insPL p (.mk acc.2 v []) acc.1, acc.2 + 1))
        (ts, f.store.length)).1 ∧
      (applyOp f (.addChildren p vs)).store.length =
      (vs.foldl (fun acc v => (insPL p (.mk acc.2 v []) acc.1, acc.2 + 1))
        (ts, f.store.length)).2 := by
  show Represents
      (vs.foldl
        (fun acc v =>
          match acc with
          | (some e, g2) => (some e, g2)
          | (none, g2) => Treewise.addNodeAsChild g2 (some p) (some v))
        ((none : Option TreeErr), f)).2 _ ∧
    (vs.foldl
        (fun acc v =>
          match acc with
          | (some e, g2) => (some e, g2)
          | (none, g2) => Treewise.addNodeAsChild g2 (some p) (some v))
        ((none : Option TreeErr), f)).2.store.length = _
  exact addChildren_fold_represents vs f ts p h hp hnd hfresh


/-! ## Path and subtree facts for the circular-reference check -/

theorem adrsP_subset_of_mem :
    ∀ {cs : List PTree} {s : PTree}, s ∈ cs → ∀ x ∈ adrsP s, x ∈ adrsPL cs
  | c :: cs, s, hs, x, hx => by
    rw [adrsPL_cons]
    rcases List.mem_cons.mp hs with he | hm
    · exact List.mem_append_left _ (he ▸ hx)
    · exact List.mem_append_right _ (adrsP_subset_of_mem hm x hx)

mutual

theorem pathToP_none_of_not_mem (p0 : NodeId) (t : PTree) (h : p0 ∉ adrsP t) :
    pathToP p0 t = none := by
  cases t with
  | mk a v cs =>
    rw [adrsP_cons] at h
    show (if a = p0 then some [a] else (pathToPL p0 cs).map (fun p => a :: p)) = none
    rw [if_neg (fun (he : a = p0) => h (he ▸ List.mem_cons_self _ _)),
      pathToPL_none_of_not_mem p0 cs (fun hm => h (List.mem_cons_of_mem _ hm))]
    rfl

theorem pathToPL_none_of_not_mem (p0 : NodeId) :
    ∀ (ts : List PTree), p0 ∉ adrsPL ts → pathToPL p0 ts = none
  | [], _ => rfl
  | t :: ts, h => by
    rw [adrsPL_cons] at h
    show (match pathToP p0 t with
      | some p => some p
      | none => pathToPL p0 ts) = none
    rw [pathToP_none_of_not_mem p0 t (fun hm => h (List.mem_append_left _ hm)),
      pathToPL_none_of_not_mem p0 ts (fun hm => h (List.mem_append_right _ hm))]

end

mutual

theorem pathToP_isSome (p0 : NodeId) (t : PTree) (h : p0 ∈ adrsP t) :
    (pathToP p0 t).isSome := by
  cases t with
  | mk a v cs =>
    rw [adrsP_cons] at h
    show (if a = p0 then some [a] else (pathToPL p0 cs).map (fun p => a :: p)).isSome
    by_cases hap : a = p0
    · rw [if_pos hap]
      rfl
    · rw [if_neg hap]
      rcases List.mem_cons.mp h with he | hm
      · exact absurd he.symm hap
      · have := pathToPL_isSome p0 cs hm
        cases hx : pathToPL p0 cs with
        | none => rw [hx] at this; cases this
        | some P => rfl

theorem pathToPL_isSome (p0 : NodeId) :
    ∀ (ts : List PTree), p0 ∈ adrsPL ts → (pathToPL p0 ts).isSome
  | t :: ts, h => by
    rw [adrsPL_cons] at h
    show (match pathToP p0 t with
      | some p => some p
      | none => pathToPL p0 ts).isSome
    cases hx : pathToP p0 t with
    | some P => rfl
    | none =>
      rcases List.mem_append.mp h with hm | hm
      · have := pathToP_isSome p0 t hm
        rw [hx] at this
        cases this
      · exact pathToPL_isSome p0 ts hm

end

theorem pathToP_head (p0 : NodeId) (t : PTree) (P : List NodeId)
    (h : pathToP p0 t = some P) : P.head? = some t.adr := by
  cases t with
  | mk a v cs =>
    have h2 : (if a = p0 then some [a] else (pathToPL p0 cs).map (fun p => a :: p)) =
        some P := h
    by_cases hap : a = p0
    · rw [if_pos hap] at h2
      rw [← Option.some.inj h2]
      rfl
    · rw [if_neg hap] at h2
      obtain ⟨P2, _, hP2⟩ := Option.map_eq_some'.mp h2
      rw [← hP2]
      rfl

theorem pathToPL_eq_of_mem (p0 : NodeId) :
    ∀ (cs : List PTree) (s : PTree), (adrsPL cs).Nodup → s ∈ cs → p0 ∈ adrsP s →
      pathToPL p0 cs = pathToP p0 s
  | t :: cs, s, hnd, hs, hp0 => by
    rw [adrsPL_cons] at hnd
    obtain ⟨hnd1, hnd2, hdisj⟩ := List.nodup_append.mp hnd
    show (match pathToP p0 t with
      | some p => some p
      | none => pathToPL p0 cs) = pathToP p0 s
    rcases List.mem_cons.mp hs with he | hm
    · rw [← he]
      have := pathToP_isSome p0 s hp0
      cases hx : pathToP p0 s with
      | none => rw [hx] at this; cases this
      | some P => rfl
    · have hnt : p0 ∉ adrsP t := fun hmt => hdisj hmt (adrsP_subset_of_mem hm p0 hp0)
      rw [pathToP_none_of_not_mem p0 t hnt]
      exact pathToPL_eq_of_mem p0 cs s hnd2 hm hp0

mutual

theorem detachP_sub_subset (n : NodeId) (t : PTree) :
    ∀ (s : PTree), (detachP n t).2 = some s → ∀ x ∈ adrsP s, x ∈ adrsP t := by
  cases t with
  | mk a v cs =>
    intro s hdet x hx
    rw [adrsP_cons]
    apply List.mem_cons_of_mem
    cases hfr : pFindRoot n cs with
    | some s0 =>
      have h2 : (detachP n (.mk a v cs)).2 = some s0 := by
        simp only [detachP, hfr]
      rw [h2] at hdet
      have hss : s0 = s := Option.some.inj hdet
      subst hss
      exact adrsP_subset_of_mem (pFindRoot_some n cs s0 hfr).2 x hx
    | none =>
      have h2 : (detachP n (.mk a v cs)).2 = (detachPL n cs).2 := by
        simp only [detachP, hfr]
      rw [h2] at hdet
      exact detachPL_sub_subset n cs s hdet x hx

theorem detachPL_sub_subset (n : NodeId) :
    ∀ (ts : List PTree) (s : PTree), (detachPL n ts).2 = some s →
      ∀ x ∈ adrsP s, x ∈ adrsPL ts
  | t :: ts, s, hdet, x, hx => by
    rw [adrsPL_cons]
    cases hd : (detachP n t).2 with
    | some s0 =>
      have h2 : (detachPL n (t :: ts)).2 = some s0 := by
        simp only [detachPL]
        rw [show detachP n t = ((detachP n t).1, (detachP n t).2) from rfl, hd]
      rw [h2] at hdet
      have hss : s0 = s := Option.some.inj hdet
      subst hss
      exact List.mem_append_left _ (detachP_sub_subset n t s0 hd x hx)
    | none =>
      have h2 : (detachPL n (t :: ts)).2 = (detachPL n ts).2 := by
        simp only [detachPL]
        rw [show detachP n t = ((detachP n t).1, (detachP n t).2) from rfl, hd]
      rw [h2] at hdet
      exact List.mem_append_right _ (detachPL_sub_subset n ts s hdet x hx)

end


mutual

theorem pathToP_detach_mem (n p0 : NodeId) (t : PTree) :
    ∀ (P : List NodeId) (s : PTree), (adrsP t).Nodup → pathToP p0 t = some P →
      (detachP n t).2 = some s → p0 ∈ adrsP s → n ∈ P := by
  cases t with
  | mk a v cs =>
    intro P s hnd hpath hdet hp0
    rw [adrsP_cons] at hnd
    cases hfr : pFindRoot n cs with
    | some s0 =>
      have h2 : (detachP n (.mk a v cs)).2 = some s0 := by
        simp only [detachP, hfr]
      rw [h2] at hdet
      obtain rfl := Option.some.inj hdet
      obtain ⟨hs0adr, hs0mem⟩ := pFindRoot_some n cs s0 hfr
      have hp0cs : p0 ∈ adrsPL cs := adrsP_subset_of_mem hs0mem p0 hp0
      have hap : a ≠ p0 := fun he => (List.nodup_cons.mp hnd).1 (he ▸ hp0cs)
      have hpath2 : (if a = p0 then some [a]
          else (pathToPL p0 cs).map (fun q2 => a :: q2)) = some P := hpath
      rw [if_neg hap] at hpath2
      obtain ⟨P2, hP2, hP2e⟩ := Option.map_eq_some'.mp hpath2
      rw [pathToPL_eq_of_mem p0 cs s0 (List.nodup_cons.mp hnd).2 hs0mem hp0] at hP2
      have hhead := pathToP_head p0 s0 P2 hP2
      rw [hs0adr] at hhead
      rw [← hP2e]
      exact List.mem_cons_of_mem _ (List.mem_of_mem_head? (by rw [hhead]; rfl))
    | none =>
      have h2 : (detachP n (.mk a v cs)).2 = (detachPL n cs).2 := by
        simp only [detachP, hfr]
      rw [h2] at hdet
      have hp0cs : p0 ∈ adrsPL cs := detachPL_sub_subset n cs s hdet p0 hp0
      have hap : a ≠ p0 := fun he => (List.nodup_cons.mp hnd).1 (he ▸ hp0cs)
      have hpath2 : (if a = p0 then some [a]
          else (pathToPL p0 cs).map (fun q2 => a :: q2)) = some P := hpath
      rw [if_neg hap] at hpath2
      obtain ⟨P2, hP2, hP2e⟩ := Option.map_eq_some'.mp hpath2
      rw [← hP2e]
      exact List.mem_cons_of_mem _
        (pathToPL_detach_mem n p0 cs P2 s (List.nodup_cons.mp hnd).2 hP2 hdet hp0)

theorem pathToPL_detach_mem (n p0 : NodeId) :
    ∀ (ts : List PTree) (P : List NodeId) (s : PTree), (adrsPL ts).Nodup →
      pathToPL p0 ts = some P → (detachPL n ts).2 = some s → p0 ∈ adrsP s → n ∈ P
  | t :: ts, P, s, hnd, hpath, hdet, hp0 => by
    rw [adrsPL_cons] at hnd
    obtain ⟨hnd1, hnd2, hdisj⟩ := List.nodup_append.mp hnd
    have hpath2 : (match pathToP p0 t with
      | some p => some p
      | none => pathToPL p0 ts) = some P := hpath
    cases hdd : (detachP n t).2 with
    | some s0 =>
      have h2 : (detachPL n (t :: ts)).2 = some s0 := by
        simp only [detachPL]
        rw [show detachP n t = ((detachP n t).1, (detachP n t).2) from rfl, hdd]
      rw [h2] at hdet
      obtain rfl := Option.some.inj hdet
      have hp0t : p0 ∈ adrsP t := detachP_sub_subset n t s0 hdd p0 hp0
      have hsome := pathToP_isSome p0 t hp0t
      cases hx : pathToP p0 t with
      | none => rw [hx] at hsome; cases hsome
      | some P1 =>
        rw [hx] at hpath2
        obtain rfl := Option.some.inj hpath2
        exact pathToP_detach_mem n p0 t P1 s0 hnd1 hx hdd hp0
    | none =>
      have h2 : (detachPL n (t :: ts)).2 = (detachPL n ts).2 := by
        simp only [detachPL]
        rw [show detachP n t = ((detachP n t).1, (detachP n t).2) from rfl, hdd]
      rw [h2] at hdet
      have hp0ts : p0 ∈ adrsPL ts := detachPL_sub_subset n ts s hdet p0 hp0
      have hp0nt : p0 ∉ adrsP t := fun hmt => hdisj hmt hp0ts
      rw [pathToP_none_of_not_mem p0 t hp0nt] at hpath2
      exact pathToPL_detach_mem n p0 ts P s hnd2 hpath2 hdet hp0

end

theorem mem_of_getLast?_eq {l : List NodeId} {a : NodeId} (h : l.getLast? = some a) :
    a ∈ l := by
  rw [List.getLast?_eq_getElem?] at h
  obtain ⟨hlt, hEq⟩ := List.getElem?_eq_some.mp h
  exact hEq ▸ List.getElem_mem hlt

theorem ancestorChainHas_none (f : Forest) (fuel : Nat) (a : NodeId) :
    ancestorChainHas f fuel none a = false := by
  cases fuel <;> rfl

theorem ancestorChainHas_mem (f : Forest) :
    ∀ (P : List NodeId), List.Chain' (fun x y => parentOf f y = some x) P →
      (∀ h0, P.head? = some h0 → parentOf f h0 = none) →
      ∀ (p : NodeId), P.getLast? = some p →
      ∀ (fuel : Nat) (n : NodeId),
        ancestorChainHas f fuel (parentOf f p) n = true → n ∈ P := by
  intro P
  induction P using List.reverseRecOn with
  | nil =>
    intro _ _ p hlast
    cases hlast
  | append_singleton init last ih =>
    intro hchain hhead p hlast fuel n hrun
    have hlp : last = p := by
      rw [List.getLast?_append_cons init last []] at hlast
      exact Option.some.inj (by simpa using hlast)
    subst hlp
    cases init with
    | nil =>
      have hpar : parentOf f last = none := hhead last (by simp)
      rw [hpar, ancestorChainHas_none] at hrun
      cases hrun
    | cons i0 init2 =>
      obtain ⟨h1, h2, hrel⟩ := List.chain'_append.mp hchain
      cases hil : (i0 :: init2).getLast? with
      | none => simp at hil
      | some m =>
        have hpar : parentOf f last = some m := by
          apply hrel m
          · rw [hil]; rfl
          · rfl
        rw [hpar] at hrun
        cases fuel with
        | zero => exact Bool.noConfusion (show false = true from hrun)
        | succ fuel =>
          have hrun2 : (if m = n then true
              else ancestorChainHas f fuel (parentOf f m) n) = true := hrun
          by_cases hmn : m = n
          · subst hmn
            exact List.mem_append_left _ (mem_of_getLast?_eq hil)
          · rw [if_neg hmn] at hrun2
            have hin := ih h1 (fun h0 hh0 => hhead h0
              (by rw [List.head?_append_of_ne_nil _ (List.cons_ne_nil i0 init2)]; exact hh0))
              m hil fuel n hrun2
            exact List.mem_append_left _ hin


theorem map_pair_flatsP_par (s : PTree) (par1 par2 : Option NodeId) :
    (flatsP par1 s).map (fun e => (e.value.id, e.adr)) =
      (flatsP par2 s).map (fun e => (e.value.id, e.adr)) := by
  rw [flatsP_def, flatsP_def]
  rfl

theorem adr_not_mem_children_of_nodup {s : PTree} (h : (adrsP s).Nodup) :
    s.adr ∉ adrsPL s.children := by
  cases s with
  | mk a v cs =>
    rw [adrsP_cons] at h
    show a ∉ adrsPL cs
    exact (List.nodup_cons.mp h).1

theorem moveNode_graft {f1 : Forest} {tsMid : List PTree} {s : PTree} {n p : NodeId}
    (hsm : ∀ e ∈ flatsF tsMid, f1.store[e.adr]? = some e.toRec)
    (hroots : f1.roots = tsMid.map PTree.adr)
    (hidxm : f1.index.Perm (pairList tsMid ++
      (flatsP (some p) s).map (fun e => (e.value.id, e.adr))))
    (hnmid : n ∉ adrList tsMid)
    (hpmid : p ∈ adrList tsMid)
    (hndall : (adrList tsMid ++ adrsP s).Nodup)
    (hndid : (idList tsMid ++ preIds s).Nodup)
    (hsrec : ∃ r, getNode f1 n = some r ∧ r.value = s.value ∧
      r.children = s.children.map PTree.adr)
    (hsdeep : ∀ e ∈ flatsPL (some s.adr) s.children, f1.store[e.adr]? = some e.toRec)
    (hsadr : s.adr = n) :
    Represents
      (setChildren (setParent f1 n (some p)) p
        (childrenOf (setParent f1 n (some p)) p ++ [n]))
      (insPL p s tsMid) := by
  obtain ⟨r, hr, hrv, hrc⟩ := hsrec
  obtain ⟨hndm, hnds, hdisj⟩ := List.nodup_append.mp hndall
  have hpns : p ∉ adrsP s := fun hm => hdisj hpmid hm
  have hnpne : p ≠ n := fun he => hnmid (he ▸ hpmid)
  have hn_lt : n < f1.store.length := lt_of_getNode_isSome f1 hr
  -- the entry of p in the detached forest
  have hp2 : p ∈ adrList tsMid := hpmid
  unfold adrList at hp2
  obtain ⟨epm, hepm, hepma⟩ := List.mem_map.mp hp2
  have hgp1 : getNode f1 p = some epm.toRec := by
    unfold getNode
    rw [← hepma]
    exact hsm epm hepm
  have hgp2 : getNode (setParent f1 n (some p)) p = some epm.toRec := by
    rw [getNode_setParent_ne f1 (some p) (fun he => hnpne he.symm)]
    exact hgp1
  have hch2 : childrenOf (setParent f1 n (some p)) p = epm.children := by
    unfold childrenOf
    rw [hgp2]
    rfl
  have hf2 : setParent f1 n (some p) =
      ⟨f1.store.set n { r with parent := some p }, f1.roots, f1.index⟩ := by
    unfold setParent
    rw [hr]
    rfl
  have hfinal : setChildren (setParent f1 n (some p)) p
      (childrenOf (setParent f1 n (some p)) p ++ [n]) =
      ⟨(f1.store.set n { r with parent := some p }).set p
        { epm.toRec with children := epm.children ++ [n] }, f1.roots, f1.index⟩ := by
    rw [hch2]
    unfold setChildren
    rw [hgp2, hf2]
    rfl
  rw [hfinal]
  have hPerm := flatsPL_insPL s p tsMid none
    (by rw [adrsPL_eq_adrList]; exact hndm) (by rw [adrsPL_eq_adrList]; exact hpmid)
  have hsadr2 : (flatsP (some p) s) =
      ⟨n, s.value, s.children.map PTree.adr, some p⟩ :: flatsPL (some s.adr) s.children := by
    rw [flatsP_def, hsadr]
  refine ⟨?_, ?_, ?_, ?_, ?_⟩
  · show f1.roots = (insPL p s tsMid).map PTree.adr
    rw [insPL_map_adr]
    exact hroots
  · intro e he
    have hmem := hPerm.mem_iff.mp he
    rcases List.mem_append.mp hmem with hmem | hmem
    · obtain ⟨e0, he0, hee⟩ := List.mem_map.mp hmem
      have he0a : e0.adr ≠ n := by
        intro he0n
        exact hnmid (by rw [← he0n]; exact List.mem_map_of_mem _ he0)
      by_cases hadr : e0.adr = p
      · have he0rec := hsm e0 he0
        rw [hadr] at he0rec
        have heq0 : e0.toRec = epm.toRec := by
          have hp0 := hsm epm hepm
          rw [hepma] at hp0
          exact Option.some.inj (he0rec.symm.trans hp0)
        have hadj : adjIns p s.adr e0 =
            { e0 with children := e0.children ++ [s.adr] } := by
          unfold adjIns
          rw [if_pos hadr]
        rw [hadj] at hee
        subst hee
        show ((f1.store.set n { r with parent := some p }).set p
          { epm.toRec with children := epm.children ++ [n] })[e0.adr]? = some _
        rw [hadr, List.getElem?_set_eq_of_lt _
          (by rw [List.length_set]; exact lt_of_getNode_isSome f1 hgp1)]
        have hcv : e0.children = epm.children := congrArg NodeRec.children heq0
        have hvv : e0.value = epm.value := congrArg NodeRec.value heq0
        have hpv : e0.parent = epm.parent := congrArg NodeRec.parent heq0
        show some (⟨epm.value, epm.children ++ [n], epm.parent⟩ : NodeRec) =
          some (⟨e0.value, e0.children ++ [s.adr], e0.parent⟩ : NodeRec)
        rw [hcv, hvv, hpv, hsadr]
      · rw [adjIns_of_ne _ _ hadr] at hee
        subst hee
        show ((f1.store.set n { r with parent := some p }).set p
          { epm.toRec with children := epm.children ++ [n] })[e0.adr]? = some e0.toRec
        rw [List.getElem?_set_ne (fun hh => hadr hh.symm),
          List.getElem?_set_ne (fun hh => he0a hh.symm)]
        exact hsm e0 he0
    · rw [hsadr2] at hmem
      rcases List.mem_cons.mp hmem with hmem | hmem
      · subst hmem
        show ((f1.store.set n { r with parent := some p }).set p
          { epm.toRec with children := epm.children ++ [n] })[n]? = some _
        rw [List.getElem?_set_ne hnpne,
          List.getElem?_set_eq_of_lt _ hn_lt]
        show some _ = some (⟨s.value, s.children.map PTree.adr, some p⟩ : NodeRec)
        rw [← hrv, ← hrc]
      · have hmadr : e.adr ∈ adrsPL s.children := by
          rw [adrsPL_eq_map_flatsPL s.children (some s.adr)]
          exact List.mem_map_of_mem _ hmem
        have hins : e.adr ∈ adrsP s := by
          cases s with
          | mk a v cs => exact List.mem_cons_of_mem _ hmadr
        have henadr : e.adr ≠ n := by
          intro hh
          apply adr_not_mem_children_of_nodup hnds
          rw [hsadr, ← hh]
          exact hmadr
        have hepadr : e.adr ≠ p := by
          intro hh
          exact hpns (hh ▸ hins)
        show ((f1.store.set n { r with parent := some p }).set p
          { epm.toRec with children := epm.children ++ [n] })[e.adr]? = some e.toRec
        rw [List.getElem?_set_ne (fun hh => hepadr hh.symm),
          List.getElem?_set_ne (fun hh => henadr hh.symm)]
        exact hsdeep e hmem
  · show ((flatsPL none (insPL p s tsMid)).map FEntry.adr).Nodup
    rw [(hPerm.map FEntry.adr).nodup_iff]
    rw [List.map_append, map_adr_map (adjIns_adr p s.adr),
      ← adrsP_eq_map_flatsP s (some p)]
    exact hndall
  · show ((flatsPL none (insPL p s tsMid)).map (fun e => e.value.id)).Nodup
    rw [(hPerm.map (fun e => e.value.id)).nodup_iff]
    rw [List.map_append, map_vid_map (adjIns_value p s.adr),
      ← preIds_eq_map_flatsP s (some p)]
    exact hndid
  · show f1.index.Perm ((flatsPL none (insPL p s tsMid)).map (fun e => (e.value.id, e.adr)))
    have h2 := hPerm.map (fun e => (e.value.id, e.adr))
    rw [List.map_append,
      map_pair_map (adjIns_adr p s.adr) (adjIns_value p s.adr)] at h2
    exact hidxm.trans h2.symm

theorem mem_of_head?_eq {l : List NodeId} {a : NodeId} (h : l.head? = some a) :
    a ∈ l := by
  cases l with
  | nil => cases h
  | cons b l => exact List.mem_cons.mpr (Or.inl (Option.some.inj h).symm)

/-- The subtree a `moveNode`/`removeNode` call would detach. -/
def pSubtree (n : NodeId) (ts : List PTree) : Option PTree :=
  if n ∈ ts.map PTree.adr then pFindRoot n ts else (detachPL n ts).2

/-- Pure counterpart of a successful `moveNode n p` on a represented
forest: detach the subtree of `n` and graft it under `p`. -/
def pMove (n p : NodeId) (ts : List PTree) : List PTree :=
  match pSubtree n ts with
  | some s => insPL p s (pRemove n ts)
  | none => ts

theorem moveNode_op_represents {f : Forest} {ts : List PTree} (h : Represents f ts)
    {n p : NodeId} (hn : n ∈ adrList ts) (hp : p ∈ adrList ts)
    {Pp : List NodeId} (hPp : pathToPL p ts = some Pp) (hnPp : n ∉ Pp) :
    Represents (applyOp f (.moveNode n p)) (pMove n p ts) := by
  -- path facts for the destination node
  obtain ⟨tp, htp, hptp⟩ := pathToPL_elim p ts Pp hPp
  have hOKt : ∀ e ∈ flatsP none tp, f.store[e.adr]? = some e.toRec := by
    intro e he
    exact h.2.1 e (mem_flatsPL_of_mem htp he)
  have hndt : ((flatsP none tp).map FEntry.adr).Nodup := by
    have hs := (flatsP_sublist none htp).map FEntry.adr
    exact h.2.2.1.sublist hs
  obtain ⟨hPne, hPhead, hPlast, hPchain, hPnd, hPsub⟩ :=
    pathToP_spec f p (sizeP tp) tp (Nat.le_refl _) none Pp hOKt hndt hptp
  have hheadnone : ∀ h0, Pp.head? = some h0 → parentOf f h0 = none := by
    intro h0 hh0
    rw [hPhead] at hh0
    rw [← Option.some.inj hh0]
    exact parentOf_of_flats hOKt
  have hanc : isAncestorOf f n p = false := by
    unfold isAncestorOf
    cases hb : ancestorChainHas f (walkFuel f) (parentOf f p) n with
    | false => rfl
    | true =>
      exact absurd (ancestorChainHas_mem f Pp hPchain hheadnone p hPlast _ n hb) hnPp
  by_cases hmem : n ∈ f.roots
  · -- detaching a root
    have hmem2 : n ∈ ts.map PTree.adr := by rw [← h.1]; exact hmem
    have hfs := pFindRoot_isSome n ts hmem2
    cases hfr : pFindRoot n ts with
    | none => rw [hfr] at hfs; cases hfs
    | some s =>
    obtain ⟨hsadr, hsmem⟩ := pFindRoot_some n ts s hfr
    have hP := flatsPL_pEraseRoot_perm n ts none s hfr
    have hts2 : pMove n p ts = insPL p s (pEraseRoot n ts) := by
      have hsub : pSubtree n ts = some s := by
        unfold pSubtree
        rw [if_pos hmem2, hfr]
      have hrem : pRemove n ts = pEraseRoot n ts := by
        unfold pRemove
        rw [if_pos hmem2]
      simp only [pMove, hsub, hrem]
    have hstep : applyOp f (.moveNode n p) =
        setChildren (setParent { f with roots := f.roots.erase n } n (some p)) p
          (childrenOf (setParent { f with roots := f.roots.erase n } n (some p)) p
            ++ [n]) := by
      show ((if isAncestorOf f n p = true then
          ((some TreeErr.circularReference : Option TreeErr), f)
        else
          ((none : Option TreeErr),
            setChildren
              (setParent
                (if n ∈ f.roots then { f with roots := f.roots.erase n }
                 else
                   match parentOf f n with
                   | some q => setChildren f q ((childrenOf f q).erase n)
                   | none => f) n (some p)) p
              (childrenOf
                (setParent
                  (if n ∈ f.roots then { f with roots := f.roots.erase n }
                   else
                     match parentOf f n with
                     | some q => setChildren f q ((childrenOf f q).erase n)
                     | none => f) n (some p)) p ++ [n])))).2 = _
      rw [hanc, if_neg Bool.false_ne_true, if_pos hmem]
    rw [hstep, hts2]
    have hsroot : (⟨s.adr, s.value, s.children.map PTree.adr, none⟩ : FEntry) ∈
        flatsPL none ts :=
      mem_flatsPL_of_mem hsmem (by rw [flatsP_def]; exact List.mem_cons_self _ _)
    have hadrP := hP.map FEntry.adr
    rw [List.map_append] at hadrP
    have hadrn : ((flatsPL none ts).map FEntry.adr).Nodup := h.2.2.1
    have hndsm : ((flatsP none s).map FEntry.adr ++
        (flatsPL none (pEraseRoot n ts)).map FEntry.adr).Nodup :=
      hadrP.nodup_iff.mp hadrn
    obtain ⟨hnds0, hndm0, hdisj0⟩ := List.nodup_append.mp hndsm
    have hnmem0 : n ∈ (flatsP none s).map FEntry.adr := by
      rw [flatsP_def, List.map_cons]
      exact List.mem_cons.mpr (Or.inl hsadr.symm)
    apply moveNode_graft
    · intro e he
      exact h.2.1 e (hP.mem_iff.mpr (List.mem_append_right _ he))
    · show f.roots.erase n = (pEraseRoot n ts).map PTree.adr
      rw [pEraseRoot_map_adr, ← h.1]
    · have hpair := hP.map (fun e => (e.value.id, e.adr))
      rw [List.map_append, map_pair_flatsP_par s none (some p)] at hpair
      exact (h.2.2.2.2.trans hpair).trans List.perm_append_comm
    · intro hmem3
      exact hdisj0 hnmem0 hmem3
    · have hpmem : p ∈ (flatsP none s).map FEntry.adr ++
          (flatsPL none (pEraseRoot n ts)).map FEntry.adr := hadrP.mem_iff.mp hp
      rcases List.mem_append.mp hpmem with hm3 | hm3
      · exfalso
        have hps : p ∈ adrsP s := by
          rw [adrsP_eq_map_flatsP s none]
          exact hm3
        rw [pathToPL_eq_of_mem p ts s
          (by rw [adrsPL_eq_adrList]; exact h.2.2.1) hsmem hps] at hPp
        have hhead := pathToP_head p s Pp hPp
        rw [hsadr] at hhead
        exact hnPp (mem_of_head?_eq hhead)
      · exact hm3
    · show ((flatsPL none (pEraseRoot n ts)).map FEntry.adr ++ adrsP s).Nodup
      rw [adrsP_eq_map_flatsP s none]
      exact List.perm_append_comm.nodup_iff.mpr hndsm
    · show ((flatsPL none (pEraseRoot n ts)).map (fun e => e.value.id) ++
        preIds s).Nodup
      rw [preIds_eq_map_flatsP s none]
      have hvid := hP.map (fun e => e.value.id)
      rw [List.map_append] at hvid
      have hidn : ((flatsPL none ts).map (fun e => e.value.id)).Nodup := h.2.2.2.1
      exact List.perm_append_comm.nodup_iff.mpr (hvid.nodup_iff.mp hidn)
    · refine ⟨⟨s.value, s.children.map PTree.adr, none⟩, ?_, rfl, rfl⟩
      unfold getNode
      show f.store[n]? = some ⟨s.value, s.children.map PTree.adr, none⟩
      rw [← hsadr]
      exact h.2.1 _ hsroot
    · intro e2 he2
      apply h.2.1 e2
      apply hP.mem_iff.mpr
      apply List.mem_append_left
      rw [flatsP_def]
      exact List.mem_cons_of_mem _ he2
    · exact hsadr
  · -- detaching from a recorded parent
    have hm2 : n ∉ ts.map PTree.adr := by rw [← h.1]; exact hmem
    have hnadrs : n ∈ adrsPL ts := by rw [adrsPL_eq_adrList]; exact hn
    obtain ⟨q, ts1, s, hdet, hsadr, hmap, ⟨e, he, hea, hep⟩, ⟨eq, heq, heqa, heqc⟩,
        ⟨eq1, heq1, heq1a⟩, hperm⟩ :=
      flatsPL_detachPL n ts none (by rw [adrsPL_eq_adrList]; exact h.2.2.1) hnadrs hm2
    have hgn : getNode f n = some e.toRec := by
      unfold getNode
      rw [← hea]
      exact h.2.1 e he
    have hpar : parentOf f n = some q := by
      unfold parentOf
      rw [hgn]
      exact hep
    have hgq : getNode f q = some eq.toRec := by
      unfold getNode
      rw [← heqa]
      exact h.2.1 eq heq
    have hq_lt : q < f.store.length := lt_of_getNode_isSome f hgq
    have hcq : childrenOf f q = eq.children := by
      unfold childrenOf
      rw [hgq]
      rfl
    have hts2 : pMove n p ts = insPL p s ts1 := by
      have hsub : pSubtree n ts = some s := by
        unfold pSubtree
        rw [if_neg hm2, hdet]
      have hrem : pRemove n ts = ts1 := by
        unfold pRemove
        rw [if_neg hm2, hdet]
      simp only [pMove, hsub, hrem]
    have hstep : applyOp f (.moveNode n p) =
        setChildren
          (setParent (setChildren f q ((childrenOf f q).erase n)) n (some p)) p
          (childrenOf
            (setParent (setChildren f q ((childrenOf f q).erase n)) n (some p)) p
            ++ [n]) := by
      show ((if isAncestorOf f n p = true then
          ((some TreeErr.circularReference : Option TreeErr), f)
        else
          ((none : Option TreeErr),
            setChildren
              (setParent
                (if n ∈ f.roots then { f with roots := f.roots.erase n }
                 else
                   match parentOf f n with
                   | some q => setChildren f q ((childrenOf f q).erase n)
                   | none => f) n (some p)) p
              (childrenOf
                (setParent
                  (if n ∈ f.roots then { f with roots := f.roots.erase n }
                   else
                     match parentOf f n with
                     | some q => setChildren f q ((childrenOf f q).erase n)
                     | none => f) n (some p)) p ++ [n])))).2 = _
      rw [hanc, if_neg Bool.false_ne_true, if_neg hmem, hpar]
    rw [hstep, hts2]
    have hf1 : setChildren f q ((childrenOf f q).erase n) =
        ⟨f.store.set q { eq.toRec with children := eq.children.erase n },
          f.roots, f.index⟩ := by
      rw [hcq]
      unfold setChildren
      rw [hgq]
      rfl
    have hndLR : ((flatsPL none ts1).map FEntry.adr ++
        (flatsP (some q) s).map FEntry.adr).Nodup := by
      have hadrn : ((flatsPL none ts).map FEntry.adr).Nodup := h.2.2.1
      have h2 := (hperm.map FEntry.adr).nodup_iff.mpr
        (by rw [map_adr_map (adjDel_adr q n)]; exact hadrn)
      rw [List.map_append] at h2
      exact h2
    obtain ⟨hnd1, hnds, hdisj⟩ := List.nodup_append.mp hndLR
    have hqs : q ∉ (flatsP (some q) s).map FEntry.adr := by
      intro hm3
      exact hdisj (by rw [← heq1a]; exact List.mem_map_of_mem _ heq1) hm3
    have hnmem : n ∈ (flatsP (some q) s).map FEntry.adr := by
      rw [flatsP_def, List.map_cons]
      exact List.mem_cons.mpr (Or.inl hsadr.symm)
    have hnq : n ≠ q := fun hh => hqs (hh ▸ hnmem)
    apply moveNode_graft
    · rw [hf1]
      intro e3 he3
      have hmem3 : e3 ∈ (flatsPL none ts).map (adjDel q n) :=
        hperm.mem_iff.mp (List.mem_append_left _ he3)
      obtain ⟨e0, he0, hee0⟩ := List.mem_map.mp hmem3
      by_cases hq0 : e0.adr = q
      · have he0rec := h.2.1 e0 he0
        rw [hq0] at he0rec
        have heqr : e0.toRec = eq.toRec := by
          have hp0 := h.2.1 eq heq
          rw [heqa] at hp0
          exact Option.some.inj (he0rec.symm.trans hp0)
        have hadj : adjDel q n e0 = { e0 with children := e0.children.erase n } := by
          unfold adjDel
          rw [if_pos hq0]
        rw [hadj] at hee0
        subst hee0
        show (f.store.set q
          { eq.toRec with children := eq.children.erase n })[e0.adr]? = some _
        rw [hq0, List.getElem?_set_eq_of_lt _ hq_lt]
        have hcv : e0.children = eq.children := congrArg NodeRec.children heqr
        have hvv : e0.value = eq.value := congrArg NodeRec.value heqr
        have hpv : e0.parent = eq.parent := congrArg NodeRec.parent heqr
        show some (⟨eq.value, eq.children.erase n, eq.parent⟩ : NodeRec) =
          some (⟨e0.value, e0.children.erase n, e0.parent⟩ : NodeRec)
        rw [hcv, hvv, hpv]
      · rw [adjDel_of_ne _ _ hq0] at hee0
        subst hee0
        show (f.store.set q
          { eq.toRec with children := eq.children.erase n })[e0.adr]? = some e0.toRec
        rw [List.getElem?_set_ne (fun hh => hq0 hh.symm)]
        exact h.2.1 e0 he0
    · rw [hf1]
      show f.roots = ts1.map PTree.adr
      rw [hmap]
      exact h.1
    · rw [hf1]
      show f.index.Perm _
      have hppair := hperm.map (fun e => (e.value.id, e.adr))
      rw [List.map_append,
        map_pair_map (adjDel_adr q n) (adjDel_value q n)] at hppair
      rw [map_pair_flatsP_par s (some p) (some q)]
      exact h.2.2.2.2.trans hppair.symm
    · intro hmemn
      exact hdisj hmemn hnmem
    · have hadr2 := hperm.map FEntry.adr
      rw [List.map_append, map_adr_map (adjDel_adr q n)] at hadr2
      have hpm : p ∈ (flatsPL none ts1).map FEntry.adr ++
          (flatsP (some q) s).map FEntry.adr := hadr2.mem_iff.mpr hp
      rcases List.mem_append.mp hpm with hm3 | hm3
      · exact hm3
      · exfalso
        have hps : p ∈ adrsP s := by
          rw [adrsP_eq_map_flatsP s (some q)]
          exact hm3
        have hdet2 : (detachPL n ts).2 = some s := by rw [hdet]
        exact hnPp (pathToPL_detach_mem n p ts Pp s
          (by rw [adrsPL_eq_adrList]; exact h.2.2.1) hPp hdet2 hps)
    · show ((flatsPL none ts1).map FEntry.adr ++ adrsP s).Nodup
      rw [adrsP_eq_map_flatsP s (some q)]
      exact hndLR
    · show ((flatsPL none ts1).map (fun e => e.value.id) ++ preIds s).Nodup
      rw [preIds_eq_map_flatsP s (some q)]
      have h2 := (hperm.map (fun e => e.value.id)).nodup_iff.mpr
        (by rw [map_vid_map (adjDel_value q n)]; exact h.2.2.2.1)
      rw [List.map_append] at h2
      exact h2
    · have hroot2 : (⟨s.adr, s.value, s.children.map PTree.adr, some q⟩ : FEntry) ∈
          (flatsPL none ts).map (adjDel q n) := by
        apply hperm.mem_iff.mp
        apply List.mem_append_right
        rw [flatsP_def]
        exact List.mem_cons_self _ _
      obtain ⟨e0, he0, hee0⟩ := List.mem_map.mp hroot2
      have he0a : e0.adr = n := by
        have h3 := congrArg FEntry.adr hee0
        rw [adjDel_adr] at h3
        rw [h3]
        exact hsadr
      have hne0 : e0.adr ≠ q := by
        rw [he0a]
        exact hnq
      rw [adjDel_of_ne _ _ hne0] at hee0
      refine ⟨⟨s.value, s.children.map PTree.adr, some q⟩, ?_, rfl, rfl⟩
      rw [hf1]
      unfold getNode
      show (f.store.set q { eq.toRec with children := eq.children.erase n })[n]? =
        some ⟨s.value, s.children.map PTree.adr, some q⟩
      rw [List.getElem?_set_ne (fun hh => hnq hh.symm), ← he0a]
      have h4 := h.2.1 e0 he0
      rw [h4, hee0]
      rfl
    · rw [hf1]
      intro e2 he2
      have he2s : e2 ∈ flatsP (some q) s := by
        rw [flatsP_def]
        exact List.mem_cons_of_mem _ he2
      have hmem2 : e2 ∈ (flatsPL none ts).map (adjDel q n) :=
        hperm.mem_iff.mp (List.mem_append_right _ he2s)
      obtain ⟨e0, he0, hee0⟩ := List.mem_map.mp hmem2
      have hne0 : e0.adr ≠ q := by
        intro hq0
        apply hqs
        have h3 : e2.adr ∈ (flatsP (some q) s).map FEntry.adr :=
          List.mem_map_of_mem _ he2s
        have h4 := congrArg FEntry.adr hee0
        rw [adjDel_adr] at h4
        rw [← h4, hq0] at h3
        exact h3
      rw [adjDel_of_ne _ _ hne0] at hee0
      subst hee0
      show (f.store.set q
        { eq.toRec with children := eq.children.erase n })[e0.adr]? = some e0.toRec
      rw [List.getElem?_set_ne (fun hh => hne0 hh.symm)]
      exact h.2.1 e0 he0
    · exact hsadr


theorem removeNode_err_none {f : Forest} {ts : List PTree} (h : Represents f ts)
    {n : NodeId} (hn : n ∈ adrList ts) :
    (Treewise.removeNode f (some n)).1 = none := by
  by_cases hmem : n ∈ f.roots
  · show ((if n ∈ f.roots then
        ((none : Option TreeErr), unindexNodeAndChildren
          { f with roots := f.roots.erase n }
          (walkFuel { f with roots := f.roots.erase n }) n)
      else
        match parentOf f n with
        | none => (some TreeErr.notFound, f)
        | some q =>
          if n ∈ childrenOf f q then
            ((none : Option TreeErr), unindexNodeAndChildren
              (setChildren f q ((childrenOf f q).erase n))
              (walkFuel (setChildren f q ((childrenOf f q).erase n))) n)
          else (some TreeErr.notFound, f))).1 = none
    rw [if_pos hmem]
  · have hm2 : n ∉ ts.map PTree.adr := by rw [← h.1]; exact hmem
    have hnadrs : n ∈ adrsPL ts := by rw [adrsPL_eq_adrList]; exact hn
    obtain ⟨q, ts1, s, hdet, hsadr, hmap, ⟨e, he, hea, hep⟩, ⟨eq, heq, heqa, heqc⟩,
        ⟨eq1, heq1, heq1a⟩, hperm⟩ :=
      flatsPL_detachPL n ts none (by rw [adrsPL_eq_adrList]; exact h.2.2.1) hnadrs hm2
    have hgn : getNode f n = some e.toRec := by
      unfold getNode
      rw [← hea]
      exact h.2.1 e he
    have hpar : parentOf f n = some q := by
      unfold parentOf
      rw [hgn]
      exact hep
    have hgq : getNode f q = some eq.toRec := by
      unfold getNode
      rw [← heqa]
      exact h.2.1 eq heq
    have hcq : childrenOf f q = eq.children := by
      unfold childrenOf
      rw [hgq]
      rfl
    have hchld : n ∈ childrenOf f q := by
      rw [hcq]
      exact heqc
    show ((if n ∈ f.roots then
        ((none : Option TreeErr), unindexNodeAndChildren
          { f with roots := f.roots.erase n }
          (walkFuel { f with roots := f.roots.erase n }) n)
      else
        match parentOf f n with
        | none => (some TreeErr.notFound, f)
        | some q =>
          if n ∈ childrenOf f q then
            ((none : Option TreeErr), unindexNodeAndChildren
              (setChildren f q ((childrenOf f q).erase n))
              (walkFuel (setChildren f q ((childrenOf f q).erase n))) n)
          else (some TreeErr.notFound, f))).1 = none
    rw [if_neg hmem, hpar]
    show ((if n ∈ childrenOf f q then
        ((none : Option TreeErr), unindexNodeAndChildren
          (setChildren f q ((childrenOf f q).erase n))
          (walkFuel (setChildren f q ((childrenOf f q).erase n))) n)
      else (some TreeErr.notFound, f))).1 = none
    rw [if_pos hchld]

/-- One step of the `removeChildren` loop (error propagation, the
`node.parent !== parentNode` guard, then `removeNode`). -/
def childStep (p : NodeId) (a : Option TreeErr × Forest) (n : NodeId) :
    Option TreeErr × Forest :=
  match a with
  | (some e, g) => (some e, g)
  | (none, g) =>
    if parentOf g n = some p then Treewise.removeNode g (some n)
    else (some TreeErr.invalidArgument, g)

/-- Does some entry of the pure forest sit at `n` with recorded parent `p`? -/
def pHasParent (p n : NodeId) (ts : List PTree) : Bool :=
  (flatsF ts).any (fun e => e.adr == n && e.parent == some p)

/-- Sequential in-scope condition for `removeChildren p ns`: each listed
node, at its turn, is present with recorded parent `p`. -/
def pChildrenScope (p : NodeId) : List NodeId → List PTree → Bool
  | [], _ => true
  | n :: ns, ts => pHasParent p n ts && pChildrenScope p ns (pRemove n ts)

/-- Pure counterpart of `removeChildren`: remove the listed subtrees in
order. -/
def pRemoveChildren (ns : List NodeId) (ts : List PTree) : List PTree :=
  ns.foldl (fun acc n => pRemove n acc) ts

theorem pHasParent_elim {p n : NodeId} {ts : List PTree}
    (h : pHasParent p n ts = true) :
    ∃ e ∈ flatsF ts, e.adr = n ∧ e.parent = some p := by
  obtain ⟨e, he, hee⟩ := List.any_eq_true.mp h
  rw [Bool.and_eq_true, beq_iff_eq, beq_iff_eq] at hee
  exact ⟨e, he, hee⟩

theorem removeChildren_fold_represents (p : NodeId) :
    ∀ (ns : List NodeId) (g : Forest) (acc : List PTree), Represents g acc →
      pChildrenScope p ns acc = true →
      ∃ G, ns.foldl (childStep p) ((none : Option TreeErr), g) =
          ((none : Option TreeErr), G) ∧
        Represents G (pRemoveChildren ns acc)
  | [], g, acc, hrep, _ => ⟨g, rfl, hrep⟩
  | n :: ns, g, acc, hrep, hscope => by
    have hs2 : (pHasParent p n acc && pChildrenScope p ns (pRemove n acc)) = true :=
      hscope
    rw [Bool.and_eq_true] at hs2
    obtain ⟨hhp, hsc2⟩ := hs2
    obtain ⟨e, he, hea, hep⟩ := pHasParent_elim hhp
    have hn : n ∈ adrList acc := by
      rw [← hea]
      exact List.mem_map_of_mem _ he
    have hgn : getNode g n = some e.toRec := by
      unfold getNode
      rw [← hea]
      exact hrep.2.1 e he
    have hpar : parentOf g n = some p := by
      unfold parentOf
      rw [hgn]
      exact hep
    have hstep1 : childStep p ((none : Option TreeErr), g) n =
        Treewise.removeNode g (some n) := by
      show (if parentOf g n = some p then Treewise.removeNode g (some n)
        else (some TreeErr.invalidArgument, g)) = _
      rw [if_pos hpar]
    have hrn : Treewise.removeNode g (some n) =
        ((none : Option TreeErr), applyOp g (.removeNode n)) := by
      have h1 := removeNode_err_none hrep hn
      calc Treewise.removeNode g (some n)
          = ((Treewise.removeNode g (some n)).1,
             (Treewise.removeNode g (some n)).2) := rfl
        _ = ((none : Option TreeErr), applyOp g (.removeNode n)) := by
              rw [h1]
              rfl
    obtain ⟨G, hG, hGrep⟩ := removeChildren_fold_represents p ns
      (applyOp g (.removeNode n)) (pRemove n acc)
      (removeNode_op_represents hrep hn) hsc2
    refine ⟨G, ?_, ?_⟩
    · show ns.foldl (childStep p) (childStep p ((none : Option TreeErr), g) n) =
        ((none : Option TreeErr), G)
      rw [hstep1, hrn]
      exact hG
    · show Represents G (pRemoveChildren ns (pRemove n acc))
      exact hGrep

theorem removeChildren_op_represents {f : Forest} {ts : List PTree}
    (h : Represents f ts) {p : NodeId} {ns : List NodeId}
    (hscope : pChildrenScope p ns ts = true) :
    Represents (applyOp f (.removeChildren p ns)) (pRemoveChildren ns ts) := by
  obtain ⟨G, hG, hGrep⟩ := removeChildren_fold_represents p ns f ts h hscope
  have h2 : applyOp f (.removeChildren p ns) = G := by
    show (Treewise.removeChildren f (some p) ns).2 = G
    have h3 : Treewise.removeChildren f (some p) ns =
        ns.foldl (childStep p) ((none : Option TreeErr), f) := rfl
    rw [h3, hG]
  rw [h2]
  exact hGrep


theorem store_length_removeNode (f : Forest) (n : NodeId) :
    (Treewise.removeNode f (some n)).2.store.length = f.store.length := by
  show ((if n ∈ f.roots then
      ((none : Option TreeErr), unindexNodeAndChildren
        { f with roots := f.roots.erase n }
        (walkFuel { f with roots := f.roots.erase n }) n)
    else
      match parentOf f n with
      | none => (some TreeErr.notFound, f)
      | some q =>
        if n ∈ childrenOf f q then
          ((none : Option TreeErr), unindexNodeAndChildren
            (setChildren f q ((childrenOf f q).erase n))
            (walkFuel (setChildren f q ((childrenOf f q).erase n))) n)
        else (some TreeErr.notFound, f))).2.store.length = f.store.length
  by_cases hmem : n ∈ f.roots
  · rw [if_pos hmem, unindexNodeAndChildren_store]
  · rw [if_neg hmem]
    cases hq : parentOf f n with
    | none => rfl
    | some q =>
      show ((if n ∈ childrenOf f q then
          ((none : Option TreeErr), unindexNodeAndChildren
            (setChildren f q ((childrenOf f q).erase n))
            (walkFuel (setChildren f q ((childrenOf f q).erase n))) n)
        else (some TreeErr.notFound, f))).2.store.length = f.store.length
      by_cases hc : n ∈ childrenOf f q
      · rw [if_pos hc, unindexNodeAndChildren_store, store_length_setChildren]
      · rw [if_neg hc]

theorem store_length_moveNode (f : Forest) (n p : NodeId) :
    (Treewise.moveNode f (some n) (some p)).2.store.length = f.store.length := by
  show ((if isAncestorOf f n p = true then
      ((some TreeErr.circularReference : Option TreeErr), f)
    else
      ((none : Option TreeErr),
        setChildren
          (setParent
            (if n ∈ f.roots then { f with roots := f.roots.erase n }
             else
               match parentOf f n with
               | some q => setChildren f q ((childrenOf f q).erase n)
               | none => f) n (some p)) p
          (childrenOf
            (setParent
              (if n ∈ f.roots then { f with roots := f.roots.erase n }
               else
                 match parentOf f n with
                 | some q => setChildren f q ((childrenOf f q).erase n)
                 | none => f) n (some p)) p ++ [n])))).2.store.length =
    f.store.length
  cases hb : isAncestorOf f n p with
  | true => rw [if_pos rfl]
  | false =>
    rw [if_neg Bool.false_ne_true]
    show (setChildren
        (setParent
          (if n ∈ f.roots then { f with roots := f.roots.erase n }
           else
             match parentOf f n with
             | some q => setChildren f q ((childrenOf f q).erase n)
             | none => f) n (some p)) p
        (childrenOf
          (setParent
            (if n ∈ f.roots then { f with roots := f.roots.erase n }
             else
               match parentOf f n with
               | some q => setChildren f q ((childrenOf f q).erase n)
               | none => f) n (some p)) p ++ [n])).store.length = f.store.length
    rw [store_length_setChildren, store_length_setParent]
    by_cases hmem : n ∈ f.roots
    · rw [if_pos hmem]
    · rw [if_neg hmem]
      cases hq : parentOf f n with
      | none => rfl
      | some q =>
        show (setChildren f q ((childrenOf f q).erase n)).store.length = f.store.length
        rw [store_length_setChildren]

theorem store_foldl_unindex :
    ∀ (rs : List NodeId) (g : Forest),
      (rs.foldl (fun acc r => unindexNodeAndChildren acc (walkFuel acc) r) g).store =
        g.store
  | [], _ => rfl
  | r :: rs, g => by
    show (rs.foldl (fun acc r => unindexNodeAndChildren acc (walkFuel acc) r)
      (unindexNodeAndChildren g (walkFuel g) r)).store = g.store
    rw [store_foldl_unindex rs _, unindexNodeAndChildren_store]

theorem store_length_removeAllRoots (f : Forest) :
    (Treewise.removeAllRoots f).store.length = f.store.length := by
  show (f.roots.foldl
    (fun acc r => unindexNodeAndChildren acc (walkFuel acc) r) f).store.length =
    f.store.length
  rw [store_foldl_unindex]

theorem store_length_childStep (p : NodeId) (a : Option TreeErr × Forest)
    (n : NodeId) : (childStep p a n).2.store.length = a.2.store.length := by
  obtain ⟨err, g⟩ := a
  cases err with
  | some e => rfl
  | none =>
    show (if parentOf g n = some p then Treewise.removeNode g (some n)
      else (some TreeErr.invalidArgument, g)).2.store.length = _
    by_cases hpar : parentOf g n = some p
    · rw [if_pos hpar, store_length_removeNode]
    · rw [if_neg hpar]

theorem store_length_childSteps (p : NodeId) :
    ∀ (ns : List NodeId) (a : Option TreeErr × Forest),
      (ns.foldl (childStep p) a).2.store.length = a.2.store.length
  | [], _ => rfl
  | n :: ns, a => by
    show (ns.foldl (childStep p) (childStep p a n)).2.store.length = _
    rw [store_length_childSteps p ns _, store_length_childStep]


/-! ## Scoped operation sequences -/

/-- In-scope condition of one public call, evaluated on the pure state
`(forest, next fresh reference)`: node arguments denote present nodes,
added values carry fresh pairwise-distinct ids, a `moveNode` target is
outside the moved subtree, and each `removeChildren` entry is, at its
turn, a child of the named parent. -/
def scopedOp (st : List PTree × Nat) : Op → Bool
  | .addRoot v => decide (v.id ∉ idList st.1)
  | .addNodeAsChild p v => decide (p ∈ adrList st.1) && decide (v.id ∉ idList st.1)
  | .addChildren p vs =>
    decide (p ∈ adrList st.1) && decide ((vs.map Value.id).Nodup) &&
      decide (∀ v ∈ vs, v.id ∉ idList st.1)
  | .removeNode n => decide (n ∈ adrList st.1)
  | .removeChildren p ns => pChildrenScope p ns st.1
  | .removeAllRoots => true
  | .moveNode n p =>
    decide (n ∈ adrList st.1) && decide (p ∈ adrList st.1) &&
      (match pathToPL p st.1 with
       | some P => decide (n ∉ P)
       | none => false)

/-- Pure counterpart of one public call on `(forest, next fresh
reference)`. -/
def pureApply (st : List PTree × Nat) : Op → List PTree × Nat
  | .addRoot v => (st.1 ++ [.mk st.2 v []], st.2 + 1)
  | .addNodeAsChild p v => (insPL p (.mk st.2 v []) st.1, st.2 + 1)
  | .addChildren p vs =>
    vs.foldl (fun acc v => (insPL p (.mk acc.2 v []) acc.1, acc.2 + 1)) st
  | .removeNode n => (pRemove n st.1, st.2)
  | .removeChildren p ns => (pRemoveChildren ns st.1, st.2)
  | .removeAllRoots => ([], st.2)
  | .moveNode n p => (pMove n p st.1, st.2)

/-- The forest is represented by the pure forest and its store size is
the recorded fresh reference. -/
def RepState (f : Forest) (st : List PTree × Nat) : Prop :=
  Represents f st.1 ∧ f.store.length = st.2

/-- A whole call sequence stays in scope. -/
def ScopedOps : List PTree × Nat → List Op → Bool
  | _, [] => true
  | st, op :: ops => scopedOp st op && ScopedOps (pureApply st op) ops

theorem applyOp_scoped {f : Forest} {st : List PTree × Nat} (h : RepState f st)
    {op : Op} (hs : scopedOp st op = true) :
    RepState (applyOp f op) (pureApply st op) := by
  obtain ⟨hrep, hlen⟩ := h
  cases op with
  | addRoot v =>
    have hid : v.id ∉ idList st.1 := of_decide_eq_true hs
    refine ⟨?_, ?_⟩
    · have h2 := addRoot_op_represents hrep hid
      rw [hlen] at h2
      exact h2
    · show (applyOp f (.addRoot v)).store.length = st.2 + 1
      rw [applyOp_addRoot_eq]
      show (f.store ++ ([⟨v, [], none⟩] : List NodeRec)).length = st.2 + 1
      rw [List.length_append, hlen]
      rfl
  | addNodeAsChild p v =>
    have hs2 : (decide (p ∈ adrList st.1) && decide (v.id ∉ idList st.1)) = true := hs
    rw [Bool.and_eq_true] at hs2
    have hp : p ∈ adrList st.1 := of_decide_eq_true hs2.1
    have hid : v.id ∉ idList st.1 := of_decide_eq_true hs2.2
    refine ⟨?_, ?_⟩
    · have h2 := addChild_op_represents hrep hp hid
      rw [hlen] at h2
      exact h2
    · show (applyOp f (.addNodeAsChild p v)).store.length = st.2 + 1
      rw [store_length_addChild hrep hp v, hlen]
  | addChildren p vs =>
    have hs2 : ((decide (p ∈ adrList st.1) && decide ((vs.map Value.id).Nodup)) &&
        decide (∀ v ∈ vs, v.id ∉ idList st.1)) = true := hs
    rw [Bool.and_eq_true, Bool.and_eq_true] at hs2
    obtain ⟨⟨ha, hb⟩, hc⟩ := hs2
    have h2 := addChildren_op_represents hrep (of_decide_eq_true ha)
      (of_decide_eq_true hb) (of_decide_eq_true hc)
    rw [hlen] at h2
    exact ⟨h2.1, h2.2⟩
  | removeNode n =>
    have hn : n ∈ adrList st.1 := of_decide_eq_true hs
    refine ⟨removeNode_op_represents hrep hn, ?_⟩
    show (Treewise.removeNode f (some n)).2.store.length = st.2
    rw [store_length_removeNode]
    exact hlen
  | removeChildren p ns =>
    refine ⟨removeChildren_op_represents hrep hs, ?_⟩
    show (Treewise.removeChildren f (some p) ns).2.store.length = st.2
    have h3 : Treewise.removeChildren f (some p) ns =
        ns.foldl (childStep p) ((none : Option TreeErr), f) := rfl
    rw [h3, store_length_childSteps]
    exact hlen
  | removeAllRoots =>
    refine ⟨removeAllRoots_op_represents hrep, ?_⟩
    show (Treewise.removeAllRoots f).store.length = st.2
    rw [store_length_removeAllRoots]
    exact hlen
  | moveNode n p =>
    have hs2 : ((decide (n ∈ adrList st.1) && decide (p ∈ adrList st.1)) &&
        (match pathToPL p st.1 with
         | some P => decide (n ∉ P)
         | none => false)) = true := hs
    rw [Bool.and_eq_true, Bool.and_eq_true] at hs2
    obtain ⟨⟨ha, hb⟩, hc⟩ := hs2
    have hn : n ∈ adrList st.1 := of_decide_eq_true ha
    have hp : p ∈ adrList st.1 := of_decide_eq_true hb
    cases hP : pathToPL p st.1 with
    | none =>
      rw [hP] at hc
      exact Bool.noConfusion hc
    | some Pp =>
      rw [hP] at hc
      have hc2 : decide (n ∉ Pp) = true := hc
      have hnP : n ∉ Pp := of_decide_eq_true hc2
      refine ⟨moveNode_op_represents hrep hn hp hP hnP, ?_⟩
      show (Treewise.moveNode f (some n) (some p)).2.store.length = st.2
      rw [store_length_moveNode]
      exact hlen

theorem applyOps_scoped :
    ∀ (ops : List Op) (f : Forest) (st : List PTree × Nat), RepState f st →
      ScopedOps st ops = true →
      RepState (applyOps f ops) (ops.foldl pureApply st)
  | [], _, _, h, _ => h
  | op :: ops, f, st, h, hs => by
    have hs2 : (scopedOp st op && ScopedOps (pureApply st op) ops) = true := hs
    rw [Bool.and_eq_true] at hs2
    exact applyOps_scoped ops (applyOp f op) (pureApply st op)
      (applyOp_scoped h hs2.1) hs2.2

theorem emptyForest_repState : RepState emptyForest ([], 0) :=
  ⟨by decide, rfl⟩

/-! ## Reachability from the roots along stored links -/

/-- A node is reachable from `roots` by following stored `children`
references. -/
inductive ReachableF (f : Forest) : NodeId → Prop
  | root {n : NodeId} : n ∈ f.roots → ReachableF f n
  | child {p c : NodeId} : ReachableF f p → c ∈ childrenOf f p → ReachableF f c

theorem mem_adrsPL_elim :
    ∀ {ts : List PTree} {x : NodeId}, x ∈ adrsPL ts → ∃ t ∈ ts, x ∈ adrsP t
  | t :: ts, x, hx => by
    rw [adrsPL_cons] at hx
    rcases List.mem_append.mp hx with h1 | h1
    · exact ⟨t, List.mem_cons_self _ _, h1⟩
    · obtain ⟨t2, ht2, hxt2⟩ := mem_adrsPL_elim h1
      exact ⟨t2, List.mem_cons_of_mem _ ht2, hxt2⟩

theorem root_adr_mem_adrList {ts : List PTree} {t : PTree} (ht : t ∈ ts) :
    t.adr ∈ adrList ts := by
  rw [← adrsPL_eq_adrList]
  exact adrsP_subset_of_mem ht t.adr (adr_mem_adrsP t)

mutual

theorem entry_children_sub (t : PTree) :
    ∀ (par : Option NodeId), ∀ e ∈ flatsP par t, ∀ c ∈ e.children, c ∈ adrsP t := by
  cases t with
  | mk a v cs =>
    intro par e he c hc
    rw [flatsP_def] at he
    rw [adrsP_cons]
    rcases List.mem_cons.mp he with h1 | h1
    · subst h1
      have hc2 : c ∈ cs.map PTree.adr := hc
      obtain ⟨t2, ht2, hta⟩ := List.mem_map.mp hc2
      apply List.mem_cons_of_mem
      rw [← hta]
      exact adrsP_subset_of_mem ht2 t2.adr (adr_mem_adrsP t2)
    · exact List.mem_cons_of_mem _ (entry_childrenL_sub cs (some a) e h1 c hc)

theorem entry_childrenL_sub (ts : List PTree) :
    ∀ (par : Option NodeId), ∀ e ∈ flatsPL par ts, ∀ c ∈ e.children, c ∈ adrsPL ts := by
  cases ts with
  | nil => intro par e he c hc; cases he
  | cons t ts =>
    intro par e he c hc
    rw [flatsPL_cons] at he
    rw [adrsPL_cons]
    rcases List.mem_append.mp he with h1 | h1
    · exact List.mem_append_left _ (entry_children_sub t par e h1 c hc)
    · exact List.mem_append_right _ (entry_childrenL_sub ts par e h1 c hc)

end

mutual

theorem reachable_of_adrsP (f : Forest) (t : PTree) :
    ∀ (par : Option NodeId),
      (∀ e ∈ flatsP par t, f.store[e.adr]? = some e.toRec) →
      ReachableF f t.adr → ∀ x ∈ adrsP t, ReachableF f x := by
  cases t with
  | mk a v cs =>
    intro par hOK hr x hx
    rw [adrsP_cons] at hx
    rcases List.mem_cons.mp hx with h1 | h1
    · rw [h1]
      exact hr
    · have hhead : f.store[a]? = some ⟨v, cs.map PTree.adr, par⟩ :=
        hOK ⟨a, v, cs.map PTree.adr, par⟩
          (by rw [flatsP_def]; exact List.mem_cons_self _ _)
      have hch : ∀ c ∈ cs, c.adr ∈ childrenOf f a := by
        intro c hcmem
        unfold childrenOf getNode
        show c.adr ∈ (match f.store[a]? with | some r => r.children | none => [])
        rw [hhead]
        exact List.mem_map_of_mem _ hcmem
      have hOK2 : ∀ e ∈ flatsPL (some a) cs, f.store[e.adr]? = some e.toRec := by
        intro e he
        apply hOK e
        rw [flatsP_def]
        exact List.mem_cons_of_mem _ he
      exact reachable_of_adrsPL f cs a hOK2 hr hch x h1

theorem reachable_of_adrsPL (f : Forest) :
    ∀ (cs : List PTree) (a : NodeId),
      (∀ e ∈ flatsPL (some a) cs, f.store[e.adr]? = some e.toRec) →
      ReachableF f a → (∀ c ∈ cs, c.adr ∈ childrenOf f a) →
      ∀ x ∈ adrsPL cs, ReachableF f x
  | [], a, _, _, _, x, hx => (List.not_mem_nil x hx).elim
  | t :: cs, a, hOK, hr, hch, x, hx => by
    rw [adrsPL_cons] at hx
    rcases List.mem_append.mp hx with h1 | h1
    · refine reachable_of_adrsP f t (some a) ?_
        (ReachableF.child hr (hch t (List.mem_cons_self _ _))) x h1
      intro e he
      apply hOK e
      rw [flatsPL_cons]
      exact List.mem_append_left _ he
    · refine reachable_of_adrsPL f cs a ?_ hr ?_ x h1
      · intro e he
        apply hOK e
        rw [flatsPL_cons]
        exact List.mem_append_right _ he
      · intro c hcmem
        exact hch c (List.mem_cons_of_mem _ hcmem)

end

theorem reachable_of_adrList {f : Forest} {ts : List PTree} (h : Represents f ts) :
    ∀ x ∈ adrList ts, ReachableF f x := by
  intro x hx
  rw [← adrsPL_eq_adrList] at hx
  obtain ⟨t, ht, hxt⟩ := mem_adrsPL_elim hx
  have hroot : ReachableF f t.adr := by
    apply ReachableF.root
    rw [h.1]
    exact List.mem_map_of_mem _ ht
  refine reachable_of_adrsP f t none ?_ hroot x hxt
  intro e he
  exact h.2.1 e (mem_flatsPL_of_mem ht he)

theorem adrList_of_reachable {f : Forest} {ts : List PTree} (h : Represents f ts) :
    ∀ x : NodeId, ReachableF f x → x ∈ adrList ts := by
  intro x hx
  induction hx with
  | root hmem =>
    rw [h.1] at hmem
    obtain ⟨t, ht, hta⟩ := List.mem_map.mp hmem
    rw [← hta]
    exact root_adr_mem_adrList ht
  | @child p c hp hc ihp =>
    obtain ⟨e, he, hea⟩ := List.mem_map.mp ihp
    have hgn : getNode f p = some e.toRec := by
      unfold getNode
      rw [← hea]
      exact h.2.1 e he
    have hch : childrenOf f p = e.children := by
      unfold childrenOf
      rw [hgn]
      rfl
    rw [hch] at hc
    rw [← adrsPL_eq_adrList]
    exact entry_childrenL_sub ts none e he _ hc


/-- **C2** (corrected: the invariant holds for in-scope call sequences,
with freshness of added ids; it fails for arbitrary sequences, see
`index_misses_reachable_dup_id`).  Starting from the empty forest, after
any in-scope sequence of public mutation calls the index is exactly the
reachable set: every node reachable from `roots` is an index target under
its stored value's id, and every index entry targets a reachable node. -/
theorem index_exactly_reachable {ops : List Op}
    (hs : ScopedOps ([], 0) ops = true) :
    (∀ a : NodeId, ReachableF (applyOps emptyForest ops) a →
      (valueIdOf (applyOps emptyForest ops) a, a) ∈
        (applyOps emptyForest ops).index) ∧
    (∀ pr ∈ (applyOps emptyForest ops).index,
      ReachableF (applyOps emptyForest ops) pr.2) := by
  obtain ⟨hrep, _⟩ := applyOps_scoped ops emptyForest ([], 0) emptyForest_repState hs
  constructor
  · intro a ha
    have hmem := adrList_of_reachable hrep a ha
    have hmem2 : a ∈ (flatsF (ops.foldl pureApply ([], 0)).1).map FEntry.adr := hmem
    obtain ⟨e, he, hea⟩ := List.mem_map.mp hmem2
    have hpair : (e.value.id, e.adr) ∈ (applyOps emptyForest ops).index := by
      apply hrep.2.2.2.2.mem_iff.mpr
      show (e.value.id, e.adr) ∈
        (flatsF (ops.foldl pureApply ([], 0)).1).map (fun e => (e.value.id, e.adr))
      exact List.mem_map_of_mem _ he
    have hval : valueIdOf (applyOps emptyForest ops) a = e.value.id := by
      unfold valueIdOf getNode
      show (match (applyOps emptyForest ops).store[a]? with
        | some r => r.value.id | none => 0) = e.value.id
      rw [← hea, hrep.2.1 e he]
      rfl
    rw [hval, ← hea]
    exact hpair
  · intro pr hpr
    have hmem : pr ∈
        (flatsF (ops.foldl pureApply ([], 0)).1).map (fun e => (e.value.id, e.adr)) :=
      hrep.2.2.2.2.mem_iff.mp hpr
    obtain ⟨e, he, hee⟩ := List.mem_map.mp hmem
    have hadr : e.adr ∈ adrList (ops.foldl pureApply ([], 0)).1 :=
      List.mem_map_of_mem _ he
    have hpr2 : pr.2 = e.adr := by
      rw [← hee]
    rw [hpr2]
    exact reachable_of_adrList hrep e.adr hadr

/-- **C2**, counterexample to the unrestricted statement: two `addRoot`
calls whose values share the id `1`.  The second call's indexing step
overwrites the index entry for id `1` in place, so the first root (store
reference `0`) stays reachable from `roots` but is the target of no index
entry. -/
theorem index_misses_reachable_dup_id :
    ReachableF (applyOps emptyForest
      [.addRoot ⟨1, 10⟩, .addRoot ⟨1, 20⟩]) 0 ∧
    ∀ pr ∈ (applyOps emptyForest [.addRoot ⟨1, 10⟩, .addRoot ⟨1, 20⟩]).index,
      pr.2 ≠ 0 :=
  ⟨ReachableF.root (by decide), by decide⟩

theorem index_exactly_reachable_witness :
    ScopedOps ([], 0) [Op.addRoot ⟨1, 10⟩, Op.addNodeAsChild 0 ⟨2, 20⟩] = true ∧
    (valueIdOf
        (applyOps emptyForest [Op.addRoot ⟨1, 10⟩, Op.addNodeAsChild 0 ⟨2, 20⟩]) 1,
      1) ∈
      (applyOps emptyForest [Op.addRoot ⟨1, 10⟩, Op.addNodeAsChild 0 ⟨2, 20⟩]).index :=
  ⟨by decide,
   (index_exactly_reachable (by decide)).1 1
     (@ReachableF.child _ 0 1 (ReachableF.root (by decide)) (by decide))⟩

/-! ## `serializeFlat` as a pure function of the represented forest -/

mutual

/-- Value-and-shape content of a pure tree (the serialized shape). -/
def pStrip : PTree → STree
  | .mk _ v cs => .mk v (pStripL cs)

/-- Value-and-shape content of a pure forest. -/
def pStripL : List PTree → List STree
  | [] => []
  | t :: ts => pStrip t :: pStripL ts

end

mutual

/-- Flat records of a serialized subtree under a given parent id. -/
def sFlats (pid : Option Int) : STree → List FlatRec
  | .mk v cs => ⟨v.id, v.data, pid⟩ :: sFlatsL (some v.id) cs

/-- Flat records of a list of serialized subtrees. -/
def sFlatsL (pid : Option Int) : List STree → List FlatRec
  | [] => []
  | t :: ts => sFlats pid t ++ sFlatsL pid ts

end

mutual

/-- Pre-order `(reference, depth)` listing of a pure tree. -/
def preD : PTree → Nat → List (NodeId × Nat)
  | .mk a _ cs, d => (a, d) :: preDL cs (d + 1)

/-- Pre-order `(reference, depth)` listing of a pure forest. -/
def preDL : List PTree → Nat → List (NodeId × Nat)
  | [], _ => []
  | t :: ts, d => preD t d ++ preDL ts d

end

mutual

theorem preAux_pure_tree (f : Forest) (t : PTree) :
    ∀ (par : Option NodeId),
      (∀ e ∈ flatsP par t, f.store[e.adr]? = some e.toRec) →
      ∀ (d fuel2 : Nat) (stack : List (NodeId × Nat)),
        preAux f (sizeP t + fuel2) ((t.adr, d) :: stack) none =
          preD t d ++ preAux f fuel2 stack none := by
  cases t with
  | mk a v cs =>
    intro par hOK d fuel2 stack
    have hhead : f.store[a]? = some ⟨v, cs.map PTree.adr, par⟩ :=
      hOK ⟨a, v, cs.map PTree.adr, par⟩
        (by rw [flatsP_def]; exact List.mem_cons_self _ _)
    have hch : childrenOf f a = cs.map PTree.adr := by
      unfold childrenOf getNode
      show (match f.store[a]? with | some r => r.children | none => []) = _
      rw [hhead]
    have hOK2 : ∀ e ∈ flatsPL (some a) cs, f.store[e.adr]? = some e.toRec := by
      intro e he
      apply hOK e
      rw [flatsP_def]
      exact List.mem_cons_of_mem _ he
    have hsz : sizeP (PTree.mk a v cs) + fuel2 = (sizePL cs + fuel2) + 1 := by
      show 1 + sizePL cs + fuel2 = (sizePL cs + fuel2) + 1
      omega
    rw [hsz]
    have hstep : preAux f ((sizePL cs + fuel2) + 1)
        ((PTree.adr (PTree.mk a v cs), d) :: stack) none =
        (a, d) :: preAux f (sizePL cs + fuel2)
          ((childrenOf f a).map (fun c => (c, d + 1)) ++ stack) none := rfl
    rw [hstep, hch, List.map_map]
    have hmm : cs.map ((fun (c : NodeId) => (c, d + 1)) ∘ PTree.adr) =
        cs.map (fun c => (c.adr, d + 1)) := rfl
    rw [hmm, preAux_pure_list f cs (some a) hOK2 (d + 1) fuel2 stack]
    rfl

theorem preAux_pure_list (f : Forest) :
    ∀ (cs : List PTree) (par : Option NodeId),
      (∀ e ∈ flatsPL par cs, f.store[e.adr]? = some e.toRec) →
      ∀ (d fuel2 : Nat) (stack : List (NodeId × Nat)),
        preAux f (sizePL cs + fuel2) (cs.map (fun c => (c.adr, d)) ++ stack) none =
          preDL cs d ++ preAux f fuel2 stack none
  | [], _, _, d, fuel2, stack => by
    show preAux f (0 + fuel2) stack none = preAux f fuel2 stack none
    rw [Nat.zero_add]
  | t :: cs, par, hOK, d, fuel2, stack => by
    have hOK1 : ∀ e ∈ flatsP par t, f.store[e.adr]? = some e.toRec := by
      intro e he
      apply hOK e
      rw [flatsPL_cons]
      exact List.mem_append_left _ he
    have hOK2 : ∀ e ∈ flatsPL par cs, f.store[e.adr]? = some e.toRec := by
      intro e he
      apply hOK e
      rw [flatsPL_cons]
      exact List.mem_append_right _ he
    have hsz : sizePL (t :: cs) + fuel2 = sizeP t + (sizePL cs + fuel2) := by
      show sizeP t + sizePL cs + fuel2 = sizeP t + (sizePL cs + fuel2)
      omega
    rw [hsz]
    show preAux f (sizeP t + (sizePL cs + fuel2))
      ((t.adr, d) :: (cs.map (fun c => (c.adr, d)) ++ stack)) none =
      (preD t d ++ preDL cs d) ++ preAux f fuel2 stack none
    rw [preAux_pure_tree f t par hOK1 d (sizePL cs + fuel2)
        (cs.map (fun c => (c.adr, d)) ++ stack),
      preAux_pure_list f cs par hOK2 d fuel2 stack, List.append_assoc]

end

theorem preDL_flatten :
    ∀ (ts : List PTree) (d : Nat),
      (ts.map (fun t => preD t d)).flatten = preDL ts d
  | [], _ => rfl
  | t :: ts, d => by
    show preD t d ++ (ts.map (fun t => preD t d)).flatten = preD t d ++ preDL ts d
    rw [preDL_flatten ts d]

theorem traverseList_pure {f : Forest} {ts : List PTree} (h : Represents f ts) :
    traverseList f none = preDL ts 0 := by
  unfold traverseList
  rw [h.1, ← preDL_flatten ts 0, List.map_map]
  congr 1
  apply List.map_congr_left
  intro t ht
  show preAux f (traverseFuel f) [(t.adr, 0)] none = preD t 0
  have hle : sizeP t ≤ f.store.length := sizeP_le_store h ht
  have hsz : traverseFuel f = sizeP t + (traverseFuel f - sizeP t) := by
    unfold traverseFuel
    omega
  rw [hsz]
  have hOK : ∀ e ∈ flatsP none t, f.store[e.adr]? = some e.toRec := by
    intro e he
    exact h.2.1 e (mem_flatsPL_of_mem ht he)
  rw [show ([(t.adr, 0)] : List (NodeId × Nat)) = (t.adr, 0) :: [] from rfl,
    preAux_pure_tree f t none hOK 0 (traverseFuel f - sizeP t) [],
    preAux_nil, List.append_nil]

mutual

theorem serialize_tree (f : Forest) (t : PTree) :
    ∀ (par : Option NodeId), (∀ e ∈ flatsP par t, f.store[e.adr]? = some e.toRec) →
    ∀ (pid : Option Int), par.map (fun q => (valueOf f q).id) = pid →
    ∀ (d : Nat),
      (preD t d).map (fun nd =>
        (⟨(valueOf f nd.1).id, (valueOf f nd.1).data,
          (parentOf f nd.1).map fun q => (valueOf f q).id⟩ : FlatRec)) =
        sFlats pid (pStrip t) := by
  cases t with
  | mk a v cs =>
    intro par hOK pid hpid d
    have hhead : f.store[a]? = some ⟨v, cs.map PTree.adr, par⟩ :=
      hOK ⟨a, v, cs.map PTree.adr, par⟩
        (by rw [flatsP_def]; exact List.mem_cons_self _ _)
    have hval : valueOf f a = v := by
      unfold valueOf getNode
      show (match f.store[a]? with | some r => r.value | none => ⟨0, 0⟩) = v
      rw [hhead]
    have hpar : parentOf f a = par := by
      unfold parentOf getNode
      show (match f.store[a]? with | some r => r.parent | none => none) = par
      rw [hhead]
    have hOK2 : ∀ e ∈ flatsPL (some a) cs, f.store[e.adr]? = some e.toRec := by
      intro e he
      apply hOK e
      rw [flatsP_def]
      exact List.mem_cons_of_mem _ he
    show (⟨(valueOf f a).id, (valueOf f a).data,
        (parentOf f a).map fun q => (valueOf f q).id⟩ : FlatRec) ::
        (preDL cs (d + 1)).map (fun nd =>
          (⟨(valueOf f nd.1).id, (valueOf f nd.1).data,
            (parentOf f nd.1).map fun q => (valueOf f q).id⟩ : FlatRec)) =
        (⟨v.id, v.data, pid⟩ : FlatRec) :: sFlatsL (some v.id) (pStripL cs)
    rw [hval, hpar, hpid,
      serialize_list f cs (some a) hOK2 (some v.id)
        (by show some (valueOf f a).id = some v.id; rw [hval]) (d + 1)]

theorem serialize_list (f : Forest) :
    ∀ (cs : List PTree) (par : Option NodeId),
      (∀ e ∈ flatsPL par cs, f.store[e.adr]? = some e.toRec) →
      ∀ (pid : Option Int), par.map (fun q => (valueOf f q).id) = pid →
      ∀ (d : Nat),
        (preDL cs d).map (fun nd =>
          (⟨(valueOf f nd.1).id, (valueOf f nd.1).data,
            (parentOf f nd.1).map fun q => (valueOf f q).id⟩ : FlatRec)) =
          sFlatsL pid (pStripL cs)
  | [], _, _, _, _, _ => rfl
  | t :: cs, par, hOK, pid, hpid, d => by
    have hOK1 : ∀ e ∈ flatsP par t, f.store[e.adr]? = some e.toRec := by
      intro e he
      apply hOK e
      rw [flatsPL_cons]
      exact List.mem_append_left _ he
    have hOK2 : ∀ e ∈ flatsPL par cs, f.store[e.adr]? = some e.toRec := by
      intro e he
      apply hOK e
      rw [flatsPL_cons]
      exact List.mem_append_right _ he
    show ((preD t d) ++ (preDL cs d)).map (fun nd =>
        (⟨(valueOf f nd.1).id, (valueOf f nd.1).data,
          (parentOf f nd.1).map fun q => (valueOf f q).id⟩ : FlatRec)) =
      sFlats pid (pStrip t) ++ sFlatsL pid (pStripL cs)
    rw [List.map_append, serialize_tree f t par hOK1 pid hpid d,
      serialize_list f cs par hOK2 pid hpid d]

end

theorem serializeFlat_pure {f : Forest} {ts : List PTree} (h : Represents f ts) :
    serializeFlat f = sFlatsL none (pStripL ts) := by
  unfold serializeFlat
  rw [traverseList_pure h]
  exact serialize_list f ts none h.2.1 none rfl 0

/-! ## Renumbering a serialized forest by pre-order positions -/

mutual

/-- The pure tree a serialized subtree becomes when its nodes are numbered
in pre-order starting at `b`. -/
def sToP (b : Nat) : STree → PTree
  | .mk v cs => .mk b v (sToPL (b + 1) cs)

/-- Pre-order numbering of a list of serialized subtrees. -/
def sToPL (b : Nat) : List STree → List PTree
  | [] => []
  | s :: ss => sToP b s :: sToPL (b + sizeS s) ss

end

mutual

theorem sizeP_sToP (s : STree) : ∀ b, sizeP (sToP b s) = sizeS s := by
  cases s with
  | mk v cs =>
    intro b
    show 1 + sizePL (sToPL (b + 1) cs) = 1 + sizeSL cs
    rw [sizePL_sToPL cs (b + 1)]

theorem sizePL_sToPL : ∀ (ss : List STree) (b : Nat), sizePL (sToPL b ss) = sizeSL ss
  | [], _ => rfl
  | s :: ss, b => by
    show sizeP (sToP b s) + sizePL (sToPL (b + sizeS s) ss) = sizeS s + sizeSL ss
    rw [sizeP_sToP s b, sizePL_sToPL ss (b + sizeS s)]

end

mutual

theorem pStrip_sToP (s : STree) : ∀ b, pStrip (sToP b s) = s := by
  cases s with
  | mk v cs =>
    intro b
    show STree.mk v (pStripL (sToPL (b + 1) cs)) = STree.mk v cs
    rw [pStripL_sToPL cs (b + 1)]

theorem pStripL_sToPL : ∀ (ss : List STree) (b : Nat), pStripL (sToPL b ss) = ss
  | [], _ => rfl
  | s :: ss, b => by
    show pStrip (sToP b s) :: pStripL (sToPL (b + sizeS s) ss) = s :: ss
    rw [pStrip_sToP s b, pStripL_sToPL ss (b + sizeS s)]

end

mutual

theorem adrsP_sToP (s : STree) : ∀ b, adrsP (sToP b s) = List.range' b (sizeS s) := by
  cases s with
  | mk v cs =>
    intro b
    rw [show sToP b (STree.mk v cs) = PTree.mk b v (sToPL (b + 1) cs) from rfl,
      adrsP_cons, adrsPL_sToPL cs (b + 1),
      show sizeS (STree.mk v cs) = 1 + sizeSL cs from rfl]
    rw [show 1 + sizeSL cs = sizeSL cs + 1 from Nat.add_comm 1 _, List.range'_succ]

theorem adrsPL_sToPL :
    ∀ (ss : List STree) (b : Nat), adrsPL (sToPL b ss) = List.range' b (sizeSL ss)
  | [], _ => by
    show ([] : List NodeId) = List.range' _ 0
    rfl
  | s :: ss, b => by
    rw [show sToPL b (s :: ss) = sToP b s :: sToPL (b + sizeS s) ss from rfl,
      adrsPL_cons, adrsP_sToP s b, adrsPL_sToPL ss (b + sizeS s),
      show sizeSL (s :: ss) = sizeS s + sizeSL ss from rfl]
    have h := List.range'_append b (sizeS s) (sizeSL ss) 1
    rw [Nat.one_mul] at h
    rw [Nat.add_comm (sizeSL ss) (sizeS s)] at h
    exact h

end

mutual

theorem preIds_sToP (s : STree) :
    ∀ b pid, preIds (sToP b s) = (sFlats pid s).map FlatRec.id := by
  cases s with
  | mk v cs =>
    intro b pid
    show v.id :: preIdsL (sToPL (b + 1) cs) =
      v.id :: (sFlatsL (some v.id) cs).map FlatRec.id
    rw [preIdsL_sToPL cs (b + 1) (some v.id)]

theorem preIdsL_sToPL :
    ∀ (ss : List STree) (b : Nat) (pid : Option Int),
      preIdsL (sToPL b ss) = (sFlatsL pid ss).map FlatRec.id
  | [], _, _ => rfl
  | s :: ss, b, pid => by
    show preIds (sToP b s) ++ preIdsL (sToPL (b + sizeS s) ss) =
      ((sFlats pid s) ++ sFlatsL pid ss).map FlatRec.id
    rw [List.map_append, preIds_sToP s b pid, preIdsL_sToPL ss (b + sizeS s) pid]

end

mutual

theorem sFlats_length (s : STree) : ∀ pid, (sFlats pid s).length = sizeS s := by
  cases s with
  | mk v cs =>
    intro pid
    show ((⟨v.id, v.data, pid⟩ : FlatRec) :: sFlatsL (some v.id) cs).length =
      1 + sizeSL cs
    rw [List.length_cons, sFlatsL_length cs (some v.id)]
    omega

theorem sFlatsL_length :
    ∀ (ss : List STree) (pid : Option Int), (sFlatsL pid ss).length = sizeSL ss
  | [], _ => rfl
  | s :: ss, pid => by
    show (sFlats pid s ++ sFlatsL pid ss).length = sizeS s + sizeSL ss
    rw [List.length_append, sFlats_length s pid, sFlatsL_length ss pid]

end

theorem insPL_append (p : NodeId) (c : PTree) :
    ∀ (l1 l2 : List PTree), insPL p c (l1 ++ l2) = insPL p c l1 ++ insPL p c l2
  | [], l2 => rfl
  | t :: l1, l2 => by
    show insP p c t :: insPL p c (l1 ++ l2) = insP p c t :: (insPL p c l1 ++ insPL p c l2)
    rw [insPL_append p c l1 l2]

mutual

theorem insP_ins_nested (x pp : NodeId) (c s : PTree) (t : PTree) :
    x ∉ adrsP t → insP x c (insP pp s t) = insP pp (insP x c s) t := by
  cases t with
  | mk a v cs =>
    intro hx
    rw [adrsP_cons] at hx
    have hax : a ≠ x := fun he => hx (he ▸ List.mem_cons_self _ _)
    have hcx : x ∉ adrsPL cs := fun hm => hx (List.mem_cons_of_mem _ hm)
    by_cases hpp : a = pp
    · rw [show insP pp s (PTree.mk a v cs) = PTree.mk a v (cs ++ [s]) from by
        show (if a = pp then PTree.mk a v (cs ++ [s]) else _) = _
        rw [if_pos hpp]]
      rw [show insP pp (insP x c s) (PTree.mk a v cs) =
          PTree.mk a v (cs ++ [insP x c s]) from by
        show (if a = pp then PTree.mk a v (cs ++ [insP x c s]) else _) = _
        rw [if_pos hpp]]
      show (if a = x then PTree.mk a v ((cs ++ [s]) ++ [c])
        else PTree.mk a v (insPL x c (cs ++ [s]))) = _
      rw [if_neg hax, insPL_append, insPL_of_not_mem x c cs hcx]
      rfl
    · rw [show insP pp s (PTree.mk a v cs) = PTree.mk a v (insPL pp s cs) from by
        show (if a = pp then _ else PTree.mk a v (insPL pp s cs)) = _
        rw [if_neg hpp]]
      rw [show insP pp (insP x c s) (PTree.mk a v cs) =
          PTree.mk a v (insPL pp (insP x c s) cs) from by
        show (if a = pp then _ else PTree.mk a v (insPL pp (insP x c s) cs)) = _
        rw [if_neg hpp]]
      show (if a = x then _ else PTree.mk a v (insPL x c (insPL pp s cs))) = _
      rw [if_neg hax, insPL_ins_nested x pp c s cs hcx]

theorem insPL_ins_nested (x pp : NodeId) (c s : PTree) :
    ∀ (ts : List PTree), x ∉ adrsPL ts →
      insPL x c (insPL pp s ts) = insPL pp (insP x c s) ts
  | [], _ => rfl
  | t :: ts, hx => by
    rw [adrsPL_cons] at hx
    have h1 : x ∉ adrsP t := fun hm => hx (List.mem_append_left _ hm)
    have h2 : x ∉ adrsPL ts := fun hm => hx (List.mem_append_right _ hm)
    show insP x c (insP pp s t) :: insPL x c (insPL pp s ts) = _
    rw [insP_ins_nested x pp c s t h1, insPL_ins_nested x pp c s ts h2]
    rfl

end

theorem foldl_insPL_compose (b : NodeId) (v : Value) (pp : NodeId) :
    ∀ (cs2 : List PTree) (cs0 : List PTree) (acc : List PTree), b ∉ adrsPL acc →
      cs2.foldl (fun a c => insPL b c a) (insPL pp (.mk b v cs0) acc) =
        insPL pp (.mk b v (cs0 ++ cs2)) acc
  | [], cs0, acc, _ => by rw [List.foldl_nil, List.append_nil]
  | c :: cs2, cs0, acc, hb => by
    rw [List.foldl_cons]
    rw [show insPL b c (insPL pp (PTree.mk b v cs0) acc) =
        insPL pp (insP b c (.mk b v cs0)) acc from insPL_ins_nested b pp c _ acc hb]
    rw [show insP b c (PTree.mk b v cs0) = PTree.mk b v (cs0 ++ [c]) from by
      show (if b = b then PTree.mk b v (cs0 ++ [c]) else _) = _
      rw [if_pos rfl]]
    rw [foldl_insPL_compose b v pp cs2 (cs0 ++ [c]) acc hb, List.append_assoc]
    rfl

theorem foldl_insPL_compose_root (b : NodeId) (v : Value) :
    ∀ (cs2 : List PTree) (cs0 : List PTree) (acc : List PTree), b ∉ adrsPL acc →
      cs2.foldl (fun a c => insPL b c a) (acc ++ [.mk b v cs0]) =
        acc ++ [.mk b v (cs0 ++ cs2)]
  | [], cs0, acc, _ => by rw [List.foldl_nil, List.append_nil]
  | c :: cs2, cs0, acc, hb => by
    rw [List.foldl_cons]
    rw [show insPL b c (acc ++ [PTree.mk b v cs0]) =
        acc ++ [PTree.mk b v (cs0 ++ [c])] from by
      rw [insPL_append, insPL_of_not_mem b c acc hb]
      show acc ++ [insP b c (PTree.mk b v cs0)] = _
      rw [show insP b c (PTree.mk b v cs0) = PTree.mk b v (cs0 ++ [c]) from by
        show (if b = b then PTree.mk b v (cs0 ++ [c]) else _) = _
        rw [if_pos rfl]]]
    rw [foldl_insPL_compose_root b v cs2 (cs0 ++ [c]) acc hb, List.append_assoc]
    rfl

/-! ## Grafting pre-allocated leaf nodes (deserialization steps) -/

theorem index_fresh_append {F : Forest} {acc : List PTree}
    (h : Represents F acc) {k : Int} (hk : k ∉ idList acc) (n : NodeId) :
    mapSet F.index k n = F.index ++ [(k, n)] := by
  apply mapSet_append_of_get_none
  apply mapGet_eq_none_of_not_mem_keys
  intro hmem
  apply hk
  have hkeys := h.2.2.2.2.map Prod.fst
  rw [pairList_keys] at hkeys
  exact hkeys.mem_iff.mp hmem

theorem addRoot_prealloc {F : Forest} {acc : List PTree} (h : Represents F acc)
    {n : NodeId} {v : Value} (hrec : getNode F n = some ⟨v, [], none⟩)
    (hfresh : n ∉ adrList acc) (hid : v.id ∉ idList acc) :
    Represents (Treewise.addRoot F n) (acc ++ [.mk n v []]) := by
  have hn_lt : n < F.store.length := lt_of_getNode_isSome F hrec
  have hsp : setParent F n none = F := by
    have h2 := setParent_same F hrec
    exact h2
  have hstep : Treewise.addRoot F n =
      ⟨F.store, F.roots ++ [n], mapSet F.index v.id n⟩ := by
    unfold Treewise.addRoot
    rw [hsp]
    have hch : childrenOf ⟨F.store, F.roots ++ [n], F.index⟩ n = [] := by
      unfold childrenOf getNode
      show (match F.store[n]? with | some r => r.children | none => []) = []
      rw [show F.store[n]? = some ⟨v, [], none⟩ from hrec]
    have hfuel : walkFuel (⟨F.store, F.roots ++ [n], F.index⟩ : Forest) =
        F.store.length + 1 := rfl
    show indexNodeAndChildren ⟨F.store, F.roots ++ [n], F.index⟩
      (walkFuel ⟨F.store, F.roots ++ [n], F.index⟩) n = _
    rw [hfuel, indexNodeAndChildren_leaf _ _ _ hch]
    have hvid : valueIdOf (⟨F.store, F.roots ++ [n], F.index⟩ : Forest) n = v.id := by
      unfold valueIdOf getNode
      show (match F.store[n]? with | some r => r.value.id | none => 0) = v.id
      rw [show F.store[n]? = some ⟨v, [], none⟩ from hrec]
    rw [hvid]
  rw [hstep]
  have hflats : flatsF (acc ++ [PTree.mk n v []]) =
      flatsF acc ++ [⟨n, v, [], none⟩] := by
    unfold flatsF
    rw [flatsPL_append]
    rfl
  refine ⟨?_, ?_, ?_, ?_, ?_⟩
  · show F.roots ++ [n] = (acc ++ [PTree.mk n v []]).map PTree.adr
    rw [List.map_append, ← h.1]
    rfl
  · intro e he
    rw [hflats] at he
    rcases List.mem_append.mp he with h1 | h1
    · exact h.2.1 e h1
    · rw [List.mem_singleton.mp h1]
      exact hrec
  · show ((flatsF (acc ++ [PTree.mk n v []])).map FEntry.adr).Nodup
    rw [hflats, List.map_append]
    refine List.nodup_append.mpr ⟨h.2.2.1, List.nodup_singleton n, ?_⟩
    intro a ha hb
    rw [List.mem_singleton.mp hb] at ha
    exact hfresh ha
  · show ((flatsF (acc ++ [PTree.mk n v []])).map (fun e => e.value.id)).Nodup
    rw [hflats, List.map_append]
    refine List.nodup_append.mpr ⟨h.2.2.2.1, List.nodup_singleton v.id, ?_⟩
    intro a ha hb
    rw [List.mem_singleton.mp hb] at ha
    exact hid ha
  · show (mapSet F.index v.id n).Perm
      ((flatsF (acc ++ [PTree.mk n v []])).map (fun e => (e.value.id, e.adr)))
    rw [index_fresh_append h hid n, hflats, List.map_append]
    exact h.2.2.2.2.append_right _

theorem attach_prealloc {F : Forest} {acc : List PTree} (h : Represents F acc)
    {n : NodeId} {v : Value} (hrec : getNode F n = some ⟨v, [], none⟩)
    (hfresh : n ∉ adrList acc) (hid : v.id ∉ idList acc)
    {pp : NodeId} (hpp : pp ∈ adrList acc) :
    Represents
      (indexNodeAndChildren
        (setChildren (setParent F n (some pp)) pp
          (childrenOf (setParent F n (some pp)) pp ++ [n]))
        (walkFuel (setChildren (setParent F n (some pp)) pp
          (childrenOf (setParent F n (some pp)) pp ++ [n]))) n)
      (insPL pp (.mk n v []) acc) := by
  have hn_lt : n < F.store.length := lt_of_getNode_isSome F hrec
  have hne : pp ≠ n := fun he => hfresh (he ▸ hpp)
  obtain ⟨epp, hepp, heppa⟩ := List.mem_map.mp hpp
  have hgpp : getNode F pp = some epp.toRec := by
    unfold getNode
    rw [← heppa]
    exact h.2.1 epp hepp
  -- the two sides reduce to the same explicit forest
  have hsp : setParent F n (some pp) =
      ⟨F.store.set n ⟨v, [], some pp⟩, F.roots, F.index⟩ := by
    unfold setParent
    rw [hrec]
    rfl
  have hspi : setParent ⟨F.store, F.roots, mapSet F.index v.id n⟩ n (some pp) =
      ⟨F.store.set n ⟨v, [], some pp⟩, F.roots, mapSet F.index v.id n⟩ := by
    unfold setParent
    rw [show getNode ⟨F.store, F.roots, mapSet F.index v.id n⟩ n =
      some ⟨v, [], none⟩ from hrec]
    rfl
  have hgetpp : (F.store.set n ⟨v, [], some pp⟩)[pp]? = some epp.toRec := by
    rw [List.getElem?_set_ne (fun hh => hne (hh.symm))]
    exact hgpp
  have hcpp : childrenOf (⟨F.store.set n ⟨v, [], some pp⟩, F.roots, F.index⟩ : Forest)
      pp = epp.children := by
    unfold childrenOf getNode
    show (match (F.store.set n ⟨v, [], some pp⟩)[pp]? with
      | some r => r.children | none => []) = _
    rw [hgetpp]
    rfl
  have hcppi : childrenOf
      (⟨F.store.set n ⟨v, [], some pp⟩, F.roots, mapSet F.index v.id n⟩ : Forest) pp =
      epp.children := by
    unfold childrenOf getNode
    show (match (F.store.set n ⟨v, [], some pp⟩)[pp]? with
      | some r => r.children | none => []) = _
    rw [hgetpp]
    rfl
  have hF2 : setChildren (setParent F n (some pp)) pp
      (childrenOf (setParent F n (some pp)) pp ++ [n]) =
      ⟨(F.store.set n ⟨v, [], some pp⟩).set pp
        { epp.toRec with children := epp.children ++ [n] },
        F.roots, F.index⟩ := by
    rw [hsp, hcpp]
    unfold setChildren
    rw [show getNode (⟨F.store.set n ⟨v, [], some pp⟩, F.roots, F.index⟩ : Forest) pp =
      some epp.toRec from hgetpp]
    rfl
  have hF2i : setChildren
      (setParent ⟨F.store, F.roots, mapSet F.index v.id n⟩ n (some pp)) pp
      (childrenOf (setParent ⟨F.store, F.roots, mapSet F.index v.id n⟩ n (some pp)) pp
        ++ [n]) =
      ⟨(F.store.set n ⟨v, [], some pp⟩).set pp
        { epp.toRec with children := epp.children ++ [n] },
        F.roots, mapSet F.index v.id n⟩ := by
    rw [hspi, hcppi]
    unfold setChildren
    rw [show getNode (⟨F.store.set n ⟨v, [], some pp⟩, F.roots,
      mapSet F.index v.id n⟩ : Forest) pp = some epp.toRec from hgetpp]
    rfl
  have hgetn : ((F.store.set n ⟨v, [], some pp⟩).set pp
      { epp.toRec with children := epp.children ++ [n] })[n]? =
      some ⟨v, [], some pp⟩ := by
    rw [List.getElem?_set_ne (fun hh => hne hh),
      List.getElem?_set_eq_of_lt _ hn_lt]
  have hstep : indexNodeAndChildren
      (setChildren (setParent F n (some pp)) pp
        (childrenOf (setParent F n (some pp)) pp ++ [n]))
      (walkFuel (setChildren (setParent F n (some pp)) pp
        (childrenOf (setParent F n (some pp)) pp ++ [n]))) n =
      ⟨(F.store.set n ⟨v, [], some pp⟩).set pp
        { epp.toRec with children := epp.children ++ [n] },
        F.roots, mapSet F.index v.id n⟩ := by
    rw [hF2]
    have hch : childrenOf (⟨(F.store.set n ⟨v, [], some pp⟩).set pp
        { epp.toRec with children := epp.children ++ [n] },
        F.roots, F.index⟩ : Forest) n = [] := by
      unfold childrenOf getNode
      show (match ((F.store.set n ⟨v, [], some pp⟩).set pp
        { epp.toRec with children := epp.children ++ [n] })[n]? with
        | some r => r.children | none => []) = []
      rw [hgetn]
    have hfuel : walkFuel (⟨(F.store.set n ⟨v, [], some pp⟩).set pp
        { epp.toRec with children := epp.children ++ [n] },
        F.roots, F.index⟩ : Forest) = F.store.length + 1 := by
      unfold walkFuel
      show ((F.store.set n ⟨v, [], some pp⟩).set pp _).length + 1 = _
      rw [List.length_set, List.length_set]
    rw [hfuel, indexNodeAndChildren_leaf _ _ _ hch]
    have hvid : valueIdOf (⟨(F.store.set n ⟨v, [], some pp⟩).set pp
        { epp.toRec with children := epp.children ++ [n] },
        F.roots, F.index⟩ : Forest) n = v.id := by
      unfold valueIdOf getNode
      show (match ((F.store.set n ⟨v, [], some pp⟩).set pp
        { epp.toRec with children := epp.children ++ [n] })[n]? with
        | some r => r.value.id | none => 0) = v.id
      rw [hgetn]
    rw [hvid]
  rw [hstep, ← hF2i]
  apply moveNode_graft
  · intro e he
    exact h.2.1 e he
  · exact h.1
  · show (mapSet F.index v.id n).Perm (pairList acc ++ [(v.id, n)])
    rw [index_fresh_append h hid n]
    exact h.2.2.2.2.append_right _
  · exact hfresh
  · exact hpp
  · show (adrList acc ++ adrsP (PTree.mk n v [])).Nodup
    rw [adrsP_cons]
    refine List.nodup_append.mpr ⟨h.2.2.1, ?_, ?_⟩
    · show (n :: adrsPL []).Nodup
      exact List.nodup_singleton n
    · intro a ha hb
      have hb2 : a ∈ (n :: adrsPL []) := hb
      rw [List.mem_singleton.mp hb2] at ha
      exact hfresh ha
  · show (idList acc ++ preIds (PTree.mk n v [])).Nodup
    refine List.nodup_append.mpr ⟨h.2.2.2.1, ?_, ?_⟩
    · show (v.id :: preIdsL []).Nodup
      exact List.nodup_singleton v.id
    · intro a ha hb
      have hb2 : a ∈ (v.id :: preIdsL []) := hb
      rw [List.mem_singleton.mp hb2] at ha
      exact hid ha
  · refine ⟨⟨v, [], none⟩, ?_, rfl, rfl⟩
    show getNode ⟨F.store, F.roots, mapSet F.index v.id n⟩ n = some ⟨v, [], none⟩
    exact hrec
  · intro e he
    exact absurd he (List.not_mem_nil e)
  · rfl

theorem adrList_append_single (acc : List PTree) (t : PTree) :
    adrList (acc ++ [t]) = adrList acc ++ adrsP t := by
  unfold adrList flatsF
  rw [flatsPL_append, flatsPL_cons,
    show flatsPL none ([] : List PTree) = [] from rfl, List.append_nil,
    List.map_append, adrsP_eq_map_flatsP t none]

theorem idList_append_single (acc : List PTree) (t : PTree) :
    idList (acc ++ [t]) = idList acc ++ preIds t := by
  unfold idList flatsF
  rw [flatsPL_append, flatsPL_cons,
    show flatsPL none ([] : List PTree) = [] from rfl, List.append_nil,
    List.map_append, preIds_eq_map_flatsP t none]

theorem foldl_append_singleton {α : Type} :
    ∀ (l acc : List α), l.foldl (fun a c => a ++ [c]) acc = acc ++ l
  | [], acc => by rw [List.foldl_nil, List.append_nil]
  | x :: l, acc => by
    rw [List.foldl_cons, foldl_append_singleton l (acc ++ [x]), List.append_assoc]
    rfl

theorem flatMap_lookup {L : List FlatRec} (hnd : (L.map FlatRec.id).Nodup) :
    ∀ (j : Nat) (hj : j < L.length),
      mapGet (flatMapAux 0 [] L) ((L.get ⟨j, hj⟩).id) = some j := by
  intro j hj
  have h := mapGet_flatMapAux_unique ((L.get ⟨j, hj⟩).id) L j 0 []
    (List.getElem?_eq_getElem hj) rfl ?_
  · rw [h]
    rw [Nat.zero_add]
  · intro j2 hj2 hid2
    have hjm : j < (L.map FlatRec.id).length := by rw [List.length_map]; exact hj
    have hj2m : j2 < (L.map FlatRec.id).length := by rw [List.length_map]; exact hj2
    have heq : (L.map FlatRec.id)[j2] = (L.map FlatRec.id)[j] := by
      rw [List.getElem_map, List.getElem_map]
      exact hid2
    exact (List.Nodup.getElem_inj_iff hnd).mp heq

/-- Where the loop of the second `deserializeFlat` pass attaches the
subtree it just read: as a new last root, or as a new last child of the
resolved parent. -/
def attachT : Option NodeId → PTree → List PTree → List PTree
  | none, t, acc => acc ++ [t]
  | some pp, t, acc => insPL pp t acc

/-- Consistency of the parent-id/parent-node pair a record block is
processed with: a root block carries neither, an inner block carries a
parent id that resolves in `nodeMap` to a present node. -/
def AttachOK (M : List (Int × NodeId)) (pid : Option Int) (po : Option NodeId)
    (acc : List PTree) : Prop :=
  match pid, po with
  | none, none => True
  | some pidv, some pp => mapGet M pidv = some pp ∧ pp ∈ adrList acc
  | _, _ => False

theorem attachOK_none (M : List (Int × NodeId)) (acc : List PTree) :
    AttachOK M none none acc := trivial

theorem attachOK_some {M : List (Int × NodeId)} {pidv : Int} {pp : NodeId}
    {acc : List PTree} (h1 : mapGet M pidv = some pp) (h2 : pp ∈ adrList acc) :
    AttachOK M (some pidv) (some pp) acc := ⟨h1, h2⟩

/-- Invariant of the second `deserializeFlat` pass after the first `k`
records have been processed: the forest represents the trees built so far
(node references below `k`), the cells of unprocessed records are still
the pristine pass-one allocations, and every id used so far is an earlier
record's id. -/
structure Pass2Inv (L : List FlatRec) (F : Forest) (acc : List PTree) (k : Nat) :
    Prop where
  rep : Represents F acc
  slen : F.store.length = L.length
  pristine : ∀ j, k ≤ j → ∀ (hj : j < L.length),
    F.store[j]? = some (initRec (L.get ⟨j, hj⟩))
  abound : ∀ a ∈ adrList acc, a < k
  ids : ∀ i ∈ idList acc, ∃ j, j < k ∧ ∃ hj : j < L.length, (L.get ⟨j, hj⟩).id = i

mutual

theorem pass2_tree (L : List FlatRec) (M : List (Int × NodeId))
    (hM : ∀ (j : Nat) (hj : j < L.length), mapGet M ((L.get ⟨j, hj⟩).id) = some j)
    (hnd : (L.map FlatRec.id).Nodup) (s : STree) :
    ∀ (k : Nat) (rest : List FlatRec) (po : Option NodeId) (pid : Option Int)
      (F : Forest) (acc : List PTree),
      L.drop k = sFlats pid s ++ rest →
      Pass2Inv L F acc k →
      AttachOK M pid po acc →
      Pass2Inv L ((sFlats pid s).foldl (flatPassTwoStep M) F)
        (attachT po (sToP k s) acc) (k + sizeS s) := by
  cases s with
  | mk v cs =>
    intro k rest po pid F acc hsplit hinv hmatch
    have hsplit1 : L.drop k =
        (⟨v.id, v.data, pid⟩ : FlatRec) :: (sFlatsL (some v.id) cs ++ rest) := hsplit
    have hk_lt : k < L.length := by
      have h1 : (L.drop k).length = L.length - k := List.length_drop k L
      rw [hsplit1] at h1
      rw [List.length_cons] at h1
      omega
    have hLk : L[k]? = some ⟨v.id, v.data, pid⟩ := by
      have h1 : (L.drop k)[0]? = some (⟨v.id, v.data, pid⟩ : FlatRec) := by
        rw [hsplit1]
        exact List.getElem?_cons_zero
      have h2 : (L.drop k)[0]? = L[k + 0]? := List.getElem?_drop L k 0
      rw [h2] at h1
      exact h1
    have hLkget : L.get ⟨k, hk_lt⟩ = ⟨v.id, v.data, pid⟩ := by
      have h2 : L[k]? = some (L.get ⟨k, hk_lt⟩) := List.getElem?_eq_getElem hk_lt
      exact Option.some.inj (h2.symm.trans hLk)
    have hlook : mapGet M v.id = some k := by
      have h3 := hM k hk_lt
      rw [hLkget] at h3
      exact h3
    have hrec : getNode F k = some ⟨v, [], none⟩ := by
      have h4 := hinv.pristine k (Nat.le_refl k) hk_lt
      rw [hLkget] at h4
      exact h4
    have hfreshA : k ∉ adrList acc := fun hmem =>
      absurd (hinv.abound k hmem) (Nat.lt_irrefl k)
    have hfreshI : v.id ∉ idList acc := by
      intro hmem
      obtain ⟨j, hjk, hj, hjid⟩ := hinv.ids v.id hmem
      have hjm : j < (L.map FlatRec.id).length := by rw [List.length_map]; exact hj
      have hkm : k < (L.map FlatRec.id).length := by rw [List.length_map]; exact hk_lt
      have heq : (L.map FlatRec.id)[j] = (L.map FlatRec.id)[k] := by
        rw [List.getElem_map, List.getElem_map]
        show (L.get ⟨j, hj⟩).id = (L.get ⟨k, hk_lt⟩).id
        rw [hLkget, hjid]
      have := (List.Nodup.getElem_inj_iff hnd).mp heq
      omega
    have hkadrs : k ∉ adrsPL acc := by
      rw [adrsPL_eq_adrList]
      exact hfreshA
    have hsplit2 : L.drop (k + 1) = sFlatsL (some v.id) cs ++ rest := by
      have h7 : L.drop (k + 1) = (L.drop k).drop 1 := by
        rw [List.drop_drop]
      rw [h7, hsplit1]
      rfl
    cases pid with
    | none =>
      cases po with
      | some pp => exact hmatch.elim
      | none =>
        have hred : flatPassTwoStep M F (⟨v.id, v.data, none⟩ : FlatRec) =
            Treewise.addRoot F k := by
          unfold flatPassTwoStep
          rw [show mapGet M (⟨v.id, v.data, (none : Option Int)⟩ : FlatRec).id =
            some k from hlook]
        have h6 := addRoot_prealloc hinv.rep hrec hfreshA hfreshI
        have hstore : (Treewise.addRoot F k).store = F.store := by
          unfold Treewise.addRoot
          rw [show setParent F k none = F from setParent_same F hrec,
            indexNodeAndChildren_store]
        have hinv1 : Pass2Inv L (Treewise.addRoot F k)
            (acc ++ [PTree.mk k v []]) (k + 1) := by
          refine ⟨h6, ?_, ?_, ?_, ?_⟩
          · rw [hstore]
            exact hinv.slen
          · intro j hj1 hj2
            rw [hstore]
            exact hinv.pristine j (Nat.le_of_succ_le hj1) hj2
          · intro a ha
            rw [adrList_append_single] at ha
            rcases List.mem_append.mp ha with h7 | h7
            · exact Nat.lt_succ_of_lt (hinv.abound a h7)
            · rw [adrsP_cons] at h7
              rcases List.mem_cons.mp h7 with h8 | h8
              · rw [h8]
                exact Nat.lt_succ_self k
              · exact absurd h8 (List.not_mem_nil a)
          · intro i hi
            rw [idList_append_single] at hi
            rcases List.mem_append.mp hi with h7 | h7
            · obtain ⟨j, hjk, hj, hjid⟩ := hinv.ids i h7
              exact ⟨j, Nat.lt_succ_of_lt hjk, hj, hjid⟩
            · have h8 : i ∈ (v.id :: preIdsL []) := h7
              rcases List.mem_cons.mp h8 with h9 | h9
              · refine ⟨k, Nat.lt_succ_self k, hk_lt, ?_⟩
                rw [hLkget]
                exact h9.symm
              · exact absurd h9 (List.not_mem_nil i)
        have hmem_k : k ∈ adrList (acc ++ [PTree.mk k v []]) := by
          rw [adrList_append_single]
          apply List.mem_append_right
          rw [adrsP_cons]
          exact List.mem_cons_self _ _
        have h8 := pass2_list L M hM hnd cs (k + 1) rest (some k) (some v.id)
          (Treewise.addRoot F k) (acc ++ [PTree.mk k v []]) hsplit2 hinv1
          (attachOK_some hlook hmem_k)
        have hacc : (sToPL (k + 1) cs).foldl (fun a c => attachT (some k) c a)
            (acc ++ [PTree.mk k v []]) =
            acc ++ [PTree.mk k v (sToPL (k + 1) cs)] :=
          foldl_insPL_compose_root k v (sToPL (k + 1) cs) [] acc hkadrs
        show Pass2Inv L ((sFlatsL (some v.id) cs).foldl (flatPassTwoStep M)
            (flatPassTwoStep M F (⟨v.id, v.data, none⟩ : FlatRec)))
          (acc ++ [PTree.mk k v (sToPL (k + 1) cs)]) (k + (1 + sizeSL cs))
        rw [hred, ← hacc,
          show k + (1 + sizeSL cs) = (k + 1) + sizeSL cs from by omega]
        exact h8
    | some pidv =>
      cases po with
      | none => exact hmatch.elim
      | some pp =>
        obtain ⟨hppLook, hppMem⟩ := hmatch
        have hpp_lt : pp < k := hinv.abound pp hppMem
        have hred : flatPassTwoStep M F (⟨v.id, v.data, some pidv⟩ : FlatRec) =
            indexNodeAndChildren
              (setChildren (setParent F k (some pp)) pp
                (childrenOf (setParent F k (some pp)) pp ++ [k]))
              (walkFuel (setChildren (setParent F k (some pp)) pp
                (childrenOf (setParent F k (some pp)) pp ++ [k]))) k := by
          unfold flatPassTwoStep
          rw [show mapGet M (⟨v.id, v.data, some pidv⟩ : FlatRec).id = some k from
            hlook]
          show (match mapGet M pidv with
            | none => F
            | some p =>
              indexNodeAndChildren
                (setChildren (setParent F k (some p)) p
                  (childrenOf (setParent F k (some p)) p ++ [k]))
                (walkFuel (setChildren (setParent F k (some p)) p
                  (childrenOf (setParent F k (some p)) p ++ [k]))) k) = _
          rw [show mapGet M pidv = some pp from hppLook]
        have h6 := attach_prealloc hinv.rep hrec hfreshA hfreshI hppMem
        have hstoreq : ∀ j, j ≠ k → j ≠ pp →
            (indexNodeAndChildren
              (setChildren (setParent F k (some pp)) pp
                (childrenOf (setParent F k (some pp)) pp ++ [k]))
              (walkFuel (setChildren (setParent F k (some pp)) pp
                (childrenOf (setParent F k (some pp)) pp ++ [k])))
              k).store[j]? = F.store[j]? := by
          intro j hjk hjp
          rw [indexNodeAndChildren_store]
          have h9 : getNode (setChildren (setParent F k (some pp)) pp
              (childrenOf (setParent F k (some pp)) pp ++ [k])) j =
              getNode (setParent F k (some pp)) j :=
            getNode_setChildren_ne _ _ (fun hh => hjp hh.symm)
          have h10 : getNode (setParent F k (some pp)) j = getNode F j :=
            getNode_setParent_ne _ _ (fun hh => hjk hh.symm)
          exact (h9.trans h10 : _)
        have hstorelen : (indexNodeAndChildren
            (setChildren (setParent F k (some pp)) pp
              (childrenOf (setParent F k (some pp)) pp ++ [k]))
            (walkFuel (setChildren (setParent F k (some pp)) pp
              (childrenOf (setParent F k (some pp)) pp ++ [k])))
            k).store.length = F.store.length := by
          rw [indexNodeAndChildren_store, store_length_setChildren,
            store_length_setParent]
        have hinv1 : Pass2Inv L (indexNodeAndChildren
            (setChildren (setParent F k (some pp)) pp
              (childrenOf (setParent F k (some pp)) pp ++ [k]))
            (walkFuel (setChildren (setParent F k (some pp)) pp
              (childrenOf (setParent F k (some pp)) pp ++ [k]))) k)
            (insPL pp (PTree.mk k v []) acc) (k + 1) := by
          refine ⟨h6, ?_, ?_, ?_, ?_⟩
          · rw [hstorelen]
            exact hinv.slen
          · intro j hj1 hj2
            rw [hstoreq j (Nat.ne_of_gt hj1)
              (Nat.ne_of_gt (Nat.lt_of_lt_of_le hpp_lt (Nat.le_of_succ_le hj1)))]
            exact hinv.pristine j (Nat.le_of_succ_le hj1) hj2
          · intro a ha
            have hperm := adrList_insPL_perm (PTree.mk k v []) hinv.rep.2.2.1 hppMem
            rcases List.mem_append.mp (hperm.mem_iff.mp ha) with h7 | h7
            · exact Nat.lt_succ_of_lt (hinv.abound a h7)
            · rw [adrsP_cons] at h7
              rcases List.mem_cons.mp h7 with h8 | h8
              · rw [h8]
                exact Nat.lt_succ_self k
              · exact absurd h8 (List.not_mem_nil a)
          · intro i hi
            have hperm := idList_insPL_perm (PTree.mk k v []) hinv.rep.2.2.1 hppMem
            rcases List.mem_append.mp (hperm.mem_iff.mp hi) with h7 | h7
            · obtain ⟨j, hjk, hj, hjid⟩ := hinv.ids i h7
              exact ⟨j, Nat.lt_succ_of_lt hjk, hj, hjid⟩
            · have h8 : i ∈ (v.id :: preIdsL []) := h7
              rcases List.mem_cons.mp h8 with h9 | h9
              · refine ⟨k, Nat.lt_succ_self k, hk_lt, ?_⟩
                rw [hLkget]
                exact h9.symm
              · exact absurd h9 (List.not_mem_nil i)
        have hmem_k : k ∈ adrList (insPL pp (PTree.mk k v []) acc) := by
          have hperm := adrList_insPL_perm (PTree.mk k v []) hinv.rep.2.2.1 hppMem
          apply hperm.mem_iff.mpr
          apply List.mem_append_right
          rw [adrsP_cons]
          exact List.mem_cons_self _ _
        have h8 := pass2_list L M hM hnd cs (k + 1) rest (some k) (some v.id)
          (indexNodeAndChildren
            (setChildren (setParent F k (some pp)) pp
              (childrenOf (setParent F k (some pp)) pp ++ [k]))
            (walkFuel (setChildren (setParent F k (some pp)) pp
              (childrenOf (setParent F k (some pp)) pp ++ [k]))) k)
          (insPL pp (PTree.mk k v []) acc) hsplit2 hinv1
          (attachOK_some hlook hmem_k)
        have hacc : (sToPL (k + 1) cs).foldl (fun a c => attachT (some k) c a)
            (insPL pp (PTree.mk k v []) acc) =
            insPL pp (PTree.mk k v (sToPL (k + 1) cs)) acc :=
          foldl_insPL_compose k v pp (sToPL (k + 1) cs) [] acc hkadrs
        show Pass2Inv L ((sFlatsL (some v.id) cs).foldl (flatPassTwoStep M)
            (flatPassTwoStep M F (⟨v.id, v.data, some pidv⟩ : FlatRec)))
          (insPL pp (PTree.mk k v (sToPL (k + 1) cs)) acc) (k + (1 + sizeSL cs))
        rw [hred, ← hacc,
          show k + (1 + sizeSL cs) = (k + 1) + sizeSL cs from by omega]
        exact h8

theorem pass2_list (L : List FlatRec) (M : List (Int × NodeId))
    (hM : ∀ (j : Nat) (hj : j < L.length), mapGet M ((L.get ⟨j, hj⟩).id) = some j)
    (hnd : (L.map FlatRec.id).Nodup) :
    ∀ (ss : List STree) (k : Nat) (rest : List FlatRec) (po : Option NodeId)
      (pid : Option Int) (F : Forest) (acc : List PTree),
      L.drop k = sFlatsL pid ss ++ rest →
      Pass2Inv L F acc k →
      AttachOK M pid po acc →
      Pass2Inv L ((sFlatsL pid ss).foldl (flatPassTwoStep M) F)
        ((sToPL k ss).foldl (fun a c => attachT po c a) acc) (k + sizeSL ss)
  | [], k, rest, po, pid, F, acc, _, hinv, _ => hinv
  | s :: ss, k, rest, po, pid, F, acc, hsplit, hinv, hmatch => by
    have hsplit1 : L.drop k = sFlats pid s ++ (sFlatsL pid ss ++ rest) := by
      rw [hsplit]
      show (sFlats pid s ++ sFlatsL pid ss) ++ rest = _
      rw [List.append_assoc]
    have h1 := pass2_tree L M hM hnd s k (sFlatsL pid ss ++ rest) po pid F acc
      hsplit1 hinv hmatch
    have hsplit3 : L.drop (k + sizeS s) = sFlatsL pid ss ++ rest := by
      have h7 : L.drop (k + sizeS s) = (L.drop k).drop (sizeS s) := by
        rw [List.drop_drop]
      rw [h7, hsplit1, ← sFlats_length s pid, List.drop_left]
    have hmatch1 : AttachOK M pid po (attachT po (sToP k s) acc) := by
      cases pid with
      | none =>
        cases po with
        | none => trivial
        | some pp => exact hmatch.elim
      | some pidv =>
        cases po with
        | none => exact hmatch.elim
        | some pp =>
          obtain ⟨hppLook, hppMem⟩ := hmatch
          refine attachOK_some hppLook ?_
          show pp ∈ adrList (insPL pp (sToP k s) acc)
          have hperm := adrList_insPL_perm (sToP k s) hinv.rep.2.2.1 hppMem
          exact hperm.mem_iff.mpr (List.mem_append_left _ hppMem)
    have h2 := pass2_list L M hM hnd ss (k + sizeS s) rest po pid
      ((sFlats pid s).foldl (flatPassTwoStep M) F)
      (attachT po (sToP k s) acc) hsplit3 h1 hmatch1
    show Pass2Inv L (((sFlats pid s) ++ sFlatsL pid ss).foldl (flatPassTwoStep M) F)
      ((sToP k s :: sToPL (k + sizeS s) ss).foldl (fun a c => attachT po c a) acc)
      (k + (sizeS s + sizeSL ss))
    rw [List.foldl_append, List.foldl_cons,
      show k + (sizeS s + sizeSL ss) = (k + sizeS s) + sizeSL ss from by omega]
    exact h2

end


mutual

theorem sFlats_strip_ids (t : PTree) :
    ∀ (pid : Option Int), (sFlats pid (pStrip t)).map FlatRec.id = preIds t := by
  cases t with
  | mk a v cs =>
    intro pid
    show v.id :: (sFlatsL (some v.id) (pStripL cs)).map FlatRec.id =
      v.id :: preIdsL cs
    rw [sFlatsL_strip_ids cs (some v.id)]

theorem sFlatsL_strip_ids :
    ∀ (ts : List PTree) (pid : Option Int),
      (sFlatsL pid (pStripL ts)).map FlatRec.id = preIdsL ts
  | [], _ => rfl
  | t :: ts, pid => by
    show (sFlats pid (pStrip t) ++ sFlatsL pid (pStripL ts)).map FlatRec.id =
      preIds t ++ preIdsL ts
    rw [List.map_append, sFlats_strip_ids t pid, sFlatsL_strip_ids ts pid]

end

theorem deserializeFlat_strip {ss : List STree}
    (hnd : ((sFlatsL none ss).map FlatRec.id).Nodup) :
    Represents (deserializeFlat emptyForest (sFlatsL none ss)) (sToPL 0 ss) := by
  have hM := flatMap_lookup hnd
  have hinv0 : Pass2Inv (sFlatsL none ss)
      ⟨(sFlatsL none ss).map initRec, [], []⟩ [] 0 := by
    refine ⟨⟨rfl, ?_, List.nodup_nil, List.nodup_nil, List.Perm.refl _⟩,
      List.length_map _ _, ?_, ?_, ?_⟩
    · intro e he
      exact absurd he (List.not_mem_nil e)
    · intro j _ hj
      rw [List.getElem?_map, List.getElem?_eq_getElem hj]
      rfl
    · intro a ha
      exact absurd ha (List.not_mem_nil a)
    · intro i hi
      exact absurd hi (List.not_mem_nil i)
  have h := pass2_list (sFlatsL none ss) (flatMapAux 0 [] (sFlatsL none ss)) hM hnd
    ss 0 [] none none ⟨(sFlatsL none ss).map initRec, [], []⟩ []
    (by rw [List.drop_zero, List.append_nil]) hinv0 (attachOK_none _ _)
  have hacc : (sToPL 0 ss).foldl (fun a c => attachT none c a) [] = sToPL 0 ss :=
    foldl_append_singleton (sToPL 0 ss) []
  rw [deserializeFlat_emptyForest]
  have hrep := h.rep
  rw [hacc] at hrep
  exact hrep

/-- **C5**: the flat round trip reproduces the flat serialization exactly,
for every well-formed forest (one represented by a pure forest `ts`):
`serializeFlat` lists the nodes in pre-order with fresh two-pass
reconstruction (`deserializeFlat`) reassembling exactly the same shapes,
values and parent ids, so a second `serializeFlat` yields the identical
record sequence. -/
theorem serializeFlat_round_trip {f : Forest} {ts : List PTree}
    (h : Represents f ts) :
    serializeFlat (deserializeFlat emptyForest (serializeFlat f)) =
      serializeFlat f := by
  rw [serializeFlat_pure h]
  have hnd : ((sFlatsL none (pStripL ts)).map FlatRec.id).Nodup := by
    rw [sFlatsL_strip_ids, preIdsL_eq_map_flatsPL ts none]
    exact h.2.2.2.1
  have h2 := deserializeFlat_strip hnd
  rw [serializeFlat_pure h2, pStripL_sToPL]

/-- Concrete two-root forest used to witness the flat round trip. -/
def c5WitnessF : Forest :=
  applyOps emptyForest
    [.addRoot ⟨1, 10⟩, .addNodeAsChild 0 ⟨2, 20⟩, .addRoot ⟨3, 30⟩]

/-- Pure view of `c5WitnessF`. -/
def c5WitnessT : List PTree :=
  [.mk 0 ⟨1, 10⟩ [.mk 1 ⟨2, 20⟩ []], .mk 2 ⟨3, 30⟩ []]

theorem serializeFlat_round_trip_witness :
    Represents c5WitnessF c5WitnessT ∧
    serializeFlat (deserializeFlat emptyForest (serializeFlat c5WitnessF)) =
      serializeFlat c5WitnessF :=
  ⟨by decide, @serializeFlat_round_trip c5WitnessF c5WitnessT (by decide)⟩

/-! ## Post-order allocation numbering (the order `deserialize` allocates) -/

mutual

/-- The pure tree a parsed subtree becomes when its nodes are numbered in
allocation (post-) order starting at `b`: children first, then the node. -/
def sToPpost (b : Nat) : STree → PTree × Nat
  | .mk v cs =>
    let r := sToPpostL b cs
    (.mk r.2 v r.1, r.2 + 1)

/-- Allocation-order numbering of a list of parsed subtrees. -/
def sToPpostL (b : Nat) : List STree → List PTree × Nat
  | [] => ([], b)
  | s :: ss =>
    let r1 := sToPpost b s
    let r2 := sToPpostL r1.2 ss
    (r1.1 :: r2.1, r2.2)

end

mutual

theorem sToPpost_snd (s : STree) : ∀ b, (sToPpost b s).2 = b + sizeS s := by
  cases s with
  | mk v cs =>
    intro b
    show (sToPpostL b cs).2 + 1 = b + (1 + sizeSL cs)
    rw [sToPpostL_snd cs b]
    omega

theorem sToPpostL_snd : ∀ (ss : List STree) (b : Nat), (sToPpostL b ss).2 = b + sizeSL ss
  | [], b => by
    show b = b + 0
    rfl
  | s :: ss, b => by
    show (sToPpostL (sToPpost b s).2 ss).2 = b + (sizeS s + sizeSL ss)
    rw [sToPpostL_snd ss (sToPpost b s).2, sToPpost_snd s b]
    omega

end

mutual

theorem adrsP_sToPpost (s : STree) :
    ∀ b, (adrsP (sToPpost b s).1).Perm (List.range' b (sizeS s)) := by
  cases s with
  | mk v cs =>
    intro b
    show (adrsP (PTree.mk (sToPpostL b cs).2 v (sToPpostL b cs).1)).Perm
      (List.range' b (1 + sizeSL cs))
    rw [adrsP_cons, sToPpostL_snd cs b]
    have h1 := adrsPL_sToPpostL cs b
    have h5 : List.range' b (sizeSL cs) ++ [b + sizeSL cs] =
        List.range' b (1 + sizeSL cs) := by
      have h3 := List.range'_append b (sizeSL cs) 1 1
      rw [Nat.one_mul] at h3
      exact h3
    rw [← h5]
    exact (List.Perm.cons _ h1).trans (List.perm_append_singleton _ _).symm

theorem adrsPL_sToPpostL :
    ∀ (ss : List STree) (b : Nat),
      (adrsPL (sToPpostL b ss).1).Perm (List.range' b (sizeSL ss))
  | [], b => by
    show (adrsPL ([] : List PTree)).Perm (List.range' b 0)
    exact List.Perm.refl _
  | s :: ss, b => by
    show (adrsPL ((sToPpost b s).1 :: (sToPpostL (sToPpost b s).2 ss).1)).Perm
      (List.range' b (sizeS s + sizeSL ss))
    rw [adrsPL_cons, sToPpost_snd s b]
    have h1 := adrsP_sToPpost s b
    have h2 := adrsPL_sToPpostL ss (b + sizeS s)
    have h4 : List.range' b (sizeS s) ++ List.range' (b + sizeS s) (sizeSL ss) =
        List.range' b (sizeS s + sizeSL ss) := by
      have h3 := List.range'_append b (sizeS s) (sizeSL ss) 1
      rw [Nat.one_mul] at h3
      rw [Nat.add_comm (sizeS s) (sizeSL ss)]
      exact h3
    rw [← h4]
    exact h1.append h2

end

mutual

theorem pStrip_sToPpost (s : STree) : ∀ b, pStrip (sToPpost b s).1 = s := by
  cases s with
  | mk v cs =>
    intro b
    show STree.mk v (pStripL (sToPpostL b cs).1) = STree.mk v cs
    rw [pStripL_sToPpostL cs b]

theorem pStripL_sToPpostL : ∀ (ss : List STree) (b : Nat), pStripL (sToPpostL b ss).1 = ss
  | [], _ => rfl
  | s :: ss, b => by
    show pStrip (sToPpost b s).1 :: pStripL (sToPpostL (sToPpost b s).2 ss).1 = s :: ss
    rw [pStrip_sToPpost s b, pStripL_sToPpostL ss (sToPpost b s).2]

end

mutual

theorem preIds_strip (t : PTree) : preIds t = (sFlats none (pStrip t)).map FlatRec.id := by
  rw [sFlats_strip_ids t none]

theorem preIdsL_strip (ts : List PTree) :
    preIdsL ts = (sFlatsL none (pStripL ts)).map FlatRec.id := by
  rw [sFlatsL_strip_ids ts none]

end

/-! ## Indexing a subtree as a pure index fold -/

mutual

/-- `(id, reference)` pairs of a pure subtree, in pre-order. -/
def prePairs : PTree → List (Int × NodeId)
  | .mk a v cs => (v.id, a) :: prePairsL cs

/-- `(id, reference)` pairs of a pure forest, in pre-order. -/
def prePairsL : List PTree → List (Int × NodeId)
  | [] => []
  | t :: ts => prePairs t ++ prePairsL ts

end

mutual

theorem prePairs_eq_map_flatsP (t : PTree) :
    ∀ (par : Option NodeId),
      prePairs t = (flatsP par t).map (fun e => (e.value.id, e.adr)) := by
  cases t with
  | mk a v cs =>
    intro par
    show (v.id, a) :: prePairsL cs = _
    rw [flatsP_def, List.map_cons, prePairsL_eq_map_flatsPL cs (some a)]
    rfl

theorem prePairsL_eq_map_flatsPL :
    ∀ (ts : List PTree) (par : Option NodeId),
      prePairsL ts = (flatsPL par ts).map (fun e => (e.value.id, e.adr))
  | [], _ => rfl
  | t :: ts, par => by
    show prePairs t ++ prePairsL ts = _
    rw [flatsPL_cons, List.map_append, prePairs_eq_map_flatsP t par,
      prePairsL_eq_map_flatsPL ts par]

end

theorem index_index_eq :
    ∀ (fuel : Nat) (t : PTree) (g : Forest), sizeP t ≤ fuel → IdAgree g t →
      (indexNodeAndChildren g fuel t.adr).index =
        (prePairs t).foldl (fun m pr => mapSet m pr.1 pr.2) g.index := by
  intro fuel
  induction fuel with
  | zero =>
    intro t g hsz
    exact absurd hsz (by have := sizeP_pos t; omega)
  | succ fuel ih =>
    intro t g hsz hagree
    cases t with
    | mk a v cs =>
      obtain ⟨hch, hid⟩ := idAgree_root hagree
      have hfold : ∀ (cs2 : List PTree) (g2 : Forest), sizePL cs2 ≤ fuel →
          (∀ c ∈ cs2, IdAgree g2 c) →
          ((cs2.map PTree.adr).foldl (fun acc c => indexNodeAndChildren acc fuel c)
            g2).index =
            (prePairsL cs2).foldl (fun m pr => mapSet m pr.1 pr.2) g2.index := by
        intro cs2
        induction cs2 with
        | nil => intro g2 _ _; rfl
        | cons c cs2 ihl =>
          intro g2 hsz2 hag2
          have h1 : sizeP c + sizePL cs2 ≤ fuel := hsz2
          show ((cs2.map PTree.adr).foldl (fun acc c => indexNodeAndChildren acc fuel c)
            (indexNodeAndChildren g2 fuel c.adr)).index = _
          have hstore2 : (indexNodeAndChildren g2 fuel c.adr).store = g2.store :=
            indexNodeAndChildren_store fuel g2 c.adr
          rw [ihl (indexNodeAndChildren g2 fuel c.adr) (by omega)
            (fun c2 hc2 => idAgree_of_store hstore2 (hag2 c2 (List.mem_cons_of_mem _ hc2)))]
          rw [ih c g2 (by omega) (hag2 c (List.mem_cons_self _ _))]
          rw [show prePairsL (c :: cs2) = prePairs c ++ prePairsL cs2 from rfl,
            List.foldl_append]
      have h2 : 1 + sizePL cs ≤ fuel + 1 := hsz
      simp only [PTree.adr, PTree.children, PTree.value] at hch hid
      show ((childrenOf g a).foldl (fun acc c => indexNodeAndChildren acc fuel c)
        { g with index := mapSet g.index (valueIdOf g a) a }).index = _
      rw [hch, hid]
      rw [hfold cs { g with index := mapSet g.index v.id a } (by omega)
        (fun c hc => idAgree_of_store rfl (idAgree_child hagree hc))]
      rfl

theorem foldl_mapSet_append :
    ∀ (Q m : List (Int × NodeId)), ((m ++ Q).map Prod.fst).Nodup →
      Q.foldl (fun acc pr => mapSet acc pr.1 pr.2) m = m ++ Q
  | [], m, _ => by rw [List.foldl_nil, List.append_nil]
  | (k, n) :: Q, m, hnd => by
    rw [List.foldl_cons]
    have hkm : k ∉ m.map Prod.fst := by
      intro hmem
      rw [List.map_append] at hnd
      obtain ⟨_, _, hdisj⟩ := List.nodup_append.mp hnd
      exact hdisj hmem (by rw [List.map_cons]; exact List.mem_cons_self _ _)
    have h1 : mapSet m k n = m ++ [(k, n)] :=
      mapSet_append_of_get_none m k n (mapGet_eq_none_of_not_mem_keys m k hkm)
    rw [show mapSet m (k, n).1 (k, n).2 = m ++ [(k, n)] from h1,
      foldl_mapSet_append Q (m ++ [(k, n)]) (by
        rw [List.append_assoc]
        exact hnd), List.append_assoc]
    rfl

/-! ## What `deserialize`'s allocation phase writes into the store -/

mutual

theorem allocT_spec (s : STree) : ∀ (st : List NodeRec),
    (allocT st s).1.length = st.length + sizeS s ∧
    (allocT st s).2 = (sToPpost st.length s).1.adr ∧
    (∀ j, j < st.length → (allocT st s).1[j]? = st[j]?) ∧
    (∀ (par : Option NodeId), ∀ e ∈ flatsP par (sToPpost st.length s).1,
      (allocT st s).1[e.adr]? = some ⟨e.value, e.children, none⟩) := by
  cases s with
  | mk v cs =>
    intro st
    obtain ⟨hL, hA, hP, hE⟩ := allocTL_spec cs st
    have hsnd : (sToPpostL st.length cs).2 = st.length + sizeSL cs :=
      sToPpostL_snd cs st.length
    have h1 : (allocT st (STree.mk v cs)).1 =
        (allocTL st cs).1 ++ [⟨v, (allocTL st cs).2, none⟩] := rfl
    have h2 : (allocT st (STree.mk v cs)).2 = (allocTL st cs).1.length := rfl
    have h3 : (sToPpost st.length (STree.mk v cs)).1 =
        PTree.mk (sToPpostL st.length cs).2 v (sToPpostL st.length cs).1 := rfl
    refine ⟨?_, ?_, ?_, ?_⟩
    · rw [h1, List.length_append, hL]
      show st.length + sizeSL cs + 1 = st.length + (1 + sizeSL cs)
      omega
    · rw [h2, h3, hL]
      show st.length + sizeSL cs = (sToPpostL st.length cs).2
      rw [hsnd]
    · intro j hj
      rw [h1, List.getElem?_append_left (by
        rw [hL]
        exact Nat.lt_of_lt_of_le hj (Nat.le_add_right _ _))]
      exact hP j hj
    · intro par e he
      rw [h3, flatsP_def] at he
      rcases List.mem_cons.mp he with h4 | h4
      · subst h4
        show (allocT st (STree.mk v cs)).1[(sToPpostL st.length cs).2]? = _
        rw [h1, hsnd, ← hL, List.getElem?_concat_length]
        rw [hA]
        rfl
      · have hadr : e.adr ∈ adrsPL (sToPpostL st.length cs).1 :=
          adr_mem_adrsPL_of_mem_flats h4
        have h5 := (adrsPL_sToPpostL cs st.length).mem_iff.mp hadr
        obtain ⟨h6a, h6b⟩ := List.mem_range'_1.mp h5
        rw [h1, List.getElem?_append_left (by rw [hL]; exact h6b)]
        exact hE (some (sToPpostL st.length cs).2) e h4

theorem allocTL_spec : ∀ (ss : List STree) (st : List NodeRec),
    (allocTL st ss).1.length = st.length + sizeSL ss ∧
    (allocTL st ss).2 = (sToPpostL st.length ss).1.map PTree.adr ∧
    (∀ j, j < st.length → (allocTL st ss).1[j]? = st[j]?) ∧
    (∀ (par : Option NodeId), ∀ e ∈ flatsPL par (sToPpostL st.length ss).1,
      (allocTL st ss).1[e.adr]? = some ⟨e.value, e.children, none⟩)
  | [], st => by
    refine ⟨?_, rfl, fun j _ => rfl, ?_⟩
    · show st.length = st.length + 0
      rfl
    · intro par e he
      exact absurd he (List.not_mem_nil e)
  | s :: ss, st => by
    obtain ⟨hL1, hA1, hP1, hE1⟩ := allocT_spec s st
    obtain ⟨hL2, hA2, hP2, hE2⟩ := allocTL_spec ss (allocT st s).1
    have hsnd : (sToPpost st.length s).2 = st.length + sizeS s :=
      sToPpost_snd s st.length
    have h1 : (allocTL st (s :: ss)).1 = (allocTL (allocT st s).1 ss).1 := rfl
    have h2 : (allocTL st (s :: ss)).2 =
        (allocT st s).2 :: (allocTL (allocT st s).1 ss).2 := rfl
    have h3 : (sToPpostL st.length (s :: ss)).1 =
        (sToPpost st.length s).1 :: (sToPpostL (sToPpost st.length s).2 ss).1 := rfl
    refine ⟨?_, ?_, ?_, ?_⟩
    · rw [h1, hL2, hL1]
      show st.length + sizeS s + sizeSL ss = st.length + (sizeS s + sizeSL ss)
      omega
    · rw [h2, h3, List.map_cons, hA1, hA2, hL1, ← hsnd]
    · intro j hj
      rw [h1, hP2 j (by
        rw [hL1]
        exact Nat.lt_of_lt_of_le hj (Nat.le_add_right _ _))]
      exact hP1 j hj
    · intro par e he
      rw [h3, flatsPL_cons] at he
      rcases List.mem_append.mp he with h4 | h4
      · have hadr : e.adr ∈ adrsP (sToPpost st.length s).1 :=
          adr_mem_adrsP_of_mem_flats h4
        have h5 := (adrsP_sToPpost s st.length).mem_iff.mp hadr
        obtain ⟨h6a, h6b⟩ := List.mem_range'_1.mp h5
        rw [h1, hP2 e.adr (by rw [hL1]; exact h6b)]
        exact hE1 par e h4
      · rw [hsnd, ← hL1] at h4
        rw [h1]
        exact hE2 par e h4

end

/-! ## Rebuilding parent links after `deserialize`'s allocation -/

theorem sizeP_le_sizePL_of_mem :
    ∀ {ts : List PTree} {t : PTree}, t ∈ ts → sizeP t ≤ sizePL ts
  | t2 :: ts, t, h => by
    rcases List.mem_cons.mp h with h1 | h1
    · rw [h1]
      show sizeP t2 ≤ sizeP t2 + sizePL ts
      exact Nat.le_add_right _ _
    · have h2 := sizeP_le_sizePL_of_mem h1
      show sizeP t ≤ sizeP t2 + sizePL ts
      omega

mutual

theorem sizeP_sToPpost (s : STree) : ∀ b, sizeP (sToPpost b s).1 = sizeS s := by
  cases s with
  | mk v cs =>
    intro b
    show 1 + sizePL (sToPpostL b cs).1 = 1 + sizeSL cs
    rw [sizePL_sToPpostL cs b]

theorem sizePL_sToPpostL :
    ∀ (ss : List STree) (b : Nat), sizePL (sToPpostL b ss).1 = sizeSL ss
  | [], _ => rfl
  | s :: ss, b => by
    show sizeP (sToPpost b s).1 + sizePL (sToPpostL (sToPpost b s).2 ss).1 =
      sizeS s + sizeSL ss
    rw [sizeP_sToPpost s b, sizePL_sToPpostL ss (sToPpost b s).2]

end

theorem sizePL_eq_flats_length :
    ∀ (ts : List PTree) (par : Option NodeId), sizePL ts = (flatsPL par ts).length
  | [], _ => rfl
  | t :: ts, par => by
    show sizeP t + sizePL ts = (flatsP par t ++ flatsPL par ts).length
    rw [List.length_append, sizeP_eq_flats_length t par, sizePL_eq_flats_length ts par]

theorem prePairs_keys (t : PTree) : (prePairs t).map Prod.fst = preIds t := by
  rw [prePairs_eq_map_flatsP t none, pair_fst_map, preIds_eq_map_flatsP t none]

theorem prePairsL_keys (ts : List PTree) : (prePairsL ts).map Prod.fst = preIdsL ts := by
  rw [prePairsL_eq_map_flatsPL ts none, pair_fst_map, preIdsL_eq_map_flatsPL ts none]

mutual

theorem reconstruct_pure (t : PTree) :
    ∀ (par : Option NodeId) (f : Forest),
      (∀ e ∈ flatsP par t, ∃ p0, f.store[e.adr]? = some ⟨e.value, e.children, p0⟩) →
      ((flatsP par t).map FEntry.adr).Nodup →
      ∀ fuel, sizeP t ≤ fuel →
        (reconstructParentReferences f fuel t.adr par).roots = f.roots ∧
        (reconstructParentReferences f fuel t.adr par).index = f.index ∧
        (reconstructParentReferences f fuel t.adr par).store.length = f.store.length ∧
        (∀ e ∈ flatsP par t,
          (reconstructParentReferences f fuel t.adr par).store[e.adr]? =
            some e.toRec) ∧
        (∀ j, j ∉ (flatsP par t).map FEntry.adr →
          (reconstructParentReferences f fuel t.adr par).store[j]? = f.store[j]?) := by
  cases t with
  | mk a v cs =>
    intro par f hpend hnd fuel hsz
    cases fuel with
    | zero =>
      exact absurd (Nat.lt_of_lt_of_le (sizeP_pos _) hsz) (Nat.lt_irrefl 0)
    | succ fuel =>
      have hhead : (⟨a, v, cs.map PTree.adr, par⟩ : FEntry) ∈
          flatsP par (PTree.mk a v cs) := by
        rw [flatsP_def]
        exact List.mem_cons_self _ _
      obtain ⟨p0, hp0⟩ := hpend _ hhead
      have hga : getNode f a = some ⟨v, cs.map PTree.adr, p0⟩ := hp0
      have ha_lt : a < f.store.length := lt_of_getNode_isSome f hga
      have hf1 : setParent f a par =
          ⟨f.store.set a ⟨v, cs.map PTree.adr, par⟩, f.roots, f.index⟩ := by
        unfold setParent
        rw [hga]
        rfl
      have hch1 : childrenOf
          (⟨f.store.set a ⟨v, cs.map PTree.adr, par⟩, f.roots, f.index⟩ : Forest) a =
          cs.map PTree.adr := by
        unfold childrenOf getNode
        show (match (f.store.set a ⟨v, cs.map PTree.adr, par⟩)[a]? with
          | some r => r.children | none => []) = _
        rw [List.getElem?_set_eq_of_lt _ ha_lt]
      have hred : reconstructParentReferences f (fuel + 1) (PTree.mk a v cs).adr par =
          (cs.map PTree.adr).foldl
            (fun acc c => reconstructParentReferences acc fuel c (some a))
            ⟨f.store.set a ⟨v, cs.map PTree.adr, par⟩, f.roots, f.index⟩ := by
        show (childrenOf (setParent f a par) a).foldl
          (fun acc c => reconstructParentReferences acc fuel c (some a))
          (setParent f a par) = _
        rw [hf1, hch1]
      have hndflats := hnd
      rw [flatsP_def, List.map_cons] at hndflats
      obtain ⟨hna, hndcs⟩ := List.nodup_cons.mp hndflats
      have hpend2 : ∀ e ∈ flatsPL (some a) cs, ∃ p1,
          (⟨f.store.set a ⟨v, cs.map PTree.adr, par⟩, f.roots, f.index⟩ :
            Forest).store[e.adr]? = some ⟨e.value, e.children, p1⟩ := by
        intro e he
        have hne : e.adr ≠ a := by
          intro hh
          have hm : e.adr ∈ (flatsPL (some a) cs).map FEntry.adr :=
            List.mem_map_of_mem _ he
          rw [hh] at hm
          exact hna hm
        obtain ⟨p1, hp1⟩ := hpend e (by
          rw [flatsP_def]
          exact List.mem_cons_of_mem _ he)
        refine ⟨p1, ?_⟩
        show (f.store.set a ⟨v, cs.map PTree.adr, par⟩)[e.adr]? = _
        rw [List.getElem?_set_ne (fun hh => hne hh.symm)]
        exact hp1
      have hszL : sizePL cs ≤ fuel := by
        have h2 : sizeP (PTree.mk a v cs) = 1 + sizePL cs := rfl
        omega
      obtain ⟨hroots, hidx, hlen, hok, hskip⟩ := reconstructL_pure cs a
        ⟨f.store.set a ⟨v, cs.map PTree.adr, par⟩, f.roots, f.index⟩ hpend2 hndcs
        fuel hszL
      rw [hred]
      refine ⟨hroots, hidx, ?_, ?_, ?_⟩
      · rw [hlen]
        show (f.store.set a _).length = f.store.length
        rw [List.length_set]
      · intro e he
        rw [flatsP_def] at he
        rcases List.mem_cons.mp he with h4 | h4
        · have hskipa : a ∉ (flatsPL (some a) cs).map FEntry.adr := hna
          have hea : e.adr = a := by rw [h4]; rfl
          rw [hea, hskip a hskipa]
          show (f.store.set a ⟨v, cs.map PTree.adr, par⟩)[a]? = some e.toRec
          rw [List.getElem?_set_eq_of_lt _ ha_lt, h4]
          rfl
        · exact hok e h4
      · intro j hj
        rw [flatsP_def, List.map_cons] at hj
        have hja : j ≠ a := fun hh => hj (hh ▸ List.mem_cons_self _ _)
        have hjcs : j ∉ (flatsPL (some a) cs).map FEntry.adr :=
          fun hm => hj (List.mem_cons_of_mem _ hm)
        rw [hskip j hjcs]
        show (f.store.set a _)[j]? = f.store[j]?
        rw [List.getElem?_set_ne (fun hh => hja hh.symm)]

theorem reconstructL_pure :
    ∀ (cs : List PTree) (a : NodeId) (f : Forest),
      (∀ e ∈ flatsPL (some a) cs, ∃ p0,
        f.store[e.adr]? = some ⟨e.value, e.children, p0⟩) →
      ((flatsPL (some a) cs).map FEntry.adr).Nodup →
      ∀ fuel, sizePL cs ≤ fuel →
        ((cs.map PTree.adr).foldl
          (fun acc c => reconstructParentReferences acc fuel c (some a)) f).roots =
          f.roots ∧
        ((cs.map PTree.adr).foldl
          (fun acc c => reconstructParentReferences acc fuel c (some a)) f).index =
          f.index ∧
        ((cs.map PTree.adr).foldl
          (fun acc c => reconstructParentReferences acc fuel c (some a))
          f).store.length = f.store.length ∧
        (∀ e ∈ flatsPL (some a) cs,
          ((cs.map PTree.adr).foldl
            (fun acc c => reconstructParentReferences acc fuel c (some a))
            f).store[e.adr]? = some e.toRec) ∧
        (∀ j, j ∉ (flatsPL (some a) cs).map FEntry.adr →
          ((cs.map PTree.adr).foldl
            (fun acc c => reconstructParentReferences acc fuel c (some a))
            f).store[j]? = f.store[j]?)
  | [], a, f, _, _, fuel, _ => by
    refine ⟨rfl, rfl, rfl, ?_, fun j _ => rfl⟩
    intro e he
    exact absurd he (List.not_mem_nil e)
  | c :: cs, a, f, hpend, hnd, fuel, hsz => by
    have hndapp := hnd
    rw [flatsPL_cons, List.map_append] at hndapp
    obtain ⟨hnd1, hnd2, hdisj⟩ := List.nodup_append.mp hndapp
    have hpend1 : ∀ e ∈ flatsP (some a) c, ∃ p0,
        f.store[e.adr]? = some ⟨e.value, e.children, p0⟩ := by
      intro e he
      exact hpend e (by rw [flatsPL_cons]; exact List.mem_append_left _ he)
    have hszc : sizeP c ≤ fuel := by
      have h2 : sizePL (c :: cs) = sizeP c + sizePL cs := rfl
      omega
    obtain ⟨hr1, hi1, hl1, hok1, hskip1⟩ :=
      reconstruct_pure c (some a) f hpend1 hnd1 fuel hszc
    have hpend2 : ∀ e ∈ flatsPL (some a) cs, ∃ p0,
        (reconstructParentReferences f fuel c.adr (some a)).store[e.adr]? =
          some ⟨e.value, e.children, p0⟩ := by
      intro e he
      have hnm : e.adr ∉ (flatsP (some a) c).map FEntry.adr :=
        fun hm => hdisj hm (List.mem_map_of_mem _ he)
      rw [hskip1 e.adr hnm]
      exact hpend e (by rw [flatsPL_cons]; exact List.mem_append_right _ he)
    have hszl : sizePL cs ≤ fuel := by
      have h2 : sizePL (c :: cs) = sizeP c + sizePL cs := rfl
      omega
    obtain ⟨hr2, hi2, hl2, hok2, hskip2⟩ := reconstructL_pure cs a
      (reconstructParentReferences f fuel c.adr (some a)) hpend2 hnd2 fuel hszl
    have hfold_eq : ((c :: cs).map PTree.adr).foldl
        (fun acc c => reconstructParentReferences acc fuel c (some a)) f =
        (cs.map PTree.adr).foldl
          (fun acc c => reconstructParentReferences acc fuel c (some a))
          (reconstructParentReferences f fuel c.adr (some a)) := rfl
    rw [hfold_eq]
    refine ⟨hr2.trans hr1, hi2.trans hi1, hl2.trans hl1, ?_, ?_⟩
    · intro e he
      rw [flatsPL_cons] at he
      rcases List.mem_append.mp he with h4 | h4
      · have hnm : e.adr ∉ (flatsPL (some a) cs).map FEntry.adr :=
          fun hm => hdisj (List.mem_map_of_mem _ h4) hm
        rw [hskip2 e.adr hnm]
        exact hok1 e h4
      · exact hok2 e h4
    · intro j hj
      rw [flatsPL_cons, List.map_append] at hj
      have hj1 : j ∉ (flatsP (some a) c).map FEntry.adr :=
        fun hm => hj (List.mem_append_left _ hm)
      have hj2 : j ∉ (flatsPL (some a) cs).map FEntry.adr :=
        fun hm => hj (List.mem_append_right _ hm)
      rw [hskip2 j hj2]
      exact hskip1 j hj1

end

/-! ## The commit phase of `deserialize` -/

theorem preIdsL_append (a b : List PTree) :
    preIdsL (a ++ b) = preIdsL a ++ preIdsL b := by
  rw [preIdsL_eq_map_flatsPL (a ++ b) none, flatsPL_append, List.map_append,
    ← preIdsL_eq_map_flatsPL a none, ← preIdsL_eq_map_flatsPL b none]

theorem prePairsL_append (a b : List PTree) :
    prePairsL (a ++ b) = prePairsL a ++ prePairsL b := by
  rw [prePairsL_eq_map_flatsPL (a ++ b) none, flatsPL_append, List.map_append,
    ← prePairsL_eq_map_flatsPL a none, ← prePairsL_eq_map_flatsPL b none]

theorem length_le_of_nodup_lt {l : List Nat} {n : Nat} (hnd : l.Nodup)
    (hb : ∀ x ∈ l, x < n) : l.length ≤ n := by
  have hsub : l.toFinset ⊆ Finset.range n := by
    intro x hx
    rw [List.mem_toFinset] at hx
    exact Finset.mem_range.mpr (hb x hx)
  have h1 : l.toFinset.card = l.length := List.toFinset_card_of_nodup hnd
  have h2 := Finset.card_le_card hsub
  rw [Finset.card_range] at h2
  omega

theorem sizePL_le_store_length {f : Forest} {ts : List PTree}
    (hOK : ∀ e ∈ flatsPL none ts, f.store[e.adr]? = some e.toRec) :
    ((flatsPL none ts).map FEntry.adr).Nodup → sizePL ts ≤ f.store.length := by
  intro hnd
  rw [sizePL_eq_flats_length ts none,
    show (flatsPL none ts).length = ((flatsPL none ts).map FEntry.adr).length from
      (List.length_map _ _).symm]
  apply length_le_of_nodup_lt hnd
  intro x hx
  obtain ⟨e, he, hex⟩ := List.mem_map.mp hx
  have h2 := hOK e he
  have h3 : e.adr < f.store.length := (List.getElem?_eq_some.mp h2).1
  rw [← hex]
  exact h3

/-- One iteration of `commitRoots`' per-root loop: rebuild the parent links
of the root's subtree, then index it. -/
def commitStep (acc : Forest) (r : NodeId) : Forest :=
  indexNodeAndChildren (reconstructParentReferences acc (walkFuel acc) r none)
    (walkFuel (reconstructParentReferences acc (walkFuel acc) r none)) r

theorem commit_step_inv (t : PTree) (rQ done : List PTree) (G : Forest)
    (H1 : ∀ e ∈ flatsPL none done, G.store[e.adr]? = some e.toRec)
    (H2 : ∀ e ∈ flatsPL none (t :: rQ),
      G.store[e.adr]? = some ⟨e.value, e.children, none⟩)
    (H3 : G.index = prePairsL done)
    (H4 : ((flatsPL none (done ++ t :: rQ)).map FEntry.adr).Nodup)
    (H5 : ((flatsPL none (done ++ t :: rQ)).map (fun e => e.value.id)).Nodup) :
    (commitStep G t.adr).roots = G.roots ∧
    (commitStep G t.adr).store.length = G.store.length ∧
    (∀ e ∈ flatsPL none (done ++ [t]),
      (commitStep G t.adr).store[e.adr]? = some e.toRec) ∧
    (∀ e ∈ flatsPL none rQ,
      (commitStep G t.adr).store[e.adr]? = some ⟨e.value, e.children, none⟩) ∧
    (commitStep G t.adr).index = prePairsL (done ++ [t]) := by
  have H4a := H4
  rw [flatsPL_append, flatsPL_cons, List.map_append, List.map_append] at H4a
  obtain ⟨hndA, hndBC, hdisjA⟩ := List.nodup_append.mp H4a
  obtain ⟨hndB, hndC, hdisjBC⟩ := List.nodup_append.mp hndBC
  have H5a := H5
  rw [flatsPL_append, flatsPL_cons, List.map_append, List.map_append] at H5a
  obtain ⟨hndAi, hndBCi, hdisjAi⟩ := List.nodup_append.mp H5a
  obtain ⟨hndBi, _, _⟩ := List.nodup_append.mp hndBCi
  have hblt : ∀ x ∈ (flatsP none t).map FEntry.adr, x < G.store.length := by
    intro x hx
    obtain ⟨e, he, hex⟩ := List.mem_map.mp hx
    have h6 := H2 e (by rw [flatsPL_cons]; exact List.mem_append_left _ he)
    have h7 : e.adr < G.store.length := (List.getElem?_eq_some.mp h6).1
    rw [← hex]
    exact h7
  have hszt : sizeP t ≤ G.store.length := by
    rw [sizeP_eq_flats_length t none,
      show (flatsP none t).length = ((flatsP none t).map FEntry.adr).length from
        (List.length_map _ _).symm]
    exact length_le_of_nodup_lt hndB hblt
  have hfuel : sizeP t ≤ walkFuel G := by
    show sizeP t ≤ G.store.length + 1
    omega
  have hpend : ∀ e ∈ flatsP none t, ∃ p0,
      G.store[e.adr]? = some ⟨e.value, e.children, p0⟩ :=
    fun e he => ⟨none, H2 e (by rw [flatsPL_cons]; exact List.mem_append_left _ he)⟩
  obtain ⟨hr1, hi1, hl1, hok1, hskip1⟩ :=
    reconstruct_pure t none G hpend hndB (walkFuel G) hfuel
  have hagree : IdAgree (reconstructParentReferences G (walkFuel G) t.adr none) t := by
    intro e he
    have h8 := hok1 e he
    unfold childrenOf valueIdOf getNode
    rw [h8]
    exact ⟨rfl, rfl⟩
  have hfuel1 : sizeP t ≤
      walkFuel (reconstructParentReferences G (walkFuel G) t.adr none) := by
    show sizeP t ≤
      (reconstructParentReferences G (walkFuel G) t.adr none).store.length + 1
    rw [hl1]
    omega
  have hidx2 := index_index_eq
    (walkFuel (reconstructParentReferences G (walkFuel G) t.adr none)) t
    (reconstructParentReferences G (walkFuel G) t.adr none) hfuel1 hagree
  have hkeys : ((prePairsL done ++ prePairs t).map Prod.fst).Nodup := by
    rw [List.map_append, prePairsL_keys, prePairs_keys,
      preIdsL_eq_map_flatsPL done none, preIds_eq_map_flatsP t none]
    refine List.nodup_append.mpr ⟨hndAi, hndBi, ?_⟩
    intro x hx1 hx2
    exact hdisjAi hx1 (List.mem_append_left _ hx2)
  refine ⟨?_, ?_, ?_, ?_, ?_⟩
  · show (indexNodeAndChildren _ _ t.adr).roots = G.roots
    rw [indexNodeAndChildren_roots]
    exact hr1
  · show (indexNodeAndChildren _ _ t.adr).store.length = G.store.length
    rw [indexNodeAndChildren_store]
    exact hl1
  · intro e he
    show (indexNodeAndChildren _ _ t.adr).store[e.adr]? = some e.toRec
    rw [indexNodeAndChildren_store]
    rw [flatsPL_append] at he
    rcases List.mem_append.mp he with h9 | h9
    · have hna : e.adr ∉ (flatsP none t).map FEntry.adr := by
        intro hm
        exact hdisjA (List.mem_map_of_mem _ h9) (List.mem_append_left _ hm)
      rw [hskip1 e.adr hna]
      exact H1 e h9
    · have h10 : e ∈ flatsP none t := by
        rw [flatsPL_cons, show flatsPL none ([] : List PTree) = [] from rfl,
          List.append_nil] at h9
        exact h9
      exact hok1 e h10
  · intro e he
    show (indexNodeAndChildren _ _ t.adr).store[e.adr]? = _
    rw [indexNodeAndChildren_store]
    have hna : e.adr ∉ (flatsP none t).map FEntry.adr := by
      intro hm
      exact hdisjBC hm (List.mem_map_of_mem _ he)
    rw [hskip1 e.adr hna]
    exact H2 e (by rw [flatsPL_cons]; exact List.mem_append_right _ he)
  · have hsingle : prePairsL [t] = prePairs t := by
      show prePairs t ++ prePairsL [] = prePairs t
      rw [show prePairsL ([] : List PTree) = [] from rfl, List.append_nil]
    show (indexNodeAndChildren _ _ t.adr).index = _
    rw [hidx2, hi1, H3,
      foldl_mapSet_append (prePairs t) (prePairsL done) hkeys,
      prePairsL_append done [t], hsingle]

theorem commit_fold :
    ∀ (rest done : List PTree) (G : Forest),
      (∀ e ∈ flatsPL none done, G.store[e.adr]? = some e.toRec) →
      (∀ e ∈ flatsPL none rest,
        G.store[e.adr]? = some ⟨e.value, e.children, none⟩) →
      G.index = prePairsL done →
      ((flatsPL none (done ++ rest)).map FEntry.adr).Nodup →
      ((flatsPL none (done ++ rest)).map (fun e => e.value.id)).Nodup →
      ((rest.map PTree.adr).foldl commitStep G).roots = G.roots ∧
      ((rest.map PTree.adr).foldl commitStep G).store.length = G.store.length ∧
      (∀ e ∈ flatsPL none (done ++ rest),
        ((rest.map PTree.adr).foldl commitStep G).store[e.adr]? = some e.toRec) ∧
      ((rest.map PTree.adr).foldl commitStep G).index = prePairsL (done ++ rest)
  | [], done, G, H1, _, H3, _, _ => by
    refine ⟨rfl, rfl, ?_, ?_⟩
    · intro e he
      rw [List.append_nil] at he
      exact H1 e he
    · rw [List.append_nil]
      exact H3
  | t :: rest, done, G, H1, H2, H3, H4, H5 => by
    obtain ⟨hr2, hl2, hok2, hpend2, hidx2⟩ :=
      commit_step_inv t rest done G H1 H2 H3 H4 H5
    have hassoc : (done ++ [t]) ++ rest = done ++ t :: rest := by
      rw [List.append_assoc]
      rfl
    obtain ⟨hr3, hl3, hok3, hidx3⟩ := commit_fold rest (done ++ [t])
      (commitStep G t.adr) hok2 hpend2 hidx2
      (by rw [hassoc]; exact H4) (by rw [hassoc]; exact H5)
    have hstep : ((t :: rest).map PTree.adr).foldl commitStep G =
        (rest.map PTree.adr).foldl commitStep (commitStep G t.adr) := rfl
    rw [hstep]
    refine ⟨hr3.trans hr2, hl3.trans hl2, ?_, ?_⟩
    · intro e he
      refine hok3 e ?_
      rw [hassoc]
      exact he
    · rw [hidx3, hassoc]

theorem commit_represents {ss : List STree}
    (hid : ((sFlatsL none ss).map FlatRec.id).Nodup) :
    Represents (commitRoots emptyForest ss) (sToPpostL 0 ss).1 := by
  obtain ⟨hL, hA, hP, hE⟩ := allocTL_spec ss []
  have hA0 : (allocTL [] ss).2 = (sToPpostL 0 ss).1.map PTree.adr := hA
  have hE0 : ∀ e ∈ flatsPL none (sToPpostL 0 ss).1,
      (allocTL [] ss).1[e.adr]? = some ⟨e.value, e.children, none⟩ :=
    fun e he => hE none e he
  have hcr1 : commitRoots emptyForest ss =
      (allocTL [] ss).2.foldl commitStep
        (⟨(allocTL [] ss).1, (allocTL [] ss).2, []⟩ : Forest) := rfl
  have hcr : commitRoots emptyForest ss =
      (((sToPpostL 0 ss).1.map PTree.adr).foldl commitStep
        (⟨(allocTL [] ss).1, (sToPpostL 0 ss).1.map PTree.adr, []⟩ : Forest)) := by
    rw [hcr1, hA0]
  have hadrnd : ((flatsPL none (sToPpostL 0 ss).1).map FEntry.adr).Nodup := by
    rw [← adrsPL_eq_map_flatsPL (sToPpostL 0 ss).1 none]
    exact (adrsPL_sToPpostL ss 0).nodup_iff.mpr
      (List.nodup_range' 0 (sizeSL ss) 1 Nat.one_pos)
  have hidnd : ((flatsPL none (sToPpostL 0 ss).1).map (fun e => e.value.id)).Nodup := by
    rw [← preIdsL_eq_map_flatsPL (sToPpostL 0 ss).1 none, preIdsL_strip,
      pStripL_sToPpostL ss 0]
    exact hid
  obtain ⟨hr, hl, hok, hidx⟩ := commit_fold (sToPpostL 0 ss).1 []
    (⟨(allocTL [] ss).1, (sToPpostL 0 ss).1.map PTree.adr, []⟩ : Forest)
    (fun e he => absurd he (List.not_mem_nil e)) hE0 rfl hadrnd hidnd
  rw [hcr]
  refine ⟨?_, ?_, ?_, ?_, ?_⟩
  · rw [hr]
  · intro e he
    exact hok e he
  · show ((flatsPL none (sToPpostL 0 ss).1).map FEntry.adr).Nodup
    exact hadrnd
  · show ((flatsPL none (sToPpostL 0 ss).1).map (fun e => e.value.id)).Nodup
    exact hidnd
  · rw [hidx]
    show List.Perm (prePairsL ([] ++ (sToPpostL 0 ss).1))
      ((flatsPL none (sToPpostL 0 ss).1).map (fun e => (e.value.id, e.adr)))
    rw [List.nil_append, prePairsL_eq_map_flatsPL (sToPpostL 0 ss).1 none]

/-! ## Reading the live forest back as serialized shapes -/

theorem readSTreeList_nil (f : Forest) (fuel : Nat) :
    readSTreeList f fuel [] = some [] := by
  unfold readSTreeList
  rfl

theorem readSTreeList_cons (f : Forest) (fuel : Nat) (n : NodeId) (ns : List NodeId) :
    readSTreeList f fuel (n :: ns) =
      match readSTree f fuel n, readSTreeList f fuel ns with
      | some t, some ts => some (t :: ts)
      | _, _ => none := by
  rw [readSTreeList]

theorem readSTree_succ (f : Forest) (fuel : Nat) (n : NodeId) :
    readSTree f (fuel + 1) n =
      match readSTreeList f fuel (childrenOf f n) with
      | some cs => some (.mk (valueOf f n) cs)
      | none => none := by
  rw [readSTree]

theorem readSTree_pure :
    ∀ (fuel : Nat) (t : PTree) (par : Option NodeId) (f : Forest),
      (∀ e ∈ flatsP par t, f.store[e.adr]? = some e.toRec) → sizeP t ≤ fuel →
      readSTree f fuel t.adr = some (pStrip t) := by
  intro fuel
  induction fuel with
  | zero =>
    intro t par f _ hsz
    exact absurd hsz (by have := sizeP_pos t; omega)
  | succ fuel ih =>
    intro t par f hOK hsz
    cases t with
    | mk a v cs =>
      have hhead : f.store[a]? = some (⟨v, cs.map PTree.adr, par⟩ : NodeRec) :=
        hOK ⟨a, v, cs.map PTree.adr, par⟩
          (by rw [flatsP_def]; exact List.mem_cons_self _ _)
      have hga : getNode f a = some (⟨v, cs.map PTree.adr, par⟩ : NodeRec) := hhead
      have hch : childrenOf f a = cs.map PTree.adr := by
        unfold childrenOf
        rw [hga]
      have hval : valueOf f a = v := by
        unfold valueOf
        rw [hga]
      have hszcs : sizePL cs ≤ fuel := by
        have h1 : sizeP (PTree.mk a v cs) = 1 + sizePL cs := rfl
        omega
      have hlist : ∀ (cs2 : List PTree), (∀ c ∈ cs2, c ∈ cs) →
          readSTreeList f fuel (cs2.map PTree.adr) = some (pStripL cs2) := by
        intro cs2
        induction cs2 with
        | nil =>
          intro _
          rw [show List.map PTree.adr ([] : List PTree) = [] from rfl,
            readSTreeList_nil]
          rfl
        | cons c cs2 ihl =>
          intro hsub
          have hOKc : ∀ e ∈ flatsP (some a) c, f.store[e.adr]? = some e.toRec := by
            intro e he
            refine hOK e ?_
            rw [flatsP_def]
            exact List.mem_cons_of_mem _
              (mem_flatsPL_of_mem (hsub c (List.mem_cons_self _ _)) he)
          have hszc : sizeP c ≤ fuel :=
            Nat.le_trans
              (sizeP_le_sizePL_of_mem (hsub c (List.mem_cons_self _ _))) hszcs
          have h1 : readSTree f fuel c.adr = some (pStrip c) :=
            ih c (some a) f hOKc hszc
          rw [List.map_cons, readSTreeList_cons, h1,
            ihl (fun c2 hc2 => hsub c2 (List.mem_cons_of_mem _ hc2))]
          rfl
      rw [show (PTree.mk a v cs).adr = a from rfl, readSTree_succ, hch,
        hlist cs (fun c hc => hc), hval]
      rfl

theorem readSTreeList_pure_roots :
    ∀ (ts2 : List PTree) (fuel : Nat) (f : Forest),
      (∀ e ∈ flatsPL none ts2, f.store[e.adr]? = some e.toRec) →
      (∀ t ∈ ts2, sizeP t ≤ fuel) →
      readSTreeList f fuel (ts2.map PTree.adr) = some (pStripL ts2)
  | [], fuel, f, _, _ => by
    rw [show List.map PTree.adr ([] : List PTree) = [] from rfl, readSTreeList_nil]
    rfl
  | t :: ts2, fuel, f, hOK, hsz => by
    have h1 : readSTree f fuel t.adr = some (pStrip t) :=
      readSTree_pure fuel t none f
        (fun e he => hOK e (by rw [flatsPL_cons]; exact List.mem_append_left _ he))
        (hsz t (List.mem_cons_self _ _))
    have h2 := readSTreeList_pure_roots ts2 fuel f
      (fun e he => hOK e (by rw [flatsPL_cons]; exact List.mem_append_right _ he))
      (fun t2 ht2 => hsz t2 (List.mem_cons_of_mem _ ht2))
    rw [List.map_cons, readSTreeList_cons, h1, h2]
    rfl

theorem serializeJson_pure {f : Forest} {ts : List PTree} (h : Represents f ts) :
    serializeJson f = some (.obj [("version", .num treeVersion),
      ("roots", .arr (sTreeListToJson (pStripL ts)))]) := by
  have hnd : ((flatsPL none ts).map FEntry.adr).Nodup := by
    rw [← adrsPL_eq_map_flatsPL ts none, adrsPL_eq_adrList]
    exact h.2.2.1
  have hb : ∀ t ∈ ts, sizeP t ≤ walkFuel f := by
    intro t ht
    have h1 : sizeP t ≤ sizePL ts := sizeP_le_sizePL_of_mem ht
    have h2 : sizePL ts ≤ f.store.length := sizePL_le_store_length h.2.1 hnd
    show sizeP t ≤ f.store.length + 1
    omega
  unfold serializeJson
  rw [h.1, readSTreeList_pure_roots ts (walkFuel f) f h.2.1 hb]

/-! ## Decoding the encoded JSON recovers the serialized shapes -/

theorem sTreeListToJson_eq_map :
    ∀ (ss : List STree), sTreeListToJson ss = ss.map sTreeToJson
  | [] => rfl
  | s :: ss => by
    show sTreeToJson s :: sTreeListToJson ss = sTreeToJson s :: ss.map sTreeToJson
    rw [sTreeListToJson_eq_map ss]

theorem jsonListSize_le_of_mem :
    ∀ {js : List Json} {j : Json}, j ∈ js → jsonSize j ≤ jsonListSize js
  | j2 :: js, j, h => by
    rcases List.mem_cons.mp h with h1 | h1
    · rw [h1]
      show jsonSize j2 ≤ jsonSize j2 + jsonListSize js
      exact Nat.le_add_right _ _
    · have h2 := jsonListSize_le_of_mem h1
      show jsonSize j ≤ jsonSize j2 + jsonListSize js
      omega

theorem jsonToSTreeF_encode :
    ∀ (fuel : Nat) (s : STree), jsonSize (sTreeToJson s) ≤ fuel →
      jsonToSTreeF fuel (sTreeToJson s) = s := by
  intro fuel
  induction fuel with
  | zero =>
    intro s h
    refine absurd h ?_
    cases s with
    | mk v cs =>
      show ¬ 1 + jsonFieldsSize _ ≤ 0
      omega
  | succ fuel ih =>
    intro s hsz
    cases s with
    | mk v cs =>
      have h1 : jsonToSTreeF (fuel + 1) (sTreeToJson (STree.mk v cs)) =
          .mk (jsonToValue (some (valueToJson v)))
            ((sTreeListToJson cs).map (jsonToSTreeF fuel)) := rfl
      have h2 : jsonToValue (some (valueToJson v)) = v := rfl
      have h5 : jsonSize (sTreeToJson (STree.mk v cs)) =
          1 + (3 + ((1 + jsonListSize (sTreeListToJson cs)) + 0)) := rfl
      have h3 : ∀ c ∈ cs,
          (fun j => jsonToSTreeF fuel (sTreeToJson j)) c = id c := by
        intro c hc
        have h4 : jsonSize (sTreeToJson c) ≤ jsonListSize (sTreeListToJson cs) :=
          jsonListSize_le_of_mem
            (by rw [sTreeListToJson_eq_map]; exact List.mem_map_of_mem _ hc)
        show jsonToSTreeF fuel (sTreeToJson c) = c
        refine ih c ?_
        rw [h5] at hsz
        omega
      rw [h1, h2, sTreeListToJson_eq_map, List.map_map,
        show cs.map (jsonToSTreeF fuel ∘ sTreeToJson) = cs.map id from
          List.map_congr_left h3, List.map_id]

theorem jsonListToSTrees_encode (ss : List STree) :
    jsonListToSTrees (sTreeListToJson ss) = ss := by
  unfold jsonListToSTrees
  have h3 : ∀ s ∈ ss,
      (jsonToSTreeF (jsonListSize (ss.map sTreeToJson)) ∘ sTreeToJson) s =
        id s := by
    intro s hs
    show jsonToSTreeF (jsonListSize (ss.map sTreeToJson)) (sTreeToJson s) = s
    refine jsonToSTreeF_encode _ s ?_
    exact jsonListSize_le_of_mem (List.mem_map_of_mem _ hs)
  rw [sTreeListToJson_eq_map, List.map_map]
  exact (List.map_congr_left h3).trans (List.map_id ss)

mutual

theorem sizeS_pStrip (t : PTree) : sizeS (pStrip t) = sizeP t := by
  cases t with
  | mk a v cs =>
    show 1 + sizeSL (pStripL cs) = 1 + sizePL cs
    rw [sizeSL_pStripL cs]

theorem sizeSL_pStripL : ∀ (ts : List PTree), sizeSL (pStripL ts) = sizePL ts
  | [] => rfl
  | t :: ts => by
    show sizeS (pStrip t) + sizeSL (pStripL ts) = sizeP t + sizePL ts
    rw [sizeS_pStrip t, sizeSL_pStripL ts]

end

/-- **C3**: serializing a well-formed forest succeeds, deserializing the
produced JSON into a fresh (empty) forest succeeds without error, and the
result agrees with the original on `countNodes()` and on the whole
id-to-(value, parent id) table (`serializeFlat` lists exactly this data
for every node, so equality of the flat serializations is equality of the
mapping). -/
theorem serialize_deserialize_round_trip {f : Forest} {ts : List PTree}
    (h : Represents f ts) :
    ∃ (j : Json) (g : Forest), serializeJson f = some j ∧
      deserialize emptyForest j = (none, g) ∧
      countNodes g = countNodes f ∧ serializeFlat g = serializeFlat f := by
  have hid : ((sFlatsL none (pStripL ts)).map FlatRec.id).Nodup := by
    rw [sFlatsL_strip_ids, preIdsL_eq_map_flatsPL ts none]
    exact h.2.2.2.1
  have hg := commit_represents hid
  refine ⟨_, commitRoots emptyForest (pStripL ts), serializeJson_pure h, ?_, ?_, ?_⟩
  · have h1 : deserialize emptyForest
        (.obj [("version", .num treeVersion),
          ("roots", .arr (sTreeListToJson (pStripL ts)))]) =
        (none, commitRoots emptyForest
          (jsonListToSTrees (sTreeListToJson (pStripL ts)))) := rfl
    rw [h1, jsonListToSTrees_encode]
  · have hlen : ∀ (l : List PTree), (pairList l).length = sizePL l := by
      intro l
      unfold pairList flatsF
      rw [List.length_map, ← sizePL_eq_flats_length l none]
    have h2 : countNodes (commitRoots emptyForest (pStripL ts)) =
        (pairList (sToPpostL 0 (pStripL ts)).1).length :=
      hg.2.2.2.2.length_eq
    have h3 : countNodes f = (pairList ts).length := h.2.2.2.2.length_eq
    rw [h2, h3, hlen, hlen, sizePL_sToPpostL (pStripL ts) 0, sizeSL_pStripL ts]
  · rw [serializeFlat_pure h, serializeFlat_pure hg, pStripL_sToPpostL]

/-- Concrete one-root forest with a child used to witness the JSON round
trip. -/
def c3WitnessF : Forest :=
  applyOps emptyForest [.addRoot ⟨5, 50⟩, .addNodeAsChild 0 ⟨6, 60⟩]

/-- Pure view of `c3WitnessF`. -/
def c3WitnessT : List PTree :=
  [.mk 0 ⟨5, 50⟩ [.mk 1 ⟨6, 60⟩ []]]

theorem serialize_deserialize_round_trip_witness :
    Represents c3WitnessF c3WitnessT ∧
    ∃ (j : Json) (g : Forest), serializeJson c3WitnessF = some j ∧
      deserialize emptyForest j = (none, g) ∧
      countNodes g = countNodes c3WitnessF ∧
      serializeFlat g = serializeFlat c3WitnessF :=
  ⟨by decide, @serialize_deserialize_round_trip c3WitnessF c3WitnessT (by decide)⟩

/-! ## Node cloning (`cloneNode` / `deepCopyNode`) over a value heap

Node values are arbitrary JS data, so cloning them is about object
identity: values live on a heap of plain objects, and a field either holds
a primitive or a reference to another heap object.  What `cloneNode` and
`cloneForest` copy per node is modelled by `deepCopyNode` below. -/

/-- A JS field value as the cloner observes it: a primitive, or a
reference to a nested object. -/
inductive VVal where
  | prim (n : Int)
  | ref (a : Nat)
deriving DecidableEq

/-- Own enumerable fields of a plain JS object. -/
abbrev VCell := List (String × VVal)

/-- Heap of value objects; a `VVal.ref` indexes into it. -/
abbrev VHeap := List VCell

/-- A node object as `deepCopyNode` traverses it: the reference of its
`value` object, its children, and whether the node carries a `parent`
key. -/
inductive VNode where
  | mk (value : Nat) (children : List VNode) (hasParent : Bool)

/-- Value reference of a node. -/
def VNode.value : VNode → Nat
  | .mk v _ _ => v

/-- Children of a node. -/
def VNode.children : VNode → List VNode
  | .mk _ cs _ => cs

/-- Whether the node object has a `parent` key. -/
def VNode.hasParent : VNode → Bool
  | .mk _ _ p => p

mutual

/-- Model of `private deepCopyNode(node)` (what `cloneNode` returns and
`cloneForest` applies per root): the clone's value is the spread
`{ ...node.value }` -- a fresh cell holding the original value's own fields
verbatim -- and the children are cloned recursively; no `parent` key is
ever written on a clone. -/
def deepCopyNode (h : VHeap) : VNode → VHeap × VNode
  | .mk v cs _ =>
    let h1 := h ++ [h.getD v []]
    let r := deepCopyNodeL h1 cs
    (r.1, .mk h.length r.2 false)

/-- Cloning `node.children.map((child) => this.deepCopyNode(child))`. -/
def deepCopyNodeL (h : VHeap) : List VNode → VHeap × List VNode
  | [] => (h, [])
  | c :: cs =>
    let r1 := deepCopyNode h c
    let r2 := deepCopyNodeL r1.1 cs
    (r2.1, r1.2 :: r2.2)

end

/-- Heap addresses reachable from a value object through its reference
fields: the object itself and every nested part of the value. -/
def vReach (h : VHeap) : Nat → Nat → List Nat
  | 0, _ => []
  | fuel + 1, a =>
    a :: ((h.getD a []).flatMap fun fld =>
      match fld.2 with
      | .ref b => vReach h fuel b
      | .prim _ => [])

mutual

/-- Number of nodes of a subtree. -/
def vSize : VNode → Nat
  | .mk _ cs _ => 1 + vSizeL cs

/-- Number of nodes of a subtree list. -/
def vSizeL : List VNode → Nat
  | [] => 0
  | c :: cs => vSize c + vSizeL cs

end

mutual

/-- Pre-order list of the value references of a subtree's nodes. -/
def nodeVals : VNode → List Nat
  | .mk v cs _ => v :: nodeValsL cs

/-- Pre-order value references of a subtree list. -/
def nodeValsL : List VNode → List Nat
  | [] => []
  | c :: cs => nodeVals c ++ nodeValsL cs

end

/-- Bare tree skeleton: child linkage only. -/
inductive VShape where
  | mk (children : List VShape)

mutual

/-- Skeleton of a subtree. -/
def vShapeOf : VNode → VShape
  | .mk _ cs _ => .mk (vShapeOfL cs)

/-- Skeletons of a subtree list. -/
def vShapeOfL : List VNode → List VShape
  | [] => []
  | c :: cs => vShapeOf c :: vShapeOfL cs

end

mutual

/-- Whether no node of the subtree carries a `parent` key. -/
def vNoParent : VNode → Bool
  | .mk _ cs p => !p && vNoParentL cs

/-- Whether no node of the subtree list carries a `parent` key. -/
def vNoParentL : List VNode → Bool
  | [] => true
  | c :: cs => vNoParent c && vNoParentL cs

end

/-- Original node used against the deep-copy claim: a single node whose
value object holds a reference to a nested object (heap cell 1). -/
def c7Heap : VHeap := [[("data", .ref 1)], [("x", .prim 2)]]

/-- The node: value is heap cell 0 (which references cell 1). -/
def c7Node : VNode := .mk 0 [] true

/-- Counterexample to **C7**: cloning a node whose value contains a nested
object shares the nested object between original and clone.
`deepCopyNode` copies the value with the spread `{ ...node.value }`, not
with the `deepCopy` value cloner, so only the top-level cell is fresh: in
the post-clone heap the nested cell 1 is reachable both from the
original's value (cell 0) and from the clone's value (the fresh cell 2),
refuting "no nested part of any value is shared between original and
clone". -/
theorem deepCopyNode_shares_nested_value :
    (deepCopyNode c7Heap c7Node).2.value ≠ c7Node.value ∧
    1 ∈ vReach (deepCopyNode c7Heap c7Node).1 3
      ((deepCopyNode c7Heap c7Node).2.value) ∧
    1 ∈ vReach (deepCopyNode c7Heap c7Node).1 3 c7Node.value ∧
    1 ≠ (deepCopyNode c7Heap c7Node).2.value ∧ 1 ≠ c7Node.value := by
  decide

mutual

theorem nodeVals_length (t : VNode) : (nodeVals t).length = vSize t := by
  cases t with
  | mk v cs p =>
    show (v :: nodeValsL cs).length = 1 + vSizeL cs
    rw [List.length_cons, nodeValsL_length cs]
    omega

theorem nodeValsL_length : ∀ (cs : List VNode), (nodeValsL cs).length = vSizeL cs
  | [] => rfl
  | c :: cs => by
    show (nodeVals c ++ nodeValsL cs).length = vSize c + vSizeL cs
    rw [List.length_append, nodeVals_length c, nodeValsL_length cs]

end

mutual

/-- **C7** (amended): `cloneNode` (via `deepCopyNode`, and `cloneForest`
per root) returns a structurally independent copy of the subtree's node
objects whose values are shallow (`{ ...value }`) copies: the original
heap is untouched, one fresh value cell per node is appended holding
exactly the original value's own fields verbatim (so top-level field
values -- including references to nested objects -- are shared, not
reconstructed by the `deepCopy` value cloner), child linkage within the
clone mirrors the original, every clone value reference is fresh, and no
clone node carries a `parent` key. -/
theorem deepCopyNode_spec :
    ∀ (t : VNode) (h : VHeap), (∀ a ∈ nodeVals t, a < h.length) →
      (deepCopyNode h t).1 = h ++ (nodeVals t).map (fun a => h.getD a []) ∧
      vShapeOf (deepCopyNode h t).2 = vShapeOf t ∧
      nodeVals (deepCopyNode h t).2 = List.range' h.length (vSize t) ∧
      vNoParent (deepCopyNode h t).2 = true := by
  intro t
  cases t with
  | mk v cs p =>
    intro h hvalid
    have hv : v < h.length := hvalid v (List.mem_cons_self _ _)
    have hvalid1 : ∀ a ∈ nodeValsL cs, a < (h ++ [h.getD v []]).length := by
      intro a ha
      have h1 : a < h.length := hvalid a (List.mem_cons_of_mem _ ha)
      rw [List.length_append]
      omega
    obtain ⟨hh, hs, hn, hp⟩ := deepCopyNodeL_spec cs (h ++ [h.getD v []]) hvalid1
    have hmap : (nodeValsL cs).map (fun a => (h ++ [h.getD v []]).getD a []) =
        (nodeValsL cs).map (fun a => h.getD a []) := by
      refine List.map_congr_left ?_
      intro a ha
      exact List.getD_append h [h.getD v []] [] a
        (hvalid a (List.mem_cons_of_mem _ ha))
    refine ⟨?_, ?_, ?_, ?_⟩
    · show (deepCopyNodeL (h ++ [h.getD v []]) cs).1 =
        h ++ (v :: nodeValsL cs).map (fun a => h.getD a [])
      rw [hh, hmap, List.map_cons, List.append_assoc]
      rfl
    · show VShape.mk (vShapeOfL (deepCopyNodeL (h ++ [h.getD v []]) cs).2) =
        VShape.mk (vShapeOfL cs)
      rw [hs]
    · show h.length :: nodeValsL (deepCopyNodeL (h ++ [h.getD v []]) cs).2 =
        List.range' h.length (1 + vSizeL cs)
      rw [hn, List.length_append,
        show ([h.getD v []] : VHeap).length = 1 from rfl,
        show 1 + vSizeL cs = vSizeL cs + 1 from Nat.add_comm _ _,
        List.range'_succ h.length (vSizeL cs) 1]
    · show (!false && vNoParentL (deepCopyNodeL (h ++ [h.getD v []]) cs).2) = true
      rw [hp]
      rfl

theorem deepCopyNodeL_spec :
    ∀ (cs : List VNode) (h : VHeap), (∀ a ∈ nodeValsL cs, a < h.length) →
      (deepCopyNodeL h cs).1 = h ++ (nodeValsL cs).map (fun a => h.getD a []) ∧
      vShapeOfL (deepCopyNodeL h cs).2 = vShapeOfL cs ∧
      nodeValsL (deepCopyNodeL h cs).2 = List.range' h.length (vSizeL cs) ∧
      vNoParentL (deepCopyNodeL h cs).2 = true
  | [], h, _ => by
    refine ⟨?_, rfl, rfl, rfl⟩
    rw [show nodeValsL [] = [] from rfl, List.map_nil, List.append_nil]
    rfl
  | c :: cs, h, hvalid => by
    have hvc : ∀ a ∈ nodeVals c, a < h.length := by
      intro a ha
      refine hvalid a ?_
      show a ∈ nodeVals c ++ nodeValsL cs
      exact List.mem_append_left _ ha
    obtain ⟨hh1, hs1, hn1, hp1⟩ := deepCopyNode_spec c h hvc
    have hvcs : ∀ a ∈ nodeValsL cs, a < (deepCopyNode h c).1.length := by
      intro a ha
      have h1 : a < h.length := hvalid a (by
        show a ∈ nodeVals c ++ nodeValsL cs
        exact List.mem_append_right _ ha)
      rw [hh1, List.length_append]
      omega
    obtain ⟨hh2, hs2, hn2, hp2⟩ := deepCopyNodeL_spec cs (deepCopyNode h c).1 hvcs
    have hmap2 : (nodeValsL cs).map (fun a => (deepCopyNode h c).1.getD a []) =
        (nodeValsL cs).map (fun a => h.getD a []) := by
      refine List.map_congr_left ?_
      intro a ha
      rw [hh1]
      exact List.getD_append h _ [] a (hvalid a (by
        show a ∈ nodeVals c ++ nodeValsL cs
        exact List.mem_append_right _ ha))
    have hlen1 : (deepCopyNode h c).1.length = h.length + vSize c := by
      rw [hh1, List.length_append, List.length_map,
        show (nodeVals c).length = vSize c from nodeVals_length c]
    refine ⟨?_, ?_, ?_, ?_⟩
    · show (deepCopyNodeL (deepCopyNode h c).1 cs).1 =
        h ++ (nodeVals c ++ nodeValsL cs).map (fun a => h.getD a [])
      rw [hh2, hmap2, hh1, List.map_append, List.append_assoc]
    · show vShapeOf (deepCopyNode h c).2 ::
        vShapeOfL (deepCopyNodeL (deepCopyNode h c).1 cs).2 =
        vShapeOf c :: vShapeOfL cs
      rw [hs1, hs2]
    · show nodeVals (deepCopyNode h c).2 ++
        nodeValsL (deepCopyNodeL (deepCopyNode h c).1 cs).2 =
        List.range' h.length (vSize c + vSizeL cs)
      rw [hn1, hn2, hlen1]
      have h3 := List.range'_append h.length (vSize c) (vSizeL cs) 1
      rw [Nat.one_mul] at h3
      rw [h3, Nat.add_comm (vSizeL cs) (vSize c)]
    · show (vNoParent (deepCopyNode h c).2 &&
        vNoParentL (deepCopyNodeL (deepCopyNode h c).1 cs).2) = true
      rw [hp1, hp2]
      rfl

end

/-- Closing witness for the amended clone claim at a two-level subtree:
node 0 (value cell 0) with one child (value cell 1), value cells holding a
shared nested reference and a primitive. -/
theorem deepCopyNode_spec_witness :
    (∀ a ∈ nodeVals (VNode.mk 0 [VNode.mk 1 [] true] true),
      a < ([[("data", VVal.ref 1)], [("x", VVal.prim 2)]] : VHeap).length) ∧
    ((deepCopyNode [[("data", VVal.ref 1)], [("x", VVal.prim 2)]]
        (VNode.mk 0 [VNode.mk 1 [] true] true)).1 =
      [[("data", VVal.ref 1)], [("x", VVal.prim 2)]] ++
        (nodeVals (VNode.mk 0 [VNode.mk 1 [] true] true)).map
          (fun a => ([[("data", VVal.ref 1)], [("x", VVal.prim 2)]] : VHeap).getD a []) ∧
      vShapeOf (deepCopyNode [[("data", VVal.ref 1)], [("x", VVal.prim 2)]]
        (VNode.mk 0 [VNode.mk 1 [] true] true)).2 =
        vShapeOf (VNode.mk 0 [VNode.mk 1 [] true] true) ∧
      nodeVals (deepCopyNode [[("data", VVal.ref 1)], [("x", VVal.prim 2)]]
        (VNode.mk 0 [VNode.mk 1 [] true] true)).2 =
        List.range' ([[("data", VVal.ref 1)], [("x", VVal.prim 2)]] : VHeap).length
          (vSize (VNode.mk 0 [VNode.mk 1 [] true] true)) ∧
      vNoParent (deepCopyNode [[("data", VVal.ref 1)], [("x", VVal.prim 2)]]
        (VNode.mk 0 [VNode.mk 1 [] true] true)).2 = true) :=
  ⟨by decide, deepCopyNode_spec (VNode.mk 0 [VNode.mk 1 [] true] true)
    [[("data", VVal.ref 1)], [("x", VVal.prim 2)]] (by decide)⟩

end Treewise
